import Mathlib

/-!
The package go-oss/scheduler: a shallow embedding and its verified properties.

The Go package `scheduler` reconciles a desired list of HTTP tasks with the
content of a Cloud Tasks queue.  This file embeds `task.go`, `pbtask.go`,
`iterator.go` and `scheduler.go` as Lean functions and proves properties of
them.

Modelling conventions
* A Go `string` is a `List Char` (`Str`); the separators the code searches for
  are single ASCII characters, so byte offsets and character offsets agree.
* Go `int`/`int64` values are `Int`; where the code does arithmetic the result
  is reduced with `wrapInt64`.
* A pointer `*Task` of the input slice is an index into the list of tasks; the
  pointers of an input slice are taken to be pairwise distinct and non-nil,
  and `Task.Request` is non-nil.
* Errors are values of `Err`; `fmt.Errorf("...: %w", e)` is `Err.wrap`.
* Calls to the remote client are answered by a `CloudTasksClient` state
  machine and recorded in a call log.
-/

namespace Sched

/-! ## Strings and numbers of the Go standard library -/

/-- A Go string. -/
abbrev Str := List Char

/-- A Go slice, by value. -/
abbrev Slice (α : Type) := List α

/-- Go `len(s)`: the number of bytes of the UTF-8 encoding. -/
def byteLen (s : Str) : Nat := (s.map Char.utf8Size).sum

/-- Two's complement reduction of an integer to the `int64` range. -/
def wrapInt64 (x : Int) : Int := (x + 2 ^ 63) % 2 ^ 64 - 2 ^ 63

/-- Go `strconv.FormatInt(i, base)`: sign, then lower-case digits. -/
def FormatInt (i : Int) (base : Nat) : Str :=
  if i < 0 then '-' :: Nat.toDigits base i.natAbs else Nat.toDigits base i.natAbs

/-- Go `strconv.Itoa`. -/
def Itoa (i : Int) : Str := FormatInt i 10

/-- Value of a decimal digit character. -/
def digitVal (c : Char) : Option Nat :=
  if '0' ≤ c ∧ c ≤ '9' then some (c.toNat - '0'.toNat) else none

/-- Reads a run of decimal digits, most significant first. -/
def parseDigits : Str → Nat → Option Nat
  | [], acc => some acc
  | c :: cs, acc =>
    match digitVal c with
    | some d => parseDigits cs (acc * 10 + d)
    | none => none

/-- Go `strconv.Atoi` on a 64-bit platform: optional sign, a non-empty run of
decimal digits, and a range check; `none` stands for the returned error. -/
def Atoi (s : Str) : Option Int :=
  let neg := s.head? = some '-'
  let body := if s.head? = some '-' ∨ s.head? = some '+' then s.tail else s
  if body = [] then none
  else
    match parseDigits body 0 with
    | none => none
    | some n =>
      let v : Int := if neg then -(n : Int) else (n : Int)
      if -2 ^ 63 ≤ v ∧ v < 2 ^ 63 then some v else none

/-- Go `strings.HasPrefix`. -/
def HasPrefix (s pre : Str) : Bool := pre.isPrefixOf s

/-- Go `strings.TrimPrefix`. -/
def TrimPrefix (s pre : Str) : Str := if HasPrefix s pre then s.drop pre.length else s

/-- Go `strings.TrimSuffix`. -/
def TrimSuffix (s suf : Str) : Str :=
  if suf.isSuffixOf s then s.take (s.length - suf.length) else s

/-- Go `strings.LastIndex`: offset of the last occurrence of `sep`, or `-1`. -/
def LastIndex (s sep : Str) : Int :=
  match s with
  | [] => if sep = [] then 0 else -1
  | c :: cs =>
    if 0 ≤ LastIndex cs sep then LastIndex cs sep + 1
    else if HasPrefix (c :: cs) sep then 0 else -1

/-- Go `path.Base`: the last element of a slash-separated path. -/
def Base (p : Str) : Str :=
  if p = [] then ['.']
  else
    let stripped := (p.reverse.dropWhile (· = '/')).reverse
    let last := (stripped.reverse.takeWhile (· ≠ '/')).reverse
    if last = [] then ['/'] else last

/-- An instant as Go `time.Time` keeps it: Unix seconds and the nanoseconds
within the second (`0 ≤ nsec < 10^9` for every value built by `Time.Unix`). -/
structure Time where
  sec : Int
  nsec : Int
  deriving DecidableEq, Repr

/-- Go `time.Unix(sec, nsec)`: normalises `nsec` into `[0, 10^9)`. -/
def Time.Unix (sec nsec : Int) : Time := ⟨sec + nsec / 10 ^ 9, nsec % 10 ^ 9⟩

/-- Go `Time.UnixNano`: `sec*1e9 + nsec` computed in `int64`. -/
def Time.UnixNano (t : Time) : Int := wrapInt64 (t.sec * 10 ^ 9 + t.nsec)

/-! ## Errors -/

deriving instance DecidableEq for Except

/-- Error values.  `wrap msg e` is `fmt.Errorf(msg + ": %w", e)`, `new` an
error made by `errors.New` or by `fmt.Errorf` without `%w`, `status` a gRPC
status error returned by the remote client. -/
inductive Err where
  | Done
  | ErrTaskValidation
  | ErrTaskAlreadyExists
  | status (code : Nat) (msg : Str)
  | new (msg : Str)
  | wrap (msg : Str) (inner : Err)
  deriving DecidableEq, Repr

/-- Go `errors.Is`. -/
def Err.Is : Err → Err → Bool
  | .wrap m i, target => decide (Err.wrap m i = target) || i.Is target
  | e, target => decide (e = target)

/-- The gRPC code `AlreadyExists`. -/
def codesAlreadyExists : Nat := 6

/-- The gRPC code `Unknown`. -/
def codesUnknown : Nat := 2

/-- Go `status.Code` on a non-nil error. -/
def statusCode : Err → Nat
  | .status c _ => c
  | _ => codesUnknown

/-! ## task.go -/

def taskTimestampSeparator : Str := ['_']

def taskVersionSeparator : Str := ['v']

/-- The two authorization variants (`*OAuthToken`, `*OIDCToken`); the nil
interface is `none` of `Option AuthorizationToken`. -/
inductive AuthorizationToken where
  | OAuthToken (ServiceAccountEmail Scope : Str)
  | OIDCToken (ServiceAccountEmail Audience : Str)
  deriving DecidableEq, Repr

/-- A request body stream: `reader b` yields the bytes `b`; `failing e` makes
`io.ReadAll` return the error `e`. -/
inductive Body where
  | reader (data : List UInt8)
  | failing (e : Err)
  deriving DecidableEq, Repr

/-- The fields of `*http.Request` the package uses; `URL` is the text
`Request.URL.String()` returns. -/
structure Request where
  Method : Str
  URL : Str
  Header : List (Str × List Str)
  Body : Option Body
  deriving DecidableEq, Repr

structure Task where
  QueuePath : Str
  Prefix : Str
  ID : Str
  ScheduledAt : Time
  Request : Request
  Authorization : Option AuthorizationToken
  Version : Int
  deriving DecidableEq, Repr

def Task.comparisonID (t : Task) : Str :=
  t.Prefix ++ t.ID ++ taskTimestampSeparator ++ FormatInt t.ScheduledAt.UnixNano 16

def Task.TaskID (t : Task) : Str :=
  t.comparisonID ++ taskVersionSeparator ++ Itoa t.Version

def taskName (queuePath taskID : Str) : Str :=
  queuePath ++ "/tasks/".toList ++ taskID

def Task.TaskName (t : Task) : Str := taskName t.QueuePath t.TaskID

/-- The character test of `validateTaskID`. -/
def validChar (char : Char) : Bool :=
  (('A' ≤ char && char ≤ 'Z') || ('a' ≤ char && char ≤ 'z')) ||
    ('0' ≤ char && char ≤ '9') || char = '-' || char = '_'

def Task.validateTaskID (t : Task) : Option Err :=
  let taskID := t.TaskID
  if byteLen taskID > 500 then
    some (.wrap "task id maximum length is 500".toList .ErrTaskValidation)
  else
    match taskID.find? (fun char => !validChar char) with
    | some _ => some (.wrap "task id contains invalid character".toList .ErrTaskValidation)
    | none => none

def Task.Validate (t : Task) : Option Err :=
  if t.ID = [] then some (.wrap "ID is empty".toList .ErrTaskValidation)
  else
    match t.validateTaskID with
    | some err => some err
    | none => none

def removeTrailingSlash (u : Str) : Str := TrimSuffix u ['/']

def Task.Compare (t target : Task) : Bool :=
  if t.comparisonID ≠ target.comparisonID then false
  else if t.Version > target.Version then false
  else if t.Authorization ≠ target.Authorization then false
  else if t.Request.Method ≠ target.Request.Method ∨
      removeTrailingSlash t.Request.URL ≠ removeTrailingSlash target.Request.URL then false
  else true

def ParseTaskName (pre taskName : Str) : Except Err (Str × Int) :=
  let v := Base taskName
  if !HasPrefix v pre then .error (.new "task name has no valid prefix".toList)
  else
    let v := TrimPrefix v pre
    let tsIdx := LastIndex v taskTimestampSeparator
    if tsIdx < 0 then .error (.new "invalid task name format".toList)
    else
      let id := v.take tsIdx.toNat
      let v := v.drop (tsIdx.toNat + 1)
      let vIdx := LastIndex v taskVersionSeparator
      if vIdx < 0 then .error (.new "task name has no valid version".toList)
      else
        match Atoi (v.drop (vIdx.toNat + 1)) with
        | none => .error (.wrap "failed to parse version".toList (.new "strconv.Atoi".toList))
        | some version => .ok (id, version)

/-! ## pbtask.go -/

/-- What the package uses of `net/http` and `net/url`.  `requestURL u` is the
text `URL.String()` gives for the request `http.NewRequestWithContext` builds
from the URL text `u`, or `none` when that constructor reports an error (the
seven methods `convertHTTPRequest` passes are all valid method tokens, so the
URL is the only source of failure).  `canonicalHeaderKey` is
`textproto.CanonicalMIMEHeaderKey`, applied by `Header.Add`. -/
structure NetHTTP where
  requestURL : Str → Option Str
  canonicalHeaderKey : Str → Str

/-- The wire enumeration `taskspb.HttpMethod`. -/
inductive HttpMethod where
  | HTTP_METHOD_UNSPECIFIED
  | POST
  | GET
  | HEAD
  | PUT
  | DELETE
  | PATCH
  | OPTIONS
  deriving DecidableEq, Repr

/-- The generated table `taskspb.HttpMethod_value`, indexed as a Go map: a
missing key gives the zero value `HTTP_METHOD_UNSPECIFIED`. -/
def HttpMethod_value (name : Str) : HttpMethod :=
  if name = "POST".toList then .POST
  else if name = "GET".toList then .GET
  else if name = "HEAD".toList then .HEAD
  else if name = "PUT".toList then .PUT
  else if name = "DELETE".toList then .DELETE
  else if name = "PATCH".toList then .PATCH
  else if name = "OPTIONS".toList then .OPTIONS
  else .HTTP_METHOD_UNSPECIFIED

/-- The `AuthorizationHeader` oneof of the wire request; `other` stands for
any populated variant that is neither of the two tokens. -/
inductive PbAuthorizationHeader where
  | OauthToken (ServiceAccountEmail Scope : Str)
  | OidcToken (ServiceAccountEmail Audience : Str)
  | other
  deriving DecidableEq, Repr

structure PbHttpRequest where
  Url : Str
  HttpMethod : HttpMethod
  Headers : List (Str × Str)
  Body : Option (List UInt8)
  AuthorizationHeader : Option PbAuthorizationHeader
  deriving DecidableEq, Repr

/-- The `MessageType` oneof of a wire task. -/
inductive PbMessageType where
  | HttpRequest (r : PbHttpRequest)
  | AppEngineHttpRequest
  deriving DecidableEq, Repr

/-- The wire message `timestamppb.Timestamp`. -/
structure Timestamp where
  Seconds : Int
  Nanos : Int
  deriving DecidableEq, Repr

/-- Go `timestamppb.New`. -/
def Timestamp.New (t : Time) : Timestamp := ⟨t.sec, t.nsec⟩

/-- Go `(*Timestamp).AsTime`, which is nil-safe. -/
def Timestamp.AsTime : Option Timestamp → Time
  | some x => Time.Unix x.Seconds x.Nanos
  | none => Time.Unix 0 0

/-- The wire task `taskspb.Task` (the fields the package reads or writes). -/
structure PbTask where
  Name : Str
  ScheduleTime : Option Timestamp
  MessageType : Option PbMessageType
  deriving DecidableEq, Repr

/-- Go `Header.Add` on a header map kept as an association list. -/
def headerAdd (net : NetHTTP) (hd : List (Str × List Str)) (k v : Str) :
    List (Str × List Str) :=
  let key := net.canonicalHeaderKey k
  if hd.any (fun e => e.1 = key) then
    hd.map (fun e => if e.1 = key then (e.1, e.2 ++ [v]) else e)
  else hd ++ [(key, [v])]

def convertHTTPRequest (net : NetHTTP) (req : PbHttpRequest) : Except Err Request :=
  let method : Option Str :=
    match req.HttpMethod with
    | .POST => some "POST".toList
    | .GET => some "GET".toList
    | .HEAD => some "HEAD".toList
    | .PUT => some "PUT".toList
    | .DELETE => some "DELETE".toList
    | .PATCH => some "PATCH".toList
    | .OPTIONS => some "OPTIONS".toList
    | _ => none
  match method with
  | none => .error (.new "unsupported http method".toList)
  | some method =>
    let body : Option Body :=
      match req.Body with
      | some b => some (.reader b)
      | none => none
    match net.requestURL req.Url with
    | none =>
      .error (.wrap "failed to initialize a new request".toList (.new "net/http".toList))
    | some url =>
      .ok { Method := method, URL := url,
            Header := req.Headers.foldl (fun hd kv => headerAdd net hd kv.1 kv.2) [],
            Body := body }

def convertAuthorizationToken (req : PbHttpRequest) :
    Except Err (Option AuthorizationToken) :=
  match req.AuthorizationHeader with
  | none => .ok none
  | some (.OauthToken email scope) => .ok (some (.OAuthToken email scope))
  | some (.OidcToken email audience) => .ok (some (.OIDCToken email audience))
  | some .other => .error (.new "unsupported authorization header type".toList)

def PbTaskToTask (net : NetHTTP) (queuePath taskIDPrefix : Str) (pb : PbTask) :
    Except Err Task :=
  match ParseTaskName taskIDPrefix pb.Name with
  | .error err => .error (.wrap "failed to parse task name".toList err)
  | .ok (id, version) =>
    match pb.MessageType with
    | some (.HttpRequest mt) =>
      match convertHTTPRequest net mt with
      | .error err => .error err
      | .ok req =>
        match convertAuthorizationToken mt with
        | .error err => .error err
        | .ok authorizationToken =>
          .ok { QueuePath := queuePath, Prefix := taskIDPrefix, ID := id,
                ScheduledAt := Timestamp.AsTime pb.ScheduleTime, Request := req,
                Authorization := authorizationToken, Version := version }
    | _ => .error (.new "unsupported message type".toList)

/-- Go `TaskToPbTask`.  The first component is the task after the call (its
body stream replaced by a fresh reader over the bytes read), the second the
returned value. -/
def TaskToPbTask (task : Task) : Task × Except Err PbTask :=
  let headers := task.Request.Header.map (fun kv => (kv.1, List.intercalate [','] kv.2))
  let read : Except Err (Option (List UInt8) × Task) :=
    match task.Request.Body with
    | none => .ok (none, task)
    | some (.reader b) =>
      .ok (some b, { task with Request := { task.Request with Body := some (.reader b) } })
    | some (.failing e) => .error (.wrap "failed to read request body".toList e)
  match read with
  | .error err => (task, .error err)
  | .ok (body, task) =>
    let httpRequest : PbHttpRequest :=
      { Url := task.Request.URL,
        HttpMethod := HttpMethod_value task.Request.Method,
        Headers := headers,
        Body := body,
        AuthorizationHeader :=
          match task.Authorization with
          | some (.OAuthToken email scope) => some (.OauthToken email scope)
          | some (.OIDCToken email audience) => some (.OidcToken email audience)
          | none => none }
    (task, .ok { Name := task.TaskName,
                 ScheduleTime := some (Timestamp.New task.ScheduledAt),
                 MessageType := some (.HttpRequest httpRequest) })

/-! ## iterator.go -/

inductive View where
  | BASIC
  | FULL
  deriving DecidableEq, Repr

structure ListTasksRequest where
  Parent : Str
  ResponseView : View
  PageSize : Nat
  PageToken : Str
  deriving DecidableEq, Repr

/-- A `TaskIterator` as the lister hands it out: the entries its successive
`Next` calls return, the error that follows them (`Done` for a normal end)
and the token `PageInfo().Token` reports. -/
structure TaskIterator where
  items : List PbTask
  stop : Err
  token : Str
  deriving DecidableEq, Repr

/-- The interface `TaskLister`. -/
abbrev TaskLister := ListTasksRequest → TaskIterator

/-- The struct `Iterator`; `requests` logs the page requests sent so far. -/
structure Iterator where
  lister : TaskLister
  iter : Option TaskIterator
  queuePath : Str
  taskIDPrefix : Str
  pageToken : Str
  requests : List ListTasksRequest

def NewIterator (t : TaskLister) (queuePath pre : Str) : Iterator :=
  { lister := t, iter := none, queuePath := queuePath, taskIDPrefix := pre,
    pageToken := [], requests := [] }

def Iterator.listTasks (i : Iterator) : Iterator :=
  let req : ListTasksRequest :=
    { Parent := i.queuePath, ResponseView := .BASIC, PageSize := 1000,
      PageToken := i.pageToken }
  let it := i.lister req
  { i with iter := some it, pageToken := it.token, requests := i.requests ++ [req] }

/-- The `for` loop of `Iterator.Next`; each turn of the loop uses one unit of
fuel, `none` means the fuel ran out before the loop returned. -/
def Iterator.nextLoop (net : NetHTTP) : Nat → Iterator → Option (Except Err Task × Iterator)
  | 0, _ => none
  | fuel + 1, i =>
    match i.iter with
    | none => none
    | some cur =>
      match cur.items with
      | [] =>
        if cur.stop.Is .Done then
          if i.pageToken = [] then some (.error .Done, i)
          else Iterator.nextLoop net fuel i.listTasks
        else some (.error (.wrap "failed to iterate".toList cur.stop), i)
      | task :: rest =>
        let i := { i with iter := some { cur with items := rest } }
        let taskNamePrefix := taskName i.queuePath i.taskIDPrefix
        if !HasPrefix task.Name taskNamePrefix then Iterator.nextLoop net fuel i
        else
          match PbTaskToTask net i.queuePath i.taskIDPrefix task with
          | .error err =>
            some (.error (.wrap "failed to convert task from pbtask".toList err), i)
          | .ok t => some (.ok t, i)

def Iterator.Next (net : NetHTTP) (fuel : Nat) (i : Iterator) :
    Option (Except Err Task × Iterator) :=
  Iterator.nextLoop net fuel (if i.iter.isNone then i.listTasks else i)

/-! ## scheduler.go -/

structure CreateTaskRequest where
  Parent : Str
  Task : PbTask
  ResponseView : View
  deriving DecidableEq, Repr

structure DeleteTaskRequest where
  Name : Str
  deriving DecidableEq, Repr

/-- The interface `CloudTasksClient` over a remote state `σ`: listing reads
the state, create and delete answer with a new state and `nil` or an error. -/
structure CloudTasksClient (σ : Type) where
  ListTasks : σ → ListTasksRequest → TaskIterator
  CreateTask : σ → CreateTaskRequest → σ × Option Err
  DeleteTask : σ → DeleteTaskRequest → σ × Option Err

/-- A create or delete call sent to the remote client. -/
inductive Call where
  | create (req : CreateTaskRequest)
  | delete (req : DeleteTaskRequest)
  deriving DecidableEq, Repr

/-- The remote state together with the log of create and delete calls. -/
structure World (σ : Type) where
  state : σ
  calls : List Call

structure Scheduler (σ : Type) where
  client : CloudTasksClient σ
  queuePath : Str
  taskPrefix : Str
  iterator : σ → Iterator

def QueuePath (projectID location queue : Str) : Str :=
  "projects/".toList ++ projectID ++ "/locations/".toList ++ location ++
    "/queues/".toList ++ queue

def New {σ : Type} (client : CloudTasksClient σ) (projectID location queue pre : Str) :
    Scheduler σ :=
  let queuePath := QueuePath projectID location queue
  { client := client, queuePath := queuePath, taskPrefix := pre,
    iterator := fun st => NewIterator (client.ListTasks st) queuePath pre }

def Scheduler.List {σ : Type} (s : Scheduler σ) (st : σ) : Iterator := s.iterator st

/-- Go `taskMap[k] = i` on a map kept as an association list. -/
def mapInsert (m : List (Str × Nat)) (k : Str) (i : Nat) : List (Str × Nat) :=
  (k, i) :: m.filter (fun e => e.1 ≠ k)

/-- Go `delete(taskMap, k)`. -/
def mapDelete (m : List (Str × Nat)) (k : Str) : List (Str × Nat) :=
  m.filter (fun e => e.1 ≠ k)

/-- Go `taskMap[k]` with its `ok` flag. -/
def mapLookup (m : List (Str × Nat)) (k : Str) : Option Nat := m.lookup k

/-- The first loop of `Sync`: every task pointer is stored under its key. -/
def buildTaskMap (tasks : List Task) : List (Str × Nat) :=
  tasks.enum.foldl (fun m it => mapInsert m it.2.comparisonID it.1) []

/-- The variables of `Sync` during the listing loop: the tasks the input
pointers refer to, `taskMap` (key to pointer) and `deleteNames`. -/
structure SyncState where
  tasks : List Task
  taskMap : List (Str × Nat)
  deleteNames : List Str
  deriving DecidableEq, Repr

/-- The body of the listing loop of `Sync` for one task the iterator returned. -/
def syncStep (ss : SyncState) (remoteTask : Task) : SyncState :=
  match mapLookup ss.taskMap remoteTask.comparisonID with
  | some p =>
    match ss.tasks[p]? with
    | none => ss
    | some t =>
      if t.Compare remoteTask then
        { ss with taskMap := mapDelete ss.taskMap t.comparisonID }
      else
        let ss := { ss with deleteNames := ss.deleteNames ++ [remoteTask.TaskName] }
        if t.Version ≤ remoteTask.Version then
          { ss with tasks :=
              ss.tasks.set p { t with Version := wrapInt64 (remoteTask.Version + 1) } }
        else ss
  | none => { ss with deleteNames := ss.deleteNames ++ [remoteTask.TaskName] }

/-- The listing loop of `Sync`; one unit of fuel per turn, `none` when the
fuel runs out.  The result is the state at loop exit and the error `Sync`
returns there, if any. -/
def syncLoop (net : NetHTTP) : Nat → Iterator → SyncState → Option (SyncState × Option Err)
  | 0, _, _ => none
  | fuel + 1, iter, ss =>
    match iter.Next net (fuel + 1) with
    | none => none
    | some (.error err, _) =>
      if err.Is .Done then some (ss, none)
      else some (ss, some (.wrap "failed to iterate remoteTasks".toList err))
    | some (.ok remoteTask, iter) => syncLoop net fuel iter (syncStep ss remoteTask)

def Scheduler.Delete {σ : Type} (s : Scheduler σ) (w : World σ) (taskName : Str) :
    World σ × Option Err :=
  let req : DeleteTaskRequest := { Name := taskName }
  let r := s.client.DeleteTask w.state req
  ({ state := r.1, calls := w.calls ++ [.delete req] }, r.2)

/-- Go `Scheduler.Create`; the task component is the task after the call. -/
def Scheduler.Create {σ : Type} (s : Scheduler σ) (w : World σ) (task : Task) :
    World σ × Task × Option Err :=
  let task := if task.Version = 0 then { task with Version := 1 } else task
  match task.Validate with
  | some err => (w, task, some err)
  | none =>
    match TaskToPbTask task with
    | (task, .error err) => (w, task, some err)
    | (task, .ok t) =>
      let req : CreateTaskRequest :=
        { Parent := task.QueuePath, Task := t, ResponseView := .BASIC }
      let r := s.client.CreateTask w.state req
      let w : World σ := { state := r.1, calls := w.calls ++ [.create req] }
      match r.2 with
      | some err =>
        if statusCode err = codesAlreadyExists then (w, task, some .ErrTaskAlreadyExists)
        else (w, task, some err)
      | none => (w, task, none)

/-- The delete loop of `Sync`. -/
def deleteAll {σ : Type} (s : Scheduler σ) : World σ → List Str → World σ × Option Err
  | w, [] => (w, none)
  | w, name :: rest =>
    match s.Delete w name with
    | (w, some err) => (w, some err)
    | (w, none) => deleteAll s w rest

/-- The create loop of `Sync` over the input slice; the list component is the
slice's tasks after the loop. -/
def createAll {σ : Type} (s : Scheduler σ) (taskMap : List (Str × Nat)) :
    World σ → List Task → World σ × List Task × Option Err
  | w, [] => (w, [], none)
  | w, t :: rest =>
    if (mapLookup taskMap t.comparisonID).isNone then
      let r := createAll s taskMap w rest
      (r.1, t :: r.2.1, r.2.2)
    else
      match s.Create w t with
      | (w, t, some err) => (w, t :: rest, some err)
      | (w, t, none) =>
        let r := createAll s taskMap w rest
        (r.1, t :: r.2.1, r.2.2)

/-- The outcome of a `Sync` call: the returned error (`none` for `nil`), the
input tasks after the call, the remote state and the call log. -/
structure SyncResult (σ : Type) where
  err : Option Err
  tasks : List Task
  world : World σ

/-- Go `Scheduler.Sync`; `none` when the listing loop does not end within
`fuel` turns. -/
def Scheduler.Sync {σ : Type} (net : NetHTTP) (s : Scheduler σ) (fuel : Nat) (w : World σ)
    (tasks : Slice Task) : Option (SyncResult σ) :=
  let taskMap := buildTaskMap tasks
  let iter := s.List w.state
  match syncLoop net fuel iter { tasks := tasks, taskMap := taskMap, deleteNames := [] } with
  | none => none
  | some (ss, some err) => some { err := some err, tasks := ss.tasks, world := w }
  | some (ss, none) =>
    match deleteAll s w ss.deleteNames with
    | (w, some err) => some { err := some err, tasks := ss.tasks, world := w }
    | (w, none) =>
      let r := createAll s ss.taskMap w ss.tasks
      some { err := r.2.2, tasks := r.2.1, world := r.1 }

/-! ## Auxiliary definitions used in the statements -/

/-- Characters that `Nat.digitChar` produces for digits below sixteen. -/
def hexChar (c : Char) : Bool := "0123456789abcdef".toList.contains c

/-- A task used to exercise the theorems on a concrete input. -/
def sampleTask : Task :=
  { QueuePath := "projects/p/locations/l/queues/q".toList, Prefix := "test_".toList,
    ID := "i_v".toList, ScheduledAt := Time.Unix 1 2,
    Request := { Method := "GET".toList, URL := "https://example.com/".toList, Header := [],
                 Body := none },
    Authorization := none, Version := 1 }

/-- The tasks successive `Iterator.Next` calls return, up to the first error
(`Done` included), which is the second component; the fuel is spent as the
listing loop of `Sync` spends it. -/
def Iterator.drain (net : NetHTTP) : Nat → Iterator → Option (List Task × Err)
  | 0, _ => none
  | fuel + 1, i =>
    match i.Next net (fuel + 1) with
    | none => none
    | some (.error err, _) => some ([], err)
    | some (.ok t, i) =>
      match Iterator.drain net fuel i with
      | none => none
      | some r => some (t :: r.1, r.2)

/-- The task `Create` validates and sends: `Version` 0 is replaced by 1. -/
def withDefaultVersion (t : Task) : Task :=
  if t.Version = 0 then { t with Version := 1 } else t

/-- The create request `req` is the one `Create` sends for the task `t`: the
task passes `Validate` with its version defaulted, converts to the wire task
of the request, and the parent is the task's queue path. -/
def IsCreateRequestOf (t : Task) (req : CreateTaskRequest) : Prop :=
  (withDefaultVersion t).Validate = none ∧
    (TaskToPbTask (withDefaultVersion t)).2 = .ok req.Task ∧
    req.Parent = t.QueuePath ∧ req.ResponseView = .BASIC

/-- The gRPC code `NotFound`. -/
def codesNotFound : Nat := 5

/-- The remote queue as a set of wire tasks keyed by name, changed only by
create and delete calls: listing returns the tasks in one page, create fails
with `AlreadyExists` when the name is taken and otherwise adds the task,
delete fails with `NotFound` when the name is absent and otherwise removes
the task. -/
def storeClient : CloudTasksClient (List PbTask) :=
  { ListTasks := fun st _ => { items := st, stop := .Done, token := [] }
    CreateTask := fun st req =>
      if st.any (fun e => e.Name = req.Task.Name) then
        (st, some (.status codesAlreadyExists "already exists".toList))
      else (st ++ [req.Task], none)
    DeleteTask := fun st req =>
      if st.any (fun e => e.Name = req.Name) then
        (st.filter (fun e => e.Name ≠ req.Name), none)
      else (st, some (.status codesNotFound "not found".toList)) }

/-- A model of `net/http` in which every URL text is accepted unchanged and
header keys are kept as they are. -/
def sampleNet : NetHTTP := { requestURL := some, canonicalHeaderKey := id }

/-- The scheduler `New(client, "p", "l", "q", "test_")` over the store. -/
def sampleScheduler : Scheduler (List PbTask) :=
  New storeClient "p".toList "l".toList "q".toList "test_".toList

/-- A wire task of the sample queue owned by the prefix `test_`, with a
schedule time, version and URL that differ from those of `sampleTask`. -/
def sampleRemote : PbTask :=
  { Name := "projects/p/locations/l/queues/q/tasks/test_old_3b9aca02v4".toList,
    ScheduleTime := some { Seconds := 1, Nanos := 2 },
    MessageType := some (.HttpRequest
      { Url := "https://example.com/old".toList, HttpMethod := HttpMethod.GET, Headers := [],
        Body := none, AuthorizationHeader := none }) }

/-- The entry is owned: its name starts with `queuePath + "/tasks/" + prefix`. -/
def owned (queuePath pre : Str) (e : PbTask) : Bool :=
  HasPrefix e.Name (taskName queuePath pre)

/-- The iterator with every entry that is not owned removed, from the page it
is reading and from every page its lister hands out. -/
def Iterator.ownedOnly (i : Iterator) : Iterator :=
  { i with
    lister := fun req =>
      { i.lister req with
        items := (i.lister req).items.filter (owned i.queuePath i.taskIDPrefix) }
    iter := i.iter.map (fun it =>
      { it with items := it.items.filter (owned i.queuePath i.taskIDPrefix) }) }

/-- A wire task of the sample queue under another prefix (`other_`). -/
def sampleForeign : PbTask :=
  { sampleRemote with
    Name := "projects/p/locations/l/queues/q/tasks/other_x_3b9aca02v1".toList }

/-- The gRPC code `Unavailable`. -/
def codesUnavailable : Nat := 14

/-- A remote queue that lists its tasks like `storeClient` but answers every
create and every delete call with the transport error `Unavailable`. -/
def unavailableClient : CloudTasksClient (List PbTask) :=
  { ListTasks := storeClient.ListTasks
    CreateTask := fun st _ => (st, some (.status codesUnavailable "unavailable".toList))
    DeleteTask := fun st _ => (st, some (.status codesUnavailable "unavailable".toList)) }

/-- A second wire task owned by the prefix `test_`. -/
def sampleRemote2 : PbTask :=
  { sampleRemote with
    Name := "projects/p/locations/l/queues/q/tasks/test_old2_3b9aca02v1".toList }

/-- The task `PbTaskToTask` decodes from `sampleRemote`. -/
def sampleRemoteTask : Task :=
  { QueuePath := "projects/p/locations/l/queues/q".toList, Prefix := "test_".toList,
    ID := "old".toList, ScheduledAt := Time.Unix 1 2,
    Request := { Method := "GET".toList, URL := "https://example.com/old".toList, Header := [],
                 Body := none },
    Authorization := none, Version := 4 }

/-- The task `PbTaskToTask` decodes from `sampleRemote2`. -/
def sampleRemoteTask2 : Task :=
  { sampleRemoteTask with ID := "old2".toList, Version := 1 }

/-- A task that `Validate` rejects: the id is empty. -/
def sampleInvalidTask : Task := { sampleTask with ID := [] }

/-- The task `b` is the task `a` with a version that is not smaller. -/
def VerLe (a b : Task) : Prop := b = { a with Version := b.Version } ∧ a.Version ≤ b.Version

/-- Position by position, the tasks of `l2` are those of `l1` with versions
that are not smaller. -/
def TasksLe (l1 l2 : List Task) : Prop :=
  l1.length = l2.length ∧
    ∀ (p : Nat) (a : Task), l1[p]? = some a → ∃ b, l2[p]? = some b ∧ VerLe a b

/-- Every entry of the map points at a task that has the entry's key. -/
def MapSound (tasks : List Task) (m : List (Str × Nat)) : Prop :=
  ∀ (k : Str) (p : Nat), mapLookup m k = some p → ∃ t, tasks[p]? = some t ∧ t.comparisonID = k

/-- The initial state of the listing loop of `Sync`. -/
def initState (tasks : List Task) : SyncState :=
  { tasks := tasks, taskMap := buildTaskMap tasks, deleteNames := [] }

/-- The invariant of the listing loop of `Sync` after the tasks `done` have
been processed: the map is sound, and a task still in the map has a version
above that of every processed remote task with its key. -/
def LoopInv (done : List Task) (ss : SyncState) : Prop :=
  MapSound ss.tasks ss.taskMap ∧
    ∀ (k : Str) (p : Nat), mapLookup ss.taskMap k = some p →
      ∀ R ∈ done, R.comparisonID = k → ∃ D, ss.tasks[p]? = some D ∧ R.Version < D.Version

/-- A wire task with the key of `sampleTask`, another URL and the largest
version a Go `int` holds. -/
def sampleRemoteMax : PbTask :=
  { sampleRemote with
    Name := "projects/p/locations/l/queues/q/tasks/test_i_v_3b9aca02v9223372036854775807".toList }

/-- The task `PbTaskToTask` decodes from `sampleRemoteMax`. -/
def sampleRemoteMaxTask : Task :=
  { sampleRemoteTask with ID := "i_v".toList, Version := 9223372036854775807 }

/-- A wire task with the key and the version of `sampleTask` and another URL. -/
def sampleRemoteSameKey : PbTask :=
  { sampleRemote with
    Name := "projects/p/locations/l/queues/q/tasks/test_i_v_3b9aca02v1".toList }

/-- The task `PbTaskToTask` decodes from `sampleRemoteSameKey`. -/
def sampleRemoteSameKeyTask : Task :=
  { sampleRemoteTask with ID := "i_v".toList, Version := 1 }

/-- A second desired task with the key of `sampleTask` and a third URL. -/
def sampleTaskB : Task :=
  { sampleTask with
    Request := { sampleTask.Request with URL := "https://example.com/b".toList } }

/-- Whether a logged call is a create call, and the task name it carries. -/
def Call.summary : Call → Bool × Str
  | .create req => (true, req.Task.Name)
  | .delete req => (false, req.Name)

/-- The task `b` is the task `a` up to its version. -/
def SameButVersion (a b : Task) : Prop := b = { a with Version := b.Version }

/-- Position by position, the tasks of `l2` are those of `l1` up to their
versions. -/
def TasksSim (l1 l2 : List Task) : Prop :=
  l1.length = l2.length ∧
    ∀ (p : Nat) (a : Task), l1[p]? = some a → ∃ b, l2[p]? = some b ∧ SameButVersion a b

/-- Every version of the list is a Go `int` (64 bits). -/
def InRange (l : List Task) : Prop :=
  ∀ t ∈ l, -2 ^ 63 ≤ t.Version ∧ t.Version < 2 ^ 63

/-- The invariant of the listing loop of `Sync` used for convergence, after
the remote tasks `done` have been processed. A processed remote task whose
name is not in `deleteNames` is kept: its key is no longer in the map and the
desired task stored under that key accepts it. -/
structure ConvInv (tasks done : List Task) (ss : SyncState) : Prop where
  sound : MapSound ss.tasks ss.taskMap
  sub : ∀ (k : Str) (p : Nat), mapLookup ss.taskMap k = some p →
    mapLookup (buildTaskMap tasks) k = some p
  sim : TasksSim tasks ss.tasks
  range : InRange ss.tasks
  del : ∀ n ∈ ss.deleteNames, ∃ R ∈ done, R.TaskName = n
  kept : ∀ R ∈ done, R.TaskName ∉ ss.deleteNames →
    mapLookup ss.taskMap R.comparisonID = none ∧
      ∃ (p : Nat) (D : Task), mapLookup (buildTaskMap tasks) R.comparisonID = some p ∧
        ss.tasks[p]? = some D ∧ D.Compare R = true
  keptNodup :
    ((done.filter (fun R => decide (R.TaskName ∉ ss.deleteNames))).map
      Task.comparisonID).Nodup
  matched : ∀ (k : Str) (p : Nat), mapLookup (buildTaskMap tasks) k = some p →
    mapLookup ss.taskMap k = none →
      ∃ R ∈ done, R.comparisonID = k ∧ R.TaskName ∉ ss.deleteNames

/-- The tasks a listing of `items` yields: the conversions of the owned
entries, in order. -/
def decodeOwned (net : NetHTTP) (queuePath pre : Str) (items : List PbTask) : List Task :=
  items.filterMap (fun e =>
    if owned queuePath pre e then
      match PbTaskToTask net queuePath pre e with
      | .ok t => some t
      | .error _ => none
    else none)

/-- The HTTP methods `http.MethodGet`, ... that the converter supports. -/
def supportedMethods : List Str :=
  ["GET".toList, "POST".toList, "PUT".toList, "PATCH".toList, "DELETE".toList, "HEAD".toList,
   "OPTIONS".toList]

/-- An owned remote entry with a canonical name whose payload is not an HTTP
request: `PbTaskToTask` rejects it. -/
def sampleRemoteAppEngine : PbTask :=
  { sampleRemote with MessageType := some PbMessageType.AppEngineHttpRequest }

/-- A desired task whose `Prefix` is not the scheduler's prefix. -/
def sampleTaskOther : Task := { sampleTask with Prefix := "other_".toList }

/-- An owned remote entry whose name carries another time than its
`ScheduleTime`. -/
def sampleRemoteMisnamed : PbTask :=
  { sampleRemote with
    Name := "projects/p/locations/l/queues/q/tasks/test_old_ffv4".toList }

/-- The remote entry `Create` makes for `sampleTask`. -/
def sampleRemoteSame : PbTask :=
  { Name := "projects/p/locations/l/queues/q/tasks/test_i_v_3b9aca02v1".toList,
    ScheduleTime := some { Seconds := 1, Nanos := 2 },
    MessageType := some (.HttpRequest
      { Url := "https://example.com/".toList, HttpMethod := HttpMethod.GET, Headers := [],
        Body := none, AuthorizationHeader := none }) }

/-- The entry of `sampleTask` with another body and another header. -/
def sampleRemoteBody : PbTask :=
  { sampleRemoteSame with
    MessageType := some (.HttpRequest
      { Url := "https://example.com/".toList, HttpMethod := HttpMethod.GET,
        Headers := [("X-A".toList, "1".toList)], Body := some [1],
        AuthorizationHeader := none }) }

/-- The task `sampleRemoteBody` converts to. -/
def sampleRemoteBodyTask : Task :=
  { sampleTask with
    Request := { sampleTask.Request with
      Header := [("X-A".toList, ["1".toList])], Body := some (.reader [1]) } }

/-- A desired task with the key of `sampleTask` and another URL. -/
def sampleTaskAlt : Task :=
  { sampleTask with
    Request := { sampleTask.Request with URL := "https://example.com/alt".toList } }

/-- The task of `TestTask_validateTaskID` whose id is `n` underscores. -/
def sampleBoundaryTask (n : Nat) : Task :=
  { sampleTask with
    Prefix := "pre-".toList, ID := List.replicate n '_',
    ScheduledAt := Time.Unix 1 234567890, Version := 1 }

/-- Value of a lower-case hexadecimal digit character. -/
def hexVal (c : Char) : Nat :=
  if '0' ≤ c ∧ c ≤ '9' then c.toNat - '0'.toNat else c.toNat - 'a'.toNat + 10

/-- Reads a run of hexadecimal digits, most significant first. -/
def readHex : Str → Nat → Nat
  | [], acc => acc
  | c :: cs, acc => readHex cs (acc * 16 + hexVal c)

/-- Two tasks whose prefixes and ids differ and concatenate to the same text. -/
def sampleKeyA : Task := { sampleTask with Prefix := "a".toList, ID := "bc".toList }

def sampleKeyB : Task := { sampleTask with Prefix := "ab".toList, ID := "c".toList }

/-- Two tasks that differ only in their time, 2^64 nanoseconds apart. -/
def sampleKeyT1 : Task :=
  { sampleTask with ID := "id".toList, ScheduledAt := Time.Unix 0 0 }

def sampleKeyT2 : Task :=
  { sampleTask with ID := "id".toList, ScheduledAt := Time.Unix 18446744073 709551616 }

/-- A client whose create call fails with the package's own
`ErrTaskAlreadyExists` value, which carries no gRPC status. -/
def sentinelClient : CloudTasksClient (List PbTask) :=
  { storeClient with CreateTask := fun st _ => (st, some .ErrTaskAlreadyExists) }

/-- A task whose request method is none of the seven supported ones. -/
def sampleTaskTrace : Task :=
  { sampleTask with Request := { sampleTask.Request with Method := "TRACE".toList } }

/-- A remote entry with the key of `sampleTask`, another URL and version 5. -/
def sampleRemoteOldV5 : PbTask :=
  { sampleRemoteSameKey with
    Name := "projects/p/locations/l/queues/q/tasks/test_i_v_3b9aca02v5".toList }

/-- A task whose body stream fails when read. -/
def sampleTaskUnreadable : Task :=
  { sampleTask with
    Request := { sampleTask.Request with Body := some (.failing (.new "read".toList)) } }

/-- An HTTP library that refuses a URL text holding a space, as `url.Parse`
does for a space in the host. -/
def spaceNet : NetHTTP :=
  { requestURL := fun u => if ' ' ∈ u then none else some u, canonicalHeaderKey := id }

/-- A task whose URL text holds a space in the host. -/
def sampleTaskSpace : Task :=
  { sampleTask with Request := { sampleTask.Request with URL := "http://a b".toList } }

/-- The text `v1 + "," + ... + "," + vn`. -/
def commaJoined : List Str → Str
  | [] => []
  | [v] => v
  | v :: w :: rest => v ++ ',' :: commaJoined (w :: rest)

/-- A task whose request has a header with two values and one with none. -/
def sampleTaskHeaders : Task :=
  { sampleTask with
    Request := { sampleTask.Request with
      Header := [("Accept".toList, ["a".toList, "b".toList]), ("X-Empty".toList, [])] } }

/-- The three values Go `ParseTaskName` returns; each of its error returns is
`return "", 0, err`. -/
def ParseTaskNameResults (pre taskName : Str) : Str × Int × Option Err :=
  match ParseTaskName pre taskName with
  | .error err => ([], 0, some err)
  | .ok (id, version) => (id, version, none)

/-- The text after the last occurrence of `c` (all of `s` when there is none). -/
def afterLast (c : Char) (s : Str) : Str := (s.reverse.takeWhile (· ≠ c)).reverse

/-- The text before the last occurrence of `c`. -/
def beforeLast (c : Char) (s : Str) : Str := (s.reverse.dropWhile (· ≠ c)).tail.reverse

/-- The number a run of decimal digits denotes. -/
def digitsValue (ds : Str) : Nat :=
  ds.foldl (fun acc c => acc * 10 + (c.toNat - '0'.toNat)) 0

/-- The text `s` is a decimal integer denoting `v`: an optional sign followed by
one or more digits. -/
def IsDecimalOf (s : Str) (v : Int) : Prop :=
  ∃ ds : Str, ds ≠ [] ∧ (∀ c ∈ ds, c.isDigit = true) ∧
    ((s = ds ∧ v = digitsValue ds) ∨ (s = '+' :: ds ∧ v = digitsValue ds) ∨
      (s = '-' :: ds ∧ v = -(digitsValue ds : Int)))

/-- The hexadecimal text `comparisonID` places between the '_' separator and
the 'v' separator of the identity. -/
def Task.timestampField (t : Task) : Str := FormatInt t.ScheduledAt.UnixNano 16

/-- Go `io.ReadAll` on a body stream: the bytes (or the error) and the stream
as the read leaves it, which is exhausted. -/
def Body.ReadAll : Body → Except Err (List UInt8) × Body
  | .reader data => (.ok data, .reader [])
  | .failing e => (.error e, .failing e)

/-- A task with a body of three bytes. -/
def sampleTaskBody : Task :=
  { sampleTask with
    Request := { sampleTask.Request with
      Method := "POST".toList, Body := some (.reader [1, 2, 3]) } }

/-- The remote entry of `sampleTask` under a name whose version is -1. -/
def sampleRemoteNeg : PbTask :=
  { sampleRemoteSame with
    Name := "projects/p/locations/l/queues/q/tasks/test_i_v_3b9aca02v-1".toList }

/-- The task `sampleTask` with one more '/' at the end of its URL. -/
def sampleTaskSlash : Task :=
  { sampleTask with
    Request := { sampleTask.Request with URL := "https://example.com//".toList } }

/-- The task `sampleTask` with the URL `https://example.com/path`. -/
def sampleTaskPath : Task :=
  { sampleTask with
    Request := { sampleTask.Request with URL := "https://example.com/path".toList } }

/-- The task `sampleTaskPath` with a '/' at the end of its URL. -/
def sampleTaskPathSlash : Task :=
  { sampleTask with
    Request := { sampleTask.Request with URL := "https://example.com/path/".toList } }

/-- The request `Iterator.listTasks` builds for the page token `tok`. -/
def pageRequest (queuePath tok : Str) : ListTasksRequest :=
  { Parent := queuePath, ResponseView := .BASIC, PageSize := 1000, PageToken := tok }

/-- The pages that follow a page whose reported token is `tok`: none when the
token is empty; otherwise the lister answers the request carrying `tok` with
the next page, whose entries are followed by `Done`, and the chain goes on
from the token of that page. -/
def chainFrom (lister : TaskLister) (queuePath : Str) : Str → List TaskIterator → Bool
  | tok, [] => decide (tok = [])
  | tok, p :: rest =>
    decide (tok ≠ []) && decide (lister (pageRequest queuePath tok) = p) &&
      p.stop.Is .Done && chainFrom lister queuePath p.token rest

/-- The pages of the lister form the finite chain `pages`: the request with
the empty token is answered with the first page, every page ends with `Done`
and reports the token that fetches the next one, and the last page reports
the empty token. -/
def isPageChain (lister : TaskLister) (queuePath : Str) : List TaskIterator → Bool
  | [] => false
  | p :: rest =>
    decide (lister (pageRequest queuePath []) = p) && p.stop.Is .Done &&
      chainFrom lister queuePath p.token rest

/-- What `Iterator.Next` returns for an entry whose name has the prefix: the
converted task, or the conversion error wrapped by `Next`. -/
def convResult (net : NetHTTP) (queuePath pre : Str) (e : PbTask) : Except Err Task :=
  match PbTaskToTask net queuePath pre e with
  | .ok t => .ok t
  | .error err => .error (.wrap "failed to convert task from pbtask".toList err)

/-- The results expected from the entries `items` of one page, each paired
with the page requests `reqs` sent up to then. -/
def pageTrace (net : NetHTTP) (queuePath pre : Str) (reqs : List ListTasksRequest)
    (items : List PbTask) : List (Except Err Task × List ListTasksRequest) :=
  (items.filter (owned queuePath pre)).map (fun e => (convResult net queuePath pre e, reqs))

/-- The results expected after a page that reported the token `tok`, when
`reqs` are the requests sent so far: page by page, the results of the entries
with the requests sent up to that page, and `Done` at the end. -/
def traceFrom (net : NetHTTP) (queuePath pre : Str) :
    List ListTasksRequest → Str → List TaskIterator →
      List (Except Err Task × List ListTasksRequest)
  | reqs, _, [] => [(.error .Done, reqs)]
  | reqs, tok, p :: rest =>
    pageTrace net queuePath pre (reqs ++ [pageRequest queuePath tok]) p.items ++
      traceFrom net queuePath pre (reqs ++ [pageRequest queuePath tok]) p.token rest

/-- The results expected from successive `Next` calls over the chain `pages`,
each paired with the page requests sent up to its return. -/
def expectedTrace (net : NetHTTP) (queuePath pre : Str) (pages : List TaskIterator) :
    List (Except Err Task × List ListTasksRequest) :=
  traceFrom net queuePath pre [] [] pages

/-- The results of `n` successive `Iterator.Next` calls, each paired with the
page requests the iterator has sent when the call returns, and the iterator
after the last call; `none` when a call runs out of fuel. -/
def Iterator.nexts (net : NetHTTP) (fuel : Nat) :
    Nat → Iterator → Option (List (Except Err Task × List ListTasksRequest) × Iterator)
  | 0, i => some ([], i)
  | n + 1, i =>
    match i.Next net fuel with
    | none => none
    | some (r, i') =>
      match Iterator.nexts net fuel n i' with
      | none => none
      | some (l, i'') => some ((r, i'.requests) :: l, i'')

/-- The loop turns that suffice for any `Next` call over the pages. -/
def pagesCost (pages : List TaskIterator) : Nat :=
  (pages.map (fun p => p.items.length + 1)).sum

/-- A lister with two pages: a foreign and an owned entry on the first page,
which reports the token `t1`, and an owned entry on the second, last page. -/
def samplePagedLister : TaskLister := fun req =>
  if req.PageToken = [] then
    { items := [sampleForeign, sampleRemote], stop := .Done, token := "t1".toList }
  else if req.PageToken = "t1".toList then
    { items := [sampleRemote2], stop := .Done, token := [] }
  else { items := [], stop := .Done, token := [] }

/-- A lister with one page that holds an App Engine task under the prefix. -/
def sampleAppEngineLister : TaskLister := fun _ =>
  { items := [sampleRemoteAppEngine], stop := .Done, token := [] }

/-- The page requests for the pages that follow a page with the token `tok`:
each carries the token the page before it reported. -/
def pageRequests (queuePath : Str) : Str → List TaskIterator → List ListTasksRequest
  | _, [] => []
  | tok, p :: rest => pageRequest queuePath tok :: pageRequests queuePath p.token rest

/-- The task `sampleTask` with another queue path. -/
def sampleTaskOtherQueue : Task :=
  { sampleTask with QueuePath := "projects/p/locations/l/queues/other".toList }

/-- The entry is one the listing reports to the iterator: it is on the page
being read or on a page the lister hands out. -/
def Iterator.Listed (i : Iterator) (e : PbTask) : Prop :=
  (∃ cur, i.iter = some cur ∧ e ∈ cur.items) ∨ ∃ req, e ∈ (i.lister req).items

/-! ## Verified properties -/

theorem digitChar_hex (k : Nat) (hk : k < 16) : hexChar (Nat.digitChar k) = true := by
  interval_cases k <;> decide

theorem digitVal_digitChar (k : Nat) (hk : k < 10) : digitVal (Nat.digitChar k) = some k := by
  interval_cases k <;> decide

theorem toDigitsCore_hex (b : Nat) (hb : 0 < b) (hb16 : b ≤ 16) :
    ∀ (f n : Nat) (ds : List Char), (∀ c ∈ ds, hexChar c = true) →
      ∀ c ∈ Nat.toDigitsCore b f n ds, hexChar c = true := by
  intro f
  induction f with
  | zero => intro n ds h; simpa [Nat.toDigitsCore] using h
  | succ f ih =>
    intro n ds h
    have hd : hexChar (Nat.digitChar (n % b)) = true :=
      digitChar_hex _ (lt_of_lt_of_le (Nat.mod_lt _ hb) hb16)
    have h2 : ∀ c ∈ Nat.digitChar (n % b) :: ds, hexChar c = true := by
      intro c hc
      rcases List.mem_cons.1 hc with rfl | hc
      · exact hd
      · exact h c hc
    simp only [Nat.toDigitsCore]
    split
    · exact h2
    · exact ih _ _ h2

theorem toDigits_hex (b n : Nat) (hb : 0 < b) (hb16 : b ≤ 16) :
    ∀ c ∈ Nat.toDigits b n, hexChar c = true :=
  toDigitsCore_hex b hb hb16 _ _ [] (by simp)

theorem toDigitsCore_ne_nil (b : Nat) :
    ∀ (f n : Nat) (ds : List Char), ds ≠ [] → Nat.toDigitsCore b f n ds ≠ [] := by
  intro f
  induction f with
  | zero => intro n ds h; simpa [Nat.toDigitsCore] using h
  | succ f ih =>
    intro n ds _
    simp only [Nat.toDigitsCore]
    split
    · simp
    · exact ih _ _ (by simp)

theorem toDigits_ne_nil (b n : Nat) : Nat.toDigits b n ≠ [] := by
  unfold Nat.toDigits
  simp only [Nat.toDigitsCore]
  split
  · simp
  · exact toDigitsCore_ne_nil _ _ _ _ (by simp)

theorem parseDigits_toDigitsCore :
    ∀ (f n : Nat) (ds : List Char), n < f →
      parseDigits (Nat.toDigitsCore 10 f n ds) 0 = parseDigits ds n := by
  intro f
  induction f with
  | zero => intro n ds h; omega
  | succ f ih =>
    intro n ds h
    simp only [Nat.toDigitsCore]
    split
    · rename_i h0
      have hn : n < 10 := by omega
      have : n % 10 = n := by omega
      simp [parseDigits, this, digitVal_digitChar n hn]
    · rename_i h0
      rw [ih (n / 10) _ (by omega)]
      simp only [parseDigits, digitVal_digitChar (n % 10) (Nat.mod_lt _ (by decide))]
      congr 1
      omega

theorem parseDigits_toDigits (n : Nat) : parseDigits (Nat.toDigits 10 n) 0 = some n := by
  unfold Nat.toDigits
  rw [parseDigits_toDigitsCore _ _ _ (Nat.lt_succ_self n)]
  rfl

theorem hexChar_cases (c : Char) (h : hexChar c = true) :
    c ≠ '_' ∧ c ≠ 'v' ∧ c ≠ '/' ∧ c ≠ '-' ∧ c ≠ '+' := by
  simp only [hexChar, List.contains_eq_any_beq, String.toList] at h
  simp at h
  rcases h with h | h | h | h | h | h | h | h | h | h | h | h | h | h | h | h <;> subst h <;> decide

theorem FormatInt_chars (i : Int) (b : Nat) (hb : 0 < b) (hb16 : b ≤ 16) :
    ∀ c ∈ FormatInt i b, c = '-' ∨ hexChar c = true := by
  intro c hc
  unfold FormatInt at hc
  split at hc
  · rcases List.mem_cons.1 hc with h | h
    · exact Or.inl h
    · exact Or.inr (toDigits_hex b _ hb hb16 c h)
  · exact Or.inr (toDigits_hex b _ hb hb16 c hc)

theorem FormatInt_ne_nil (i : Int) (b : Nat) : FormatInt i b ≠ [] := by
  unfold FormatInt
  split
  · simp
  · exact toDigits_ne_nil _ _

theorem Atoi_Itoa (v : Int) (hlo : -2 ^ 63 ≤ v) (hhi : v < 2 ^ 63) : Atoi (Itoa v) = some v := by
  unfold Itoa FormatInt
  by_cases hv : v < 0
  · simp only [hv, if_true]
    unfold Atoi
    have hne := toDigits_ne_nil 10 v.natAbs
    simp [hne, parseDigits_toDigits]
    rw [abs_of_neg hv]
    refine ⟨⟨by omega, by omega⟩, by omega⟩
  · simp only [hv, if_false]
    unfold Atoi
    have hne := toDigits_ne_nil 10 v.natAbs
    obtain ⟨c, cs, hcs⟩ := List.exists_cons_of_ne_nil hne
    have hc : hexChar c = true := toDigits_hex 10 v.natAbs (by decide) (by decide) c (by simp [hcs])
    obtain ⟨-, -, -, h1, h2⟩ := hexChar_cases c hc
    have hp := parseDigits_toDigits v.natAbs
    rw [hcs] at hp ⊢
    simp [h1, h2, hp]
    rw [abs_of_nonneg (by omega)]
    refine ⟨by omega, by omega⟩

theorem HasPrefix_append (p s : Str) : HasPrefix (p ++ s) p = true := by
  simp [HasPrefix]

theorem TrimPrefix_append (p s : Str) : TrimPrefix (p ++ s) p = s := by
  simp [TrimPrefix, HasPrefix_append]

theorem HasPrefix_single (c x : Char) (xs : Str) : HasPrefix (x :: xs) [c] = decide (c = x) := by
  simp [HasPrefix, List.isPrefixOf, beq_eq_decide]

theorem LastIndex_ge (s sep : Str) : -1 ≤ LastIndex s sep := by
  induction s with
  | nil => unfold LastIndex; split <;> omega
  | cons x xs ih => unfold LastIndex; split <;> [omega; (split <;> omega)]

theorem LastIndex_not_mem (c : Char) (b : Str) (h : c ∉ b) : LastIndex b [c] = -1 := by
  induction b with
  | nil => simp [LastIndex]
  | cons x xs ih =>
    have hx : c ≠ x := fun e => h (by simp [e])
    have hxs : c ∉ xs := fun e => h (by simp [e])
    unfold LastIndex
    rw [ih hxs, HasPrefix_single]
    simp [hx]

theorem LastIndex_append (c : Char) (a b : Str) (h : c ∉ b) :
    LastIndex (a ++ c :: b) [c] = a.length := by
  induction a with
  | nil =>
    simp only [List.nil_append, List.length_nil]
    unfold LastIndex
    rw [LastIndex_not_mem c b h, HasPrefix_single]
    simp
  | cons x xs ih =>
    simp only [List.cons_append, List.length_cons]
    unfold LastIndex
    rw [ih]
    simp

theorem Base_suffix (q s : Str) (hq : q = [] ∨ ∃ p, q = p ++ ['/']) (hs : s ≠ [])
    (hslash : '/' ∉ s) : Base (q ++ s) = s := by
  have hne : q ++ s ≠ [] := by simp [hs]
  obtain ⟨x, xs, hx⟩ := List.exists_cons_of_ne_nil (show s.reverse ≠ [] by simpa using hs)
  have hxmem : x ∈ s := by
    have : x ∈ s.reverse := by simp [hx]
    simpa using this
  have hxne : x ≠ '/' := fun (e : x = '/') => hslash (e ▸ hxmem)
  have hall : ∀ a ∈ s.reverse, (decide (a ≠ '/')) = true := by
    intro a ha
    have : a ∈ s := by simpa using ha
    simpa using fun (e : a = '/') => hslash (e ▸ this)
  have hdrop : (q ++ s).reverse.dropWhile (fun c => decide (c = '/')) = (q ++ s).reverse := by
    rw [List.reverse_append, hx]
    simp [List.dropWhile, hxne]
  have htake : (q ++ s).reverse.takeWhile (fun c => decide (c ≠ '/')) = s.reverse := by
    rw [List.reverse_append, List.takeWhile_append_of_pos hall]
    rcases hq with rfl | ⟨p, rfl⟩
    · simp
    · simp [List.takeWhile]
  unfold Base
  simp only [hne, if_false, List.reverse_reverse, hdrop, htake]
  simp [hs]

theorem taskName_Base (qp s : Str) (hs : s ≠ []) (hslash : '/' ∉ s) :
    Base (taskName qp s) = s := by
  have : taskName qp s = (qp ++ "/tasks".toList ++ ['/']) ++ s := by
    simp [taskName]
  rw [this]
  exact Base_suffix _ s (Or.inr ⟨_, rfl⟩) hs hslash

theorem ParseTaskName_of_Base (pre id hex dec name : Str) (v : Int)
    (hbase : Base name = pre ++ (id ++ '_' :: (hex ++ 'v' :: dec)))
    (h1 : '_' ∉ hex) (h2 : '_' ∉ dec) (h3 : 'v' ∉ dec) (hv : Atoi dec = some v) :
    ParseTaskName pre name = .ok (id, v) := by
  have hts : LastIndex (id ++ '_' :: (hex ++ 'v' :: dec)) ['_'] = id.length := by
    apply LastIndex_append
    simp [h1, h2]
  have hvs : LastIndex (hex ++ 'v' :: dec) ['v'] = hex.length := LastIndex_append _ _ _ h3
  unfold ParseTaskName
  simp only [hbase, HasPrefix_append, TrimPrefix_append, taskTimestampSeparator,
    taskVersionSeparator, hts]
  have e1 : ¬ ((id.length : Int) < 0) := by omega
  have e2 : ¬ ((hex.length : Int) < 0) := by omega
  simp [hvs, hv, e1, e2]

theorem TaskID_shape (t : Task) :
    t.TaskID = t.Prefix ++ (t.ID ++ '_' :: (FormatInt t.ScheduledAt.UnixNano 16 ++
      'v' :: Itoa t.Version)) := by
  simp [Task.TaskID, Task.comparisonID, taskTimestampSeparator, taskVersionSeparator]

theorem FormatInt_not_mem (i : Int) (b : Nat) (hb : 0 < b) (hb16 : b ≤ 16) (c : Char)
    (hc : c ≠ '-') (hh : hexChar c = false) : c ∉ FormatInt i b := by
  intro hmem
  rcases FormatInt_chars i b hb hb16 c hmem with h | h
  · exact hc h
  · simp [h] at hh

theorem TaskID_ne_nil (t : Task) : t.TaskID ≠ [] := by
  rw [TaskID_shape]; simp

theorem ParseTaskName_TaskID (t : Task) (name : Str) (hbase : Base name = t.TaskID)
    (hlo : -2 ^ 63 ≤ t.Version) (hhi : t.Version < 2 ^ 63) :
    ParseTaskName t.Prefix name = .ok (t.ID, t.Version) := by
  rw [TaskID_shape] at hbase
  exact ParseTaskName_of_Base _ _ _ _ _ _ hbase
    (FormatInt_not_mem _ 16 (by decide) (by decide) '_' (by decide) (by decide))
    (FormatInt_not_mem _ 10 (by decide) (by decide) '_' (by decide) (by decide))
    (FormatInt_not_mem _ 10 (by decide) (by decide) 'v' (by decide) (by decide))
    (Atoi_Itoa _ hlo hhi)

theorem TaskID_no_slash (t : Task) (hp : '/' ∉ t.Prefix) (hid : '/' ∉ t.ID) :
    '/' ∉ t.TaskID := by
  rw [TaskID_shape]
  have h1 := FormatInt_not_mem t.ScheduledAt.UnixNano 16 (by decide) (by decide) '/'
    (by decide) (by decide)
  have h2 := FormatInt_not_mem t.Version 10 (by decide) (by decide) '/' (by decide) (by decide)
  simp [hp, hid, h1, Itoa, h2]

/-- C2. Decoding undoes encoding: for every task whose prefix and id contain
no `/` and whose version is a Go `int`, `ParseTaskName` applied to the prefix
and either `TaskName()` or `TaskID()` returns the id and the version without
error (the id may contain `_` or `v`). -/
theorem C2_parse_undoes_encode (t : Task) (hp : '/' ∉ t.Prefix) (hid : '/' ∉ t.ID)
    (hlo : -2 ^ 63 ≤ t.Version) (hhi : t.Version < 2 ^ 63) :
    ParseTaskName t.Prefix t.TaskName = .ok (t.ID, t.Version) ∧
      ParseTaskName t.Prefix t.TaskID = .ok (t.ID, t.Version) := by
  have hs := TaskID_no_slash t hp hid
  constructor
  · exact ParseTaskName_TaskID t _ (taskName_Base _ _ (TaskID_ne_nil t) hs) hlo hhi
  · exact ParseTaskName_TaskID t _
      (Base_suffix [] _ (Or.inl rfl) (TaskID_ne_nil t) hs) hlo hhi

theorem C2_parse_undoes_encode_witness :
    ParseTaskName sampleTask.Prefix sampleTask.TaskName = .ok ("i_v".toList, 1) ∧
      ParseTaskName sampleTask.Prefix sampleTask.TaskID = .ok ("i_v".toList, 1) :=
  C2_parse_undoes_encode sampleTask (by decide) (by decide) (by decide) (by decide)

theorem wrapInt64_of_range (x : Int) (hlo : -2 ^ 63 ≤ x) (hhi : x < 2 ^ 63) :
    wrapInt64 x = x := by
  unfold wrapInt64
  rw [Int.emod_eq_of_lt (by omega) (by omega)]
  omega

/-- C3 (as stated, refuted). For the task scheduled at Unix second
9223372037 (April 2262) the identity `TaskID()` is not the one built from the
hexadecimal text of `seconds*10^9 + nanos`: that number does not fit the
`int64` that `UnixNano()` returns. -/
theorem C3_counterexample :
    Task.TaskID { sampleTask with ScheduledAt := Time.Unix 9223372037 0 } ≠
      sampleTask.Prefix ++ sampleTask.ID ++ "_".toList ++
        FormatInt (9223372037 * 10 ^ 9 + 0) 16 ++ "v".toList ++ FormatInt 1 10 := by
  decide

/-- C3 (amended). For every task whose schedule time in nanoseconds since the
epoch, `seconds*10^9 + nanos`, fits a signed 64-bit integer, `TaskID()` is
`Prefix + ID + "_" +` the lower-case base-16 text of that number `+ "v" +` the
decimal text of `Version`; prefix `pre-`, id `id`, time (1 s, 234567890 ns)
and version 1 give `pre-id_499602d2v1`; and for every task `TaskName()` is
`QueuePath + "/tasks/" + TaskID()`, with `TaskID()` always built from the
64-bit value `UnixNano()` returns. -/
theorem C3_TaskID_format (t : Task)
    (hlo : -2 ^ 63 ≤ t.ScheduledAt.sec * 10 ^ 9 + t.ScheduledAt.nsec)
    (hhi : t.ScheduledAt.sec * 10 ^ 9 + t.ScheduledAt.nsec < 2 ^ 63) :
    t.TaskID = t.Prefix ++ t.ID ++ "_".toList ++
        FormatInt (t.ScheduledAt.sec * 10 ^ 9 + t.ScheduledAt.nsec) 16 ++ "v".toList ++
        FormatInt t.Version 10 ∧
      t.TaskID = t.Prefix ++ t.ID ++ "_".toList ++ FormatInt t.ScheduledAt.UnixNano 16 ++
        "v".toList ++ FormatInt t.Version 10 ∧
      t.TaskName = t.QueuePath ++ "/tasks/".toList ++ t.TaskID ∧
      Task.TaskID { t with Prefix := "pre-".toList, ID := "id".toList,
                           ScheduledAt := Time.Unix 1 234567890, Version := 1 } =
        "pre-id_499602d2v1".toList := by
  refine ⟨?_, rfl, rfl, by simp only [Task.TaskID, Task.comparisonID]; decide⟩
  show t.Prefix ++ t.ID ++ taskTimestampSeparator ++ FormatInt t.ScheduledAt.UnixNano 16 ++
    taskVersionSeparator ++ Itoa t.Version = _
  rw [Time.UnixNano, wrapInt64_of_range _ hlo hhi]
  rfl

theorem C3_TaskID_format_witness :
    sampleTask.TaskID = "test_i_v_3b9aca02v1".toList ∧
      sampleTask.TaskName = "projects/p/locations/l/queues/q/tasks/test_i_v_3b9aca02v1".toList :=
  ⟨(C3_TaskID_format sampleTask (by decide) (by decide)).1.trans (by decide),
    (C3_TaskID_format sampleTask (by decide) (by decide)).2.2.1.trans (by decide)⟩

theorem syncLoop_eq_drain (net : NetHTTP) :
    ∀ (fuel : Nat) (i : Iterator) (ss : SyncState),
      syncLoop net fuel i ss =
        match Iterator.drain net fuel i with
        | none => none
        | some r =>
          some (r.1.foldl syncStep ss,
            if r.2.Is .Done then none
            else some (.wrap "failed to iterate remoteTasks".toList r.2)) := by
  intro fuel
  induction fuel with
  | zero => intro i ss; rfl
  | succ f ih =>
    intro i ss
    rw [syncLoop, Iterator.drain]
    rcases h : i.Next net (f + 1) with _ | ⟨res, i'⟩
    · rfl
    · cases res with
      | error err =>
        simp only [List.foldl_nil]
        split <;> simp_all
      | ok t =>
        simp only
        rw [ih]
        cases Iterator.drain net f i' <;> rfl

theorem Delete_calls {σ : Type} (s : Scheduler σ) (w : World σ) (name : Str) :
    (s.Delete w name).1.calls = w.calls ++ [.delete { Name := name }] := rfl

theorem deleteAll_calls {σ : Type} (s : Scheduler σ) :
    ∀ (names : List Str) (w : World σ),
      ∃ k, k ≤ names.length ∧
        (deleteAll s w names).1.calls =
          w.calls ++ (names.take k).map (fun n => Call.delete { Name := n }) ∧
        ((deleteAll s w names).2 = none → k = names.length) := by
  intro names
  induction names with
  | nil => intro w; exact ⟨0, le_refl _, by simp [deleteAll], fun _ => rfl⟩
  | cons n rest ih =>
    intro w
    rw [deleteAll]
    rcases hd : s.Delete w n with ⟨w', e⟩
    have hc : w'.calls = w.calls ++ [.delete { Name := n }] := by
      have := Delete_calls s w n
      rw [hd] at this
      exact this
    cases e with
    | some err =>
      exact ⟨1, by simp, by simp [hc], by simp⟩
    | none =>
      obtain ⟨k, hk, hcalls, hnone⟩ := ih w'
      refine ⟨k + 1, by simpa using hk, ?_, ?_⟩
      · simp only [hcalls, hc]
        simp
      · intro h
        simp only at h
        simp [hnone h]

theorem TaskToPbTask_fst (t : Task) : (TaskToPbTask t).1 = t := by
  unfold TaskToPbTask
  rcases t with ⟨qp, pre, id, at_, ⟨m, u, hd, body⟩, auth, v⟩
  rcases body with _ | ⟨b | e⟩ <;> rfl

theorem TaskToPbTask_name (t : Task) (pb : PbTask) (h : (TaskToPbTask t).2 = .ok pb) :
    pb.Name = t.TaskName := by
  unfold TaskToPbTask at h
  rcases t with ⟨qp, pre, id, at_, ⟨m, u, hd, body⟩, auth, v⟩
  rcases body with _ | ⟨b | e⟩ <;> simp at h <;> subst h <;> rfl

theorem withDefaultVersion_QueuePath (t : Task) : (withDefaultVersion t).QueuePath = t.QueuePath := by
  unfold withDefaultVersion; split <;> rfl

theorem withDefaultVersion_comparisonID (t : Task) :
    (withDefaultVersion t).comparisonID = t.comparisonID := by
  unfold withDefaultVersion; split <;> rfl

theorem Create_spec {σ : Type} (s : Scheduler σ) (w : World σ) (t : Task) :
    (s.Create w t).2.1 = withDefaultVersion t ∧
      (((s.Create w t).1.calls = w.calls ∧ (s.Create w t).1.state = w.state ∧
          (s.Create w t).2.2 ≠ none) ∨
        ∃ req, IsCreateRequestOf t req ∧
          (s.Create w t).1.calls = w.calls ++ [.create req] ∧
          (s.Create w t).1.state = (s.client.CreateTask w.state req).1 ∧
          ((s.Create w t).2.2 = none ↔ (s.client.CreateTask w.state req).2 = none)) := by
  unfold Scheduler.Create
  have hwd : (if t.Version = 0 then { t with Version := 1 } else t) = withDefaultVersion t := rfl
  simp only [hwd]
  cases hval : (withDefaultVersion t).Validate with
  | some err => exact ⟨rfl, Or.inl ⟨rfl, rfl, by simp⟩⟩
  | none =>
    have hfst := TaskToPbTask_fst (withDefaultVersion t)
    rcases hpb : TaskToPbTask (withDefaultVersion t) with ⟨t', res⟩
    rw [hpb] at hfst
    simp only at hfst
    subst hfst
    cases res with
    | error err => exact ⟨rfl, Or.inl ⟨rfl, rfl, by simp⟩⟩
    | ok pb =>
      simp only
      have hreq : IsCreateRequestOf t
          { Parent := (withDefaultVersion t).QueuePath, Task := pb, ResponseView := .BASIC } :=
        ⟨hval, by rw [hpb], withDefaultVersion_QueuePath t, rfl⟩
      cases hres : (s.client.CreateTask w.state
          { Parent := (withDefaultVersion t).QueuePath, Task := pb, ResponseView := .BASIC }).2 with
      | none => exact ⟨rfl, Or.inr ⟨_, hreq, rfl, rfl, by simp [hres]⟩⟩
      | some err =>
        simp only
        split <;> exact ⟨rfl, Or.inr ⟨_, hreq, rfl, rfl, by simp [hres]⟩⟩

theorem createAll_spec {σ : Type} (s : Scheduler σ) (m : List (Str × Nat)) :
    ∀ (ts : List Task) (w : World σ),
      ∃ cs : List CreateTaskRequest,
        (createAll s m w ts).1.calls = w.calls ++ cs.map Call.create ∧
        ((createAll s m w ts).2.2 = none →
          List.Forall₂ IsCreateRequestOf
              (ts.filter (fun t => (mapLookup m t.comparisonID).isSome)) cs ∧
            (createAll s m w ts).2.1 =
              ts.map (fun t =>
                if (mapLookup m t.comparisonID).isSome then withDefaultVersion t else t)) := by
  intro ts
  induction ts with
  | nil => intro w; exact ⟨[], by simp [createAll], fun _ => ⟨by simp, by simp [createAll]⟩⟩
  | cons t rest ih =>
    intro w
    rw [createAll]
    by_cases hin : (mapLookup m t.comparisonID).isNone = true
    · simp only [hin, if_true]
      obtain ⟨cs, hc, hok⟩ := ih w
      have hsome : (mapLookup m t.comparisonID).isSome = false := by
        cases h : mapLookup m t.comparisonID <;> simp_all
      refine ⟨cs, hc, fun h => ?_⟩
      obtain ⟨h1, h2⟩ := hok h
      exact ⟨by simpa [List.filter, hsome] using h1, by simp [hsome, h2]⟩
    · simp only [hin]
      have hsome : (mapLookup m t.comparisonID).isSome = true := by
        cases h : mapLookup m t.comparisonID <;> simp_all
      obtain ⟨htask, hcase⟩ := Create_spec s w t
      rcases hcr : s.Create w t with ⟨w', t', e⟩
      rw [hcr] at htask hcase
      simp only at htask hcase
      rcases hcase with ⟨hcalls, -, hne⟩ | ⟨req, hreq, hcalls, -, hiff⟩
      · cases e with
        | none => exact absurd rfl hne
        | some err => exact ⟨[], by simp [hcalls], by simp⟩
      · cases e with
        | some err => exact ⟨[req], by simp [hcalls], by simp⟩
        | none =>
          obtain ⟨cs, hc, hok⟩ := ih w'
          refine ⟨req :: cs, by simp [hc, hcalls], fun h => ?_⟩
          obtain ⟨h1, h2⟩ := hok h
          refine ⟨?_, by simp [hsome, h2, htask]⟩
          simp only [List.filter, hsome]
          exact List.Forall₂.cons hreq h1

/-- C5. In every run of `Sync` the create and delete calls it issues are a
run of delete calls followed by a run of create calls: no delete call follows
a create call. -/
theorem C5_deletes_before_creates {σ : Type} (net : NetHTTP) (s : Scheduler σ) (fuel : Nat)
    (w : World σ) (tasks : List Task) (r : SyncResult σ)
    (h : s.Sync net fuel w tasks = some r) :
    ∃ (ds : List DeleteTaskRequest) (cs : List CreateTaskRequest),
      r.world.calls = w.calls ++ ds.map Call.delete ++ cs.map Call.create := by
  unfold Scheduler.Sync at h
  simp only at h
  split at h
  · exact absurd h (by simp)
  · simp only [Option.some.injEq] at h
    subst h
    exact ⟨[], [], by simp⟩
  · rename_i ss hloop
    obtain ⟨k, -, hdel, -⟩ := deleteAll_calls s ss.deleteNames w
    split at h
    · rename_i w' err hd
      simp only [Option.some.injEq] at h
      subst h
      rw [hd] at hdel
      simp only at hdel
      exact ⟨(ss.deleteNames.take k).map (fun n => { Name := n }), [],
        by simp [hdel, List.map_take, Function.comp_def]⟩
    · rename_i w' hd
      simp only [Option.some.injEq] at h
      subst h
      rw [hd] at hdel
      simp only at hdel
      obtain ⟨cs, hc, -⟩ := createAll_spec s ss.taskMap ss.tasks w'
      exact ⟨(ss.deleteNames.take k).map (fun n => { Name := n }), cs,
        by simp [hc, hdel, List.map_take, Function.comp_def]⟩

theorem C5_deletes_before_creates_witness :
    ∃ r, sampleScheduler.Sync sampleNet 3 { state := [sampleRemote], calls := [] }
          [sampleTask] = some r ∧
      ∃ (ds : List DeleteTaskRequest) (cs : List CreateTaskRequest),
        r.world.calls = [] ++ ds.map Call.delete ++ cs.map Call.create :=
  ⟨_, rfl, C5_deletes_before_creates sampleNet sampleScheduler 3
    { state := [sampleRemote], calls := [] } [sampleTask] _ rfl⟩

theorem nextLoop_mono (net : NetHTTP) :
    ∀ (fuel : Nat) (i : Iterator) (x : Except Err Task × Iterator),
      Iterator.nextLoop net fuel i = some x → Iterator.nextLoop net (fuel + 1) i = some x := by
  intro fuel
  induction fuel with
  | zero => intro i x h; simp [Iterator.nextLoop] at h
  | succ f ih =>
    intro i x h
    rw [Iterator.nextLoop] at h ⊢
    rcases hit : i.iter with _ | cur
    · simp [hit] at h
    · simp only [hit] at h ⊢
      rcases hitems : cur.items with _ | ⟨task, rest⟩
      · simp only [hitems] at h ⊢
        by_cases hd : cur.stop.Is .Done = true
        · by_cases ht : i.pageToken = []
          · simpa [hd, ht] using h
          · simp only [hd, ht, if_true, if_false] at h ⊢
            exact ih _ _ h
        · simpa [hd] using h
      · simp only [hitems] at h ⊢
        by_cases hp : HasPrefix task.Name (taskName i.queuePath i.taskIDPrefix) = true
        · simpa [hp] using h
        · simp only [hp, Bool.not_false, if_true] at h ⊢
          exact ih _ _ h

theorem nextLoop_mono_le (net : NetHTTP) (f g : Nat) (hfg : f ≤ g) (i : Iterator)
    (x : Except Err Task × Iterator) (h : Iterator.nextLoop net f i = some x) :
    Iterator.nextLoop net g i = some x := by
  induction hfg with
  | refl => exact h
  | step _ ih => exact nextLoop_mono net _ _ _ ih

theorem PbTaskToTask_fields (net : NetHTTP) (qp pre : Str) (e : PbTask) (t : Task)
    (h : PbTaskToTask net qp pre e = .ok t) : t.QueuePath = qp ∧ t.Prefix = pre := by
  unfold PbTaskToTask at h
  split at h
  · simp at h
  · split at h
    · split at h
      · simp at h
      · split at h
        · simp at h
        · simp only [Except.ok.injEq] at h
          subst h
          exact ⟨rfl, rfl⟩
    · simp at h

theorem listTasks_ownedOnly (i : Iterator) : i.listTasks.ownedOnly = i.ownedOnly.listTasks := rfl

theorem nextLoop_spec (net : NetHTTP) :
    ∀ (fuel : Nat) (i : Iterator) (r : Except Err Task) (i' : Iterator),
      Iterator.nextLoop net fuel i = some (r, i') →
        Iterator.nextLoop net fuel i.ownedOnly = some (r, i'.ownedOnly) ∧
        i'.queuePath = i.queuePath ∧ i'.taskIDPrefix = i.taskIDPrefix ∧
        i'.lister = i.lister ∧
        ∀ t, r = .ok t → ∃ e, owned i.queuePath i.taskIDPrefix e = true ∧
          PbTaskToTask net i.queuePath i.taskIDPrefix e = .ok t := by
  intro fuel
  induction fuel with
  | zero => intro i r i' h; simp [Iterator.nextLoop] at h
  | succ f ih =>
    intro i r i' h
    rw [Iterator.nextLoop] at h
    rcases hit : i.iter with _ | cur
    · simp [hit] at h
    · simp only [hit] at h
      rcases hitems : cur.items with _ | ⟨task, rest⟩
      · simp only [hitems] at h
        have hown : Iterator.nextLoop net (f + 1) i.ownedOnly =
            if cur.stop.Is .Done = true then
              if i.pageToken = [] then some (.error .Done, i.ownedOnly)
              else Iterator.nextLoop net f i.ownedOnly.listTasks
            else some (.error (.wrap "failed to iterate".toList cur.stop), i.ownedOnly) := by
          rw [Iterator.nextLoop]
          simp [Iterator.ownedOnly, hit, hitems]
        rw [hown]
        by_cases hd : cur.stop.Is .Done = true
        · by_cases ht : i.pageToken = []
          · simp only [hd, ht, if_true, Option.some.injEq, Prod.mk.injEq] at h ⊢
            obtain ⟨rfl, rfl⟩ := h
            exact ⟨by simp, rfl, rfl, rfl, by simp⟩
          · simp only [hd, ht, if_true, if_false] at h ⊢
            obtain ⟨h1, h2, h3, h4, h5⟩ := ih _ _ _ h
            rw [listTasks_ownedOnly] at h1
            exact ⟨h1, h2, h3, h4, h5⟩
        · simp only [hd, if_false, Option.some.injEq, Prod.mk.injEq] at h ⊢
          obtain ⟨rfl, rfl⟩ := h
          exact ⟨by simp, rfl, rfl, rfl, by simp⟩
      · simp only [hitems] at h
        by_cases hp : HasPrefix task.Name (taskName i.queuePath i.taskIDPrefix) = true
        · simp only [hp, Bool.not_true, Bool.false_eq_true, if_false] at h
          have hown : Iterator.nextLoop net (f + 1) i.ownedOnly =
              match PbTaskToTask net i.queuePath i.taskIDPrefix task with
              | .error err =>
                some (.error (.wrap "failed to convert task from pbtask".toList err),
                  Iterator.ownedOnly { i with iter := some { cur with items := rest } })
              | .ok t =>
                some (.ok t, Iterator.ownedOnly { i with iter := some { cur with items := rest } }) := by
            rw [Iterator.nextLoop]
            simp [Iterator.ownedOnly, hit, hitems, owned, hp, List.filter]
          rw [hown]
          rcases hconv : PbTaskToTask net i.queuePath i.taskIDPrefix task with err | t
          · simp only [hconv, Option.some.injEq, Prod.mk.injEq] at h ⊢
            obtain ⟨rfl, rfl⟩ := h
            exact ⟨by simp, rfl, rfl, rfl, by simp⟩
          · simp only [hconv, Option.some.injEq, Prod.mk.injEq] at h ⊢
            obtain ⟨rfl, rfl⟩ := h
            refine ⟨by simp, rfl, rfl, rfl, ?_⟩
            intro t' ht'
            simp only [Except.ok.injEq] at ht'
            subst ht'
            exact ⟨task, hp, hconv⟩
        · simp only [hp, Bool.not_false, if_true] at h
          obtain ⟨h1, h2, h3, h4, h5⟩ := ih _ _ _ h
          have hsame : Iterator.ownedOnly { i with iter := some { cur with items := rest } } =
              i.ownedOnly := by
            simp [Iterator.ownedOnly, hit, hitems, owned, hp, List.filter]
          rw [hsame] at h1
          exact ⟨nextLoop_mono net _ _ _ h1, h2, h3, h4, h5⟩

theorem Next_spec (net : NetHTTP) (fuel : Nat) (i : Iterator) (r : Except Err Task)
    (i' : Iterator) (h : i.Next net fuel = some (r, i')) :
    i.ownedOnly.Next net fuel = some (r, i'.ownedOnly) ∧
      i'.queuePath = i.queuePath ∧ i'.taskIDPrefix = i.taskIDPrefix ∧
      ∀ t, r = .ok t → ∃ e, owned i.queuePath i.taskIDPrefix e = true ∧
        PbTaskToTask net i.queuePath i.taskIDPrefix e = .ok t := by
  unfold Iterator.Next at h ⊢
  by_cases hn : i.iter.isNone = true
  · have hn' : i.ownedOnly.iter.isNone = true := by
      simp only [Iterator.ownedOnly]
      cases hi : i.iter <;> simp_all
    simp only [hn, hn', if_true] at h ⊢
    obtain ⟨h1, h2, h3, -, h5⟩ := nextLoop_spec net fuel _ _ _ h
    exact ⟨by rw [← listTasks_ownedOnly]; exact h1, h2, h3, h5⟩
  · have hn' : ¬ i.ownedOnly.iter.isNone = true := by
      simp only [Iterator.ownedOnly]
      cases hi : i.iter <;> simp_all
    simp only [hn, hn', if_false] at h ⊢
    obtain ⟨h1, h2, h3, -, h5⟩ := nextLoop_spec net fuel _ _ _ h
    exact ⟨h1, h2, h3, h5⟩

theorem drain_fields (net : NetHTTP) :
    ∀ (fuel : Nat) (i : Iterator) (rs : List Task) (e : Err),
      Iterator.drain net fuel i = some (rs, e) →
        ∀ t ∈ rs, t.QueuePath = i.queuePath ∧ t.Prefix = i.taskIDPrefix := by
  intro fuel
  induction fuel with
  | zero => intro i rs e h; simp [Iterator.drain] at h
  | succ f ih =>
    intro i rs e h
    rw [Iterator.drain] at h
    rcases hnext : i.Next net (f + 1) with _ | ⟨res, i'⟩
    · simp [hnext] at h
    · obtain ⟨-, hq, hp, hconv⟩ := Next_spec net _ _ _ _ hnext
      cases res with
      | error err =>
        simp only [hnext, Option.some.injEq, Prod.mk.injEq] at h
        obtain ⟨rfl, -⟩ := h
        simp
      | ok t =>
        simp only [hnext] at h
        rcases hd : Iterator.drain net f i' with _ | ⟨rs', e'⟩
        · simp [hd] at h
        · simp only [hd, Option.some.injEq, Prod.mk.injEq] at h
          obtain ⟨rfl, rfl⟩ := h
          intro t' ht'
          rcases List.mem_cons.1 ht' with rfl | ht'
          · obtain ⟨e0, -, hc⟩ := hconv _ rfl
            exact PbTaskToTask_fields net _ _ _ _ hc
          · have := ih i' rs' e' hd t' ht'
            rw [hq, hp] at this
            exact this

theorem syncStep_deleteNames (ss : SyncState) (r : Task) :
    (syncStep ss r).deleteNames = ss.deleteNames ∨
      (syncStep ss r).deleteNames = ss.deleteNames ++ [r.TaskName] := by
  unfold syncStep
  split
  · split
    · exact Or.inl rfl
    · split
      · exact Or.inl rfl
      · simp only
        split <;> exact Or.inr rfl
  · exact Or.inr rfl

theorem foldl_syncStep_deleteNames :
    ∀ (rs : List Task) (ss : SyncState),
      ∀ n ∈ (rs.foldl syncStep ss).deleteNames,
        n ∈ ss.deleteNames ∨ ∃ t ∈ rs, n = t.TaskName := by
  intro rs
  induction rs with
  | nil => intro ss n hn; exact Or.inl hn
  | cons r rest ih =>
    intro ss n hn
    rw [List.foldl_cons] at hn
    rcases ih _ n hn with h | ⟨t, ht, rfl⟩
    · rcases syncStep_deleteNames ss r with h' | h'
      · rw [h'] at h; exact Or.inl h
      · rw [h'] at h
        rcases List.mem_append.1 h with h | h
        · exact Or.inl h
        · simp only [List.mem_singleton] at h
          exact Or.inr ⟨r, by simp, h⟩
    · exact Or.inr ⟨t, by simp [ht], rfl⟩

theorem TaskName_HasPrefix (t : Task) :
    HasPrefix t.TaskName (taskName t.QueuePath t.Prefix) = true := by
  have : t.TaskName = taskName t.QueuePath t.Prefix ++
      (t.ID ++ '_' :: (FormatInt t.ScheduledAt.UnixNano 16 ++ 'v' :: Itoa t.Version)) := by
    rw [Task.TaskName, TaskID_shape]
    simp [taskName]
  rw [this]
  exact HasPrefix_append _ _

/-- What a terminating `Sync` run is made of: the listing returned the tasks
`rs` and stopped with `e`; on an error other than `Done` nothing is called,
otherwise the names collected by the loop are deleted and the tasks left in
the map are created. -/
theorem Sync_unfold {σ : Type} (net : NetHTTP) (s : Scheduler σ) (fuel : Nat) (w : World σ)
    (tasks : List Task) (r : SyncResult σ) (h : s.Sync net fuel w tasks = some r) :
    ∃ rs e, Iterator.drain net fuel (s.List w.state) = some (rs, e) ∧
      ∃ ss, ss = rs.foldl syncStep
          { tasks := tasks, taskMap := buildTaskMap tasks, deleteNames := [] } ∧
        ((e.Is .Done = false ∧ r.world = w ∧ r.tasks = ss.tasks ∧
            r.err = some (.wrap "failed to iterate remoteTasks".toList e)) ∨
          (e.Is .Done = true ∧ (deleteAll s w ss.deleteNames).2 ≠ none ∧
            r.world = (deleteAll s w ss.deleteNames).1 ∧ r.tasks = ss.tasks ∧
            r.err = (deleteAll s w ss.deleteNames).2) ∨
          (e.Is .Done = true ∧ (deleteAll s w ss.deleteNames).2 = none ∧
            r.world = (createAll s ss.taskMap (deleteAll s w ss.deleteNames).1 ss.tasks).1 ∧
            r.tasks = (createAll s ss.taskMap (deleteAll s w ss.deleteNames).1 ss.tasks).2.1 ∧
            r.err = (createAll s ss.taskMap (deleteAll s w ss.deleteNames).1 ss.tasks).2.2)) := by
  unfold Scheduler.Sync at h
  simp only [syncLoop_eq_drain] at h
  rcases hd : Iterator.drain net fuel (s.List w.state) with _ | ⟨rs, e⟩
  · simp [hd] at h
  · refine ⟨rs, e, rfl, _, rfl, ?_⟩
    simp only [hd] at h
    by_cases hdone : e.Is .Done = true
    · simp only [hdone, if_true] at h
      rcases hdel : deleteAll s w
          (rs.foldl syncStep
            { tasks := tasks, taskMap := buildTaskMap tasks, deleteNames := [] }).deleteNames
        with ⟨w', err⟩
      simp only [hdel] at h
      cases err with
      | some err =>
        simp only [Option.some.injEq] at h
        subst h
        exact Or.inr (Or.inl ⟨hdone, by simp, rfl, rfl, rfl⟩)
      | none =>
        simp only [Option.some.injEq] at h
        subst h
        exact Or.inr (Or.inr ⟨hdone, rfl, rfl, rfl, rfl⟩)
    · simp only [hdone] at h
      simp only [Bool.false_eq_true, if_false, Option.some.injEq] at h
      subst h
      exact Or.inl ⟨by simpa using hdone, rfl, rfl, rfl⟩

theorem Sync_delete_names {σ : Type} (net : NetHTTP) (s : Scheduler σ) (fuel : Nat)
    (w : World σ) (tasks : List Task) (r : SyncResult σ)
    (h : s.Sync net fuel w tasks = some r) (req : DeleteTaskRequest)
    (hreq : Call.delete req ∈ r.world.calls) :
    Call.delete req ∈ w.calls ∨
      HasPrefix req.Name (taskName (s.List w.state).queuePath (s.List w.state).taskIDPrefix)
        = true := by
  obtain ⟨rs, e, hdrain, ss, hss, hcases⟩ := Sync_unfold net s fuel w tasks r h
  have hnames : ∀ n ∈ ss.deleteNames,
      HasPrefix n (taskName (s.List w.state).queuePath (s.List w.state).taskIDPrefix) = true := by
    intro n hn
    rw [hss] at hn
    rcases foldl_syncStep_deleteNames rs _ n hn with h0 | ⟨t, ht, rfl⟩
    · simp at h0
    · obtain ⟨hq, hp⟩ := drain_fields net fuel _ rs e hdrain t ht
      rw [← hq, ← hp]
      exact TaskName_HasPrefix t
  obtain ⟨k, -, hdel, -⟩ := deleteAll_calls s ss.deleteNames w
  have hdelmem : Call.delete req ∈ (deleteAll s w ss.deleteNames).1.calls →
      Call.delete req ∈ w.calls ∨
        HasPrefix req.Name (taskName (s.List w.state).queuePath (s.List w.state).taskIDPrefix)
          = true := by
    intro hm
    rw [hdel] at hm
    rcases List.mem_append.1 hm with hm | hm
    · exact Or.inl hm
    · obtain ⟨n, hn, hn'⟩ := List.mem_map.1 hm
      simp only [Call.delete.injEq] at hn'
      subst hn'
      exact Or.inr (hnames n (List.mem_of_mem_take hn))
  rcases hcases with ⟨-, hw, -, -⟩ | ⟨-, -, hw, -, -⟩ | ⟨-, -, hw, -, -⟩
  · rw [hw] at hreq; exact Or.inl hreq
  · rw [hw] at hreq; exact hdelmem hreq
  · rw [hw] at hreq
    obtain ⟨cs, hc, -⟩ := createAll_spec s ss.taskMap ss.tasks (deleteAll s w ss.deleteNames).1
    rw [hc] at hreq
    rcases List.mem_append.1 hreq with hm | hm
    · exact hdelmem hm
    · obtain ⟨c, -, hc'⟩ := List.mem_map.1 hm
      simp at hc'

/-- C6. Prefix isolation. (1) `Iterator.Next` gives the same answer, task or
error, when every entry whose name does not start with
`queuePath + "/tasks/" + prefix` is removed from the listing, and a task it
returns is the conversion of an entry whose name does start with it: entries
under other prefixes are never returned and never make it fail. (2) Every
delete call a `Sync` run of the scheduler `New(client, project, location,
queue, prefix)` issues has a name that starts with
`queuePath + "/tasks/" + prefix`, so no entry under another prefix is deleted. -/
theorem C6_prefix_isolation (net : NetHTTP) :
    (∀ (fuel : Nat) (i : Iterator) (r : Except Err Task) (i' : Iterator),
        i.Next net fuel = some (r, i') →
          i.ownedOnly.Next net fuel = some (r, i'.ownedOnly) ∧
          ∀ t, r = .ok t → ∃ e, owned i.queuePath i.taskIDPrefix e = true ∧
            PbTaskToTask net i.queuePath i.taskIDPrefix e = .ok t) ∧
      (∀ {σ : Type} (client : CloudTasksClient σ) (project location queue pre : Str)
          (fuel : Nat) (w : World σ) (tasks : List Task) (r : SyncResult σ),
        (New client project location queue pre).Sync net fuel w tasks = some r →
          ∀ req, Call.delete req ∈ r.world.calls → Call.delete req ∉ w.calls →
            HasPrefix req.Name (taskName (QueuePath project location queue) pre) = true) := by
  refine ⟨fun fuel i r i' h => ?_, fun client project location queue pre fuel w tasks r h req hreq hnew => ?_⟩
  · obtain ⟨h1, -, -, h4⟩ := Next_spec net fuel i r i' h
    exact ⟨h1, h4⟩
  · rcases Sync_delete_names net _ fuel w tasks r h req hreq with h' | h'
    · exact absurd h' hnew
    · exact h'

theorem C6_prefix_isolation_witness :
    (∃ r i', (sampleScheduler.List [sampleForeign, sampleRemote]).Next sampleNet 3 = some (r, i') ∧
        (sampleScheduler.List [sampleForeign, sampleRemote]).ownedOnly.Next sampleNet 3 =
          some (r, i'.ownedOnly)) ∧
      ∃ r, sampleScheduler.Sync sampleNet 4 { state := [sampleForeign, sampleRemote], calls := [] }
          [] = some r ∧
        ∀ req, Call.delete req ∈ r.world.calls → Call.delete req ∉ ([] : List Call) →
          HasPrefix req.Name (taskName (QueuePath "p".toList "l".toList "q".toList) "test_".toList)
            = true :=
  ⟨⟨_, _, rfl, ((C6_prefix_isolation sampleNet).1 3
      (sampleScheduler.List [sampleForeign, sampleRemote]) _ _ rfl).1⟩,
    ⟨_, rfl, (C6_prefix_isolation sampleNet).2 storeClient "p".toList "l".toList "q".toList
      "test_".toList 4 { state := [sampleForeign, sampleRemote], calls := [] } [] _ rfl⟩⟩

theorem foldl_syncStep_nil_map :
    ∀ (rs : List Task) (ts : List Task) (dn : List Str),
      rs.foldl syncStep { tasks := ts, taskMap := [], deleteNames := dn } =
        { tasks := ts, taskMap := [], deleteNames := dn ++ rs.map Task.TaskName } := by
  intro rs
  induction rs with
  | nil => intro ts dn; simp
  | cons r rest ih =>
    intro ts dn
    rw [List.foldl_cons]
    have : syncStep { tasks := ts, taskMap := [], deleteNames := dn } r =
        { tasks := ts, taskMap := [], deleteNames := dn ++ [r.TaskName] } := by
      simp [syncStep, mapLookup]
    rw [this, ih]
    simp

theorem Sync_of_drain {σ : Type} (net : NetHTTP) (s : Scheduler σ) (fuel : Nat) (w : World σ)
    (tasks : List Task) (rs : List Task)
    (hd : Iterator.drain net fuel (s.List w.state) = some (rs, .Done)) :
    s.Sync net fuel w tasks =
      match deleteAll s w (rs.foldl syncStep
          { tasks := tasks, taskMap := buildTaskMap tasks, deleteNames := [] }).deleteNames with
      | (w', some err) =>
        some { err := some err,
               tasks := (rs.foldl syncStep
                 { tasks := tasks, taskMap := buildTaskMap tasks, deleteNames := [] }).tasks,
               world := w' }
      | (w', none) =>
        some { err := (createAll s (rs.foldl syncStep
                   { tasks := tasks, taskMap := buildTaskMap tasks, deleteNames := [] }).taskMap w'
                 (rs.foldl syncStep
                   { tasks := tasks, taskMap := buildTaskMap tasks, deleteNames := [] }).tasks).2.2,
               tasks := (createAll s (rs.foldl syncStep
                   { tasks := tasks, taskMap := buildTaskMap tasks, deleteNames := [] }).taskMap w'
                 (rs.foldl syncStep
                   { tasks := tasks, taskMap := buildTaskMap tasks, deleteNames := [] }).tasks).2.1,
               world := (createAll s (rs.foldl syncStep
                   { tasks := tasks, taskMap := buildTaskMap tasks, deleteNames := [] }).taskMap w'
                 (rs.foldl syncStep
                   { tasks := tasks, taskMap := buildTaskMap tasks, deleteNames := [] }).tasks).1 } := by
  unfold Scheduler.Sync
  simp only [syncLoop_eq_drain, hd]
  have : Err.Done.Is .Done = true := by decide
  simp only [this, if_true]

/-- C9 (as stated, refuted). Against a queue whose delete calls fail, `Sync`
with an empty desired list issues one delete call although the iterator
returned two owned tasks: the first failing delete ends the run. -/
theorem C9_counterexample :
    (Iterator.drain sampleNet 4
          ((New unavailableClient "p".toList "l".toList "q".toList "test_".toList).List
            [sampleRemote, sampleRemote2])).map (fun (x : List Task × Err) => (x.1.length, x.2)) =
        some (2, .Done) ∧
      ((New unavailableClient "p".toList "l".toList "q".toList "test_".toList).Sync sampleNet 4
          { state := [sampleRemote, sampleRemote2], calls := [] } []).map
          (fun (r : SyncResult (List PbTask)) => r.world.calls) =
        some [.delete { Name := sampleRemote.Name }] := by
  decide

/-- C9 (amended). When the iterator walks the listing to `Done`, returning the
owned tasks `rs`, `Sync` with an empty desired list issues no create call and
issues delete calls for an initial segment of `rs`, in listing order, each
with the name `TaskName()` of the returned task; the segment is all of `rs`,
one delete call per returned task, when `Sync` returns nil (a failing delete
call ends the run). -/
theorem C9_empty_desired_deletes {σ : Type} (net : NetHTTP) (s : Scheduler σ) (fuel : Nat)
    (w : World σ) (rs : List Task)
    (hd : Iterator.drain net fuel (s.List w.state) = some (rs, .Done)) :
    ∃ r k, s.Sync net fuel w [] = some r ∧ k ≤ rs.length ∧
      r.world.calls =
        w.calls ++ (rs.take k).map (fun t => Call.delete { Name := t.TaskName }) ∧
      (r.err = none → k = rs.length) := by
  have hfold : rs.foldl syncStep { tasks := [], taskMap := buildTaskMap [], deleteNames := [] } =
      { tasks := [], taskMap := [], deleteNames := rs.map Task.TaskName } := by
    have := foldl_syncStep_nil_map rs [] []
    simpa [buildTaskMap] using this
  rw [Sync_of_drain net s fuel w [] rs hd, hfold]
  obtain ⟨k, hk, hcalls, hnone⟩ := deleteAll_calls s (rs.map Task.TaskName) w
  rcases hdel : deleteAll s w (rs.map Task.TaskName) with ⟨w', _ | err⟩
  · rw [hdel] at hcalls hnone
    refine ⟨_, k, rfl, by simpa using hk, ?_, fun _ => by simpa using hnone rfl⟩
    simp only [createAll]
    rw [hcalls]
    simp [List.map_take, Function.comp_def]
  · rw [hdel] at hcalls hnone
    refine ⟨_, k, rfl, by simpa using hk, ?_, fun h => by simp at h⟩
    simp only at hcalls ⊢
    rw [hcalls]
    simp [List.map_take, Function.comp_def]

theorem C9_empty_desired_deletes_witness :
    ∃ r k, sampleScheduler.Sync sampleNet 4 { state := [sampleRemote, sampleRemote2], calls := [] }
          [] = some r ∧ k ≤ [sampleRemoteTask, sampleRemoteTask2].length ∧
      r.world.calls = [] ++ ([sampleRemoteTask, sampleRemoteTask2].take k).map
          (fun t => Call.delete { Name := t.TaskName }) ∧
      (r.err = none → k = [sampleRemoteTask, sampleRemoteTask2].length) :=
  C9_empty_desired_deletes sampleNet sampleScheduler 4
    { state := [sampleRemote, sampleRemote2], calls := [] }
    [sampleRemoteTask, sampleRemoteTask2] (by decide)

theorem createAll_prefix {σ : Type} (s : Scheduler σ) (m : List (Str × Nat)) :
    ∀ (ts : List Task) (w : World σ),
      ∃ (cs : List CreateTaskRequest) (k : Nat),
        k ≤ (ts.filter (fun t => (mapLookup m t.comparisonID).isSome)).length ∧
        (createAll s m w ts).1.calls = w.calls ++ cs.map Call.create ∧
        List.Forall₂ IsCreateRequestOf
          ((ts.filter (fun t => (mapLookup m t.comparisonID).isSome)).take k) cs ∧
        ((createAll s m w ts).2.2 = none →
          k = (ts.filter (fun t => (mapLookup m t.comparisonID).isSome)).length) := by
  intro ts
  induction ts with
  | nil => intro w; exact ⟨[], 0, by simp, by simp [createAll], by simp, by simp⟩
  | cons t rest ih =>
    intro w
    rw [createAll]
    by_cases hin : (mapLookup m t.comparisonID).isNone = true
    · simp only [hin, if_true]
      obtain ⟨cs, k, hk, hc, hf, hok⟩ := ih w
      have hsome : (mapLookup m t.comparisonID).isSome = false := by
        cases h : mapLookup m t.comparisonID <;> simp_all
      exact ⟨cs, k, by simpa [List.filter, hsome] using hk, hc,
        by simpa [List.filter, hsome] using hf, fun h => by simpa [List.filter, hsome] using hok h⟩
    · simp only [hin]
      have hsome : (mapLookup m t.comparisonID).isSome = true := by
        cases h : mapLookup m t.comparisonID <;> simp_all
      obtain ⟨-, hcase⟩ := Create_spec s w t
      rcases hcr : s.Create w t with ⟨w', t', e⟩
      rw [hcr] at hcase
      simp only at hcase
      rcases hcase with ⟨hcalls, -, hne⟩ | ⟨req, hreq, hcalls, -, -⟩
      · cases e with
        | none => exact absurd rfl hne
        | some err => exact ⟨[], 0, by simp, by simp [hcalls], by simp, by simp⟩
      · cases e with
        | some err =>
          refine ⟨[req], 1, by simp [List.filter, hsome], by simp [hcalls], ?_, by simp⟩
          simp only [List.filter, hsome, List.take_succ_cons, List.take_zero]
          exact List.Forall₂.cons hreq List.Forall₂.nil
        | none =>
          obtain ⟨cs, k, hk, hc, hf, hok⟩ := ih w'
          refine ⟨req :: cs, k + 1, by simpa [List.filter, hsome] using hk,
            by simp [hc, hcalls], ?_, fun h => by simpa [List.filter, hsome] using hok h⟩
          simp only [List.filter, hsome, List.take_succ_cons]
          exact List.Forall₂.cons hreq hf

theorem lookup_filter (p : Str → Bool) (k : Str) :
    ∀ (m : List (Str × Nat)),
      List.lookup k (m.filter (fun e => p e.1)) = if p k = true then List.lookup k m else none := by
  intro m
  induction m with
  | nil => simp [List.lookup]
  | cons e rest ih =>
    rcases e with ⟨a, b⟩
    by_cases hk : k = a
    · subst hk
      by_cases hp : p k = true
      · simp [List.filter, hp, List.lookup]
      · have hp' : p k = false := by simpa using hp
        simp only [List.filter, hp', ih]
        simp
    · have hka : (k == a) = false := by simpa using hk
      by_cases hp : p a = true
      · simp only [List.filter, hp, List.lookup, hka, ih]
      · have hp' : p a = false := by simpa using hp
        simp only [List.filter, hp', List.lookup, hka, ih]

theorem mapLookup_mapDelete (m : List (Str × Nat)) (k k' : Str) :
    mapLookup (mapDelete m k') k = if k = k' then none else mapLookup m k := by
  unfold mapDelete mapLookup
  rw [lookup_filter (fun x => decide (x ≠ k')) k m]
  by_cases h : k = k' <;> simp [h]

theorem mapLookup_mapInsert (m : List (Str × Nat)) (k k' : Str) (i : Nat) :
    mapLookup (mapInsert m k' i) k = if k = k' then some i else mapLookup m k := by
  by_cases h : k = k'
  · subst h; simp [mapInsert, mapLookup, List.lookup]
  · have hb : (k == k') = false := by simpa using h
    have := mapLookup_mapDelete m k k'
    simp only [h, if_false] at this ⊢
    rw [← this]
    simp [mapInsert, mapLookup, mapDelete, List.lookup, hb]

theorem buildTaskMap_append (ts : List Task) (t : Task) :
    buildTaskMap (ts ++ [t]) = mapInsert (buildTaskMap ts) t.comparisonID ts.length := by
  unfold buildTaskMap
  rw [List.enum_append]
  simp [List.foldl_append, List.enumFrom]

theorem buildTaskMap_isSome (ts : List Task) :
    ∀ t ∈ ts, (mapLookup (buildTaskMap ts) t.comparisonID).isSome = true := by
  induction ts using List.reverseRecOn with
  | nil => simp
  | append_singleton ts t ih =>
    intro t' ht'
    rw [buildTaskMap_append, mapLookup_mapInsert]
    by_cases h : t'.comparisonID = t.comparisonID
    · simp [h]
    · simp only [h, if_false]
      rcases List.mem_append.1 ht' with h1 | h1
      · exact ih t' h1
      · simp only [List.mem_singleton] at h1
        exact absurd (by rw [h1]) h

theorem withDefaultVersion_of_ne_zero (t : Task) (h : t.Version ≠ 0) :
    withDefaultVersion t = t := by
  simp [withDefaultVersion, h]

/-- C10 (as stated, refuted). With an empty remote queue and a desired list
of one task whose id is empty, `Sync` returns the validation error and issues
no create call for that task. -/
theorem C10_counterexample :
    (sampleScheduler.Sync sampleNet 2 { state := [], calls := [] } [sampleInvalidTask]).map
        (fun (r : SyncResult (List PbTask)) => (r.world.calls, r.err)) =
      some ([], some (.wrap "ID is empty".toList .ErrTaskValidation)) := by
  decide

/-- C10 (amended). When the iterator reports no owned remote task, `Sync`
issues no delete call and issues create calls for an initial segment of the
desired list, in input order, each carrying the wire form (`TaskToPbTask`) of
that task with its version unchanged when it is non-zero and 1 otherwise; the
segment is the whole list, one create call per desired task, when `Sync`
returns nil (a task that fails validation or conversion, or a failed create
call, ends the run). -/
theorem C10_empty_remote_creates {σ : Type} (net : NetHTTP) (s : Scheduler σ) (fuel : Nat)
    (w : World σ) (tasks : List Task)
    (hd : Iterator.drain net fuel (s.List w.state) = some ([], .Done)) :
    ∃ r cs k, s.Sync net fuel w tasks = some r ∧ k ≤ tasks.length ∧
      r.world.calls = w.calls ++ cs.map Call.create ∧
      List.Forall₂ IsCreateRequestOf (tasks.take k) cs ∧
      (∀ t req, IsCreateRequestOf t req → req.Task.Name = (withDefaultVersion t).TaskName) ∧
      (∀ t : Task, t.Version ≠ 0 → withDefaultVersion t = t) ∧
      (r.err = none → k = tasks.length ∧ r.tasks = tasks.map withDefaultVersion) := by
  have hfilter : tasks.filter (fun t => (mapLookup (buildTaskMap tasks) t.comparisonID).isSome)
      = tasks := by
    rw [List.filter_eq_self]
    exact buildTaskMap_isSome tasks
  rw [Sync_of_drain net s fuel w tasks [] hd]
  simp only [List.foldl_nil, deleteAll]
  obtain ⟨cs, k, hk, hc, hf, hok⟩ := createAll_prefix s (buildTaskMap tasks) tasks w
  obtain ⟨cs', hc', hok'⟩ := createAll_spec s (buildTaskMap tasks) tasks w
  rw [hfilter] at hk hf hok
  refine ⟨_, cs, k, rfl, hk, hc, hf, ?_, withDefaultVersion_of_ne_zero, ?_⟩
  · intro t req hreq
    exact TaskToPbTask_name _ _ hreq.2.1
  · intro herr
    refine ⟨hok herr, ?_⟩
    rw [(hok' herr).2]
    apply List.map_congr_left
    intro t ht
    simp [buildTaskMap_isSome tasks t ht]

theorem C10_empty_remote_creates_witness :
    ∃ r cs k, sampleScheduler.Sync sampleNet 2 { state := [sampleForeign], calls := [] }
          [sampleTask] = some r ∧ k ≤ [sampleTask].length ∧
      r.world.calls = [] ++ cs.map Call.create ∧
      List.Forall₂ IsCreateRequestOf ([sampleTask].take k) cs ∧
      (∀ t req, IsCreateRequestOf t req → req.Task.Name = (withDefaultVersion t).TaskName) ∧
      (∀ t : Task, t.Version ≠ 0 → withDefaultVersion t = t) ∧
      (r.err = none → k = [sampleTask].length ∧ r.tasks = [sampleTask].map withDefaultVersion) :=
  C10_empty_remote_creates sampleNet sampleScheduler 2
    { state := [sampleForeign], calls := [] } [sampleTask] (by decide)

theorem buildTaskMap_lookup_sound (ts : List Task) :
    ∀ (k : Str) (p : Nat), mapLookup (buildTaskMap ts) k = some p →
      ∃ t, ts[p]? = some t ∧ t.comparisonID = k := by
  induction ts using List.reverseRecOn with
  | nil => intro k p h; simp [buildTaskMap, mapLookup, List.enum, List.enumFrom] at h
  | append_singleton ts t ih =>
    intro k p h
    rw [buildTaskMap_append, mapLookup_mapInsert] at h
    by_cases hk : k = t.comparisonID
    · simp only [hk, if_true, Option.some.injEq] at h
      subst h
      exact ⟨t, by simp, hk.symm⟩
    · simp only [hk, if_false] at h
      obtain ⟨t', ht', hkey⟩ := ih k p h
      have hp : p < ts.length := by
        by_contra hcon
        rw [List.getElem?_eq_none (by omega)] at ht'
        simp at ht'
      exact ⟨t', by rw [List.getElem?_append_left hp]; exact ht', hkey⟩

theorem createAll_none {σ : Type} (s : Scheduler σ) (m : List (Str × Nat)) (w : World σ) :
    ∀ (ts : List Task), (∀ t ∈ ts, (mapLookup m t.comparisonID).isNone = true) →
      createAll s m w ts = (w, ts, none) := by
  intro ts
  induction ts with
  | nil => intro _; rfl
  | cons t rest ih =>
    intro h
    rw [createAll]
    simp only [h t (by simp), if_true]
    rw [ih (fun t' ht' => h t' (by simp [ht']))]

theorem steady_fold (tasks : List Task) :
    ∀ (rs : List Task) (removed : List Str),
      (rs.map Task.comparisonID).Nodup →
      (∀ R ∈ rs, R.comparisonID ∉ removed) →
      (∀ R ∈ rs, ∃ D ∈ tasks, D.comparisonID = R.comparisonID) →
      (∀ D ∈ tasks, ∀ R ∈ rs, D.comparisonID = R.comparisonID → D.Compare R = true) →
      rs.foldl syncStep
          { tasks := tasks,
            taskMap := (buildTaskMap tasks).filter (fun e => decide (e.1 ∉ removed)),
            deleteNames := [] } =
        { tasks := tasks,
          taskMap := (buildTaskMap tasks).filter
            (fun e => decide (e.1 ∉ removed ++ rs.map Task.comparisonID)),
          deleteNames := [] } := by
  intro rs
  induction rs with
  | nil => intro removed _ _ _ _; simp
  | cons R rest ih =>
    intro removed hnodup hfresh hex hcmp
    rw [List.foldl_cons]
    have hRfresh : R.comparisonID ∉ removed := hfresh R (by simp)
    obtain ⟨D0, hD0, hD0key⟩ := hex R (by simp)
    have hsome := buildTaskMap_isSome tasks D0 hD0
    rw [hD0key] at hsome
    obtain ⟨p, hp⟩ := Option.isSome_iff_exists.1 hsome
    obtain ⟨D, hD, hDkey⟩ := buildTaskMap_lookup_sound tasks _ _ hp
    have hDmem : D ∈ tasks := List.getElem?_mem hD
    have hlook : mapLookup ((buildTaskMap tasks).filter (fun e => decide (e.1 ∉ removed)))
        R.comparisonID = some p := by
      unfold mapLookup
      rw [lookup_filter (fun x => decide (x ∉ removed))]
      simp only [hRfresh, not_false_eq_true, decide_True, if_true]
      exact hp
    have hstep : syncStep
        { tasks := tasks,
          taskMap := (buildTaskMap tasks).filter (fun e => decide (e.1 ∉ removed)),
          deleteNames := [] } R =
        { tasks := tasks,
          taskMap := (buildTaskMap tasks).filter
            (fun e => decide (e.1 ∉ removed ++ [R.comparisonID])),
          deleteNames := [] } := by
      unfold syncStep
      simp only [hlook, hD, hcmp D hDmem R (by simp) hDkey, if_true, mapDelete, hDkey,
        List.filter_filter]
      congr 1
      apply List.filter_congr
      intro e _
      simp [Bool.and_comm]
    rw [hstep]
    have hnodup' : (rest.map Task.comparisonID).Nodup := by
      simp only [List.map_cons, List.nodup_cons] at hnodup
      exact hnodup.2
    have hnotin : R.comparisonID ∉ rest.map Task.comparisonID := by
      simp only [List.map_cons, List.nodup_cons] at hnodup
      exact hnodup.1
    rw [ih (removed ++ [R.comparisonID]) hnodup' ?_ (fun R' h' => hex R' (by simp [h']))
      (fun D' hD' R' h' => hcmp D' hD' R' (by simp [h']))]
    · simp
    · intro R' hR' hmem
      rcases List.mem_append.1 hmem with h1 | h1
      · exact hfresh R' (by simp [hR']) h1
      · simp only [List.mem_singleton] at h1
        exact hnotin (by rw [← h1]; exact List.mem_map_of_mem _ hR')

/-- Steady state of `Sync`: the listing loop only removes matched keys. -/
theorem steady_state_core {σ : Type} (net : NetHTTP) (s : Scheduler σ) (fuel : Nat) (w : World σ)
    (tasks rs : List Task)
    (hd : Iterator.drain net fuel (s.List w.state) = some (rs, .Done))
    (hkeys : (rs.map Task.comparisonID).Nodup)
    (hremote : ∀ R ∈ rs, ∃ D ∈ tasks, D.comparisonID = R.comparisonID ∧ D.Compare R = true)
    (hdesired : ∀ D ∈ tasks, ∃ R ∈ rs, D.comparisonID = R.comparisonID ∧ D.Compare R = true) :
    s.Sync net fuel w tasks = some { err := none, tasks := tasks, world := w } := by
  have hcmp : ∀ D ∈ tasks, ∀ R ∈ rs, D.comparisonID = R.comparisonID → D.Compare R = true := by
    intro D hD R hR hkey
    obtain ⟨R', hR', hkey', hc⟩ := hdesired D hD
    have : R' = R :=
      List.inj_on_of_nodup_map hkeys hR' hR (by rw [← hkey', hkey])
    rw [← this]
    exact hc
  have hfold := steady_fold tasks rs [] hkeys (by simp)
    (fun R hR => let ⟨D, hD, hk, _⟩ := hremote R hR; ⟨D, hD, hk⟩) hcmp
  simp only [List.not_mem_nil, not_false_eq_true, decide_True, List.filter_true,
    List.nil_append] at hfold
  rw [Sync_of_drain net s fuel w tasks rs hd, hfold]
  simp only [deleteAll]
  rw [createAll_none]
  intro t ht
  obtain ⟨R, hR, hkey, -⟩ := hdesired t ht
  unfold mapLookup
  rw [lookup_filter (fun x => decide (x ∉ rs.map Task.comparisonID))]
  have : t.comparisonID ∈ rs.map Task.comparisonID := by
    rw [hkey]; exact List.mem_map_of_mem _ hR
  simp [this]

/-- C8. Steady state: when the iterator returns the owned remote tasks `rs`
and then `Done`, the tasks of `rs` have pairwise distinct comparison keys,
every one of them has a desired task with the same key that `Compare`
accepts, and every desired task has such a remote task, then `Sync` returns
nil, leaves the desired tasks (versions included) as they were and issues no
delete and no create call. -/
theorem C8_steady_state {σ : Type} (net : NetHTTP) (s : Scheduler σ) (fuel : Nat) (w : World σ)
    (tasks rs : List Task)
    (hd : Iterator.drain net fuel (s.List w.state) = some (rs, .Done))
    (hkeys : (rs.map Task.comparisonID).Nodup)
    (hremote : ∀ R ∈ rs, ∃ D ∈ tasks, D.comparisonID = R.comparisonID ∧ D.Compare R = true)
    (hdesired : ∀ D ∈ tasks, ∃ R ∈ rs, D.comparisonID = R.comparisonID ∧ D.Compare R = true) :
    s.Sync net fuel w tasks = some { err := none, tasks := tasks, world := w } :=
  steady_state_core net s fuel w tasks rs hd hkeys hremote hdesired

theorem C8_steady_state_witness :
    sampleScheduler.Sync sampleNet 3 { state := [sampleRemote], calls := [] } [sampleRemoteTask] =
      some { err := none, tasks := [sampleRemoteTask],
             world := { state := [sampleRemote], calls := [] } } :=
  C8_steady_state sampleNet sampleScheduler 3 { state := [sampleRemote], calls := [] }
    [sampleRemoteTask] [sampleRemoteTask] (by decide) (by decide) (by decide) (by decide)

theorem Base_cases (p : Str) : Base p = ['.'] ∨ Base p = ['/'] ∨ '/' ∉ Base p := by
  unfold Base
  by_cases hp : p = []
  · simp [hp]
  · simp only [hp, if_false]
    split
    · exact Or.inr (Or.inl rfl)
    · refine Or.inr (Or.inr ?_)
      intro hmem
      rw [List.mem_reverse] at hmem
      have := List.mem_takeWhile_imp hmem
      simp at this

theorem LastIndex_mem (c : Char) (b : Str) (h : 0 ≤ LastIndex b [c]) : c ∈ b := by
  by_contra hc
  rw [LastIndex_not_mem c b hc] at h
  omega

theorem Atoi_range (s : Str) (v : Int) (h : Atoi s = some v) : -2 ^ 63 ≤ v ∧ v < 2 ^ 63 := by
  unfold Atoi at h
  simp only at h
  generalize (if s.head? = some '-' ∨ s.head? = some '+' then s.tail else s) = body at h
  by_cases hb : body = []
  · simp [hb] at h
  · simp only [hb, if_false] at h
    cases hp : parseDigits body 0 with
    | none => simp [hp] at h
    | some n =>
      simp only [hp] at h
      by_cases hneg : s.head? = some '-'
      · simp [hneg] at h
        omega
      · simp [hneg] at h
        omega

theorem HasPrefix_eq_append (s pre : Str) (h : HasPrefix s pre = true) :
    s = pre ++ TrimPrefix s pre := by
  have hp : pre <+: s := List.isPrefixOf_iff_prefix.1 h
  obtain ⟨t, rfl⟩ := hp
  simp [TrimPrefix, HasPrefix_append]

theorem ParseTaskName_ok (pre name id : Str) (v : Int)
    (h : ParseTaskName pre name = .ok (id, v)) :
    '/' ∉ pre ∧ '/' ∉ id ∧ -2 ^ 63 ≤ v ∧ v < 2 ^ 63 := by
  unfold ParseTaskName at h
  simp only at h
  split at h
  · simp at h
  · rename_i hpre
    simp only [Bool.not_eq_true, Bool.not_eq_false'] at hpre
    split at h
    · simp at h
    · rename_i hts
      split at h
      · simp at h
      · split at h
        · simp at h
        · rename_i version hat
          simp only [Except.ok.injEq, Prod.mk.injEq] at h
          obtain ⟨hid, hv⟩ := h
          subst hv
          have hus : '_' ∈ TrimPrefix (Base name) pre :=
            LastIndex_mem '_' _ (by simpa [taskTimestampSeparator] using not_lt.1 hts)
          have hbase := HasPrefix_eq_append _ _ hpre
          have husb : '_' ∈ Base name := by
            rw [hbase]; exact List.mem_append_right _ hus
          have hns : '/' ∉ Base name := by
            rcases Base_cases name with h1 | h1 | h1
            · rw [h1] at husb; simp at husb
            · rw [h1] at husb; simp at husb
            · exact h1
          rw [hbase] at hns
          simp only [List.mem_append, not_or] at hns
          refine ⟨hns.1, ?_, Atoi_range _ _ hat⟩
          rw [← hid]
          exact fun hm => hns.2 (List.mem_of_mem_take hm)

theorem PbTaskToTask_ok (net : NetHTTP) (qp pre : Str) (e : PbTask) (t : Task)
    (h : PbTaskToTask net qp pre e = .ok t) :
    t.QueuePath = qp ∧ t.Prefix = pre ∧ ParseTaskName pre e.Name = .ok (t.ID, t.Version) ∧
      t.ScheduledAt = Timestamp.AsTime e.ScheduleTime := by
  unfold PbTaskToTask at h
  split at h
  · simp at h
  · rename_i id version hparse
    split at h
    · split at h
      · simp at h
      · split at h
        · simp at h
        · simp only [Except.ok.injEq] at h
          subst h
          exact ⟨rfl, rfl, hparse, rfl⟩
    · simp at h

theorem Task_TaskID_no_slash_of_parsed (net : NetHTTP) (qp pre : Str) (e : PbTask) (t : Task)
    (h : PbTaskToTask net qp pre e = .ok t) :
    '/' ∉ t.TaskID ∧ -2 ^ 63 ≤ t.Version ∧ t.Version < 2 ^ 63 := by
  obtain ⟨-, hp, hparse, -⟩ := PbTaskToTask_ok net qp pre e t h
  obtain ⟨h1, h2, h3, h4⟩ := ParseTaskName_ok _ _ _ _ hparse
  exact ⟨TaskID_no_slash t (by rw [hp]; exact h1) h2, h3, h4⟩

theorem validChar_not_slash : validChar '/' = false := by decide

theorem Validate_no_slash (t : Task) (h : t.Validate = none) : '/' ∉ t.TaskID := by
  unfold Task.Validate at h
  split at h
  · simp at h
  · split at h
    · simp at h
    · rename_i hv
      unfold Task.validateTaskID at hv
      simp only at hv
      split at hv
      · simp at hv
      · split at hv
        · simp at hv
        · rename_i hfind
          intro hmem
          have := List.find?_eq_none.1 hfind '/' hmem
          simp [validChar_not_slash] at this

theorem taskName_inj (q1 q2 a b : Str) (ha : '/' ∉ a) (hb : '/' ∉ b) (ha0 : a ≠ [])
    (hb0 : b ≠ []) (h : taskName q1 a = taskName q2 b) : a = b := by
  rw [← taskName_Base q1 a ha0 ha, ← taskName_Base q2 b hb0 hb, h]

theorem split_at_last (c : Char) :
    ∀ (a a' b b' : Str), c ∉ b → c ∉ b' → a ++ c :: b = a' ++ c :: b' → a = a' ∧ b = b' := by
  intro a
  induction a with
  | nil =>
    intro a' b b' hb hb' h
    cases a' with
    | nil => simpa using h
    | cons x xs =>
      simp only [List.nil_append, List.cons_append, List.cons.injEq] at h
      obtain ⟨rfl, rfl⟩ := h
      simp at hb
  | cons x xs ih =>
    intro a' b b' hb hb' h
    cases a' with
    | nil =>
      simp only [List.nil_append, List.cons_append, List.cons.injEq] at h
      obtain ⟨rfl, h2⟩ := h
      rw [← h2] at hb'
      simp at hb'
    | cons y ys =>
      simp only [List.cons_append, List.cons.injEq] at h
      obtain ⟨rfl, h2⟩ := h
      obtain ⟨h3, h4⟩ := ih ys b b' hb hb' h2
      exact ⟨by rw [h3], h4⟩

theorem toDigits10_inj (m n : Nat) (h : Nat.toDigits 10 m = Nat.toDigits 10 n) : m = n := by
  have h1 := parseDigits_toDigits m
  rw [h, parseDigits_toDigits] at h1
  simpa using h1.symm

theorem Itoa_inj (v w : Int) (h : Itoa v = Itoa w) : v = w := by
  unfold Itoa FormatInt at h
  have hnd : ∀ n : Nat, '-' ∉ Nat.toDigits 10 n := fun n hm =>
    (hexChar_cases _ (toDigits_hex 10 n (by decide) (by decide) _ hm)).2.2.2.1 rfl
  by_cases hv : v < 0 <;> by_cases hw : w < 0
  · simp only [hv, hw, if_true, List.cons.injEq, true_and] at h
    have := toDigits10_inj _ _ h
    omega
  · simp only [hv, hw, if_true, if_false] at h
    exact absurd (by rw [← h]; simp) (hnd w.natAbs)
  · simp only [hv, hw, if_true, if_false] at h
    exact absurd (by rw [h]; simp) (hnd v.natAbs)
  · simp only [hv, hw, if_false] at h
    have := toDigits10_inj _ _ h
    omega

theorem TaskID_inj (t u : Task) (h : t.TaskID = u.TaskID) :
    t.comparisonID = u.comparisonID ∧ t.Version = u.Version := by
  have hnv : ∀ v : Int, 'v' ∉ Itoa v := fun v =>
    FormatInt_not_mem v 10 (by decide) (by decide) 'v' (by decide) (by decide)
  unfold Task.TaskID at h
  simp only [taskVersionSeparator, List.append_assoc, List.singleton_append] at h
  obtain ⟨h1, h2⟩ := split_at_last 'v' _ _ _ _ (hnv _) (hnv _) h
  exact ⟨h1, Itoa_inj _ _ h2⟩

theorem TaskName_inj (t u : Task) (ht : '/' ∉ t.TaskID) (hu : '/' ∉ u.TaskID)
    (h : t.TaskName = u.TaskName) :
    t.comparisonID = u.comparisonID ∧ t.Version = u.Version :=
  TaskID_inj t u (taskName_inj _ _ _ _ ht hu (TaskID_ne_nil t) (TaskID_ne_nil u) h)

theorem VerLe_refl (a : Task) : VerLe a a := ⟨rfl, le_refl _⟩

theorem VerLe_trans {a b c : Task} (h1 : VerLe a b) (h2 : VerLe b c) : VerLe a c := by
  refine ⟨?_, le_trans h1.2 h2.2⟩
  rw [h2.1, h1.1]

theorem VerLe_key {a b : Task} (h : VerLe a b) : b.comparisonID = a.comparisonID := by
  rw [h.1]; rfl

theorem VerLe_set (a : Task) (v : Int) (h : a.Version ≤ v) : VerLe a { a with Version := v } :=
  ⟨rfl, h⟩

theorem TasksLe_refl (l : List Task) : TasksLe l l :=
  ⟨rfl, fun _ a h => ⟨a, h, VerLe_refl a⟩⟩

theorem TasksLe_trans {l1 l2 l3 : List Task} (h1 : TasksLe l1 l2) (h2 : TasksLe l2 l3) :
    TasksLe l1 l3 := by
  refine ⟨h1.1.trans h2.1, ?_⟩
  intro p a ha
  obtain ⟨b, hb, hab⟩ := h1.2 p a ha
  obtain ⟨c, hc, hbc⟩ := h2.2 p b hb
  exact ⟨c, hc, VerLe_trans hab hbc⟩

theorem TasksLe_set (l : List Task) (p : Nat) (D D' : Task) (hD : l[p]? = some D)
    (h : VerLe D D') : TasksLe l (l.set p D') := by
  refine ⟨by simp, ?_⟩
  intro q a ha
  by_cases hq : p = q
  · subst hq
    rw [hD] at ha
    simp only [Option.some.injEq] at ha
    subst ha
    have hp : p < l.length := by
      by_contra hcon
      rw [List.getElem?_eq_none (by omega)] at hD
      simp at hD
    exact ⟨D', by simp [List.getElem?_set, hp], h⟩
  · exact ⟨a, by rw [List.getElem?_set_ne hq]; exact ha, VerLe_refl a⟩

theorem wrapInt64_succ (v : Int) (hlo : -2 ^ 63 ≤ v) (hhi : v < 2 ^ 63 - 1) :
    wrapInt64 (v + 1) = v + 1 :=
  wrapInt64_of_range _ (by omega) (by omega)

/-- The four ways one turn of the listing loop changes the state. -/
theorem syncStep_cases (ss : SyncState) (R : Task) :
    (mapLookup ss.taskMap R.comparisonID = none ∧
        syncStep ss R = { ss with deleteNames := ss.deleteNames ++ [R.TaskName] }) ∨
      (∃ p, mapLookup ss.taskMap R.comparisonID = some p ∧ ss.tasks[p]? = none ∧
        syncStep ss R = ss) ∨
      (∃ p D, mapLookup ss.taskMap R.comparisonID = some p ∧ ss.tasks[p]? = some D ∧
        D.Compare R = true ∧
        syncStep ss R = { ss with taskMap := mapDelete ss.taskMap D.comparisonID }) ∨
      (∃ p D, mapLookup ss.taskMap R.comparisonID = some p ∧ ss.tasks[p]? = some D ∧
        D.Compare R = false ∧
        syncStep ss R =
          { tasks := ss.tasks.set p
              { D with Version :=
                  if D.Version ≤ R.Version then wrapInt64 (R.Version + 1) else D.Version },
            taskMap := ss.taskMap,
            deleteNames := ss.deleteNames ++ [R.TaskName] }) := by
  unfold syncStep
  cases hl : mapLookup ss.taskMap R.comparisonID with
  | none => exact Or.inl ⟨rfl, rfl⟩
  | some p =>
    cases ht : ss.tasks[p]? with
    | none => exact Or.inr (Or.inl ⟨p, rfl, ht, by simp only [ht]⟩)
    | some D =>
      by_cases hc : D.Compare R = true
      · exact Or.inr (Or.inr (Or.inl ⟨p, D, rfl, ht, hc, by simp only [ht, hc, if_true]⟩))
      · refine Or.inr (Or.inr (Or.inr ⟨p, D, rfl, ht, by simpa using hc, ?_⟩))
        simp only [ht, hc, if_false]
        by_cases hv : D.Version ≤ R.Version
        · simp [hv]
        · simp only [hv, if_false]
          have hset : ss.tasks.set p D = ss.tasks := by
            apply List.ext_getElem?
            intro q
            by_cases hq : p = q
            · subst hq
              have hp : p < ss.tasks.length := by
                by_contra hcon
                rw [List.getElem?_eq_none (by omega)] at ht
                simp at ht
              simp [List.getElem?_set, hp, ht]
            · rw [List.getElem?_set_ne hq]
          have hD : ({ D with Version := D.Version } : Task) = D := rfl
          rw [hD, hset]
          simp

theorem Compare_key (D R : Task) (h : D.Compare R = true) :
    D.comparisonID = R.comparisonID := by
  unfold Task.Compare at h
  by_contra hne
  simp [hne] at h

theorem syncStep_TasksLe (ss : SyncState) (R : Task) (hlo : -2 ^ 63 ≤ R.Version)
    (hhi : R.Version < 2 ^ 63 - 1) : TasksLe ss.tasks (syncStep ss R).tasks := by
  rcases syncStep_cases ss R with ⟨-, h⟩ | ⟨p, -, -, h⟩ | ⟨p, D, -, -, -, h⟩ | ⟨p, D, -, hD, -, h⟩
  · rw [h]; exact TasksLe_refl _
  · rw [h]; exact TasksLe_refl _
  · rw [h]; exact TasksLe_refl _
  · rw [h]
    apply TasksLe_set _ _ _ _ hD
    apply VerLe_set
    split
    · rw [wrapInt64_succ _ hlo hhi]; omega
    · exact le_refl _

theorem foldl_TasksLe :
    ∀ (rs : List Task) (ss : SyncState),
      (∀ R ∈ rs, -2 ^ 63 ≤ R.Version ∧ R.Version < 2 ^ 63 - 1) →
      TasksLe ss.tasks (rs.foldl syncStep ss).tasks := by
  intro rs
  induction rs with
  | nil => intro ss _; exact TasksLe_refl _
  | cons R rest ih =>
    intro ss h
    rw [List.foldl_cons]
    exact TasksLe_trans (syncStep_TasksLe ss R (h R (by simp)).1 (h R (by simp)).2)
      (ih _ (fun R' hR' => h R' (by simp [hR'])))

theorem VerLe_withDefaultVersion (t : Task) : VerLe t (withDefaultVersion t) := by
  unfold withDefaultVersion
  split
  · rename_i h
    exact ⟨rfl, by simp [h]⟩
  · exact VerLe_refl t

theorem TasksLe_cons {a b : Task} {l1 l2 : List Task} (h : VerLe a b) (h' : TasksLe l1 l2) :
    TasksLe (a :: l1) (b :: l2) := by
  refine ⟨by simp [h'.1], ?_⟩
  intro p x hx
  cases p with
  | zero =>
    simp only [List.getElem?_cons_zero, Option.some.injEq] at hx
    subst hx
    exact ⟨b, by simp, h⟩
  | succ q =>
    simp only [List.getElem?_cons_succ] at hx
    obtain ⟨y, hy, hxy⟩ := h'.2 q x hx
    exact ⟨y, by simpa using hy, hxy⟩

theorem createAll_TasksLe {σ : Type} (s : Scheduler σ) (m : List (Str × Nat)) :
    ∀ (ts : List Task) (w : World σ), TasksLe ts (createAll s m w ts).2.1 := by
  intro ts
  induction ts with
  | nil => intro w; exact TasksLe_refl _
  | cons t rest ih =>
    intro w
    rw [createAll]
    split
    · exact TasksLe_cons (VerLe_refl t) (ih w)
    · have hspec := (Create_spec s w t).1
      rcases hcr : s.Create w t with ⟨w', t', e⟩
      rw [hcr] at hspec
      simp only at hspec
      subst hspec
      cases e with
      | some err => exact TasksLe_cons (VerLe_withDefaultVersion t) (TasksLe_refl _)
      | none => exact TasksLe_cons (VerLe_withDefaultVersion t) (ih w')

theorem TasksLe_back {l1 l2 : List Task} (h : TasksLe l1 l2) (p : Nat) (b : Task)
    (hb : l2[p]? = some b) : ∃ a, l1[p]? = some a ∧ VerLe a b := by
  have hp : p < l2.length := by
    by_contra hcon
    rw [List.getElem?_eq_none (by omega)] at hb
    simp at hb
  have hp1 : p < l1.length := by rw [h.1]; exact hp
  obtain ⟨b', hb', hle⟩ := h.2 p l1[p] (List.getElem?_eq_getElem hp1)
  rw [hb] at hb'
  simp only [Option.some.injEq] at hb'
  subst hb'
  exact ⟨l1[p], List.getElem?_eq_getElem hp1, hle⟩

theorem getElem?_isSome_of_MapSound {tasks : List Task} {m : List (Str × Nat)}
    (h : MapSound tasks m) (k : Str) (p : Nat) (hl : mapLookup m k = some p) :
    tasks[p]? ≠ none := by
  obtain ⟨t, ht, -⟩ := h k p hl
  simp [ht]

theorem LoopInv_init (tasks : List Task) : LoopInv [] (initState tasks) :=
  ⟨buildTaskMap_lookup_sound tasks, fun _ _ _ R hR => by simp at hR⟩

theorem LoopInv_step (done : List Task) (ss : SyncState) (R : Task)
    (hlo : -2 ^ 63 ≤ R.Version) (hhi : R.Version < 2 ^ 63 - 1) (h : LoopInv done ss) :
    LoopInv (done ++ [R]) (syncStep ss R) := by
  obtain ⟨hsound, hbound⟩ := h
  rcases syncStep_cases ss R with ⟨hl, hs⟩ | ⟨p0, hl, ht, hs⟩ | ⟨p0, D, hl, ht, hc, hs⟩ |
    ⟨p0, D, hl, ht, hc, hs⟩
  · rw [hs]
    refine ⟨hsound, ?_⟩
    intro k p hk R' hR' hkey
    rcases List.mem_append.1 hR' with h1 | h1
    · exact hbound k p hk R' h1 hkey
    · simp only [List.mem_singleton] at h1
      subst h1
      simp only at hk
      rw [hkey, hk] at hl
      simp at hl
  · exact absurd ht (getElem?_isSome_of_MapSound hsound _ _ hl)
  · rw [hs]
    have hDkey : D.comparisonID = R.comparisonID := Compare_key D R hc
    have hlook : ∀ k p, mapLookup (mapDelete ss.taskMap D.comparisonID) k = some p →
        k ≠ R.comparisonID ∧ mapLookup ss.taskMap k = some p := by
      intro k p hk
      rw [mapLookup_mapDelete] at hk
      by_cases hkk : k = D.comparisonID
      · simp [hkk] at hk
      · simp only [hkk, if_false] at hk
        exact ⟨by rw [← hDkey]; exact hkk, hk⟩
    refine ⟨fun k p hk => hsound k p (hlook k p hk).2, ?_⟩
    intro k p hk R' hR' hkey
    obtain ⟨hne, hk'⟩ := hlook k p hk
    rcases List.mem_append.1 hR' with h1 | h1
    · exact hbound k p hk' R' h1 hkey
    · simp only [List.mem_singleton] at h1
      subst h1
      exact absurd hkey.symm hne
  · have hp0 : p0 < ss.tasks.length := by
      by_contra hcon
      rw [List.getElem?_eq_none (by omega)] at ht
      simp at ht
    have hDkey : D.comparisonID = R.comparisonID := by
      obtain ⟨t, ht', hk⟩ := hsound _ _ hl
      rw [ht] at ht'
      simp only [Option.some.injEq] at ht'
      subst ht'
      exact hk
    have hver : R.Version < (if D.Version ≤ R.Version then wrapInt64 (R.Version + 1)
        else D.Version) ∧ D.Version ≤ (if D.Version ≤ R.Version then wrapInt64 (R.Version + 1)
        else D.Version) := by
      split
      · rw [wrapInt64_succ _ hlo hhi]; omega
      · omega
    generalize (if D.Version ≤ R.Version then wrapInt64 (R.Version + 1) else D.Version) = v
      at hs hver
    have hget : (ss.tasks.set p0 { D with Version := v })[p0]? =
        some { D with Version := v } := by
      simp [List.getElem?_set, hp0]
    rw [hs]
    refine ⟨?_, ?_⟩
    · intro k p hk
      obtain ⟨t, ht', hkey⟩ := hsound k p hk
      by_cases hp : p0 = p
      · subst hp
        rw [ht] at ht'
        simp only [Option.some.injEq] at ht'
        subst ht'
        exact ⟨{ D with Version := v }, hget, hkey⟩
      · exact ⟨t, by simp only [List.getElem?_set_ne hp]; exact ht', hkey⟩
    · intro k p hk R' hR' hkey
      simp only at hk
      by_cases hp : p0 = p
      · subst hp
        refine ⟨{ D with Version := v }, hget, ?_⟩
        simp only
        rcases List.mem_append.1 hR' with h1 | h1
        · obtain ⟨D1, hD1, hlt⟩ := hbound k p0 hk R' h1 hkey
          rw [ht] at hD1
          simp only [Option.some.injEq] at hD1
          subst hD1
          exact lt_of_lt_of_le hlt hver.2
        · simp only [List.mem_singleton] at h1
          subst h1
          exact hver.1
      · rcases List.mem_append.1 hR' with h1 | h1
        · obtain ⟨D1, hD1, hlt⟩ := hbound k p hk R' h1 hkey
          exact ⟨D1, by simp only [List.getElem?_set_ne hp]; exact hD1, hlt⟩
        · simp only [List.mem_singleton] at h1
          subst h1
          rw [hkey, hk] at hl
          simp only [Option.some.injEq] at hl
          exact absurd hl.symm hp

theorem LoopInv_foldl :
    ∀ (rs done : List Task) (ss : SyncState),
      (∀ R ∈ rs, -2 ^ 63 ≤ R.Version ∧ R.Version < 2 ^ 63 - 1) →
      LoopInv done ss → LoopInv (done ++ rs) (rs.foldl syncStep ss) := by
  intro rs
  induction rs with
  | nil => intro done ss _ h; simpa using h
  | cons R rest ih =>
    intro done ss hr h
    rw [List.foldl_cons]
    have := ih (done ++ [R]) (syncStep ss R) (fun R' hR' => hr R' (by simp [hR']))
      (LoopInv_step done ss R (hr R (by simp)).1 (hr R (by simp)).2 h)
    simpa using this

theorem drain_conv (net : NetHTTP) :
    ∀ (fuel : Nat) (i : Iterator) (rs : List Task) (e : Err),
      Iterator.drain net fuel i = some (rs, e) →
        ∀ t ∈ rs, ∃ pb, owned i.queuePath i.taskIDPrefix pb = true ∧
          PbTaskToTask net i.queuePath i.taskIDPrefix pb = .ok t := by
  intro fuel
  induction fuel with
  | zero => intro i rs e h; simp [Iterator.drain] at h
  | succ f ih =>
    intro i rs e h
    rw [Iterator.drain] at h
    rcases hnext : i.Next net (f + 1) with _ | ⟨res, i'⟩
    · simp [hnext] at h
    · obtain ⟨-, hq, hp, hconv⟩ := Next_spec net _ _ _ _ hnext
      cases res with
      | error err =>
        simp only [hnext, Option.some.injEq, Prod.mk.injEq] at h
        obtain ⟨rfl, -⟩ := h
        simp
      | ok t =>
        simp only [hnext] at h
        rcases hd : Iterator.drain net f i' with _ | ⟨rs', e'⟩
        · simp [hd] at h
        · simp only [hd, Option.some.injEq, Prod.mk.injEq] at h
          obtain ⟨rfl, rfl⟩ := h
          intro t' ht'
          rcases List.mem_cons.1 ht' with rfl | ht'
          · exact hconv _ rfl
          · have := ih i' rs' e' hd t' ht'
            rw [hq, hp] at this
            exact this

theorem drain_facts (net : NetHTTP) (fuel : Nat) (i : Iterator) (rs : List Task) (e : Err)
    (h : Iterator.drain net fuel i = some (rs, e)) :
    ∀ t ∈ rs, '/' ∉ t.TaskID ∧ -2 ^ 63 ≤ t.Version ∧ t.Version < 2 ^ 63 := by
  intro t ht
  obtain ⟨pb, -, hpb⟩ := drain_conv net fuel i rs e h t ht
  exact Task_TaskID_no_slash_of_parsed net _ _ pb t hpb

theorem Forall₂_mem_right {α β : Type} {R : α → β → Prop} :
    ∀ {l : List α} {cs : List β}, List.Forall₂ R l cs → ∀ c ∈ cs, ∃ a ∈ l, R a c := by
  intro l cs h
  induction h with
  | nil => intro c hc; simp at hc
  | cons hab _ ih =>
    intro c hc
    rcases List.mem_cons.1 hc with rfl | hc
    · exact ⟨_, by simp, hab⟩
    · obtain ⟨a, ha, hr⟩ := ih c hc
      exact ⟨a, by simp [ha], hr⟩

theorem key_index_unique (tasks : List Task) (hnd : (tasks.map Task.comparisonID).Nodup)
    (p q : Nat) (a b : Task) (ha : tasks[p]? = some a) (hb : tasks[q]? = some b)
    (hk : a.comparisonID = b.comparisonID) : p = q := by
  have h1 : (tasks.map Task.comparisonID)[p]? = some a.comparisonID := by simp [ha]
  have h2 : (tasks.map Task.comparisonID)[q]? = some a.comparisonID := by simp [hb, hk]
  have hp : p < (tasks.map Task.comparisonID).length := by
    by_contra hcon
    rw [List.getElem?_eq_none (by omega)] at h1
    simp at h1
  have hq : q < (tasks.map Task.comparisonID).length := by
    by_contra hcon
    rw [List.getElem?_eq_none (by omega)] at h2
    simp at h2
  rw [List.getElem?_eq_getElem hp] at h1
  rw [List.getElem?_eq_getElem hq] at h2
  simp only [Option.some.injEq] at h1 h2
  exact (List.Nodup.getElem_inj_iff hnd).1 (h1.trans h2.symm)

theorem Sync_tasks_le {σ : Type} (net : NetHTTP) (s : Scheduler σ) (fuel : Nat) (w : World σ)
    (tasks rs : List Task) (e : Err) (r : SyncResult σ)
    (h : s.Sync net fuel w tasks = some r)
    (hd : Iterator.drain net fuel (s.List w.state) = some (rs, e)) :
    TasksLe (rs.foldl syncStep (initState tasks)).tasks r.tasks := by
  obtain ⟨rs', e', hd', ss, hss, hcases⟩ := Sync_unfold net s fuel w tasks r h
  rw [hd] at hd'
  simp only [Option.some.injEq, Prod.mk.injEq] at hd'
  obtain ⟨rfl, rfl⟩ := hd'
  have hss' : ss = rs.foldl syncStep (initState tasks) := hss
  rw [← hss']
  rcases hcases with ⟨-, -, ht, -⟩ | ⟨-, -, -, ht, -⟩ | ⟨-, -, -, ht, -⟩
  · rw [ht]; exact TasksLe_refl _
  · rw [ht]; exact TasksLe_refl _
  · rw [ht]; exact createAll_TasksLe s _ _ _

set_option maxRecDepth 100000 in
/-- C4 (as stated, refuted), two inputs. (1) The listed remote task has the
key of the desired task, another URL and version 2^63-1: `Compare` is false
when it is processed and the desired task ends with version -2^63, which is
not greater. (2) The desired list holds two tasks with one key, both at
version 1, and the listed remote task has that key, version 1 and another
URL: `Sync` creates the first desired task at version 1, under the very name
it has just deleted. -/
theorem C4_counterexample :
    (Iterator.drain sampleNet 3 (sampleScheduler.List [sampleRemoteMax]) =
          some ([sampleRemoteMaxTask], .Done) ∧
        sampleRemoteMaxTask.comparisonID = sampleTask.comparisonID ∧
        sampleTask.Compare sampleRemoteMaxTask = false ∧
        sampleRemoteMaxTask.Version = 9223372036854775807 ∧
        (sampleScheduler.Sync sampleNet 3 { state := [sampleRemoteMax], calls := [] }
            [sampleTask]).map (fun (r : SyncResult (List PbTask)) =>
              (r.err, r.tasks.map Task.Version)) =
          some (none, [-9223372036854775808])) ∧
      (Iterator.drain sampleNet 3 (sampleScheduler.List [sampleRemoteSameKey]) =
          some ([sampleRemoteSameKeyTask], .Done) ∧
        sampleRemoteSameKeyTask.comparisonID = sampleTask.comparisonID ∧
        sampleRemoteSameKeyTask.Version = 1 ∧
        (sampleScheduler.Sync sampleNet 3 { state := [sampleRemoteSameKey], calls := [] }
            [sampleTask, sampleTaskB]).map (fun (r : SyncResult (List PbTask)) =>
              (r.err, r.world.calls.map Call.summary)) =
          some (none,
            [(false, "projects/p/locations/l/queues/q/tasks/test_i_v_3b9aca02v1".toList),
             (true, "projects/p/locations/l/queues/q/tasks/test_i_v_3b9aca02v1".toList),
             (true, "projects/p/locations/l/queues/q/tasks/test_i_v_3b9aca02v2".toList)])) := by
  decide

theorem foldl_split (rs : List Task) (j : Nat) (R : Task) (hj : rs[j]? = some R)
    (ss : SyncState) :
    rs.foldl syncStep ss =
      (rs.drop (j + 1)).foldl syncStep (syncStep ((rs.take j).foldl syncStep ss) R) := by
  have hlt : j < rs.length := by
    by_contra hcon
    rw [List.getElem?_eq_none (by omega)] at hj
    simp at hj
  have hR : rs[j] = R := by
    rw [List.getElem?_eq_getElem hlt] at hj
    simpa using hj
  have hsplit : rs = rs.take j ++ R :: rs.drop (j + 1) := by
    rw [← hR, ← List.drop_eq_getElem_cons hlt, List.take_append_drop]
  conv_lhs => rw [hsplit]
  rw [List.foldl_append, List.foldl_cons]

/-- A run of `Sync` returns as soon as the listing loop ends within the fuel. -/
theorem Sync_returns_of_drain {σ : Type} (net : NetHTTP) (s : Scheduler σ) (fuel : Nat)
    (w : World σ) (tasks rs : List Task) (e : Err)
    (hd : Iterator.drain net fuel (s.List w.state) = some (rs, e)) :
    ∃ r, s.Sync net fuel w tasks = some r := by
  unfold Scheduler.Sync
  simp only [syncLoop_eq_drain, hd]
  by_cases he : e.Is .Done = true
  · simp only [he, if_true]
    split
    · exact ⟨_, rfl⟩
    · exact ⟨_, rfl⟩
  · simp only [he, if_false]
    exact ⟨_, rfl⟩

/-- Version monotonicity of a returned `Sync` run over the listed tasks. -/
theorem version_monotonicity_core {σ : Type} (net : NetHTTP) (s : Scheduler σ) (fuel : Nat)
    (st : σ) (tasks rs : List Task) (e : Err) (r : SyncResult σ)
    (hsync : s.Sync net fuel { state := st, calls := [] } tasks = some r)
    (hd : Iterator.drain net fuel (s.List st) = some (rs, e))
    (hmax : ∀ R ∈ rs, R.Version ≠ 2 ^ 63 - 1) :
    (∀ (j p : Nat) (R D : Task), rs[j]? = some R →
        mapLookup ((rs.take j).foldl syncStep (initState tasks)).taskMap R.comparisonID
          = some p →
        ((rs.take j).foldl syncStep (initState tasks)).tasks[p]? = some D →
        D.Compare R = false →
        (syncStep ((rs.take j).foldl syncStep (initState tasks)) R).tasks[p]? =
            some { D with Version := max D.Version (R.Version + 1) } ∧
          ∃ D0 D', tasks[p]? = some D0 ∧ r.tasks[p]? = some D' ∧
            D' = { D0 with Version := D'.Version } ∧
            D0.Version ≤ D'.Version ∧ max D.Version (R.Version + 1) ≤ D'.Version ∧
            R.Version < D'.Version) ∧
      ((tasks.map Task.comparisonID).Nodup →
        ∀ req, Call.create req ∈ r.world.calls →
          ∃ (p : Nat) (D0 : Task) (v : Int), tasks[p]? = some D0 ∧
            req.Task.Name = Task.TaskName { D0 with Version := v } ∧ D0.Version ≤ v ∧
            (∀ R ∈ rs, R.comparisonID = D0.comparisonID → R.Version < v) ∧
            ∀ del, Call.delete del ∈ r.world.calls → del.Name ≠ req.Task.Name) := by
  have hfacts := drain_facts net fuel _ rs e hd
  have hrange : ∀ R ∈ rs, -2 ^ 63 ≤ R.Version ∧ R.Version < 2 ^ 63 - 1 := by
    intro R hR
    have h1 := hfacts R hR
    have h2 := hmax R hR
    exact ⟨h1.2.1, by omega⟩
  have hfinal := Sync_tasks_le net s fuel _ tasks rs e r hsync hd
  constructor
  · intro j p R D hj hl ht hc
    have hRmem : R ∈ rs := List.getElem?_mem hj
    obtain ⟨hRlo, hRhi⟩ := hrange R hRmem
    have hstep : (syncStep ((rs.take j).foldl syncStep (initState tasks)) R).tasks[p]? =
        some { D with Version := max D.Version (R.Version + 1) } := by
      have hp : p < ((rs.take j).foldl syncStep (initState tasks)).tasks.length := by
        by_contra hcon
        rw [List.getElem?_eq_none (by omega)] at ht
        simp at ht
      rcases syncStep_cases ((rs.take j).foldl syncStep (initState tasks)) R with
        ⟨hl', -⟩ | ⟨p0, hl', ht', -⟩ | ⟨p0, D1, hl', ht', hc', -⟩ | ⟨p0, D1, hl', ht', -, hs⟩
      · rw [hl] at hl'; simp at hl'
      · rw [hl] at hl'
        simp only [Option.some.injEq] at hl'
        subst hl'
        rw [ht] at ht'; simp at ht'
      · rw [hl] at hl'
        simp only [Option.some.injEq] at hl'
        subst hl'
        rw [ht] at ht'
        simp only [Option.some.injEq] at ht'
        subst ht'
        rw [hc] at hc'; simp at hc'
      · rw [hl] at hl'
        simp only [Option.some.injEq] at hl'
        subst hl'
        rw [ht] at ht'
        simp only [Option.some.injEq] at ht'
        subst ht'
        rw [hs]
        simp only [List.getElem?_set, hp, if_true, Option.some.injEq]
        congr 1
        split
        · rw [wrapInt64_succ _ hRlo hRhi]
          rw [max_eq_right (by omega)]
        · rw [max_eq_left (by omega)]
    refine ⟨hstep, ?_⟩
    have hpre : TasksLe tasks ((rs.take j).foldl syncStep (initState tasks)).tasks :=
      foldl_TasksLe (rs.take j) (initState tasks)
        (fun R' hR' => hrange R' (List.mem_of_mem_take hR'))
    have hpost : TasksLe (syncStep ((rs.take j).foldl syncStep (initState tasks)) R).tasks
        (rs.foldl syncStep (initState tasks)).tasks := by
      rw [foldl_split rs j R hj]
      exact foldl_TasksLe _ _ (fun R' hR' => hrange R' (List.mem_of_mem_drop hR'))
    obtain ⟨D0, hD0, hle0⟩ := TasksLe_back hpre p D ht
    obtain ⟨D', hD', hle'⟩ := (TasksLe_trans hpost hfinal).2 p _ hstep
    have hvd : VerLe D0 D' :=
      VerLe_trans hle0 (VerLe_trans (VerLe_set D _ (le_max_left _ _)) hle')
    refine ⟨D0, D', hD0, hD', hvd.1, hvd.2, hle'.2, ?_⟩
    have h1 : R.Version < max D.Version (R.Version + 1) :=
      lt_of_lt_of_le (by omega) (le_max_right _ _)
    exact lt_of_lt_of_le h1 hle'.2
  · intro hnd req hreq
    obtain ⟨rs', e', hd', ss, hss, hcases⟩ := Sync_unfold net s fuel _ tasks r hsync
    rw [hd] at hd'
    simp only [Option.some.injEq, Prod.mk.injEq] at hd'
    obtain ⟨rfl, rfl⟩ := hd'
    have hss' : ss = rs.foldl syncStep (initState tasks) := hss
    have hinv : LoopInv rs ss := by
      have := LoopInv_foldl rs [] (initState tasks) hrange (LoopInv_init tasks)
      rw [hss']
      simpa using this
    have hle : TasksLe tasks ss.tasks := by
      rw [hss']
      exact foldl_TasksLe rs (initState tasks) hrange
    obtain ⟨kd, -, hdel, -⟩ := deleteAll_calls s ss.deleteNames
      ({ state := st, calls := [] } : World σ)
    simp only [List.nil_append] at hdel
    have hdelnames : ∀ del, Call.delete del ∈
        (deleteAll s ({ state := st, calls := [] } : World σ) ss.deleteNames).1.calls →
        ∃ R ∈ rs, del.Name = R.TaskName := by
      intro del hdm
      rw [hdel] at hdm
      obtain ⟨n, hn, hn'⟩ := List.mem_map.1 hdm
      simp only [Call.delete.injEq] at hn'
      subst hn'
      have hn2 : n ∈ ss.deleteNames := List.mem_of_mem_take hn
      rw [hss'] at hn2
      rcases foldl_syncStep_deleteNames rs _ n hn2 with h0 | ⟨t, ht, rfl⟩
      · simp [initState] at h0
      · exact ⟨t, ht, rfl⟩
    have hnocreate : Call.create req ∉
        (deleteAll s ({ state := st, calls := [] } : World σ) ss.deleteNames).1.calls := by
      rw [hdel]
      intro hm
      obtain ⟨n, -, hn'⟩ := List.mem_map.1 hm
      simp at hn'
    rcases hcases with ⟨-, hw, -, -⟩ | ⟨-, -, hw, -, -⟩ | ⟨-, -, hw, -, -⟩
    · rw [hw] at hreq; simp at hreq
    · rw [hw] at hreq; exact absurd hreq hnocreate
    · obtain ⟨cs, k, -, hc, hf, -⟩ := createAll_prefix s ss.taskMap ss.tasks
        (deleteAll s ({ state := st, calls := [] } : World σ) ss.deleteNames).1
      rw [hw, hc] at hreq
      rcases List.mem_append.1 hreq with hm | hm
      · exact absurd hm hnocreate
      · obtain ⟨req', hreq', hEq⟩ := List.mem_map.1 hm
        simp only [Call.create.injEq] at hEq
        subst hEq
        obtain ⟨t, htmem, hcr⟩ := Forall₂_mem_right hf req' hreq'
        have htf := List.mem_of_mem_take htmem
        obtain ⟨htss, hsome⟩ := List.mem_filter.1 htf
        obtain ⟨q, hq⟩ := List.mem_iff_getElem?.1 htss
        obtain ⟨p, hp⟩ := Option.isSome_iff_exists.1 hsome
        obtain ⟨t', ht', hkey'⟩ := hinv.1 _ _ hp
        obtain ⟨a, ha, hva⟩ := TasksLe_back hle q t hq
        obtain ⟨a', ha', hva'⟩ := TasksLe_back hle p t' ht'
        have hpq : p = q := key_index_unique tasks hnd p q a' a ha' ha
          (by rw [← VerLe_key hva', ← VerLe_key hva, hkey'])
        subst hpq
        rw [hq] at ht'
        simp only [Option.some.injEq] at ht'
        subst ht'
        have hvw : VerLe a (withDefaultVersion t) :=
          VerLe_trans hva (VerLe_withDefaultVersion t)
        have hname : req'.Task.Name = (withDefaultVersion t).TaskName :=
          TaskToPbTask_name _ _ hcr.2.1
        have hbound : ∀ R ∈ rs, R.comparisonID = a.comparisonID →
            R.Version < (withDefaultVersion t).Version := by
          intro R hR hk
          obtain ⟨D, hD, hlt⟩ := hinv.2 _ _ hp R hR (by rw [hk, VerLe_key hva])
          rw [hq] at hD
          simp only [Option.some.injEq] at hD
          subst hD
          exact lt_of_lt_of_le hlt (VerLe_withDefaultVersion _).2
        refine ⟨p, a, (withDefaultVersion t).Version, ha, ?_, hvw.2, hbound, ?_⟩
        · rw [hname, ← hvw.1]
        · intro del hdm
          rw [hw, hc] at hdm
          have hdm' : Call.delete del ∈
              (deleteAll s ({ state := st, calls := [] } : World σ) ss.deleteNames).1.calls := by
            rcases List.mem_append.1 hdm with h1 | h1
            · exact h1
            · obtain ⟨c, -, hc'⟩ := List.mem_map.1 h1
              simp at hc'
          obtain ⟨R, hR, hRn⟩ := hdelnames del hdm'
          intro heq
          rw [hRn, hname] at heq
          obtain ⟨hk, hv⟩ := TaskName_inj R (withDefaultVersion t) (hfacts R hR).1
            (Validate_no_slash _ hcr.1) heq
          have := hbound R hR (by rw [hk, VerLe_key hvw])
          omega

/-- C4 (amended). Version monotonicity in `Sync`, for a run whose listing
returned the remote tasks `rs`, none with the largest version 2^63-1; such
a run returns.
(1) When a remote task `R` is processed while the map holds a desired task
`D` under `R`'s key and `D.Compare(R)` is false, `D`'s version becomes
`max(D.Version, R.Version + 1)` at that step, and after `Sync` it is not
smaller than that, strictly greater than `R`'s version and not smaller than
the version of that task before `Sync`. (2) When the desired tasks have
pairwise distinct comparison keys, every create call `Sync` issues is for a
desired task at a version that is not smaller than the one it had, strictly
greater than the version of every listed remote task with its key, under a
name that differs from every name `Sync` deletes. -/
theorem C4_version_monotonicity {σ : Type} (net : NetHTTP) (s : Scheduler σ) (fuel : Nat)
    (st : σ) (tasks rs : List Task) (e : Err)
    (hd : Iterator.drain net fuel (s.List st) = some (rs, e))
    (hmax : ∀ R ∈ rs, R.Version ≠ 2 ^ 63 - 1) :
    ∃ r, s.Sync net fuel { state := st, calls := [] } tasks = some r ∧
      ((∀ (j p : Nat) (R D : Task), rs[j]? = some R →
          mapLookup ((rs.take j).foldl syncStep (initState tasks)).taskMap R.comparisonID
            = some p →
          ((rs.take j).foldl syncStep (initState tasks)).tasks[p]? = some D →
          D.Compare R = false →
          (syncStep ((rs.take j).foldl syncStep (initState tasks)) R).tasks[p]? =
              some { D with Version := max D.Version (R.Version + 1) } ∧
            ∃ D0 D', tasks[p]? = some D0 ∧ r.tasks[p]? = some D' ∧
              D' = { D0 with Version := D'.Version } ∧
              D0.Version ≤ D'.Version ∧ max D.Version (R.Version + 1) ≤ D'.Version ∧
              R.Version < D'.Version) ∧
        ((tasks.map Task.comparisonID).Nodup →
          ∀ req, Call.create req ∈ r.world.calls →
            ∃ (p : Nat) (D0 : Task) (v : Int), tasks[p]? = some D0 ∧
              req.Task.Name = Task.TaskName { D0 with Version := v } ∧ D0.Version ≤ v ∧
              (∀ R ∈ rs, R.comparisonID = D0.comparisonID → R.Version < v) ∧
              ∀ del, Call.delete del ∈ r.world.calls → del.Name ≠ req.Task.Name)) := by
  obtain ⟨r, hsync⟩ :=
    Sync_returns_of_drain net s fuel { state := st, calls := [] } tasks rs e hd
  exact ⟨r, hsync, version_monotonicity_core net s fuel st tasks rs e r hsync hd hmax⟩

set_option maxRecDepth 100000 in
theorem C4_version_monotonicity_witness :
    ∃ r, sampleScheduler.Sync sampleNet 3 { state := [sampleRemoteSameKey], calls := [] }
          [sampleTask] = some r ∧
      (∃ D0 D', [sampleTask][0]? = some D0 ∧ r.tasks[0]? = some D' ∧
        D0.Version ≤ D'.Version ∧ sampleRemoteSameKeyTask.Version < D'.Version) ∧
      ∀ req, Call.create req ∈ r.world.calls →
        ∃ (p : Nat) (D0 : Task) (v : Int), [sampleTask][p]? = some D0 ∧
          req.Task.Name = Task.TaskName { D0 with Version := v } ∧ D0.Version ≤ v ∧
          (∀ R ∈ [sampleRemoteSameKeyTask], R.comparisonID = D0.comparisonID → R.Version < v) ∧
          ∀ del, Call.delete del ∈ r.world.calls → del.Name ≠ req.Task.Name := by
  obtain ⟨r, hr, h⟩ := C4_version_monotonicity sampleNet sampleScheduler 3
    [sampleRemoteSameKey] [sampleTask] [sampleRemoteSameKeyTask] .Done (by decide) (by decide)
  obtain ⟨-, D0, D', h1, h2, -, h3, -, h4⟩ :=
    h.1 0 0 sampleRemoteSameKeyTask sampleTask (by decide) (by decide) (by decide) (by decide)
  exact ⟨r, hr, ⟨D0, D', h1, h2, h3, h4⟩, h.2 (by decide)⟩

theorem wrapInt64_range (x : Int) : -2 ^ 63 ≤ wrapInt64 x ∧ wrapInt64 x < 2 ^ 63 := by
  unfold wrapInt64
  have h1 := Int.emod_nonneg (x + 2 ^ 63) (show (2 : Int) ^ 64 ≠ 0 by norm_num)
  have h2 := Int.emod_lt_of_pos (x + 2 ^ 63) (show (0 : Int) < 2 ^ 64 by norm_num)
  constructor <;> omega

theorem SameButVersion_refl (a : Task) : SameButVersion a a := rfl

theorem SameButVersion_trans {a b c : Task} (h1 : SameButVersion a b)
    (h2 : SameButVersion b c) : SameButVersion a c := by
  unfold SameButVersion at *
  rw [h2, h1]

theorem SameButVersion_key {a b : Task} (h : SameButVersion a b) :
    b.comparisonID = a.comparisonID := by
  unfold SameButVersion at h
  rw [h]; rfl

theorem TasksSim_refl (l : List Task) : TasksSim l l :=
  ⟨rfl, fun _ a h => ⟨a, h, SameButVersion_refl a⟩⟩

theorem TasksSim_trans {l1 l2 l3 : List Task} (h1 : TasksSim l1 l2) (h2 : TasksSim l2 l3) :
    TasksSim l1 l3 := by
  refine ⟨h1.1.trans h2.1, ?_⟩
  intro p a ha
  obtain ⟨b, hb, hab⟩ := h1.2 p a ha
  obtain ⟨c, hc, hbc⟩ := h2.2 p b hb
  exact ⟨c, hc, SameButVersion_trans hab hbc⟩

theorem getElem?_lt {l : List Task} {p : Nat} {a : Task} (h : l[p]? = some a) :
    p < l.length := by
  by_contra hcon
  rw [List.getElem?_eq_none (by omega)] at h
  simp at h

theorem TasksSim_set (l : List Task) (p : Nat) (D : Task) (v : Int) (hD : l[p]? = some D) :
    TasksSim l (l.set p { D with Version := v }) := by
  refine ⟨by simp, ?_⟩
  intro q a ha
  by_cases hq : p = q
  · subst hq
    rw [hD] at ha
    simp only [Option.some.injEq] at ha
    subst ha
    exact ⟨{ D with Version := v }, by simp [List.getElem?_set, getElem?_lt hD],
      (rfl : SameButVersion D { D with Version := v })⟩
  · exact ⟨a, by rw [List.getElem?_set_ne hq]; exact ha, SameButVersion_refl a⟩

theorem TasksSim_back {l1 l2 : List Task} (h : TasksSim l1 l2) (p : Nat) (b : Task)
    (hb : l2[p]? = some b) : ∃ a, l1[p]? = some a ∧ SameButVersion a b := by
  have hp1 : p < l1.length := by rw [h.1]; exact getElem?_lt hb
  obtain ⟨b', hb', hle⟩ := h.2 p l1[p] (List.getElem?_eq_getElem hp1)
  rw [hb] at hb'
  simp only [Option.some.injEq] at hb'
  subst hb'
  exact ⟨l1[p], List.getElem?_eq_getElem hp1, hle⟩

theorem InRange_set (l : List Task) (p : Nat) (D : Task) (h : InRange l)
    (hD : -2 ^ 63 ≤ D.Version ∧ D.Version < 2 ^ 63) : InRange (l.set p D) := by
  intro t ht
  rcases List.mem_or_eq_of_mem_set ht with h1 | h1
  · exact h t h1
  · rw [h1]; exact hD

theorem mapLookup_mapDelete_some (m : List (Str × Nat)) (k k' : Str) (p : Nat)
    (h : mapLookup (mapDelete m k') k = some p) : k ≠ k' ∧ mapLookup m k = some p := by
  rw [mapLookup_mapDelete] at h
  by_cases hkk : k = k'
  · simp [hkk] at h
  · simp only [hkk, if_false] at h
    exact ⟨hkk, h⟩

theorem mapLookup_mapDelete_none (m : List (Str × Nat)) (k k' : Str)
    (h : mapLookup (mapDelete m k') k = none) : k = k' ∨ mapLookup m k = none := by
  rw [mapLookup_mapDelete] at h
  by_cases hkk : k = k'
  · exact Or.inl hkk
  · simp only [hkk, if_false] at h
    exact Or.inr h

theorem ConvInv_init (tasks : List Task) (h : InRange tasks) :
    ConvInv tasks [] (initState tasks) where
  sound := buildTaskMap_lookup_sound tasks
  sub := fun _ _ h => h
  sim := TasksSim_refl tasks
  range := h
  del := fun n hn => by simp [initState] at hn
  kept := fun R hR => by simp at hR
  keptNodup := by simp
  matched := fun k p h1 h2 => by
    simp only [initState] at h2
    rw [h1] at h2
    simp at h2

theorem filter_kept_snoc_deleted (done : List Task) (dn : List Str) (R : Task)
    (hfresh : R.TaskName ∉ done.map Task.TaskName) :
    (done ++ [R]).filter (fun R' => decide (R'.TaskName ∉ dn ++ [R.TaskName])) =
      done.filter (fun R' => decide (R'.TaskName ∉ dn)) := by
  rw [List.filter_append]
  have h1 : [R].filter (fun R' => decide (R'.TaskName ∉ dn ++ [R.TaskName])) = [] := by
    simp [List.filter]
  rw [h1, List.append_nil]
  apply List.filter_congr
  intro R' hR'
  have hne : R'.TaskName ≠ R.TaskName := fun e =>
    hfresh (by rw [← e]; exact List.mem_map_of_mem _ hR')
  simp [hne]

theorem not_mem_snoc_of_fresh (done : List Task) (dn : List Str) (R R' : Task)
    (hfresh : R.TaskName ∉ done.map Task.TaskName) (hR' : R' ∈ done)
    (h : R'.TaskName ∉ dn) : R'.TaskName ∉ dn ++ [R.TaskName] := by
  intro hm
  rcases List.mem_append.1 hm with h1 | h1
  · exact h h1
  · simp only [List.mem_singleton] at h1
    exact hfresh (by rw [← h1]; exact List.mem_map_of_mem _ hR')

theorem ConvInv_step (tasks done : List Task) (ss : SyncState) (R : Task)
    (hfresh : R.TaskName ∉ done.map Task.TaskName) (h : ConvInv tasks done ss) :
    ConvInv tasks (done ++ [R]) (syncStep ss R) := by
  have hRdn : R.TaskName ∉ ss.deleteNames := by
    intro hm
    obtain ⟨R', hR', hn⟩ := h.del _ hm
    exact hfresh (by rw [← hn]; exact List.mem_map_of_mem _ hR')
  rcases syncStep_cases ss R with ⟨hl, hs⟩ | ⟨p0, hl, ht, hs⟩ | ⟨p0, D, hl, ht, hc, hs⟩ |
    ⟨p0, D, hl, ht, hc, hs⟩
  · -- stale
    rw [hs]
    refine ⟨h.sound, h.sub, h.sim, h.range, ?_, ?_, ?_, ?_⟩
    · intro n hn
      rcases List.mem_append.1 hn with h1 | h1
      · obtain ⟨R', hR', hn'⟩ := h.del n h1
        exact ⟨R', by simp [hR'], hn'⟩
      · simp only [List.mem_singleton] at h1
        exact ⟨R, by simp, h1.symm⟩
    · intro R' hR' hn
      simp only [List.mem_append, List.mem_singleton, not_or] at hn
      rcases List.mem_append.1 hR' with h1 | h1
      · exact h.kept R' h1 hn.1
      · simp only [List.mem_singleton] at h1
        subst h1
        exact absurd rfl hn.2
    · simp only
      rw [filter_kept_snoc_deleted done _ R hfresh]
      exact h.keptNodup
    · intro k p hk hnone
      obtain ⟨R', hR', hkey, hn⟩ := h.matched k p hk hnone
      exact ⟨R', by simp [hR'], hkey, not_mem_snoc_of_fresh done _ R R' hfresh hR' hn⟩
  · exact absurd ht (getElem?_isSome_of_MapSound h.sound _ _ hl)
  · -- matched
    rw [hs]
    have hDkey : D.comparisonID = R.comparisonID := Compare_key D R hc
    refine ⟨?_, ?_, h.sim, h.range, ?_, ?_, ?_, ?_⟩
    · intro k p hk
      exact h.sound k p (mapLookup_mapDelete_some _ _ _ _ hk).2
    · intro k p hk
      exact h.sub k p (mapLookup_mapDelete_some _ _ _ _ hk).2
    · intro n hn
      obtain ⟨R', hR', hn'⟩ := h.del n hn
      exact ⟨R', by simp [hR'], hn'⟩
    · intro R' hR' hn
      simp only at hn
      rcases List.mem_append.1 hR' with h1 | h1
      · obtain ⟨hnone, hex⟩ := h.kept R' h1 hn
        refine ⟨?_, hex⟩
        simp only
        rw [mapLookup_mapDelete]
        split
        · rfl
        · exact hnone
      · simp only [List.mem_singleton] at h1
        subst h1
        refine ⟨?_, p0, D, h.sub _ _ hl, ht, hc⟩
        simp only
        rw [mapLookup_mapDelete]
        simp [hDkey]
    · simp only
      rw [List.filter_append, List.map_append]
      have hsingle : [R].filter (fun R' => decide (R'.TaskName ∉ ss.deleteNames)) = [R] := by
        simp [List.filter, hRdn]
      rw [hsingle]
      simp only [List.map_cons, List.map_nil]
      rw [List.nodup_append]
      refine ⟨h.keptNodup, by simp, ?_⟩
      intro k hk1 hk2
      simp only [List.mem_singleton] at hk2
      obtain ⟨R', hR', hkey⟩ := List.mem_map.1 hk1
      obtain ⟨hR'd, hR'n⟩ := List.mem_filter.1 hR'
      have hnone := (h.kept R' hR'd (by simpa using hR'n)).1
      rw [hkey, hk2, hl] at hnone
      simp at hnone
    · intro k p hk hnone
      simp only at hnone ⊢
      rcases mapLookup_mapDelete_none _ _ _ hnone with h1 | h1
      · exact ⟨R, by simp, by rw [h1, hDkey], hRdn⟩
      · obtain ⟨R', hR', hkey, hn⟩ := h.matched k p hk h1
        exact ⟨R', by simp [hR'], hkey, hn⟩
  · -- superseded
    have hp0 : p0 < ss.tasks.length := getElem?_lt ht
    have hvr : -2 ^ 63 ≤ (if D.Version ≤ R.Version then wrapInt64 (R.Version + 1)
        else D.Version) ∧ (if D.Version ≤ R.Version then wrapInt64 (R.Version + 1)
        else D.Version) < 2 ^ 63 := by
      split
      · exact wrapInt64_range _
      · exact h.range D (List.getElem?_mem ht)
    generalize (if D.Version ≤ R.Version then wrapInt64 (R.Version + 1) else D.Version) = v
      at hs hvr
    have hget : (ss.tasks.set p0 { D with Version := v })[p0]? =
        some { D with Version := v } := by
      simp [List.getElem?_set, hp0]
    have hDkey : D.comparisonID = R.comparisonID := by
      obtain ⟨t, ht', hk⟩ := h.sound _ _ hl
      rw [ht] at ht'
      simp only [Option.some.injEq] at ht'
      subst ht'
      exact hk
    rw [hs]
    refine ⟨?_, h.sub, TasksSim_trans h.sim (TasksSim_set _ _ _ _ ht),
      InRange_set _ _ _ h.range hvr, ?_, ?_, ?_, ?_⟩
    · intro k p hk
      obtain ⟨t, ht', hkey⟩ := h.sound k p hk
      by_cases hp : p0 = p
      · subst hp
        rw [ht] at ht'
        simp only [Option.some.injEq] at ht'
        subst ht'
        exact ⟨{ D with Version := v }, hget, hkey⟩
      · exact ⟨t, by simp only [List.getElem?_set_ne hp]; exact ht', hkey⟩
    · intro n hn
      rcases List.mem_append.1 hn with h1 | h1
      · obtain ⟨R', hR', hn'⟩ := h.del n h1
        exact ⟨R', by simp [hR'], hn'⟩
      · simp only [List.mem_singleton] at h1
        exact ⟨R, by simp, h1.symm⟩
    · intro R' hR' hn
      simp only [List.mem_append, List.mem_singleton, not_or] at hn
      rcases List.mem_append.1 hR' with h1 | h1
      · obtain ⟨hnone, p, D1, hb, hD1, hcmp⟩ := h.kept R' h1 hn.1
        refine ⟨hnone, p, D1, hb, ?_, hcmp⟩
        have hp : p0 ≠ p := by
          intro hpp
          subst hpp
          obtain ⟨t1, ht1, hk1⟩ := buildTaskMap_lookup_sound tasks _ _ hb
          obtain ⟨t2, ht2, hk2⟩ := buildTaskMap_lookup_sound tasks _ _ (h.sub _ _ hl)
          rw [ht1] at ht2
          simp only [Option.some.injEq] at ht2
          subst ht2
          rw [← hk1, hk2, hl] at hnone
          simp at hnone
        simp only [List.getElem?_set_ne hp]
        exact hD1
      · simp only [List.mem_singleton] at h1
        subst h1
        exact absurd rfl hn.2
    · simp only
      rw [filter_kept_snoc_deleted done _ R hfresh]
      exact h.keptNodup
    · intro k p hk hnone
      obtain ⟨R', hR', hkey, hn⟩ := h.matched k p hk hnone
      exact ⟨R', by simp [hR'], hkey, not_mem_snoc_of_fresh done _ R R' hfresh hR' hn⟩

theorem ConvInv_foldl (tasks : List Task) :
    ∀ (rs done : List Task) (ss : SyncState),
      ((done ++ rs).map Task.TaskName).Nodup →
      ConvInv tasks done ss → ConvInv tasks (done ++ rs) (rs.foldl syncStep ss) := by
  intro rs
  induction rs with
  | nil => intro done ss _ h; simpa using h
  | cons R rest ih =>
    intro done ss hnd h
    rw [List.foldl_cons]
    have hfresh : R.TaskName ∉ done.map Task.TaskName := by
      rw [List.map_append, List.nodup_append] at hnd
      intro hm
      exact hnd.2.2 hm (by simp)
    have := ih (done ++ [R]) (syncStep ss R) (by simpa using hnd)
      (ConvInv_step tasks done ss R hfresh h)
    simpa using this

theorem Next_mono (net : NetHTTP) (f : Nat) (i : Iterator) (x : Except Err Task × Iterator)
    (h : i.Next net f = some x) : i.Next net (f + 1) = some x := by
  unfold Iterator.Next at h ⊢
  exact nextLoop_mono net f _ x h

theorem drain_mono (net : NetHTTP) :
    ∀ (f : Nat) (i : Iterator) (x : List Task × Err),
      Iterator.drain net f i = some x → Iterator.drain net (f + 1) i = some x := by
  intro f
  induction f with
  | zero => intro i x h; simp [Iterator.drain] at h
  | succ f ih =>
    intro i x h
    rw [Iterator.drain] at h ⊢
    rcases hn : i.Next net (f + 1) with _ | ⟨res, i'⟩
    · simp [hn] at h
    · rw [Next_mono net _ _ _ hn]
      simp only [hn] at h
      cases res with
      | error err => exact h
      | ok t =>
        simp only at h ⊢
        rcases hd : Iterator.drain net f i' with _ | r
        · simp [hd] at h
        · rw [ih i' r hd]
          simpa [hd] using h

theorem drain_mono_le (net : NetHTTP) (f g : Nat) (hfg : f ≤ g) (i : Iterator)
    (x : List Task × Err) (h : Iterator.drain net f i = some x) :
    Iterator.drain net g i = some x := by
  induction hfg with
  | refl => exact h
  | step _ ih => exact drain_mono net _ _ _ ih

theorem decodeOwned_cons_owned (net : NetHTTP) (qp pre : Str) (e : PbTask) (rest : List PbTask)
    (t : Task) (ho : owned qp pre e = true) (hc : PbTaskToTask net qp pre e = .ok t) :
    decodeOwned net qp pre (e :: rest) = t :: decodeOwned net qp pre rest := by
  simp [decodeOwned, List.filterMap_cons, ho, hc]

theorem decodeOwned_cons_foreign (net : NetHTTP) (qp pre : Str) (e : PbTask)
    (rest : List PbTask) (ho : ¬ owned qp pre e = true) :
    decodeOwned net qp pre (e :: rest) = decodeOwned net qp pre rest := by
  simp [decodeOwned, List.filterMap_cons, ho]

theorem nextLoop_page_some (net : NetHTTP) :
    ∀ (items : List PbTask) (i : Iterator) (tok : Str) (f : Nat),
      i.iter = some { items := items, stop := .Done, token := tok } → i.pageToken = [] →
      items.length + 1 ≤ f → ∃ x, Iterator.nextLoop net f i = some x := by
  intro items
  induction items with
  | nil =>
    intro i tok f hi ht hf
    obtain ⟨g, rfl⟩ : ∃ g, f = g + 1 := ⟨f - 1, by simp at hf; omega⟩
    rw [Iterator.nextLoop]
    have hdone : Err.Done.Is .Done = true := by decide
    simp [hi, ht, hdone]
  | cons e rest ih =>
    intro i tok f hi ht hf
    obtain ⟨g, rfl⟩ : ∃ g, f = g + 1 := ⟨f - 1, by simp at hf; omega⟩
    rw [Iterator.nextLoop]
    simp only [hi]
    by_cases ho : HasPrefix e.Name (taskName i.queuePath i.taskIDPrefix) = true
    · simp only [ho, Bool.not_true, Bool.false_eq_true, if_false]
      cases PbTaskToTask net i.queuePath i.taskIDPrefix e <;> simp
    · simp only [ho, Bool.not_false, if_true]
      exact ih _ tok g rfl ht (by simp at hf ⊢; omega)

theorem drain_page (net : NetHTTP) :
    ∀ (items : List PbTask) (i : Iterator) (tok : Str) (f : Nat),
      i.iter = some { items := items, stop := .Done, token := tok } → i.pageToken = [] →
      (∀ e ∈ items, owned i.queuePath i.taskIDPrefix e = true →
        ∃ t, PbTaskToTask net i.queuePath i.taskIDPrefix e = .ok t) →
      items.length + 1 ≤ f →
      Iterator.drain net f i =
        some (decodeOwned net i.queuePath i.taskIDPrefix items, .Done) := by
  intro items
  induction items with
  | nil =>
    intro i tok f hi ht _ hf
    obtain ⟨g, rfl⟩ : ∃ g, f = g + 1 := ⟨f - 1, by simp at hf; omega⟩
    rw [Iterator.drain, Iterator.Next, Iterator.nextLoop]
    have hdone : Err.Done.Is .Done = true := by decide
    simp [hi, ht, hdone, decodeOwned]
  | cons e rest ih =>
    intro i tok f hi ht hconv hf
    obtain ⟨g, rfl⟩ : ∃ g, f = g + 1 := ⟨f - 1, by simp at hf; omega⟩
    have hg : rest.length + 1 ≤ g := by simp at hf; omega
    have hi' : (if i.iter.isNone = true then i.listTasks else i) = i := by simp [hi]
    by_cases ho : owned i.queuePath i.taskIDPrefix e = true
    · obtain ⟨t, hc⟩ := hconv e (by simp) ho
      rw [decodeOwned_cons_owned net _ _ e rest t ho hc]
      rw [Iterator.drain, Iterator.Next, hi', Iterator.nextLoop]
      simp only [hi]
      have ho' : HasPrefix e.Name (taskName i.queuePath i.taskIDPrefix) = true := ho
      simp only [ho', Bool.not_true, Bool.false_eq_true, if_false, hc]
      rw [ih { i with iter := some { items := rest, stop := .Done, token := tok } } tok g rfl ht
        (fun e' he' => hconv e' (by simp [he'])) hg]
    · rw [decodeOwned_cons_foreign net _ _ e rest ho]
      have hrest := ih { i with iter := some { items := rest, stop := .Done, token := tok } }
        tok (g + 1) rfl ht (fun e' he' => hconv e' (by simp [he'])) (by omega)
      obtain ⟨x, hx⟩ := nextLoop_page_some net rest
        { i with iter := some { items := rest, stop := .Done, token := tok } } tok g rfl ht hg
      have hx1 := nextLoop_mono net g _ x hx
      have ho' : ¬ HasPrefix e.Name (taskName i.queuePath i.taskIDPrefix) = true := ho
      have hstep : Iterator.nextLoop net (g + 1) i = some x := by
        rw [Iterator.nextLoop]
        simp only [hi, ho', Bool.not_false, if_true]
        exact hx
      rw [Iterator.drain, Iterator.Next] at hrest ⊢
      rw [hi', hstep]
      simp only [Option.isNone_some, Bool.false_eq_true, if_false, hx1] at hrest
      exact hrest

theorem drain_NewIterator (net : NetHTTP) (l : TaskLister) (qp pre : Str) (f : Nat) :
    Iterator.drain net f (NewIterator l qp pre) =
      Iterator.drain net f (NewIterator l qp pre).listTasks := by
  cases f with
  | zero => rfl
  | succ g =>
    rw [Iterator.drain, Iterator.drain, Iterator.Next, Iterator.Next]
    rfl

theorem drain_store (net : NetHTTP) (project location queue pre : Str) (store : List PbTask)
    (hconv : ∀ e ∈ store, owned (QueuePath project location queue) pre e = true →
      ∃ t, PbTaskToTask net (QueuePath project location queue) pre e = .ok t)
    (f : Nat) (hf : store.length + 1 ≤ f) :
    Iterator.drain net f ((New storeClient project location queue pre).List store) =
      some (decodeOwned net (QueuePath project location queue) pre store, .Done) := by
  have : (New storeClient project location queue pre).List store =
      NewIterator (storeClient.ListTasks store) (QueuePath project location queue) pre := rfl
  rw [this, drain_NewIterator]
  exact drain_page net store _ [] f rfl rfl hconv hf

theorem drain_store_eq (net : NetHTTP) (project location queue pre : Str) (store : List PbTask)
    (hconv : ∀ e ∈ store, owned (QueuePath project location queue) pre e = true →
      ∃ t, PbTaskToTask net (QueuePath project location queue) pre e = .ok t)
    (f : Nat) (x : List Task × Err)
    (h : Iterator.drain net f ((New storeClient project location queue pre).List store)
      = some x) :
    x = (decodeOwned net (QueuePath project location queue) pre store, .Done) := by
  have h1 := drain_mono_le net f (max f (store.length + 1)) (le_max_left _ _) _ x h
  rw [drain_store net project location queue pre store hconv _ (le_max_right _ _)] at h1
  simpa using h1.symm

theorem deleteAll_store (s : Scheduler (List PbTask)) (hs : s.client = storeClient) :
    ∀ (names : List Str) (w : World (List PbTask)),
      (deleteAll s w names).2 = none →
        (deleteAll s w names).1.state =
          w.state.filter (fun e => decide (e.Name ∉ names)) := by
  intro names
  induction names with
  | nil => intro w _; simp [deleteAll]
  | cons n rest ih =>
    intro w h
    rw [deleteAll] at h ⊢
    by_cases hany : w.state.any (fun e => decide (e.Name = n)) = true
    · have hd : s.Delete w n =
          ({ state := w.state.filter (fun e => decide (e.Name ≠ n)),
             calls := w.calls ++ [.delete { Name := n }] }, none) := by
        simp only [Scheduler.Delete, hs, storeClient, hany, if_true]
      rw [hd] at h ⊢
      simp only at h ⊢
      rw [ih _ h]
      simp only [List.filter_filter]
      apply List.filter_congr
      intro e _
      simp only [List.mem_cons, not_or, ne_eq, decide_not, Bool.and_eq_true,
        Bool.not_eq_true', decide_eq_false_iff_not, decide_eq_true_eq]
      by_cases h1 : e.Name = n <;> by_cases h2 : e.Name ∈ rest <;> simp [h1, h2]
    · have hd : (s.Delete w n).2 ≠ none := by
        simp only [Scheduler.Delete, hs, storeClient, hany]
        simp
      rcases hdel : s.Delete w n with ⟨w', _ | err⟩
      · rw [hdel] at hd; simp at hd
      · rw [hdel] at h; simp at h

theorem storeClient_create_ok (st : List PbTask) (req : CreateTaskRequest)
    (h : (storeClient.CreateTask st req).2 = none) :
    (storeClient.CreateTask st req).1 = st ++ [req.Task] ∧
      ∀ e ∈ st, e.Name ≠ req.Task.Name := by
  simp only [storeClient] at h ⊢
  by_cases hany : st.any (fun e => decide (e.Name = req.Task.Name)) = true
  · simp [hany] at h
  · simp only [hany]
    refine ⟨by simp, ?_⟩
    intro e he hn
    apply hany
    simp only [List.any_eq_true, decide_eq_true_eq]
    exact ⟨e, he, hn⟩

theorem createAll_store (s : Scheduler (List PbTask)) (hs : s.client = storeClient)
    (m : List (Str × Nat)) :
    ∀ (ts : List Task) (w : World (List PbTask)),
      (createAll s m w ts).2.2 = none →
        ∃ cs : List CreateTaskRequest,
          List.Forall₂ IsCreateRequestOf
            (ts.filter (fun t => (mapLookup m t.comparisonID).isSome)) cs ∧
          (createAll s m w ts).1.state = w.state ++ cs.map (fun c => c.Task) := by
  intro ts
  induction ts with
  | nil => intro w _; exact ⟨[], by simp, by simp [createAll]⟩
  | cons t rest ih =>
    intro w h
    rw [createAll] at h ⊢
    by_cases hin : (mapLookup m t.comparisonID).isNone = true
    · simp only [hin, if_true] at h ⊢
      have hsome : (mapLookup m t.comparisonID).isSome = false := by
        cases h' : mapLookup m t.comparisonID <;> simp_all
      obtain ⟨cs, h1, h2⟩ := ih w h
      exact ⟨cs, by simpa [List.filter, hsome] using h1, h2⟩
    · simp only [hin, Bool.false_eq_true, if_false] at h ⊢
      have hsome : (mapLookup m t.comparisonID).isSome = true := by
        cases h' : mapLookup m t.comparisonID <;> simp_all
      obtain ⟨-, hcase⟩ := Create_spec s w t
      rcases hcr : s.Create w t with ⟨w', t', e⟩
      rw [hcr] at hcase h
      simp only at hcase h ⊢
      cases e with
      | some err => simp at h
      | none =>
        simp only at h ⊢
        rcases hcase with ⟨-, -, hne⟩ | ⟨req, hreq, -, hstate, hiff⟩
        · exact absurd rfl hne
        · obtain ⟨cs, h1, h2⟩ := ih w' h
          refine ⟨req :: cs, ?_, ?_⟩
          · simp only [List.filter, hsome]
            exact List.Forall₂.cons hreq h1
          · rw [h2, hstate, hs]
            have := (storeClient_create_ok w.state req (by rw [← hs]; exact hiff.1 rfl)).1
            rw [this]
            simp

theorem UnixNano_Unix (s n : Int) : (Time.Unix s n).UnixNano = wrapInt64 (s * 10 ^ 9 + n) := by
  unfold Time.UnixNano Time.Unix
  simp only
  congr 1
  have := Int.ediv_add_emod n (10 ^ 9)
  linarith

theorem convertHTTPRequest_supported (net : NetHTTP) (m u : Str) (hs : List (Str × Str))
    (b : Option (List UInt8)) (a : Option PbAuthorizationHeader) (hm : m ∈ supportedMethods) :
    convertHTTPRequest net
        { Url := u, HttpMethod := HttpMethod_value m, Headers := hs, Body := b,
          AuthorizationHeader := a } =
      match net.requestURL u with
      | none =>
        .error (.wrap "failed to initialize a new request".toList (.new "net/http".toList))
      | some url =>
        .ok { Method := m, URL := url,
              Header := hs.foldl (fun hd kv => headerAdd net hd kv.1 kv.2) [],
              Body := match b with
                | some x => some (.reader x)
                | none => none } := by
  simp only [supportedMethods, List.mem_cons, List.mem_singleton, List.not_mem_nil,
    or_false] at hm
  rcases hm with rfl | rfl | rfl | rfl | rfl | rfl | rfl <;> rfl

theorem TaskToPbTask_ok (D : Task) (pb : PbTask) (h : (TaskToPbTask D).2 = .ok pb) :
    ∃ b, pb =
      { Name := D.TaskName, ScheduleTime := some (Timestamp.New D.ScheduledAt),
        MessageType := some (.HttpRequest
          { Url := D.Request.URL, HttpMethod := HttpMethod_value D.Request.Method,
            Headers := D.Request.Header.map (fun kv => (kv.1, List.intercalate [','] kv.2)),
            Body := b,
            AuthorizationHeader :=
              match D.Authorization with
              | some (.OAuthToken email scope) => some (.OauthToken email scope)
              | some (.OIDCToken email audience) => some (.OidcToken email audience)
              | none => none }) } := by
  unfold TaskToPbTask at h
  rcases D with ⟨qp, pre, id, at_, ⟨m, u, hd, body⟩, auth, v⟩
  rcases body with _ | ⟨b | e⟩
  · simp at h; exact ⟨none, h.symm⟩
  · simp at h; exact ⟨some b, h.symm⟩
  · simp at h

theorem convertAuthorizationToken_roundtrip (auth : Option AuthorizationToken) (u : Str)
    (m : HttpMethod) (hs : List (Str × Str)) (b : Option (List UInt8)) :
    convertAuthorizationToken
        { Url := u, HttpMethod := m, Headers := hs, Body := b,
          AuthorizationHeader :=
            match auth with
            | some (.OAuthToken email scope) => some (.OauthToken email scope)
            | some (.OIDCToken email audience) => some (.OidcToken email audience)
            | none => none } = .ok auth := by
  rcases auth with _ | ⟨e1, s1⟩ | ⟨e2, a2⟩ <;> rfl

theorem created_roundtrip (net : NetHTTP) (qp pre : Str) (D : Task) (pb : PbTask)
    (hval : D.Validate = none) (hqp : D.QueuePath = qp) (hpre : D.Prefix = pre)
    (hlo : -2 ^ 63 ≤ D.Version) (hhi : D.Version < 2 ^ 63)
    (hm : D.Request.Method ∈ supportedMethods)
    (hu : ∃ u, net.requestURL D.Request.URL = some u ∧
      removeTrailingSlash u = removeTrailingSlash D.Request.URL)
    (hpb : (TaskToPbTask D).2 = .ok pb) :
    owned qp pre pb = true ∧
      ∃ t, PbTaskToTask net qp pre pb = .ok t ∧ t.comparisonID = D.comparisonID ∧
        D.Compare t = true ∧ t.TaskName = pb.Name := by
  have hb := TaskToPbTask_ok D pb hpb
  clear hpb
  obtain ⟨b, rfl⟩ := hb
  obtain ⟨u, hu1, hu2⟩ := hu
  have hns := Validate_no_slash D hval
  have hparse : ParseTaskName pre D.TaskName = .ok (D.ID, D.Version) := by
    rw [← hpre]
    exact ParseTaskName_TaskID D _ (taskName_Base _ _ (TaskID_ne_nil D) hns) hlo hhi
  constructor
  · have := TaskName_HasPrefix D
    rw [hqp, hpre] at this
    exact this
  · have hconv : ∃ t, PbTaskToTask net qp pre
        { Name := D.TaskName, ScheduleTime := some (Timestamp.New D.ScheduledAt),
          MessageType := some (.HttpRequest
            { Url := D.Request.URL, HttpMethod := HttpMethod_value D.Request.Method,
              Headers := D.Request.Header.map (fun kv => (kv.1, List.intercalate [','] kv.2)),
              Body := b,
              AuthorizationHeader :=
                match D.Authorization with
                | some (.OAuthToken email scope) => some (.OauthToken email scope)
                | some (.OIDCToken email audience) => some (.OidcToken email audience)
                | none => none }) } = .ok t ∧
        t.QueuePath = qp ∧ t.Prefix = pre ∧ t.ID = D.ID ∧ t.Version = D.Version ∧
        t.ScheduledAt = Time.Unix D.ScheduledAt.sec D.ScheduledAt.nsec ∧
        t.Authorization = D.Authorization ∧ t.Request.Method = D.Request.Method ∧
        t.Request.URL = u := by
      unfold PbTaskToTask
      simp only [hparse, convertHTTPRequest_supported net _ _ _ _ _ hm, hu1,
        convertAuthorizationToken_roundtrip]
      exact ⟨_, rfl, rfl, rfl, rfl, rfl, rfl, rfl, rfl, rfl⟩
    obtain ⟨t, ht, h1, h2, h3, h4, h5, h6, h7, h8⟩ := hconv
    have hkey : t.comparisonID = D.comparisonID := by
      simp only [Task.comparisonID, h2, h3, h5, UnixNano_Unix, hpre]
      rfl
    refine ⟨t, ht, hkey, ?_, ?_⟩
    · unfold Task.Compare
      simp [hkey, h4, h6, h7, h8, hu2]
    · simp only [Task.TaskName, Task.TaskID, h1, h4, hkey, hqp]

theorem decodeOwned_append (net : NetHTTP) (qp pre : Str) (l1 l2 : List PbTask) :
    decodeOwned net qp pre (l1 ++ l2) = decodeOwned net qp pre l1 ++ decodeOwned net qp pre l2 := by
  simp [decodeOwned, List.filterMap_append]

theorem mem_decodeOwned (net : NetHTTP) (qp pre : Str) (l : List PbTask) (t : Task)
    (h : t ∈ decodeOwned net qp pre l) :
    ∃ e ∈ l, owned qp pre e = true ∧ PbTaskToTask net qp pre e = .ok t := by
  unfold decodeOwned at h
  obtain ⟨e, he, hf⟩ := List.mem_filterMap.1 h
  refine ⟨e, he, ?_⟩
  by_cases ho : owned qp pre e = true
  · simp only [ho, if_true] at hf
    cases hc : PbTaskToTask net qp pre e with
    | error err => simp [hc] at hf
    | ok t' =>
      simp only [hc, Option.some.injEq] at hf
      subst hf
      exact ⟨ho, rfl⟩
  · simp [ho] at hf

theorem decodeOwned_filter (net : NetHTTP) (qp pre : Str) (dn : List Str) :
    ∀ (store : List PbTask),
      (∀ e ∈ store, owned qp pre e = true →
        ∃ t, PbTaskToTask net qp pre e = .ok t ∧ t.TaskName = e.Name) →
      decodeOwned net qp pre (store.filter (fun e => decide (e.Name ∉ dn))) =
        (decodeOwned net qp pre store).filter (fun R => decide (R.TaskName ∉ dn)) := by
  intro store
  induction store with
  | nil => intro _; rfl
  | cons e rest ih =>
    intro h
    have ih' := ih (fun e' he' => h e' (by simp [he']))
    by_cases ho : owned qp pre e = true
    · obtain ⟨t, hc, hn⟩ := h e (by simp) ho
      rw [decodeOwned_cons_owned net qp pre e rest t ho hc]
      by_cases hd : e.Name ∈ dn
      · have hd' : t.TaskName ∈ dn := by rw [hn]; exact hd
        simp only [List.filter, hd, hd', not_true_eq_false, decide_False]
        exact ih'
      · have hd' : t.TaskName ∉ dn := by rw [hn]; exact hd
        simp only [List.filter, hd, hd', not_false_eq_true, decide_True]
        rw [decodeOwned_cons_owned net qp pre e _ t ho hc, ih']
    · rw [decodeOwned_cons_foreign net qp pre e rest ho]
      by_cases hd : e.Name ∈ dn
      · simp only [List.filter, hd, not_true_eq_false, decide_False]
        exact ih'
      · simp only [List.filter, hd, not_false_eq_true, decide_True]
        rw [decodeOwned_cons_foreign net qp pre e _ ho, ih']

theorem decodeOwned_names_nodup (net : NetHTTP) (qp pre : Str) :
    ∀ (store : List PbTask),
      (∀ e ∈ store, owned qp pre e = true →
        ∃ t, PbTaskToTask net qp pre e = .ok t ∧ t.TaskName = e.Name) →
      (store.map (fun e => e.Name)).Nodup →
      ((decodeOwned net qp pre store).map Task.TaskName).Nodup ∧
        ∀ R ∈ decodeOwned net qp pre store, R.TaskName ∈ store.map (fun e => e.Name) := by
  intro store
  induction store with
  | nil => intro _ _; simp [decodeOwned]
  | cons e rest ih =>
    intro h hnd
    simp only [List.map_cons, List.nodup_cons] at hnd
    obtain ⟨ih1, ih2⟩ := ih (fun e' he' => h e' (by simp [he'])) hnd.2
    by_cases ho : owned qp pre e = true
    · obtain ⟨t, hc, hn⟩ := h e (by simp) ho
      rw [decodeOwned_cons_owned net qp pre e rest t ho hc]
      refine ⟨?_, ?_⟩
      · simp only [List.map_cons, List.nodup_cons]
        refine ⟨?_, ih1⟩
        intro hm
        obtain ⟨R, hR, hRn⟩ := List.mem_map.1 hm
        have := ih2 R hR
        rw [hRn, hn] at this
        exact hnd.1 this
      · intro R hR
        rcases List.mem_cons.1 hR with rfl | hR
        · simp [hn]
        · exact List.mem_cons_of_mem _ (ih2 R hR)
    · rw [decodeOwned_cons_foreign net qp pre e rest ho]
      exact ⟨ih1, fun R hR => List.mem_cons_of_mem _ (ih2 R hR)⟩

theorem Forall₂_mem_left {α β : Type} {R : α → β → Prop} :
    ∀ {l : List α} {cs : List β}, List.Forall₂ R l cs → ∀ a ∈ l, ∃ c ∈ cs, R a c := by
  intro l cs h
  induction h with
  | nil => intro a ha; simp at ha
  | cons hab _ ih =>
    intro a ha
    rcases List.mem_cons.1 ha with rfl | ha
    · exact ⟨_, by simp, hab⟩
    · obtain ⟨c, hc, hr⟩ := ih a ha
      exact ⟨c, by simp [hc], hr⟩

theorem created_decode_list (net : NetHTTP) (qp pre : Str) :
    ∀ (l : List Task) (cs : List CreateTaskRequest),
      List.Forall₂ IsCreateRequestOf l cs →
      (∀ t ∈ l, t.QueuePath = qp ∧ t.Prefix = pre ∧ -2 ^ 63 ≤ t.Version ∧ t.Version < 2 ^ 63 ∧
        t.Request.Method ∈ supportedMethods ∧
        ∃ u, net.requestURL t.Request.URL = some u ∧
          removeTrailingSlash u = removeTrailingSlash t.Request.URL) →
      List.Forall₂ (fun t R => R.comparisonID = t.comparisonID ∧
          (withDefaultVersion t).Compare R = true)
        l (decodeOwned net qp pre (cs.map (fun c => c.Task))) ∧
      ∀ e ∈ cs.map (fun c => c.Task), owned qp pre e = true ∧
        ∃ t, PbTaskToTask net qp pre e = .ok t := by
  intro l cs h
  induction h with
  | nil => intro _; exact ⟨by simp [decodeOwned], by simp⟩
  | @cons t req l' cs' hreq _ ih =>
    intro hall
    obtain ⟨ih1, ih2⟩ := ih (fun t' ht' => hall t' (by simp [ht']))
    obtain ⟨hq, hp, hlo, hhi, hm, hu⟩ := hall t (by simp)
    have hw : withDefaultVersion t = { t with Version := (withDefaultVersion t).Version } :=
      (VerLe_withDefaultVersion t).1
    have hwr : -2 ^ 63 ≤ (withDefaultVersion t).Version ∧
        (withDefaultVersion t).Version < 2 ^ 63 := by
      unfold withDefaultVersion
      split
      · simp only; constructor <;> norm_num
      · exact ⟨hlo, hhi⟩
    obtain ⟨ho, R, hc, hkey, hcmp, -⟩ := created_roundtrip net qp pre (withDefaultVersion t)
      req.Task hreq.1 (by rw [hw]; exact hq) (by rw [hw]; exact hp) hwr.1 hwr.2
      (by rw [hw]; exact hm) (by rw [hw]; exact hu) hreq.2.1
    refine ⟨?_, ?_⟩
    · simp only [List.map_cons]
      rw [decodeOwned_cons_owned net qp pre _ _ R ho hc]
      exact List.Forall₂.cons ⟨by rw [hkey, withDefaultVersion_comparisonID], hcmp⟩ ih1
    · intro e he
      simp only [List.map_cons, List.mem_cons] at he
      rcases he with rfl | he
      · exact ⟨ho, R, hc⟩
      · exact ih2 e he

theorem SameButVersion_fields {a t : Task} (h : SameButVersion a t) :
    t.QueuePath = a.QueuePath ∧ t.Prefix = a.Prefix ∧ t.Request = a.Request := by
  unfold SameButVersion at h
  exact ⟨by rw [h], by rw [h], by rw [h]⟩

theorem TasksLe_TasksSim {l1 l2 : List Task} (h : TasksLe l1 l2) : TasksSim l1 l2 :=
  ⟨h.1, fun p a ha => let ⟨b, hb, hv⟩ := h.2 p a ha; ⟨b, hb, hv.1⟩⟩

theorem Forall₂_keys {P : Task → Task → Prop} :
    ∀ {l rs : List Task},
      List.Forall₂ (fun t R => R.comparisonID = t.comparisonID ∧ P t R) l rs →
      rs.map Task.comparisonID = l.map Task.comparisonID := by
  intro l rs h
  induction h with
  | nil => rfl
  | cons hab _ ih => simp only [List.map_cons, ih, hab.1]

/-- Convergence of `Sync` on the store: the facts shared by the convergence
and the idempotence theorems. -/
theorem converge_core (net : NetHTTP) (project location queue pre : Str)
    (store : List PbTask) (tasks : List Task) (fuel : Nat) (r : SyncResult (List PbTask))
    (hkeys : (tasks.map Task.comparisonID).Nodup)
    (hcarry : ∀ D ∈ tasks, D.QueuePath = QueuePath project location queue ∧ D.Prefix = pre)
    (hint : InRange tasks)
    (hmeth : ∀ D ∈ tasks, D.Request.Method ∈ supportedMethods)
    (hurl : ∀ D ∈ tasks, ∃ u, net.requestURL D.Request.URL = some u ∧
      removeTrailingSlash u = removeTrailingSlash D.Request.URL)
    (hnames : (store.map (fun e => e.Name)).Nodup)
    (hcanon : ∀ e ∈ store, owned (QueuePath project location queue) pre e = true →
      ∃ t, PbTaskToTask net (QueuePath project location queue) pre e = .ok t ∧
        t.TaskName = e.Name)
    (hsync : (New storeClient project location queue pre).Sync net fuel
      { state := store, calls := [] } tasks = some r)
    (herr : r.err = none) :
    TasksSim tasks r.tasks ∧
      (∀ e ∈ r.world.state, owned (QueuePath project location queue) pre e = true →
        ∃ t, PbTaskToTask net (QueuePath project location queue) pre e = .ok t) ∧
      ((decodeOwned net (QueuePath project location queue) pre r.world.state).map
        Task.comparisonID).Nodup ∧
      (∀ R ∈ decodeOwned net (QueuePath project location queue) pre r.world.state,
        ∃ D ∈ r.tasks, D.comparisonID = R.comparisonID ∧ D.Compare R = true) ∧
      (∀ D ∈ r.tasks,
        ∃ R ∈ decodeOwned net (QueuePath project location queue) pre r.world.state,
          D.comparisonID = R.comparisonID ∧ D.Compare R = true) := by
  have hclient : (New storeClient project location queue pre).client = storeClient := rfl
  have hconv0 : ∀ e ∈ store, owned (QueuePath project location queue) pre e = true →
      ∃ t, PbTaskToTask net (QueuePath project location queue) pre e = .ok t :=
    fun e he ho => let ⟨t, h, _⟩ := hcanon e he ho; ⟨t, h⟩
  obtain ⟨rs, e, hd, ss, hss, hcases⟩ := Sync_unfold net _ fuel _ tasks r hsync
  have hx := drain_store_eq net project location queue pre store hconv0 fuel (rs, e) hd
  simp only [Prod.mk.injEq] at hx
  obtain ⟨hrs, rfl⟩ := hx
  rcases hcases with ⟨-, -, -, he⟩ | ⟨-, hne, -, -, he⟩ | ⟨-, hdel, hw, ht, he⟩
  · rw [herr] at he; simp at he
  · rw [herr] at he; exact absurd he.symm hne
  · have hss' : ss = rs.foldl syncStep (initState tasks) := hss
    obtain ⟨hnd, -⟩ := decodeOwned_names_nodup net _ pre store hcanon hnames
    rw [← hrs] at hnd
    have hinv : ConvInv tasks rs ss := by
      have := ConvInv_foldl tasks rs [] (initState tasks) (by simpa using hnd)
        (ConvInv_init tasks hint)
      rw [hss']
      simpa using this
    have hst1 := deleteAll_store _ hclient ss.deleteNames
      ({ state := store, calls := [] } : World (List PbTask)) hdel
    have hcn : (createAll (New storeClient project location queue pre) ss.taskMap
        (deleteAll (New storeClient project location queue pre)
          { state := store, calls := [] } ss.deleteNames).1 ss.tasks).2.2 = none := by
      rw [← he]; exact herr
    obtain ⟨cs, hf, hst2⟩ := createAll_store _ hclient ss.taskMap ss.tasks _ hcn
    obtain ⟨cs', -, hok⟩ := createAll_spec (New storeClient project location queue pre)
      ss.taskMap ss.tasks
      (deleteAll (New storeClient project location queue pre)
        { state := store, calls := [] } ss.deleteNames).1
    have htasks : r.tasks = ss.tasks.map (fun t =>
        if (mapLookup ss.taskMap t.comparisonID).isSome then withDefaultVersion t else t) := by
      rw [ht]; exact (hok hcn).2
    have hF : r.world.state =
        store.filter (fun e => decide (e.Name ∉ ss.deleteNames)) ++ cs.map (fun c => c.Task) := by
      rw [hw, hst2, hst1]
    -- facts about the tasks of the loop state
    have hssfacts : ∀ t ∈ ss.tasks, ∃ a ∈ tasks, SameButVersion a t := by
      intro t htm
      obtain ⟨q, hq⟩ := List.mem_iff_getElem?.1 htm
      obtain ⟨a, ha, hs⟩ := TasksSim_back hinv.sim q t hq
      exact ⟨a, List.getElem?_mem ha, hs⟩
    have hfilt : ∀ t ∈ ss.tasks.filter (fun t => (mapLookup ss.taskMap t.comparisonID).isSome),
        t.QueuePath = QueuePath project location queue ∧ t.Prefix = pre ∧
        -2 ^ 63 ≤ t.Version ∧ t.Version < 2 ^ 63 ∧
        t.Request.Method ∈ supportedMethods ∧
        ∃ u, net.requestURL t.Request.URL = some u ∧
          removeTrailingSlash u = removeTrailingSlash t.Request.URL := by
      intro t htf
      have htm := (List.mem_filter.1 htf).1
      obtain ⟨a, ha, hs⟩ := hssfacts t htm
      obtain ⟨h1, h2, h3⟩ := SameButVersion_fields hs
      have hr := hinv.range t htm
      refine ⟨by rw [h1]; exact (hcarry a ha).1, by rw [h2]; exact (hcarry a ha).2, hr.1, hr.2,
        by rw [h3]; exact hmeth a ha, by rw [h3]; exact hurl a ha⟩
    obtain ⟨hcl, hcown⟩ := created_decode_list net (QueuePath project location queue) pre
      _ cs hf hfilt
    have hdec : decodeOwned net (QueuePath project location queue) pre r.world.state =
        rs.filter (fun R => decide (R.TaskName ∉ ss.deleteNames)) ++
          decodeOwned net (QueuePath project location queue) pre (cs.map (fun c => c.Task)) := by
      rw [hF, decodeOwned_append, decodeOwned_filter net _ pre _ store hcanon, hrs]
    have hkeptfacts : ∀ R ∈ rs.filter (fun R => decide (R.TaskName ∉ ss.deleteNames)),
        mapLookup ss.taskMap R.comparisonID = none ∧
          ∃ (p : Nat) (D : Task), mapLookup (buildTaskMap tasks) R.comparisonID = some p ∧
            ss.tasks[p]? = some D ∧ D.Compare R = true := by
      intro R hR
      obtain ⟨h1, h2⟩ := List.mem_filter.1 hR
      exact hinv.kept R h1 (by simpa using h2)
    have hsskeys : ss.tasks.map Task.comparisonID = tasks.map Task.comparisonID := by
      apply List.ext_getElem?
      intro q
      simp only [List.getElem?_map]
      cases hq : ss.tasks[q]? with
      | none =>
        have : tasks[q]? = none := by
          rw [List.getElem?_eq_none_iff] at hq ⊢
          rw [hinv.sim.1]; exact hq
        simp [this]
      | some t =>
        obtain ⟨a, ha, hs⟩ := TasksSim_back hinv.sim q t hq
        simp [ha, SameButVersion_key hs]
    refine ⟨?_, ?_, ?_, ?_, ?_⟩
    · have h2 : TasksSim ss.tasks r.tasks := by
        rw [ht]
        exact TasksLe_TasksSim (createAll_TasksLe _ _ _ _)
      exact TasksSim_trans hinv.sim h2
    · intro e' he' ho
      rw [hF] at he'
      rcases List.mem_append.1 he' with h1 | h1
      · exact hconv0 e' (List.mem_filter.1 h1).1 ho
      · exact (hcown e' h1).2
    · rw [hdec, List.map_append, List.nodup_append]
      refine ⟨hinv.keptNodup, ?_, ?_⟩
      · have hsub : (decodeOwned net (QueuePath project location queue) pre
            (cs.map (fun c => c.Task))).map Task.comparisonID =
            (ss.tasks.filter (fun t => (mapLookup ss.taskMap t.comparisonID).isSome)).map
              Task.comparisonID := Forall₂_keys hcl
        rw [hsub]
        have : ((ss.tasks.filter
            (fun t => (mapLookup ss.taskMap t.comparisonID).isSome)).map
            Task.comparisonID).Sublist (ss.tasks.map Task.comparisonID) :=
          List.Sublist.map _ (List.filter_sublist _)
        exact List.Nodup.sublist this (by rw [hsskeys]; exact hkeys)
      · intro k hk1 hk2
        obtain ⟨R, hR, hRk⟩ := List.mem_map.1 hk1
        obtain ⟨R2, hR2, hR2k⟩ := List.mem_map.1 hk2
        obtain ⟨t, htf, hkey, -⟩ := Forall₂_mem_right hcl R2 hR2
        have hsome := (List.mem_filter.1 htf).2
        have hnone := (hkeptfacts R hR).1
        rw [hRk, ← hR2k, hkey] at hnone
        rw [hnone] at hsome
        simp at hsome
    · intro R hR
      rw [hdec] at hR
      rcases List.mem_append.1 hR with h1 | h1
      · obtain ⟨hnone, p, D, -, hD, hcmp⟩ := hkeptfacts R h1
        refine ⟨D, ?_, Compare_key D R hcmp, hcmp⟩
        rw [htasks]
        refine List.mem_map.2 ⟨D, List.getElem?_mem hD, ?_⟩
        rw [Compare_key D R hcmp, hnone]
        simp
      · obtain ⟨t, htf, hkey, hcmp⟩ := Forall₂_mem_right hcl R h1
        obtain ⟨htm, hsome⟩ := List.mem_filter.1 htf
        refine ⟨withDefaultVersion t, ?_, by rw [withDefaultVersion_comparisonID, hkey], hcmp⟩
        rw [htasks]
        exact List.mem_map.2 ⟨t, htm, by simp [hsome]⟩
    · intro D hD
      rw [htasks] at hD
      obtain ⟨t, htm, hft⟩ := List.mem_map.1 hD
      by_cases hsome : (mapLookup ss.taskMap t.comparisonID).isSome = true
      · simp only [hsome, if_true] at hft
        subst hft
        obtain ⟨R, hR, hkey, hcmp⟩ := Forall₂_mem_left hcl t (List.mem_filter.2 ⟨htm, hsome⟩)
        exact ⟨R, by rw [hdec]; exact List.mem_append_right _ hR,
          by rw [withDefaultVersion_comparisonID, hkey], hcmp⟩
      · simp only [hsome] at hft
        simp only [Bool.false_eq_true, if_false] at hft
        subst hft
        have hnone : mapLookup ss.taskMap t.comparisonID = none := by
          cases h' : mapLookup ss.taskMap t.comparisonID <;> simp_all
        obtain ⟨q, hq⟩ := List.mem_iff_getElem?.1 htm
        obtain ⟨a, ha, hs⟩ := TasksSim_back hinv.sim q t hq
        have hbs := buildTaskMap_isSome tasks a (List.getElem?_mem ha)
        obtain ⟨p, hp⟩ := Option.isSome_iff_exists.1 hbs
        rw [← SameButVersion_key hs] at hp
        obtain ⟨R, hR, hRk, hRn⟩ := hinv.matched _ p hp hnone
        obtain ⟨-, p', D', hp', hD', hcmp⟩ := hinv.kept R hR hRn
        rw [hRk, hp] at hp'
        simp only [Option.some.injEq] at hp'
        subst hp'
        obtain ⟨a2, ha2, hk2⟩ := buildTaskMap_lookup_sound tasks _ _ hp
        have hpq : p = q := key_index_unique tasks hkeys p q a2 a ha2 ha
          (by rw [hk2, SameButVersion_key hs])
        subst hpq
        rw [hq] at hD'
        simp only [Option.some.injEq] at hD'
        subst hD'
        refine ⟨R, ?_, hRk.symm, hcmp⟩
        rw [hdec]
        exact List.mem_append_left _ (List.mem_filter.2 ⟨hR, by simpa using hRn⟩)

theorem TasksSim_keys {l1 l2 : List Task} (h : TasksSim l1 l2) :
    l2.map Task.comparisonID = l1.map Task.comparisonID := by
  apply List.ext_getElem?
  intro p
  simp only [List.getElem?_map]
  cases h1 : l1[p]? with
  | none =>
    have hp : l2.length ≤ p := by
      rw [← h.1]; exact List.getElem?_eq_none_iff.mp h1
    rw [List.getElem?_eq_none_iff.mpr hp]
  | some a =>
    obtain ⟨b, hb, hab⟩ := h.2 p a h1
    rw [hb]
    simp only [Option.map_some']
    rw [SameButVersion_key hab]

/-- C1 (as stated, refuted). The desired task passes validation and conversion
and carries the scheduler's queue path and prefix; the remote queue holds one
owned entry whose name is the canonical encoding of its schedule time and
version 4 but whose payload is not an HTTP request. The listing call succeeds,
the iterator cannot convert the entry, and `Sync` returns that error without
issuing any call: the queue still holds the owned entry of id "old" and no
entry for the desired task of id "i_v". -/
theorem C1_counterexample :
    sampleTask.Validate = none ∧
    (TaskToPbTask sampleTask).2.toOption.isSome = true ∧
    sampleTask.QueuePath = sampleScheduler.queuePath ∧
    sampleTask.Prefix = sampleScheduler.taskPrefix ∧
    sampleTask.ID = "i_v".toList ∧
    owned sampleScheduler.queuePath sampleScheduler.taskPrefix sampleRemoteAppEngine = true ∧
    sampleRemoteAppEngine.Name = taskName sampleScheduler.queuePath
      ("test_old_".toList ++
        FormatInt (Time.UnixNano (Timestamp.AsTime sampleRemoteAppEngine.ScheduleTime)) 16 ++
        "v4".toList) ∧
    ParseTaskName sampleScheduler.taskPrefix sampleRemoteAppEngine.Name =
      .ok ("old".toList, 4) ∧
    (sampleScheduler.Sync sampleNet 3 { state := [sampleRemoteAppEngine], calls := [] }
        [sampleTask]).map
      (fun (r : SyncResult (List PbTask)) => (r.err.isSome, r.world.calls, r.world.state)) =
      some (true, [], [sampleRemoteAppEngine]) := by
  decide

/-- With enough fuel to walk the store listing, `Sync` on the store returns. -/
theorem Sync_store_returns (net : NetHTTP) (project location queue pre : Str)
    (store : List PbTask) (tasks : List Task) (fuel : Nat)
    (hconv : ∀ e ∈ store, owned (QueuePath project location queue) pre e = true →
      ∃ t, PbTaskToTask net (QueuePath project location queue) pre e = .ok t)
    (hfuel : store.length + 1 ≤ fuel) :
    ∃ r, (New storeClient project location queue pre).Sync net fuel
      { state := store, calls := [] } tasks = some r := by
  rw [Sync_of_drain net (New storeClient project location queue pre) fuel
    { state := store, calls := [] } tasks _
    (drain_store net project location queue pre store hconv fuel hfuel)]
  split
  · exact ⟨_, rfl⟩
  · exact ⟨_, rfl⟩

/-- C1 (amended). Convergence of `Sync` against a queue that is changed only by
the create and delete calls `Sync` issues (the store client). The desired tasks
have pairwise distinct comparison keys, carry the scheduler's queue path and
prefix, hold Go int versions, use a supported HTTP method and a URL that the
HTTP library reproduces up to a trailing slash; the remote entries have
pairwise distinct names and every owned entry converts to a task whose
`TaskName()` is the entry's name. Then `Sync` returns (given fuel for the
listing), and if it returns nil, the desired tasks are the input tasks except
for bumped versions (same keys, in order), every owned entry of the final queue
converts, the owned tasks of the final queue have pairwise distinct comparison
keys, each of them has the key of a desired task whose `Compare` accepts it,
and every desired task has an owned remote task of its key that its `Compare`
accepts. -/
theorem C1_convergence (net : NetHTTP) (project location queue pre : Str)
    (store : List PbTask) (tasks : List Task) (fuel : Nat)
    (hkeys : (tasks.map Task.comparisonID).Nodup)
    (hcarry : ∀ D ∈ tasks, D.QueuePath = QueuePath project location queue ∧ D.Prefix = pre)
    (hint : InRange tasks)
    (hmeth : ∀ D ∈ tasks, D.Request.Method ∈ supportedMethods)
    (hurl : ∀ D ∈ tasks, ∃ u, net.requestURL D.Request.URL = some u ∧
      removeTrailingSlash u = removeTrailingSlash D.Request.URL)
    (hnames : (store.map (fun e => e.Name)).Nodup)
    (hcanon : ∀ e ∈ store, owned (QueuePath project location queue) pre e = true →
      ∃ t, PbTaskToTask net (QueuePath project location queue) pre e = .ok t ∧
        t.TaskName = e.Name)
    (hfuel : store.length + 1 ≤ fuel) :
    ∃ r, (New storeClient project location queue pre).Sync net fuel
        { state := store, calls := [] } tasks = some r ∧
      (r.err = none →
        (TasksSim tasks r.tasks ∧
          r.tasks.map Task.comparisonID = tasks.map Task.comparisonID) ∧
        (∀ e ∈ r.world.state, owned (QueuePath project location queue) pre e = true →
          ∃ t, PbTaskToTask net (QueuePath project location queue) pre e = .ok t) ∧
        ((decodeOwned net (QueuePath project location queue) pre r.world.state).map
          Task.comparisonID).Nodup ∧
        (∀ R ∈ decodeOwned net (QueuePath project location queue) pre r.world.state,
          ∃ D ∈ r.tasks, D.comparisonID = R.comparisonID ∧ D.Compare R = true) ∧
        (∀ D ∈ r.tasks,
          ∃ R ∈ decodeOwned net (QueuePath project location queue) pre r.world.state,
            D.comparisonID = R.comparisonID ∧ D.Compare R = true)) := by
  obtain ⟨r, hsync⟩ := Sync_store_returns net project location queue pre store tasks fuel
    (fun e he ho => let ⟨t, h, _⟩ := hcanon e he ho; ⟨t, h⟩) hfuel
  refine ⟨r, hsync, fun herr => ?_⟩
  obtain ⟨hsim, hrest⟩ := converge_core net project location queue pre store tasks fuel r
    hkeys hcarry hint hmeth hurl hnames hcanon hsync herr
  exact ⟨⟨hsim, TasksSim_keys hsim⟩, hrest⟩

set_option maxRecDepth 100000 in
theorem C1_convergence_witness :
    ∃ r, (New storeClient "p".toList "l".toList "q".toList "test_".toList).Sync sampleNet 5
        { state := [sampleForeign, sampleRemoteSameKey, sampleRemote], calls := [] }
        [sampleTask] = some r ∧ r.err = none ∧
      ((TasksSim [sampleTask] r.tasks ∧
        r.tasks.map Task.comparisonID = [sampleTask].map Task.comparisonID) ∧
      (∀ e ∈ r.world.state,
        owned (QueuePath "p".toList "l".toList "q".toList) "test_".toList e = true →
        ∃ t, PbTaskToTask sampleNet (QueuePath "p".toList "l".toList "q".toList)
          "test_".toList e = .ok t) ∧
      ((decodeOwned sampleNet (QueuePath "p".toList "l".toList "q".toList) "test_".toList
        r.world.state).map Task.comparisonID).Nodup ∧
      (∀ R ∈ decodeOwned sampleNet (QueuePath "p".toList "l".toList "q".toList)
          "test_".toList r.world.state,
        ∃ D ∈ r.tasks, D.comparisonID = R.comparisonID ∧ D.Compare R = true) ∧
      (∀ D ∈ r.tasks,
        ∃ R ∈ decodeOwned sampleNet (QueuePath "p".toList "l".toList "q".toList)
          "test_".toList r.world.state,
          D.comparisonID = R.comparisonID ∧ D.Compare R = true)) := by
  obtain ⟨r, hr, h⟩ := C1_convergence sampleNet "p".toList "l".toList "q".toList
    "test_".toList [sampleForeign, sampleRemoteSameKey, sampleRemote] [sampleTask] 5
    (by decide) (by decide) (by unfold InRange; decide) (by decide)
    (fun D _ => ⟨D.Request.URL, rfl, rfl⟩) (by decide)
    (by
      intro e he ho
      simp only [List.mem_cons, List.mem_singleton, List.not_mem_nil, or_false] at he
      rcases he with rfl | rfl | rfl
      · exact absurd ho (by decide)
      · exact ⟨sampleRemoteSameKeyTask, by decide, by decide⟩
      · exact ⟨sampleRemoteTask, by decide, by decide⟩)
    (by decide)
  have h0 : ((New storeClient "p".toList "l".toList "q".toList "test_".toList).Sync sampleNet 5
      { state := [sampleForeign, sampleRemoteSameKey, sampleRemote], calls := [] }
      [sampleTask]).map (fun (x : SyncResult (List PbTask)) => x.err) = some none := by
    decide
  rw [hr] at h0
  have herr : r.err = none := by simpa using h0
  exact ⟨r, hr, herr, h herr⟩

/-- C7 (as stated, refuted). The desired task carries the prefix "other_" while
the scheduler owns the prefix "test_". Against an empty queue the first `Sync`
returns nil after one create call; the listing of the second `Sync` skips the
created entry as not owned, so the second `Sync` issues the same create call
again. -/
theorem C7_counterexample :
    (sampleScheduler.Sync sampleNet 2 { state := [], calls := [] } [sampleTaskOther]).map
      (fun (r : SyncResult (List PbTask)) =>
        (r.err, r.world.calls.map Call.summary, r.world.state.length)) =
      some (none, [(true, "projects/p/locations/l/queues/q/tasks/other_i_v_3b9aca02v1".toList)],
        1) ∧
    ((sampleScheduler.Sync sampleNet 2 { state := [], calls := [] } [sampleTaskOther]).bind
      (fun (r : SyncResult (List PbTask)) =>
        sampleScheduler.Sync sampleNet 3 { state := r.world.state, calls := [] } r.tasks)).map
      (fun (r : SyncResult (List PbTask)) => r.world.calls.map Call.summary) =
      some [(true, "projects/p/locations/l/queues/q/tasks/other_i_v_3b9aca02v1".toList)] := by
  decide

/-- C7 (amended). Idempotence of `Sync` against a queue that is changed only by
the calls `Sync` issues (the store client). The desired tasks have pairwise
distinct comparison keys, carry the scheduler's queue path and prefix, hold Go
int versions, use a supported HTTP method and a URL that the HTTP library
reproduces up to a trailing slash; the remote entries have pairwise distinct
names and every owned entry converts to a task whose `TaskName()` is the
entry's name. If the first `Sync` returns nil, then a second `Sync` of the same
desired tasks (as the first run left them) on the queue the first run left,
with enough fuel to walk the listing, returns nil, issues no create call and no
delete call, and changes neither the queue nor the desired tasks. -/
theorem C7_idempotence (net : NetHTTP) (project location queue pre : Str)
    (store : List PbTask) (tasks : List Task) (fuel fuel2 : Nat)
    (r : SyncResult (List PbTask))
    (hkeys : (tasks.map Task.comparisonID).Nodup)
    (hcarry : ∀ D ∈ tasks, D.QueuePath = QueuePath project location queue ∧ D.Prefix = pre)
    (hint : InRange tasks)
    (hmeth : ∀ D ∈ tasks, D.Request.Method ∈ supportedMethods)
    (hurl : ∀ D ∈ tasks, ∃ u, net.requestURL D.Request.URL = some u ∧
      removeTrailingSlash u = removeTrailingSlash D.Request.URL)
    (hnames : (store.map (fun e => e.Name)).Nodup)
    (hcanon : ∀ e ∈ store, owned (QueuePath project location queue) pre e = true →
      ∃ t, PbTaskToTask net (QueuePath project location queue) pre e = .ok t ∧
        t.TaskName = e.Name)
    (hsync : (New storeClient project location queue pre).Sync net fuel
      { state := store, calls := [] } tasks = some r)
    (herr : r.err = none)
    (hfuel : r.world.state.length + 1 ≤ fuel2) :
    (New storeClient project location queue pre).Sync net fuel2
        { state := r.world.state, calls := [] } r.tasks =
      some { err := none, tasks := r.tasks,
             world := { state := r.world.state, calls := [] } } := by
  obtain ⟨-, hconv, hnd, hrem, hdes⟩ := converge_core net project location queue pre store
    tasks fuel r hkeys hcarry hint hmeth hurl hnames hcanon hsync herr
  exact steady_state_core net (New storeClient project location queue pre) fuel2
    { state := r.world.state, calls := [] } r.tasks
    (decodeOwned net (QueuePath project location queue) pre r.world.state)
    (drain_store net project location queue pre r.world.state hconv fuel2 hfuel)
    hnd hrem hdes

set_option maxRecDepth 100000 in
theorem C7_idempotence_witness :
    ∃ r, (New storeClient "p".toList "l".toList "q".toList "test_".toList).Sync sampleNet 5
        { state := [sampleForeign, sampleRemoteSameKey, sampleRemote], calls := [] }
        [sampleTask] = some r ∧ r.err = none ∧ r.world.calls.length = 3 ∧
      (New storeClient "p".toList "l".toList "q".toList "test_".toList).Sync sampleNet 4
          { state := r.world.state, calls := [] } r.tasks =
        some { err := none, tasks := r.tasks,
               world := { state := r.world.state, calls := [] } } :=
  ⟨_, rfl, rfl, rfl,
    C7_idempotence sampleNet "p".toList "l".toList "q".toList "test_".toList
      [sampleForeign, sampleRemoteSameKey, sampleRemote] [sampleTask] 5 4 _
      (by decide) (by decide) (by unfold InRange; decide) (by decide)
      (fun D _ => ⟨D.Request.URL, rfl, rfl⟩) (by decide)
      (by
        intro e he ho
        simp only [List.mem_cons, List.mem_singleton, List.not_mem_nil, or_false] at he
        rcases he with rfl | rfl | rfl
        · exact absurd ho (by decide)
        · exact ⟨sampleRemoteSameKeyTask, by decide, by decide⟩
        · exact ⟨sampleRemoteTask, by decide, by decide⟩)
      rfl rfl (by decide)⟩

/-- The task converted from an entry whose name is the canonical encoding of
its schedule time and version has that name as its `TaskName()`. -/
theorem PbTaskToTask_canonical_name (net : NetHTTP) (qp pre : Str) (pb : PbTask) (t : Task)
    (id : Str) (v : Int) (h : PbTaskToTask net qp pre pb = .ok t) (hid : '/' ∉ id)
    (hlo : -2 ^ 63 ≤ v) (hhi : v < 2 ^ 63)
    (hname : pb.Name = taskName qp (pre ++ id ++ taskTimestampSeparator ++
      FormatInt (Timestamp.AsTime pb.ScheduleTime).UnixNano 16 ++ taskVersionSeparator ++
      Itoa v)) :
    t.TaskName = pb.Name := by
  obtain ⟨hq, hp, hparse, htime⟩ := PbTaskToTask_ok net qp pre pb t h
  obtain ⟨hpre, -, -, -⟩ := ParseTaskName_ok pre pb.Name t.ID t.Version hparse
  have hu : ({ t with ID := id, Version := v } : Task).TaskName = pb.Name := by
    rw [hname]
    simp only [Task.TaskName, Task.TaskID, Task.comparisonID, hq, hp, htime]
  have hbase : Base pb.Name = ({ t with ID := id, Version := v } : Task).TaskID := by
    rw [← hu]
    exact taskName_Base _ _ (TaskID_ne_nil _)
      (TaskID_no_slash _ (by simpa [hp] using hpre) hid)
  have h2 := ParseTaskName_TaskID { t with ID := id, Version := v } pb.Name hbase hlo hhi
  simp only [hp] at h2
  rw [hparse] at h2
  simp only [Except.ok.injEq, Prod.mk.injEq] at h2
  rw [← hu]
  simp only [Task.TaskName, Task.TaskID, Task.comparisonID, h2.1, h2.2]

/-- Every delete call of a `Sync` run carries the `TaskName()` of a task the
listing returned. -/
theorem Sync_delete_listed {σ : Type} (net : NetHTTP) (s : Scheduler σ) (fuel : Nat)
    (w : World σ) (tasks rs : List Task) (e : Err) (r : SyncResult σ)
    (h : s.Sync net fuel w tasks = some r)
    (hd : Iterator.drain net fuel (s.List w.state) = some (rs, e))
    (req : DeleteTaskRequest) (hreq : Call.delete req ∈ r.world.calls) :
    Call.delete req ∈ w.calls ∨ ∃ t ∈ rs, req.Name = t.TaskName := by
  obtain ⟨rs', e', hdrain, ss, hss, hcases⟩ := Sync_unfold net s fuel w tasks r h
  rw [hd] at hdrain
  simp only [Option.some.injEq, Prod.mk.injEq] at hdrain
  obtain ⟨rfl, rfl⟩ := hdrain
  have hnames : ∀ n ∈ ss.deleteNames, ∃ t ∈ rs, n = t.TaskName := by
    intro n hn
    rw [hss] at hn
    rcases foldl_syncStep_deleteNames rs _ n hn with h0 | h0
    · simp at h0
    · exact h0
  obtain ⟨k, -, hdel, -⟩ := deleteAll_calls s ss.deleteNames w
  have hdelmem : Call.delete req ∈ (deleteAll s w ss.deleteNames).1.calls →
      Call.delete req ∈ w.calls ∨ ∃ t ∈ rs, req.Name = t.TaskName := by
    intro hm
    rw [hdel] at hm
    rcases List.mem_append.1 hm with hm | hm
    · exact Or.inl hm
    · obtain ⟨n, hn, hn'⟩ := List.mem_map.1 hm
      simp only [Call.delete.injEq] at hn'
      subst hn'
      exact Or.inr (hnames n (List.mem_of_mem_take hn))
  rcases hcases with ⟨-, hw, -, -⟩ | ⟨-, -, hw, -, -⟩ | ⟨-, -, hw, -, -⟩
  · rw [hw] at hreq; exact Or.inl hreq
  · rw [hw] at hreq; exact hdelmem hreq
  · rw [hw] at hreq
    obtain ⟨cs, hc, -⟩ := createAll_spec s ss.taskMap ss.tasks (deleteAll s w ss.deleteNames).1
    rw [hc] at hreq
    rcases List.mem_append.1 hreq with hm | hm
    · exact hdelmem hm
    · obtain ⟨c, -, hc'⟩ := List.mem_map.1 hm
      simp at hc'

theorem MapSound_step (ss : SyncState) (R : Task) (h : MapSound ss.tasks ss.taskMap) :
    MapSound (syncStep ss R).tasks (syncStep ss R).taskMap := by
  rcases syncStep_cases ss R with ⟨-, hs⟩ | ⟨p, -, -, hs⟩ | ⟨p, D, -, -, -, hs⟩ |
    ⟨p, D, -, hD, -, hs⟩
  · rw [hs]; exact h
  · rw [hs]; exact h
  · rw [hs]
    intro k q hq
    exact h k q (mapLookup_mapDelete_some _ _ _ _ hq).2
  · rw [hs]
    intro k q hq
    obtain ⟨t, ht, hk⟩ := h k q hq
    by_cases hpq : p = q
    · subst hpq
      rw [hD] at ht
      simp only [Option.some.injEq] at ht
      subst ht
      refine ⟨{ D with Version :=
        if D.Version ≤ R.Version then wrapInt64 (R.Version + 1) else D.Version }, ?_, hk⟩
      have hlt : p < ss.tasks.length := (List.getElem?_eq_some.1 hD).1
      simp [List.getElem?_set, hlt]
    · refine ⟨t, ?_, hk⟩
      simp only [List.getElem?_set, hpq, if_false]
      exact ht

/-- A loop turn for a remote task of another key leaves a desired task of key
`k` as it is. -/
theorem syncStep_keep (ss : SyncState) (R : Task) (p : Nat) (D : Task)
    (h : MapSound ss.tasks ss.taskMap) (hD : ss.tasks[p]? = some D)
    (hne : R.comparisonID ≠ D.comparisonID) : (syncStep ss R).tasks[p]? = some D := by
  rcases syncStep_cases ss R with ⟨-, hs⟩ | ⟨q, -, -, hs⟩ | ⟨q, D', -, -, -, hs⟩ |
    ⟨q, D', hl, hD', -, hs⟩
  · rw [hs]; exact hD
  · rw [hs]; exact hD
  · rw [hs]; exact hD
  · rw [hs]
    obtain ⟨t, ht, hk⟩ := h _ q hl
    by_cases hpq : q = p
    · subst hpq
      rw [hD] at ht
      simp only [Option.some.injEq] at ht
      subst ht
      exact absurd hk.symm hne
    · simp only [List.getElem?_set, hpq, if_false]
      exact hD

/-- A loop turn for a remote task of another key leaves the map entry of key
`k` as it is. -/
theorem syncStep_lookup_other (ss : SyncState) (R : Task) (k : Str)
    (h : MapSound ss.tasks ss.taskMap) (hne : R.comparisonID ≠ k) :
    mapLookup (syncStep ss R).taskMap k = mapLookup ss.taskMap k := by
  rcases syncStep_cases ss R with ⟨-, hs⟩ | ⟨q, -, -, hs⟩ | ⟨q, D', hl, hD', -, hs⟩ |
    ⟨q, D', -, -, -, hs⟩
  · rw [hs]
  · rw [hs]
  · rw [hs]
    obtain ⟨t, ht, hk⟩ := h _ q hl
    rw [hD'] at ht
    simp only [Option.some.injEq] at ht
    subst ht
    simp only [mapLookup_mapDelete]
    rw [if_neg]
    rw [hk]
    exact fun hkk => hne hkk.symm
  · rw [hs]

theorem foldl_other_keys (k : Str) :
    ∀ (l : List Task) (ss : SyncState), (∀ R ∈ l, R.comparisonID ≠ k) →
      MapSound ss.tasks ss.taskMap →
      MapSound (l.foldl syncStep ss).tasks (l.foldl syncStep ss).taskMap ∧
        mapLookup (l.foldl syncStep ss).taskMap k = mapLookup ss.taskMap k ∧
        ∀ (p : Nat) (D : Task), ss.tasks[p]? = some D → D.comparisonID = k →
          (l.foldl syncStep ss).tasks[p]? = some D := by
  intro l
  induction l with
  | nil => intro ss _ h; exact ⟨h, rfl, fun _ _ hD _ => hD⟩
  | cons R rest ih =>
    intro ss hl h
    have hR : R.comparisonID ≠ k := hl R (by simp)
    obtain ⟨h1, h2, h3⟩ := ih (syncStep ss R) (fun R' hR' => hl R' (by simp [hR']))
      (MapSound_step ss R h)
    rw [List.foldl_cons]
    refine ⟨h1, ?_, fun p D hD hk => ?_⟩
    · rw [h2, syncStep_lookup_other ss R k h hR]
    · exact h3 p D (syncStep_keep ss R p D h hD (by rw [hk]; exact hR)) hk

theorem filter_eq_singleton_split {α : Type} (p : α → Bool) :
    ∀ (l : List α) (x : α), l.filter p = [x] →
      ∃ a b, l = a ++ x :: b ∧ (∀ y ∈ a, p y = false) ∧ (∀ y ∈ b, p y = false) := by
  intro l
  induction l with
  | nil => intro x h; simp at h
  | cons y l ih =>
    intro x h
    by_cases hy : p y = true
    · rw [List.filter_cons_of_pos hy] at h
      simp only [List.cons.injEq] at h
      obtain ⟨rfl, hl⟩ := h
      refine ⟨[], l, rfl, by simp, fun z hz => ?_⟩
      have := List.filter_eq_nil_iff.1 hl z hz
      simpa using this
    · rw [List.filter_cons_of_neg hy] at h
      obtain ⟨a, b, hab, ha, hb⟩ := ih x h
      refine ⟨y :: a, b, by rw [hab]; rfl, fun z hz => ?_, hb⟩
      rcases List.mem_cons.1 hz with rfl | hz
      · simpa using hy
      · exact ha z hz

/-- The listing loop of `Sync` when the desired task `D` is the only desired
task of its key, `R` the only listed task of that key, and `D.Compare(R)`
holds: the key leaves the map, no name of a task of that key is collected
for deletion, and `D` stays as it is. -/
theorem matched_fold (tasks rs : List Task) (D R : Task)
    (hD : tasks.filter (fun t => decide (t.comparisonID = R.comparisonID)) = [D])
    (hR : rs.filter (fun t => decide (t.comparisonID = R.comparisonID)) = [R])
    (hcmp : D.Compare R = true) :
    mapLookup (rs.foldl syncStep (initState tasks)).taskMap R.comparisonID = none ∧
      (∀ n ∈ (rs.foldl syncStep (initState tasks)).deleteNames,
        ∃ t ∈ rs, t.comparisonID ≠ R.comparisonID ∧ n = t.TaskName) ∧
      D ∈ (rs.foldl syncStep (initState tasks)).tasks := by
  have hkey : D.comparisonID = R.comparisonID := Compare_key D R hcmp
  have hDmem : D ∈ tasks := by
    have : D ∈ tasks.filter (fun t => decide (t.comparisonID = R.comparisonID)) := by
      rw [hD]; simp
    exact (List.mem_filter.1 this).1
  have hDuniq : ∀ D' ∈ tasks, D'.comparisonID = R.comparisonID → D' = D := by
    intro D' hD' hk
    have : D' ∈ tasks.filter (fun t => decide (t.comparisonID = R.comparisonID)) :=
      List.mem_filter.2 ⟨hD', by simpa using hk⟩
    rw [hD] at this
    simpa using this
  obtain ⟨a, b, hab, ha, hb⟩ := filter_eq_singleton_split _ rs R hR
  have ha' : ∀ t ∈ a, t.comparisonID ≠ R.comparisonID := fun t ht => by
    simpa using ha t ht
  have hb' : ∀ t ∈ b, t.comparisonID ≠ R.comparisonID := fun t ht => by
    simpa using hb t ht
  -- the map entry of the key at loop entry
  have hsome := buildTaskMap_isSome tasks D hDmem
  obtain ⟨p, hp⟩ := Option.isSome_iff_exists.1 hsome
  obtain ⟨D', hD', hk'⟩ := buildTaskMap_lookup_sound tasks _ p hp
  have hDD : D' = D := hDuniq D' (List.getElem?_mem hD') (hk'.trans hkey)
  subst hDD
  rw [hkey] at hp
  -- the turns before `R`
  obtain ⟨hs1, hl1, ht1⟩ := foldl_other_keys R.comparisonID a (initState tasks) ha'
    (buildTaskMap_lookup_sound tasks)
  have hl1' : mapLookup (a.foldl syncStep (initState tasks)).taskMap R.comparisonID = some p :=
    hl1.trans hp
  have ht1' := ht1 p D' hD' hkey
  -- the turn of `R`
  have hstep : syncStep (a.foldl syncStep (initState tasks)) R =
      { a.foldl syncStep (initState tasks) with
        taskMap := mapDelete (a.foldl syncStep (initState tasks)).taskMap D'.comparisonID } := by
    rcases syncStep_cases (a.foldl syncStep (initState tasks)) R with ⟨h0, -⟩ | ⟨q, hq, hn, -⟩ |
      ⟨q, E, hq, hE, -, hs⟩ | ⟨q, E, hq, hE, hc, -⟩
    · rw [hl1'] at h0; simp at h0
    · rw [hl1'] at hq
      simp only [Option.some.injEq] at hq
      subst hq
      rw [ht1'] at hn; simp at hn
    · rw [hl1'] at hq
      simp only [Option.some.injEq] at hq
      subst hq
      rw [ht1'] at hE
      simp only [Option.some.injEq] at hE
      subst hE
      exact hs
    · rw [hl1'] at hq
      simp only [Option.some.injEq] at hq
      subst hq
      rw [ht1'] at hE
      simp only [Option.some.injEq] at hE
      subst hE
      rw [hcmp] at hc; simp at hc
  have hs2 := MapSound_step _ R hs1
  -- the turns after `R`
  obtain ⟨-, hl3, ht3⟩ := foldl_other_keys R.comparisonID b
    (syncStep (a.foldl syncStep (initState tasks)) R) hb' hs2
  have hfold : rs.foldl syncStep (initState tasks) =
      b.foldl syncStep (syncStep (a.foldl syncStep (initState tasks)) R) := by
    rw [hab, List.foldl_append, List.foldl_cons]
  rw [hfold]
  refine ⟨?_, ?_, ?_⟩
  · rw [hl3, hstep]
    simp only [mapLookup_mapDelete, hkey, if_true]
  · intro n hn
    rcases foldl_syncStep_deleteNames b _ n hn with h0 | ⟨t, ht, rfl⟩
    · rw [hstep] at h0
      rcases foldl_syncStep_deleteNames a _ n h0 with h1 | ⟨t, ht, rfl⟩
      · simp [initState] at h1
      · exact ⟨t, by rw [hab]; simp [ht], ha' t ht, rfl⟩
    · exact ⟨t, by rw [hab]; simp [ht], hb' t ht, rfl⟩
  · have : (syncStep (a.foldl syncStep (initState tasks)) R).tasks[p]? = some D' := by
      rw [hstep]; exact ht1'
    exact List.getElem?_mem (ht3 p D' this hkey)

theorem createAll_keep {σ : Type} (s : Scheduler σ) (m : List (Str × Nat)) (D : Task)
    (hl : mapLookup m D.comparisonID = none) :
    ∀ (ts : List Task) (w : World σ), D ∈ ts → D ∈ (createAll s m w ts).2.1 := by
  intro ts
  induction ts with
  | nil => intro w h; simp at h
  | cons t rest ih =>
    intro w h
    unfold createAll
    by_cases hn : (mapLookup m t.comparisonID).isNone = true
    · simp only [hn, if_true]
      rcases List.mem_cons.1 h with rfl | h
      · simp
      · exact List.mem_cons_of_mem _ (ih w h)
    · have hne : D ≠ t := by
        rintro rfl
        rw [hl] at hn
        simp at hn
      have hrest : D ∈ rest := by
        rcases List.mem_cons.1 h with h | h
        · exact absurd h hne
        · exact h
      simp only [hn, Bool.false_eq_true, if_false]
      rcases hc : s.Create w t with ⟨w', t', err⟩
      cases err with
      | some err => exact List.mem_cons_of_mem _ hrest
      | none => exact List.mem_cons_of_mem _ (ih w' hrest)

theorem TaskID_no_slash_of_key (t u : Task) (h : '/' ∉ t.TaskID)
    (hk : u.comparisonID = t.comparisonID) : '/' ∉ u.TaskID := by
  unfold Task.TaskID at h ⊢
  rw [hk]
  intro hm
  rcases List.mem_append.1 hm with hm | hm
  · rcases List.mem_append.1 hm with hm | hm
    · exact h (List.mem_append_left _ (List.mem_append_left _ hm))
    · exact h (List.mem_append_left _ (List.mem_append_right _ hm))
  · exact FormatInt_not_mem u.Version 10 (by decide) (by decide) '/' (by decide) (by decide) hm

/-- A `Sync` run in which the desired task `D` is the only desired task of its
key, `R` the only listed remote task of that key, and `D.Compare(R)` holds:
the run issues no delete call for `R`, no create call under a name of `D`
(at any version), and leaves `D` as it is. -/
theorem matched_pair_core {σ : Type} (net : NetHTTP) (s : Scheduler σ) (fuel : Nat)
    (w : World σ) (tasks rs : List Task) (e : Err) (r : SyncResult σ) (D R : Task)
    (hsync : s.Sync net fuel w tasks = some r)
    (hd : Iterator.drain net fuel (s.List w.state) = some (rs, e))
    (hD : tasks.filter (fun t => decide (t.comparisonID = R.comparisonID)) = [D])
    (hR : rs.filter (fun t => decide (t.comparisonID = R.comparisonID)) = [R])
    (hcmp : D.Compare R = true) :
    ∃ new, r.world.calls = w.calls ++ new ∧
      Call.delete { Name := R.TaskName } ∉ new ∧
      (∀ req, Call.create req ∈ new →
        ∀ v : Int, req.Task.Name ≠ Task.TaskName { D with Version := v }) ∧
      D ∈ r.tasks := by
  obtain ⟨rs', e', hdrain, ss, hss, hcases⟩ := Sync_unfold net s fuel w tasks r hsync
  rw [hd] at hdrain
  simp only [Option.some.injEq, Prod.mk.injEq] at hdrain
  obtain ⟨rfl, rfl⟩ := hdrain
  have hss' : ss = rs.foldl syncStep (initState tasks) := hss
  obtain ⟨hnone, hnames, hmem⟩ := matched_fold tasks rs D R hD hR hcmp
  rw [← hss'] at hnone hnames hmem
  have hkey : D.comparisonID = R.comparisonID := Compare_key D R hcmp
  have hRmem : R ∈ rs := by
    have : R ∈ rs.filter (fun t => decide (t.comparisonID = R.comparisonID)) := by
      rw [hR]; simp
    exact (List.mem_filter.1 this).1
  have hfacts := drain_facts net fuel _ rs e hd
  obtain ⟨k, -, hdel, -⟩ := deleteAll_calls s ss.deleteNames w
  have hnodel : Call.delete { Name := R.TaskName } ∉
      (ss.deleteNames.take k).map (fun n => Call.delete { Name := n }) := by
    intro hm
    obtain ⟨n, hn, hn'⟩ := List.mem_map.1 hm
    simp only [Call.delete.injEq, DeleteTaskRequest.mk.injEq] at hn'
    subst hn'
    obtain ⟨t, ht, hne, hnt⟩ := hnames _ (List.mem_of_mem_take hn)
    exact hne (TaskName_inj R t (hfacts R hRmem).1 (hfacts t ht).1 hnt).1.symm
  rcases hcases with ⟨-, hw, ht, -⟩ | ⟨-, -, hw, ht, -⟩ | ⟨-, -, hw, ht, -⟩
  · exact ⟨[], by rw [hw]; simp, by simp, by simp, by rw [ht]; exact hmem⟩
  · refine ⟨_, by rw [hw, hdel], hnodel, fun req hreq => ?_, by rw [ht]; exact hmem⟩
    obtain ⟨n, -, hn'⟩ := List.mem_map.1 hreq
    simp at hn'
  · obtain ⟨cs, j, -, hc, hall, -⟩ :=
      createAll_prefix s ss.taskMap ss.tasks (deleteAll s w ss.deleteNames).1
    refine ⟨(ss.deleteNames.take k).map (fun n => Call.delete { Name := n }) ++
      cs.map Call.create, by rw [hw, hc, hdel, List.append_assoc], ?_, ?_, ?_⟩
    · intro hm
      rcases List.mem_append.1 hm with hm | hm
      · exact hnodel hm
      · obtain ⟨c, -, hc'⟩ := List.mem_map.1 hm
        simp at hc'
    · intro req hreq v hname
      have hreq' : req ∈ cs := by
        rcases List.mem_append.1 hreq with hm | hm
        · obtain ⟨n, -, hn'⟩ := List.mem_map.1 hm
          simp at hn'
        · obtain ⟨c, hc1, hc2⟩ := List.mem_map.1 hm
          simp only [Call.create.injEq] at hc2
          subst hc2
          exact hc1
      obtain ⟨t, ht, hval, hpb, -, -⟩ := Forall₂_mem_right hall req hreq'
      have htf := (List.mem_filter.1 (List.mem_of_mem_take ht)).2
      have hn1 := TaskToPbTask_name _ _ hpb
      rw [hname] at hn1
      have hslash : '/' ∉ ({ D with Version := v } : Task).TaskID :=
        TaskID_no_slash_of_key R _ (hfacts R hRmem).1 hkey
      have hk2 := (TaskName_inj _ _ hslash (Validate_no_slash _ hval) hn1).1
      rw [withDefaultVersion_comparisonID] at hk2
      have hk3 : t.comparisonID = R.comparisonID := hk2.symm.trans hkey
      rw [hk3, hnone] at htf
      simp at htf
    · rw [ht]
      exact createAll_keep s ss.taskMap D (by rw [hkey]; exact hnone) ss.tasks _ hmem

/-- What `Compare` checks: the comparison key, the order of the versions, the
authorization, the method and the URL up to a trailing slash. -/
theorem Compare_iff (t target : Task) :
    t.Compare target = true ↔
      t.comparisonID = target.comparisonID ∧ t.Version ≤ target.Version ∧
        t.Authorization = target.Authorization ∧
        t.Request.Method = target.Request.Method ∧
        removeTrailingSlash t.Request.URL = removeTrailingSlash target.Request.URL := by
  unfold Task.Compare
  by_cases h1 : t.comparisonID = target.comparisonID
  · by_cases h2 : t.Version ≤ target.Version
    · by_cases h3 : t.Authorization = target.Authorization
      · by_cases h4 : t.Request.Method = target.Request.Method
        · by_cases h5 : removeTrailingSlash t.Request.URL =
              removeTrailingSlash target.Request.URL
          · simp [h1, h2, h3, h4, h5]
          · simp [h1, h2, h3, h4, h5]
        · simp [h1, h2, h3, h4]
      · simp [h1, h2, h3]
    · simp [h1, h2]
  · simp [h1]

/-- C12 (as stated, refuted). `sampleTask` at version 1 is accepted by its own
`Compare`, at version 2 it is rejected by the same target: the result changes
with the version. A desired task at version 2 whose key, method, URL and
authorization are those of the remote task at version 1 makes `Sync` delete
the remote task and create the desired one. And when a second desired task
shares the key (with another URL), the remote task is deleted and the first
desired task is created although the two agree in key, method, URL,
authorization and version. The same happens when the listing holds an
earlier entry of that key with another URL and version 5: the desired task is
bumped to version 6, so the matching remote task is deleted as well. -/
theorem C12_counterexample :
    sampleTask.Compare sampleTask = true ∧
      Task.Compare { sampleTask with Version := 2 } sampleTask = false ∧
      PbTaskToTask sampleNet sampleScheduler.queuePath sampleScheduler.taskPrefix
        sampleRemoteSame = .ok sampleTask ∧
      (sampleScheduler.Sync sampleNet 3 { state := [sampleRemoteSame], calls := [] }
          [{ sampleTask with Version := 2 }]).map
        (fun (r : SyncResult (List PbTask)) => (r.err, r.world.calls.map Call.summary)) =
        some (none,
          [(false, "projects/p/locations/l/queues/q/tasks/test_i_v_3b9aca02v1".toList),
           (true, "projects/p/locations/l/queues/q/tasks/test_i_v_3b9aca02v2".toList)]) ∧
      (sampleScheduler.Sync sampleNet 3 { state := [sampleRemoteSame], calls := [] }
          [sampleTask, sampleTaskAlt]).map
        (fun (r : SyncResult (List PbTask)) => (r.err, r.world.calls.map Call.summary)) =
        some (none,
          [(false, "projects/p/locations/l/queues/q/tasks/test_i_v_3b9aca02v1".toList),
           (true, "projects/p/locations/l/queues/q/tasks/test_i_v_3b9aca02v1".toList),
           (true, "projects/p/locations/l/queues/q/tasks/test_i_v_3b9aca02v2".toList)]) ∧
      (sampleScheduler.Sync sampleNet 4
          { state := [sampleRemoteOldV5, sampleRemoteSame], calls := [] } [sampleTask]).map
        (fun (r : SyncResult (List PbTask)) => (r.err, r.world.calls.map Call.summary)) =
        some (none,
          [(false, "projects/p/locations/l/queues/q/tasks/test_i_v_3b9aca02v5".toList),
           (false, "projects/p/locations/l/queues/q/tasks/test_i_v_3b9aca02v1".toList),
           (true, "projects/p/locations/l/queues/q/tasks/test_i_v_3b9aca02v6".toList)]) := by
  refine ⟨by decide, by decide, by decide, by decide, by decide, by decide⟩

/-- C12 (amended). The version enters `Compare` only through the order test:
`t.Compare(target)` is false whenever `t.Version > target.Version`, and does
not change when the two versions are replaced by any `v ≤ v'` while
`t.Version ≤ target.Version`. In a `Sync` run whose listing ends within the
fuel, a desired task `D` (the only desired task of its key) that has the key,
method, URL up to a trailing slash and authorization of the listed remote task
`R` (the only listed task of that key) and a version not greater than that of
`R` causes no delete call for `R` and no create call under a name of `D`, and
keeps its version. -/
theorem C12_version_order_only :
    (∀ t target : Task, t.Version > target.Version → t.Compare target = false) ∧
    (∀ (t target : Task) (v v' : Int), t.Version ≤ target.Version → v ≤ v' →
      Task.Compare { t with Version := v } { target with Version := v' } =
        t.Compare target) ∧
    (∀ {σ : Type} (net : NetHTTP) (s : Scheduler σ) (fuel : Nat) (w : World σ)
        (tasks rs : List Task) (e : Err) (D R : Task),
      Iterator.drain net fuel (s.List w.state) = some (rs, e) →
      tasks.filter (fun t => decide (t.comparisonID = R.comparisonID)) = [D] →
      rs.filter (fun t => decide (t.comparisonID = R.comparisonID)) = [R] →
      D.Request.Method = R.Request.Method →
      removeTrailingSlash D.Request.URL = removeTrailingSlash R.Request.URL →
      D.Authorization = R.Authorization →
      D.Version ≤ R.Version →
      ∃ r, s.Sync net fuel w tasks = some r ∧
        ∃ new, r.world.calls = w.calls ++ new ∧
          Call.delete { Name := R.TaskName } ∉ new ∧
          (∀ req, Call.create req ∈ new →
            ∀ v : Int, req.Task.Name ≠ Task.TaskName { D with Version := v }) ∧
          D ∈ r.tasks) := by
  refine ⟨fun t target h => ?_, fun t target v v' h hv => ?_, ?_⟩
  · cases hc : t.Compare target with
    | false => rfl
    | true => exact absurd ((Compare_iff t target).1 hc).2.1 (not_le.2 h)
  · cases hc : t.Compare target with
    | true =>
      obtain ⟨h1, -, h3, h4, h5⟩ := (Compare_iff t target).1 hc
      exact (Compare_iff _ _).2 ⟨h1, hv, h3, h4, h5⟩
    | false =>
      cases hc' : Task.Compare { t with Version := v } { target with Version := v' } with
      | false => rfl
      | true =>
        obtain ⟨h1, -, h3, h4, h5⟩ := (Compare_iff _ _).1 hc'
        rw [(Compare_iff t target).2 ⟨h1, h, h3, h4, h5⟩] at hc
        exact absurd hc (by simp)
  · intro σ net s fuel w tasks rs e D R hd hD hR hm hu ha hv
    have hkey : D.comparisonID = R.comparisonID := by
      have : D ∈ tasks.filter (fun t => decide (t.comparisonID = R.comparisonID)) := by
        rw [hD]; simp
      simpa using (List.mem_filter.1 this).2
    obtain ⟨r, hsync⟩ := Sync_returns_of_drain net s fuel w tasks rs e hd
    exact ⟨r, hsync, matched_pair_core net s fuel w tasks rs e r D R hsync hd hD hR
      ((Compare_iff D R).2 ⟨hkey, hv, ha, hm, hu⟩)⟩

set_option maxRecDepth 100000 in
theorem C12_version_order_only_witness :
    ∃ r, sampleScheduler.Sync sampleNet 4
        { state := [sampleRemote, sampleRemoteSame], calls := [] }
        [{ sampleTask with Version := 0 }] = some r ∧
      ∃ new, r.world.calls = [] ++ new ∧
        Call.delete { Name := sampleTask.TaskName } ∉ new ∧
        (∀ req, Call.create req ∈ new → ∀ v : Int,
          req.Task.Name ≠
            Task.TaskName { ({ sampleTask with Version := 0 } : Task) with Version := v }) ∧
        ({ sampleTask with Version := 0 } : Task) ∈ r.tasks :=
  C12_version_order_only.2.2 sampleNet sampleScheduler 4
    { state := [sampleRemote, sampleRemoteSame], calls := [] }
    [{ sampleTask with Version := 0 }] [sampleRemoteTask, sampleTask] .Done
    { sampleTask with Version := 0 } sampleTask
    (by decide) (by decide) (by decide) (by decide) (by decide) (by decide) (by decide)

/-- C13 (as stated, refuted). `sampleTask` differs from the remote task only in
body and headers (same key, method, URL, authorization and version), and its
`Compare` accepts the remote task. A second desired task has the same key and
another URL; it is the one `taskMap` holds, so `Sync` deletes the remote task
and creates both desired tasks, the first one under the deleted name. The
remote task is also deleted, and the desired task created at version 6, when
the listing holds an earlier entry of that key with another URL and
version 5. -/
theorem C13_counterexample :
    PbTaskToTask sampleNet sampleScheduler.queuePath sampleScheduler.taskPrefix
        sampleRemoteBody = .ok sampleRemoteBodyTask ∧
      sampleRemoteBodyTask =
        { sampleTask with
          Request := { sampleTask.Request with
            Header := sampleRemoteBodyTask.Request.Header,
            Body := sampleRemoteBodyTask.Request.Body } } ∧
      sampleTask.Compare sampleRemoteBodyTask = true ∧
      (sampleScheduler.Sync sampleNet 3 { state := [sampleRemoteBody], calls := [] }
          [sampleTask, sampleTaskAlt]).map
        (fun (r : SyncResult (List PbTask)) => (r.err, r.world.calls.map Call.summary)) =
        some (none,
          [(false, "projects/p/locations/l/queues/q/tasks/test_i_v_3b9aca02v1".toList),
           (true, "projects/p/locations/l/queues/q/tasks/test_i_v_3b9aca02v1".toList),
           (true, "projects/p/locations/l/queues/q/tasks/test_i_v_3b9aca02v2".toList)]) ∧
      (sampleScheduler.Sync sampleNet 4
          { state := [sampleRemoteOldV5, sampleRemoteBody], calls := [] } [sampleTask]).map
        (fun (r : SyncResult (List PbTask)) => (r.err, r.world.calls.map Call.summary)) =
        some (none,
          [(false, "projects/p/locations/l/queues/q/tasks/test_i_v_3b9aca02v5".toList),
           (false, "projects/p/locations/l/queues/q/tasks/test_i_v_3b9aca02v1".toList),
           (true, "projects/p/locations/l/queues/q/tasks/test_i_v_3b9aca02v6".toList)]) := by
  decide

/-- C13 (amended). Body and headers are not compared: `t.Compare(target)` is
unchanged when the request body or the request headers of either task are
replaced. In a `Sync` run whose listing ends within the fuel, a desired task
`D` (the only desired task of its key) that differs from the listed remote
task `R` (the only listed task of that key) only in body or headers, with a
version not greater than that of `R`, causes no delete call for `R` and no
create call under a name of `D`, and keeps its version. -/
theorem C13_body_headers_not_compared :
    (∀ (t target : Task) (h h' : List (Str × List Str)) (b b' : Option Body),
      Task.Compare { t with Request := { t.Request with Header := h, Body := b } }
          { target with Request := { target.Request with Header := h', Body := b' } } =
        t.Compare target) ∧
    (∀ {σ : Type} (net : NetHTTP) (s : Scheduler σ) (fuel : Nat) (w : World σ)
        (tasks rs : List Task) (e : Err) (D R : Task),
      Iterator.drain net fuel (s.List w.state) = some (rs, e) →
      tasks.filter (fun t => decide (t.comparisonID = R.comparisonID)) = [D] →
      rs.filter (fun t => decide (t.comparisonID = R.comparisonID)) = [R] →
      D.Request.Method = R.Request.Method →
      D.Request.URL = R.Request.URL →
      D.Authorization = R.Authorization →
      D.Version ≤ R.Version →
      ∃ r, s.Sync net fuel w tasks = some r ∧
        ∃ new, r.world.calls = w.calls ++ new ∧
          Call.delete { Name := R.TaskName } ∉ new ∧
          (∀ req, Call.create req ∈ new →
            ∀ v : Int, req.Task.Name ≠ Task.TaskName { D with Version := v }) ∧
          D ∈ r.tasks) := by
  refine ⟨fun t target h h' b b' => rfl, ?_⟩
  intro σ net s fuel w tasks rs e D R hd hD hR hm hu ha hv
  have hkey : D.comparisonID = R.comparisonID := by
    have : D ∈ tasks.filter (fun t => decide (t.comparisonID = R.comparisonID)) := by
      rw [hD]; simp
    simpa using (List.mem_filter.1 this).2
  obtain ⟨r, hsync⟩ := Sync_returns_of_drain net s fuel w tasks rs e hd
  exact ⟨r, hsync, matched_pair_core net s fuel w tasks rs e r D R hsync hd hD hR
    ((Compare_iff D R).2 ⟨hkey, hv, ha, hm, by rw [hu]⟩)⟩

set_option maxRecDepth 100000 in
theorem C13_body_headers_not_compared_witness :
    ∃ r, sampleScheduler.Sync sampleNet 4
        { state := [sampleRemote, sampleRemoteBody], calls := [] } [sampleTask] = some r ∧
      ∃ new, r.world.calls = [] ++ new ∧
        Call.delete { Name := sampleRemoteBodyTask.TaskName } ∉ new ∧
        (∀ req, Call.create req ∈ new → ∀ v : Int,
          req.Task.Name ≠ Task.TaskName { sampleTask with Version := v }) ∧
        sampleTask ∈ r.tasks :=
  C13_body_headers_not_compared.2 sampleNet sampleScheduler 4
    { state := [sampleRemote, sampleRemoteBody], calls := [] }
    [sampleTask] [sampleRemoteTask, sampleRemoteBodyTask] .Done
    sampleTask sampleRemoteBodyTask
    (by decide) (by decide) (by decide) (by decide) (by decide) (by decide) (by decide)

theorem validChar_eq (c : Char) :
    validChar c = (c.isAlpha || c.isDigit || c == '-' || c == '_') := by
  simp only [validChar, Char.isAlpha, Char.isUpper, Char.isLower, Char.isDigit]
  have h1 : decide ('A' ≤ c) = decide (c.val ≥ 65) := rfl
  have h2 : decide (c ≤ 'Z') = decide (c.val ≤ 90) := rfl
  have h3 : decide ('a' ≤ c) = decide (c.val ≥ 97) := rfl
  have h4 : decide (c ≤ 'z') = decide (c.val ≤ 122) := rfl
  have h5 : decide ('0' ≤ c) = decide (c.val ≥ 48) := rfl
  have h6 : decide (c ≤ '9') = decide (c.val ≤ 57) := rfl
  rw [h1, h2, h3, h4, h5, h6]
  rw [Bool.eq_iff_iff]
  simp only [Bool.or_eq_true, Bool.and_eq_true, decide_eq_true_eq, beq_iff_eq]

theorem validChar_utf8Size (c : Char) (h : validChar c = true) : c.utf8Size = 1 := by
  have hle : c.val ≤ 127 := by
    simp only [validChar, Bool.or_eq_true, Bool.and_eq_true, decide_eq_true_eq] at h
    have e1 : ∀ d : Char, c ≤ d → c.val ≤ d.val := fun d hd => hd
    rcases h with (((⟨-, h⟩ | ⟨-, h⟩) | ⟨-, h⟩) | h) | h
    · exact UInt32.le_trans (e1 _ h) (by decide)
    · exact UInt32.le_trans (e1 _ h) (by decide)
    · exact UInt32.le_trans (e1 _ h) (by decide)
    · subst h; decide
    · subst h; decide
  unfold Char.utf8Size
  simp [hle]

theorem byteLen_eq_length :
    ∀ (s : Str), (∀ c ∈ s, validChar c = true) → byteLen s = s.length := by
  intro s
  induction s with
  | nil => intro _; rfl
  | cons c cs ih =>
    intro h
    have h1 := validChar_utf8Size c (h c (by simp))
    have h2 := ih (fun d hd => h d (by simp [hd]))
    unfold byteLen at h2 ⊢
    simp only [List.map_cons, List.sum_cons, List.length_cons, h1, h2]
    omega

theorem length_le_byteLen : ∀ (s : Str), s.length ≤ byteLen s := by
  intro s
  induction s with
  | nil => simp [byteLen]
  | cons c cs ih =>
    have := Char.utf8Size_pos c
    unfold byteLen at ih ⊢
    simp only [List.map_cons, List.sum_cons, List.length_cons]
    omega

/-- `Validate` returns nil exactly for a non-empty id whose encoded identity
has at most 500 bytes and only characters the code allows. -/
theorem Validate_iff (t : Task) :
    t.Validate = none ↔
      t.ID ≠ [] ∧ byteLen t.TaskID ≤ 500 ∧ ∀ c ∈ t.TaskID, validChar c = true := by
  unfold Task.Validate Task.validateTaskID
  by_cases h1 : t.ID = []
  · simp [h1]
  · by_cases h2 : byteLen t.TaskID > 500
    · simp [h1, h2]
    · cases h3 : t.TaskID.find? (fun char => !validChar char) with
      | none =>
        have := List.find?_eq_none.1 h3
        simp only [h1, h2, if_false, not_false_eq_true, ne_eq, true_and]
        simp only [h3, true_iff]
        exact ⟨by omega, fun c hc => by simpa using this c hc⟩
      | some x =>
        have hx := List.find?_some h3
        have hm := List.mem_of_find?_eq_some h3
        simp only [h1, h2, if_false, h3]
        simp only [Bool.not_eq_true'] at hx
        constructor
        · intro h; simp at h
        · intro h
          rw [h.2.2 x hm] at hx
          simp at hx

theorem Validate_wraps (t : Task) (e : Err) (h : t.Validate = some e) :
    ∃ msg, e = .wrap msg .ErrTaskValidation := by
  unfold Task.Validate Task.validateTaskID at h
  by_cases h1 : t.ID = []
  · simp only [h1, if_true, Option.some.injEq] at h
    exact ⟨_, h.symm⟩
  · by_cases h2 : byteLen t.TaskID > 500
    · simp only [h1, h2, if_true, if_false, Option.some.injEq] at h
      exact ⟨_, h.symm⟩
    · cases h3 : t.TaskID.find? (fun char => !validChar char) with
      | none => simp [h1, h2, h3] at h
      | some x =>
        simp only [h1, h2, if_false, h3, Option.some.injEq] at h
        exact ⟨_, h.symm⟩

theorem sampleBoundaryTask_TaskID (n : Nat) :
    (sampleBoundaryTask n).TaskID =
      "pre-".toList ++ List.replicate n '_' ++ "_499602d2v1".toList := by
  have h : FormatInt (Time.Unix 1 234567890).UnixNano 16 = "499602d2".toList := by decide
  simp only [sampleBoundaryTask, Task.TaskID, Task.comparisonID, h]
  have h1 : Itoa 1 = "1".toList := by decide
  rw [h1]
  simp [taskTimestampSeparator, taskVersionSeparator]

theorem sampleBoundaryTask_valid (n : Nat) :
    ∀ c ∈ (sampleBoundaryTask n).TaskID, validChar c = true := by
  have h1 : ∀ c ∈ "pre-".toList, validChar c = true := by decide
  have h2 : ∀ c ∈ "_499602d2v1".toList, validChar c = true := by decide
  intro c hc
  rw [sampleBoundaryTask_TaskID] at hc
  rcases List.mem_append.1 hc with hc | hc
  · rcases List.mem_append.1 hc with hc | hc
    · exact h1 c hc
    · rw [(List.mem_replicate.1 hc).2]; decide
  · exact h2 c hc

theorem sampleBoundaryTask_length (n : Nat) : (sampleBoundaryTask n).TaskID.length = n + 15 := by
  rw [sampleBoundaryTask_TaskID]
  simp

theorem sampleBoundaryTask_Validate : (sampleBoundaryTask 485).Validate = none := by
  have hid : (sampleBoundaryTask 485).ID ≠ [] := by
    intro h
    have h2 : (sampleBoundaryTask 485).ID.length = 485 := List.length_replicate _ _
    rw [h] at h2
    simp at h2
  refine (Validate_iff _).2 ⟨hid, ?_, sampleBoundaryTask_valid 485⟩
  rw [byteLen_eq_length _ (sampleBoundaryTask_valid 485), sampleBoundaryTask_length 485]

/-- C14. `Validate` returns nil exactly when the id is non-empty, the encoded
identity `TaskID()` has at most 500 bytes and each of its characters is a
letter, a digit, '-' or '_'; every error it returns wraps `ErrTaskValidation`.
An identity of 500 allowed characters is accepted and one of 501 characters
is rejected, as for the two tasks of `TestTask_validateTaskID` whose ids are
485 and 486 underscores. -/
theorem C14_Validate_iff :
    (∀ t : Task, t.Validate = none ↔
      t.ID ≠ [] ∧ byteLen t.TaskID ≤ 500 ∧
        ∀ c ∈ t.TaskID, c.isAlpha = true ∨ c.isDigit = true ∨ c = '-' ∨ c = '_') ∧
    (∀ (t : Task) (e : Err), t.Validate = some e → e.Is .ErrTaskValidation = true) ∧
    (∀ t : Task, t.ID ≠ [] →
      (∀ c ∈ t.TaskID, c.isAlpha = true ∨ c.isDigit = true ∨ c = '-' ∨ c = '_') →
      t.TaskID.length = 500 → t.Validate = none) ∧
    (∀ t : Task, t.TaskID.length = 501 →
      ∃ e, t.Validate = some e ∧ e.Is .ErrTaskValidation = true) ∧
    ((sampleBoundaryTask 485).TaskID.length = 500 ∧
      (sampleBoundaryTask 485).Validate = none) ∧
    ((sampleBoundaryTask 486).TaskID.length = 501 ∧
      (sampleBoundaryTask 486).Validate ≠ none) := by
  have hchar : ∀ c : Char, validChar c = true ↔
      (c.isAlpha = true ∨ c.isDigit = true ∨ c = '-' ∨ c = '_') := by
    intro c
    rw [validChar_eq]
    simp only [Bool.or_eq_true, beq_iff_eq]
    tauto
  have hwrap : ∀ (t : Task) (e : Err), t.Validate = some e →
      e.Is .ErrTaskValidation = true := by
    intro t e h
    obtain ⟨msg, rfl⟩ := Validate_wraps t e h
    simp [Err.Is]
  have hiff : ∀ t : Task, t.Validate = none ↔
      t.ID ≠ [] ∧ byteLen t.TaskID ≤ 500 ∧
        ∀ c ∈ t.TaskID, c.isAlpha = true ∨ c.isDigit = true ∨ c = '-' ∨ c = '_' := by
    intro t
    rw [Validate_iff]
    constructor
    · exact fun h => ⟨h.1, h.2.1, fun c hc => (hchar c).1 (h.2.2 c hc)⟩
    · exact fun h => ⟨h.1, h.2.1, fun c hc => (hchar c).2 (h.2.2 c hc)⟩
  have hlong : ∀ t : Task, 500 < t.TaskID.length →
      ∃ e, t.Validate = some e ∧ e.Is .ErrTaskValidation = true := by
    intro t hlen
    cases hv : t.Validate with
    | none =>
      have := ((Validate_iff t).1 hv).2.1
      have := length_le_byteLen t.TaskID
      omega
    | some e => exact ⟨e, rfl, hwrap t e hv⟩
  have hlen := sampleBoundaryTask_length
  refine ⟨hiff, hwrap, fun t hid hc hl => ?_, fun t hl => hlong t (by omega), ⟨hlen 485, ?_⟩,
    ⟨hlen 486, ?_⟩⟩
  · refine (Validate_iff t).2 ⟨hid, ?_, fun c hcm => (hchar c).2 (hc c hcm)⟩
    rw [byteLen_eq_length _ (fun c hcm => (hchar c).2 (hc c hcm))]
    omega
  · exact sampleBoundaryTask_Validate
  · obtain ⟨e, he, -⟩ := hlong (sampleBoundaryTask 486) (by rw [hlen 486]; omega)
    rw [he]; simp

theorem taskName_length (qp id : Str) : (taskName qp id).length = qp.length + 7 + id.length := by
  simp [taskName]
  omega

/-- C15 (as stated, refuted). The task of `TestTask_validateTaskID` with an id
of 485 underscores passes `Validate` with an encoded identity of 500
characters; with the queue path `projects/p/locations/l/queues/q` its full
name `TaskName()` has 538 characters. -/
theorem C15_counterexample :
    (sampleBoundaryTask 485).Validate = none ∧
      (sampleBoundaryTask 485).QueuePath = "projects/p/locations/l/queues/q".toList ∧
      (sampleBoundaryTask 485).TaskName.length = 538 ∧
      ¬ (sampleBoundaryTask 485).TaskName.length ≤ 500 := by
  have h : (sampleBoundaryTask 485).TaskName.length = 538 := by
    rw [Task.TaskName, taskName_length, sampleBoundaryTask_length]
    rfl
  exact ⟨sampleBoundaryTask_Validate, rfl, h, by rw [h]; decide⟩

/-- C15 (amended). For every task that passes `Validate`, the encoded identity
`TaskID()` has at most 500 bytes (and characters), and the full name
`TaskName()` is the queue path, "/tasks/" and that identity, so it has at most
`len(QueuePath) + 507` characters; the same holds for the name and parent of
every create call `Create` issues. -/
theorem C15_TaskID_length_bound :
    (∀ t : Task, t.Validate = none →
      byteLen t.TaskID ≤ 500 ∧ t.TaskID.length ≤ 500 ∧
        t.TaskName.length = t.QueuePath.length + 7 + t.TaskID.length ∧
        t.TaskName.length ≤ t.QueuePath.length + 507) ∧
    (∀ {σ : Type} (s : Scheduler σ) (w : World σ) (t : Task) (req : CreateTaskRequest),
      (s.Create w t).1.calls = w.calls ++ [Call.create req] →
        (s.Create w t).2.1.Validate = none ∧
        req.Task.Name = (s.Create w t).2.1.TaskName ∧
        req.Parent = (s.Create w t).2.1.QueuePath ∧
        req.Task.Name.length ≤ req.Parent.length + 507) := by
  have h1 : ∀ t : Task, t.Validate = none →
      byteLen t.TaskID ≤ 500 ∧ t.TaskID.length ≤ 500 ∧
        t.TaskName.length = t.QueuePath.length + 7 + t.TaskID.length ∧
        t.TaskName.length ≤ t.QueuePath.length + 507 := by
    intro t h
    have hb := ((Validate_iff t).1 h).2.1
    have hl := length_le_byteLen t.TaskID
    have hn : t.TaskName.length = t.QueuePath.length + 7 + t.TaskID.length := by
      rw [Task.TaskName, taskName_length]
    exact ⟨hb, by omega, hn, by omega⟩
  refine ⟨h1, ?_⟩
  intro σ s w t req hcalls
  obtain ⟨ht, hor⟩ := Create_spec s w t
  rcases hor with ⟨hc, -, -⟩ | ⟨req', ⟨hval, hpb, hpar, -⟩, hc, -, -⟩
  · rw [hc] at hcalls
    have := congrArg List.length hcalls
    simp at this
  · rw [hc] at hcalls
    have hreq : req' = req := by
      have := List.append_cancel_left hcalls
      simpa using this
    subst hreq
    rw [ht]
    have hname := TaskToPbTask_name _ _ hpb
    refine ⟨hval, hname, by rw [hpar, withDefaultVersion_QueuePath], ?_⟩
    rw [hname, hpar, ← withDefaultVersion_QueuePath t]
    exact (h1 _ hval).2.2.2

theorem C15_TaskID_length_bound_witness :
    byteLen sampleTask.TaskID ≤ 500 ∧ sampleTask.TaskID.length ≤ 500 ∧
      sampleTask.TaskName.length = sampleTask.QueuePath.length + 7 + sampleTask.TaskID.length ∧
      sampleTask.TaskName.length ≤ sampleTask.QueuePath.length + 507 :=
  C15_TaskID_length_bound.1 sampleTask (by decide)

theorem hexVal_digitChar (k : Nat) (hk : k < 16) : hexVal (Nat.digitChar k) = k := by
  interval_cases k <;> decide

theorem readHex_toDigitsCore :
    ∀ (f n : Nat) (ds : List Char), n < f →
      readHex (Nat.toDigitsCore 16 f n ds) 0 = readHex ds n := by
  intro f
  induction f with
  | zero => intro n ds h; omega
  | succ f ih =>
    intro n ds h
    simp only [Nat.toDigitsCore]
    split
    · rename_i h0
      have hn : n < 16 := by omega
      have : n % 16 = n := by omega
      simp [readHex, this, hexVal_digitChar n hn]
    · rename_i h0
      rw [ih (n / 16) _ (by omega)]
      simp only [readHex, hexVal_digitChar (n % 16) (Nat.mod_lt _ (by decide))]
      congr 1
      omega

theorem readHex_toDigits (n : Nat) : readHex (Nat.toDigits 16 n) 0 = n := by
  unfold Nat.toDigits
  rw [readHex_toDigitsCore _ _ _ (Nat.lt_succ_self n)]
  rfl

theorem toDigits16_inj (m n : Nat) (h : Nat.toDigits 16 m = Nat.toDigits 16 n) : m = n := by
  have h1 := readHex_toDigits m
  rw [h, readHex_toDigits] at h1
  exact h1.symm

theorem FormatInt16_inj (v w : Int) (h : FormatInt v 16 = FormatInt w 16) : v = w := by
  unfold FormatInt at h
  have hnd : ∀ n : Nat, '-' ∉ Nat.toDigits 16 n := fun n hm =>
    (hexChar_cases _ (toDigits_hex 16 n (by decide) (by decide) _ hm)).2.2.2.1 rfl
  by_cases hv : v < 0 <;> by_cases hw : w < 0
  · simp only [hv, hw, if_true, List.cons.injEq, true_and] at h
    have := toDigits16_inj _ _ h
    omega
  · simp only [hv, hw, if_true, if_false] at h
    exact absurd (by rw [← h]; simp) (hnd w.natAbs)
  · simp only [hv, hw, if_true, if_false] at h
    exact absurd (by rw [h]; simp) (hnd v.natAbs)
  · simp only [hv, hw, if_false] at h
    have := toDigits16_inj _ _ h
    omega

/-- Two tasks with prefixes of one length and the same comparison key have the
same prefix, id and nanosecond count. -/
theorem comparisonID_inj (a b : Task) (hlen : a.Prefix.length = b.Prefix.length)
    (h : a.comparisonID = b.comparisonID) :
    a.Prefix = b.Prefix ∧ a.ID = b.ID ∧ a.ScheduledAt.UnixNano = b.ScheduledAt.UnixNano := by
  unfold Task.comparisonID taskTimestampSeparator at h
  simp only [List.append_assoc, List.singleton_append] at h
  obtain ⟨hp, hrest⟩ := List.append_inj h hlen
  have hns : ∀ v : Int, '_' ∉ FormatInt v 16 := fun v =>
    FormatInt_not_mem v 16 (by decide) (by decide) '_' (by decide) (by decide)
  obtain ⟨hid, hhex⟩ := split_at_last '_' _ _ _ _ (hns _) (hns _) hrest
  exact ⟨hp, hid, FormatInt16_inj _ _ hhex⟩

/-- C16 (as stated, refuted). (1) The triples ("a", "bc", t) and ("ab", "c", t)
differ, their ids are non-empty, use allowed characters only and contain
neither '_' nor 'v', and both tasks have the comparison key `abc_3b9aca02`.
(2) Two tasks with the same prefix and id whose times are 2^64 nanoseconds
apart have the same comparison key, because `UnixNano()` is an `int64`. -/
theorem C16_counterexample :
    ((sampleKeyA.Prefix, sampleKeyA.ID, sampleKeyA.ScheduledAt) ≠
        (sampleKeyB.Prefix, sampleKeyB.ID, sampleKeyB.ScheduledAt) ∧
      sampleKeyA.ID ≠ [] ∧ sampleKeyB.ID ≠ [] ∧
      (∀ c ∈ sampleKeyA.ID ++ sampleKeyB.ID, validChar c = true ∧ c ≠ '_' ∧ c ≠ 'v') ∧
      sampleKeyA.comparisonID = sampleKeyB.comparisonID ∧
      sampleKeyA.comparisonID = "abc_3b9aca02".toList) ∧
    ((sampleKeyT1.Prefix, sampleKeyT1.ID, sampleKeyT1.ScheduledAt) ≠
        (sampleKeyT2.Prefix, sampleKeyT2.ID, sampleKeyT2.ScheduledAt) ∧
      sampleKeyT1.ID ≠ [] ∧
      (∀ c ∈ sampleKeyT1.ID, validChar c = true ∧ c ≠ '_' ∧ c ≠ 'v') ∧
      sampleKeyT1.ID = sampleKeyT2.ID ∧
      sampleKeyT1.comparisonID = sampleKeyT2.comparisonID) := by
  decide

/-- C16 (amended). Identity injectivity: two tasks whose prefixes have the same
length (in particular the same prefix), whose times are well formed
(`0 ≤ nsec < 10^9`) and within the `int64` nanosecond range, and whose triples
(prefix, id, scheduledAt) differ have different comparison keys, whatever
characters the ids contain. -/
theorem C16_key_injective (a b : Task) (hlen : a.Prefix.length = b.Prefix.length)
    (han : 0 ≤ a.ScheduledAt.nsec ∧ a.ScheduledAt.nsec < 10 ^ 9)
    (hbn : 0 ≤ b.ScheduledAt.nsec ∧ b.ScheduledAt.nsec < 10 ^ 9)
    (har : -2 ^ 63 ≤ a.ScheduledAt.sec * 10 ^ 9 + a.ScheduledAt.nsec ∧
      a.ScheduledAt.sec * 10 ^ 9 + a.ScheduledAt.nsec < 2 ^ 63)
    (hbr : -2 ^ 63 ≤ b.ScheduledAt.sec * 10 ^ 9 + b.ScheduledAt.nsec ∧
      b.ScheduledAt.sec * 10 ^ 9 + b.ScheduledAt.nsec < 2 ^ 63)
    (hne : (a.Prefix, a.ID, a.ScheduledAt) ≠ (b.Prefix, b.ID, b.ScheduledAt)) :
    a.comparisonID ≠ b.comparisonID := by
  intro h
  obtain ⟨hp, hid, hn⟩ := comparisonID_inj a b hlen h
  apply hne
  unfold Time.UnixNano at hn
  rw [wrapInt64_of_range _ har.1 har.2, wrapInt64_of_range _ hbr.1 hbr.2] at hn
  have hext : ∀ x y : Time, x.sec = y.sec → x.nsec = y.nsec → x = y := by
    intro x y h1 h2
    cases x; cases y
    simp only at h1 h2
    rw [h1, h2]
  have ht : a.ScheduledAt = b.ScheduledAt := by
    norm_num at han hbn hn
    exact hext _ _ (by omega) (by omega)
  rw [hp, hid, ht]

theorem C16_key_injective_witness :
    sampleTask.comparisonID ≠ sampleKeyT1.comparisonID :=
  C16_key_injective sampleTask sampleKeyT1 (by decide) (by decide) (by decide) (by decide)
    (by decide) (by decide)

theorem Validate_withDefaultVersion (t : Task) :
    (withDefaultVersion t).Validate = t.Validate := by
  unfold withDefaultVersion
  by_cases h : t.Version = 0
  · simp only [h, if_true]
    have h0 : Itoa 0 = ['0'] := by decide
    have h1 : Itoa 1 = ['1'] := by decide
    have hb : ∀ (x : Str), byteLen (x ++ ['1']) = byteLen (x ++ ['0']) := by
      intro x
      simp [byteLen]
      decide
    have hf : ∀ (x : Str), (x ++ ['1']).find? (fun char => !validChar char) =
        (x ++ ['0']).find? (fun char => !validChar char) := by
      intro x
      rw [List.find?_append, List.find?_append]
      congr 1
    unfold Task.Validate Task.validateTaskID Task.TaskID
    simp only [Task.comparisonID, h, h0, h1, hb, hf]
  · simp only [h, if_false]

/-- C17. `Create` leaves the task with version 1 when it was 0 and with its own
version otherwise, all other fields unchanged; it issues at most one call,
and the name in a create request it sends is `TaskName()` of the task with
the resulting version. -/
theorem C17_Create_default_version {σ : Type} (s : Scheduler σ) (w : World σ) (t : Task) :
    (s.Create w t).2.1 = { t with Version := if t.Version = 0 then 1 else t.Version } ∧
      ((s.Create w t).1.calls = w.calls ∨
        ∃ req, (s.Create w t).1.calls = w.calls ++ [Call.create req] ∧
          req.Task.Name = (s.Create w t).2.1.TaskName ∧
          req.Task.Name =
            Task.TaskName { t with Version := if t.Version = 0 then 1 else t.Version }) := by
  obtain ⟨ht, hor⟩ := Create_spec s w t
  have hw : withDefaultVersion t =
      { t with Version := if t.Version = 0 then 1 else t.Version } := by
    unfold withDefaultVersion
    by_cases h : t.Version = 0
    · simp [h]
    · simp [h]
  refine ⟨ht.trans hw, ?_⟩
  rcases hor with ⟨hc, -, -⟩ | ⟨req, ⟨-, hpb, -, -⟩, hc, -, -⟩
  · exact Or.inl hc
  · have hn := TaskToPbTask_name _ _ hpb
    exact Or.inr ⟨req, hc, by rw [hn, ht], by rw [hn, hw]⟩

theorem Create_of_invalid {σ : Type} (s : Scheduler σ) (w : World σ) (t : Task) (err : Err)
    (h : (withDefaultVersion t).Validate = some err) :
    s.Create w t = (w, withDefaultVersion t, some err) := by
  unfold Scheduler.Create
  have hwd : (if t.Version = 0 then { t with Version := 1 } else t) = withDefaultVersion t := rfl
  simp only [hwd, h]

theorem Create_of_convert_error {σ : Type} (s : Scheduler σ) (w : World σ) (t : Task)
    (err : Err) (h : (withDefaultVersion t).Validate = none)
    (hpb : (TaskToPbTask (withDefaultVersion t)).2 = .error err) :
    s.Create w t = (w, withDefaultVersion t, some err) := by
  unfold Scheduler.Create
  have hwd : (if t.Version = 0 then { t with Version := 1 } else t) = withDefaultVersion t := rfl
  simp only [hwd, h]
  have hfst := TaskToPbTask_fst (withDefaultVersion t)
  rcases hp : TaskToPbTask (withDefaultVersion t) with ⟨t', res⟩
  rw [hp] at hfst hpb
  simp only at hfst hpb
  subst hfst hpb
  rfl

/-- What `Create` does once validation and conversion have passed: one create
call, and the error mapping of the `switch` on `status.Code`. -/
theorem Create_of_ok {σ : Type} (s : Scheduler σ) (w : World σ) (t : Task) (pb : PbTask)
    (h : (withDefaultVersion t).Validate = none)
    (hpb : (TaskToPbTask (withDefaultVersion t)).2 = .ok pb) :
    s.Create w t =
      ({ state := (s.client.CreateTask w.state
            { Parent := t.QueuePath, Task := pb, ResponseView := .BASIC }).1,
         calls := w.calls ++
            [.create { Parent := t.QueuePath, Task := pb, ResponseView := .BASIC }] },
        withDefaultVersion t,
        match (s.client.CreateTask w.state
            { Parent := t.QueuePath, Task := pb, ResponseView := .BASIC }).2 with
        | some err =>
          if statusCode err = codesAlreadyExists then some .ErrTaskAlreadyExists else some err
        | none => none) := by
  unfold Scheduler.Create
  have hwd : (if t.Version = 0 then { t with Version := 1 } else t) = withDefaultVersion t := rfl
  simp only [hwd, h]
  have hfst := TaskToPbTask_fst (withDefaultVersion t)
  rcases hp : TaskToPbTask (withDefaultVersion t) with ⟨t', res⟩
  rw [hp] at hfst hpb
  simp only at hfst hpb
  subst hfst hpb
  simp only [withDefaultVersion_QueuePath]
  cases hres : (s.client.CreateTask w.state
      { Parent := t.QueuePath, Task := pb, ResponseView := .BASIC }).2 with
  | none => rfl
  | some err =>
    simp only
    split <;> rfl

/-- Whether `TaskToPbTask` succeeds does not depend on the version. -/
theorem TaskToPbTask_withDefaultVersion (t : Task) (pb : PbTask)
    (h : (TaskToPbTask t).2 = .ok pb) :
    (TaskToPbTask (withDefaultVersion t)).2 =
      .ok { pb with Name := (withDefaultVersion t).TaskName } := by
  unfold withDefaultVersion
  by_cases hv : t.Version = 0
  · simp only [hv, if_true]
    unfold TaskToPbTask at h ⊢
    rcases t with ⟨qp, pre, id, at_, ⟨m, u, hd, body⟩, auth, v⟩
    rcases body with _ | ⟨b | e⟩
    · simp at h; subst h; rfl
    · simp at h; subst h; rfl
    · simp at h
  · simp only [hv, if_false]
    rw [h, ← TaskToPbTask_name t pb h]

/-- C18. A task fails `Validate` exactly when its id is empty, its identity is
longer than 500 bytes or holds a disallowed character; for such a task
`Create` returns an error that wraps `ErrTaskValidation` and leaves the remote
state and the call log as they were. For a task that passes `Validate` and
`TaskToPbTask`, `Create` issues exactly one create call, whose parent is the
task's `QueuePath` and whose task is the converted task under the name of the
resulting version. -/
theorem C18_Create_validates_first {σ : Type} (s : Scheduler σ) (w : World σ) (t : Task) :
    ((t.ID = [] ∨ 500 < byteLen t.TaskID ∨ ∃ c ∈ t.TaskID, validChar c = false) ↔
      t.Validate ≠ none) ∧
    (t.Validate ≠ none →
      ∃ e, (s.Create w t).2.2 = some e ∧ e.Is .ErrTaskValidation = true ∧
        (s.Create w t).1 = w) ∧
    (∀ pb, t.Validate = none → (TaskToPbTask t).2 = .ok pb →
      (s.Create w t).1.calls = w.calls ++
        [Call.create { Parent := t.QueuePath,
                       Task := { pb with Name := (s.Create w t).2.1.TaskName },
                       ResponseView := .BASIC }]) := by
  refine ⟨?_, fun hv => ?_, fun pb hv hpb => ?_⟩
  · rw [Ne, Validate_iff]
    constructor
    · rintro (h | h | ⟨c, hc, h⟩) ⟨h1, h2, h3⟩
      · exact h1 h
      · omega
      · rw [h3 c hc] at h; simp at h
    · intro h
      by_cases h1 : t.ID = []
      · exact Or.inl h1
      · by_cases h2 : 500 < byteLen t.TaskID
        · exact Or.inr (Or.inl h2)
        · refine Or.inr (Or.inr ?_)
          by_contra h3
          apply h
          refine ⟨h1, by omega, fun c hc => ?_⟩
          by_contra h4
          exact h3 ⟨c, hc, by simpa using h4⟩
  · cases hval : t.Validate with
    | none => exact absurd hval hv
    | some e =>
      have h' : (withDefaultVersion t).Validate = some e := by
        rw [Validate_withDefaultVersion]; exact hval
      rw [Create_of_invalid s w t e h']
      obtain ⟨msg, rfl⟩ := Validate_wraps t e hval
      exact ⟨_, rfl, by simp [Err.Is], rfl⟩
  · have h' : (withDefaultVersion t).Validate = none := by
      rw [Validate_withDefaultVersion]; exact hv
    rw [Create_of_ok s w t _ h' (TaskToPbTask_withDefaultVersion t pb hpb)]

set_option maxRecDepth 100000 in
/-- C19 (as stated, refuted). The remote create call fails with the error value
`ErrTaskAlreadyExists`, which is no gRPC status error: its status code is
`Unknown`, not `AlreadyExists`, and `Create` returns it unchanged, that is
`ErrTaskAlreadyExists`. -/
theorem C19_counterexample :
    ((New sentinelClient "p".toList "l".toList "q".toList "test_".toList).Create
        { state := [], calls := [] } sampleTask).2.2 = some .ErrTaskAlreadyExists ∧
      ((New sentinelClient "p".toList "l".toList "q".toList "test_".toList).Create
        { state := [], calls := [] } sampleTask).1.calls.length = 1 ∧
      (∀ req, (sentinelClient.CreateTask [] req).2 = some .ErrTaskAlreadyExists) ∧
      statusCode .ErrTaskAlreadyExists = codesUnknown ∧
      statusCode .ErrTaskAlreadyExists ≠ codesAlreadyExists := by
  refine ⟨by decide, by decide, fun _ => rfl, rfl, by decide⟩

/-- C19 (amended). For a task that passes validation and conversion, `Create`
issues the create call and returns nil when the call succeeds,
`ErrTaskAlreadyExists` when it fails with status code `AlreadyExists`, and the
remote error unchanged for every other code; so it returns
`ErrTaskAlreadyExists` exactly when the call fails with status code
`AlreadyExists` or with the value `ErrTaskAlreadyExists` itself. -/
theorem C19_Create_error_mapping {σ : Type} (s : Scheduler σ) (w : World σ) (t : Task)
    (pb : PbTask) (hv : t.Validate = none) (hpb : (TaskToPbTask t).2 = .ok pb) :
    ∃ req, (s.Create w t).1.calls = w.calls ++ [Call.create req] ∧
      ((s.client.CreateTask w.state req).2 = none → (s.Create w t).2.2 = none) ∧
      (∀ e, (s.client.CreateTask w.state req).2 = some e →
        statusCode e = codesAlreadyExists →
        (s.Create w t).2.2 = some .ErrTaskAlreadyExists) ∧
      (∀ e, (s.client.CreateTask w.state req).2 = some e →
        statusCode e ≠ codesAlreadyExists → (s.Create w t).2.2 = some e) ∧
      ((s.Create w t).2.2 = some .ErrTaskAlreadyExists ↔
        ∃ e, (s.client.CreateTask w.state req).2 = some e ∧
          (statusCode e = codesAlreadyExists ∨ e = .ErrTaskAlreadyExists)) := by
  have h' : (withDefaultVersion t).Validate = none := by
    rw [Validate_withDefaultVersion]; exact hv
  rw [Create_of_ok s w t _ h' (TaskToPbTask_withDefaultVersion t pb hpb)]
  refine ⟨_, rfl, ?_⟩
  cases hres : (s.client.CreateTask w.state
      { Parent := t.QueuePath, Task := { pb with Name := (withDefaultVersion t).TaskName },
        ResponseView := .BASIC }).2 with
  | none => simp
  | some err =>
    by_cases hc : statusCode err = codesAlreadyExists
    · simp [hc]
    · simp [hc]

set_option maxRecDepth 100000 in
theorem C19_Create_error_mapping_witness :
    ∃ req, (sampleScheduler.Create { state := [sampleRemoteSame], calls := [] }
        sampleTask).1.calls = [] ++ [Call.create req] ∧
      ((storeClient.CreateTask [sampleRemoteSame] req).2 = none →
        (sampleScheduler.Create { state := [sampleRemoteSame], calls := [] }
          sampleTask).2.2 = none) ∧
      (∀ e, (storeClient.CreateTask [sampleRemoteSame] req).2 = some e →
        statusCode e = codesAlreadyExists →
        (sampleScheduler.Create { state := [sampleRemoteSame], calls := [] }
          sampleTask).2.2 = some .ErrTaskAlreadyExists) ∧
      (∀ e, (storeClient.CreateTask [sampleRemoteSame] req).2 = some e →
        statusCode e ≠ codesAlreadyExists →
        (sampleScheduler.Create { state := [sampleRemoteSame], calls := [] }
          sampleTask).2.2 = some e) ∧
      ((sampleScheduler.Create { state := [sampleRemoteSame], calls := [] }
          sampleTask).2.2 = some .ErrTaskAlreadyExists ↔
        ∃ e, (storeClient.CreateTask [sampleRemoteSame] req).2 = some e ∧
          (statusCode e = codesAlreadyExists ∨ e = .ErrTaskAlreadyExists)) :=
  C19_Create_error_mapping sampleScheduler { state := [sampleRemoteSame], calls := [] }
    sampleTask sampleRemoteSame (by decide) (by decide)

set_option maxRecDepth 100000 in
/-- C20. What `TaskToPbTask` does with the request method: it fails only when the
body cannot be read; the wire method is `HttpMethod_value[Method]`, which is
the method of the same name for the seven supported methods and
`HTTP_METHOD_UNSPECIFIED` for every other text, without any error. For the
method "TRACE" it returns a wire task that the package's own `PbTaskToTask`
rejects with "unsupported http method". -/
theorem C20_TaskToPbTask_method :
    (∀ t : Task, (∀ e, t.Request.Body ≠ some (.failing e)) →
      ∃ pb r, (TaskToPbTask t).2 = .ok pb ∧ pb.MessageType = some (.HttpRequest r) ∧
        r.HttpMethod = HttpMethod_value t.Request.Method) ∧
    (HttpMethod_value "GET".toList = .GET ∧ HttpMethod_value "POST".toList = .POST ∧
      HttpMethod_value "PUT".toList = .PUT ∧ HttpMethod_value "PATCH".toList = .PATCH ∧
      HttpMethod_value "DELETE".toList = .DELETE ∧ HttpMethod_value "HEAD".toList = .HEAD ∧
      HttpMethod_value "OPTIONS".toList = .OPTIONS) ∧
    (∀ m : Str, m ∉ supportedMethods → HttpMethod_value m = .HTTP_METHOD_UNSPECIFIED) ∧
    (sampleTaskTrace.Request.Method ∉ supportedMethods ∧
      (TaskToPbTask sampleTaskTrace).2 =
        .ok { Name := sampleTaskTrace.TaskName,
              ScheduleTime := some (Timestamp.New sampleTaskTrace.ScheduledAt),
              MessageType := some (.HttpRequest
                { Url := "https://example.com/".toList,
                  HttpMethod := .HTTP_METHOD_UNSPECIFIED, Headers := [], Body := none,
                  AuthorizationHeader := none }) } ∧
      (match (TaskToPbTask sampleTaskTrace).2 with
        | .ok pb => PbTaskToTask sampleNet sampleTaskTrace.QueuePath sampleTaskTrace.Prefix pb
        | .error e => .error e) = .error (.new "unsupported http method".toList)) := by
  refine ⟨?_, by decide, ?_, by decide⟩
  · intro t hb
    unfold TaskToPbTask
    rcases t with ⟨qp, pre, id, at_, ⟨m, u, hd, body⟩, auth, v⟩
    rcases body with _ | ⟨b | e⟩
    · exact ⟨_, _, rfl, rfl, rfl⟩
    · exact ⟨_, _, rfl, rfl, rfl⟩
    · exact absurd rfl (hb e)
  · intro m hm
    simp only [supportedMethods, List.mem_cons, List.mem_singleton, List.not_mem_nil, or_false,
      not_or] at hm
    obtain ⟨h1, h2, h3, h4, h5, h6, h7⟩ := hm
    unfold HttpMethod_value
    rw [if_neg h2, if_neg h1, if_neg h6, if_neg h3, if_neg h5, if_neg h4, if_neg h7]

theorem TaskToPbTask_readable (t : Task) (hb : ∀ e, t.Request.Body ≠ some (.failing e)) :
    ∃ pb, (TaskToPbTask t).2 = .ok pb := by
  unfold TaskToPbTask
  rcases t with ⟨qp, pre, id, at_, ⟨m, u, hd, body⟩, auth, v⟩
  rcases body with _ | ⟨b | e⟩
  · exact ⟨_, rfl⟩
  · exact ⟨_, rfl⟩
  · exact absurd rfl (hb e)

/-- Decoding the wire task made from `D`, when the identity has no '/', the
method is supported and the library accepts the URL as `u`. -/
theorem roundtrip_core (net : NetHTTP) (D : Task) (pb : PbTask) (u : Str)
    (hns : '/' ∉ D.TaskID) (hlo : -2 ^ 63 ≤ D.Version) (hhi : D.Version < 2 ^ 63)
    (hm : D.Request.Method ∈ supportedMethods)
    (hu : net.requestURL D.Request.URL = some u)
    (hpb : (TaskToPbTask D).2 = .ok pb) :
    ∃ t, PbTaskToTask net D.QueuePath D.Prefix pb = .ok t ∧
      t.QueuePath = D.QueuePath ∧ t.Prefix = D.Prefix ∧ t.ID = D.ID ∧
      t.Version = D.Version ∧
      t.ScheduledAt = Time.Unix D.ScheduledAt.sec D.ScheduledAt.nsec ∧
      t.Authorization = D.Authorization ∧ t.Request.Method = D.Request.Method ∧
      t.Request.URL = u := by
  have hb := TaskToPbTask_ok D pb hpb
  clear hpb
  obtain ⟨b, rfl⟩ := hb
  have hparse : ParseTaskName D.Prefix D.TaskName = .ok (D.ID, D.Version) :=
    ParseTaskName_TaskID D _ (taskName_Base _ _ (TaskID_ne_nil D) hns) hlo hhi
  unfold PbTaskToTask
  simp only [hparse, convertHTTPRequest_supported net _ _ _ _ _ hm, hu,
    convertAuthorizationToken_roundtrip]
  exact ⟨_, rfl, rfl, rfl, rfl, rfl, rfl, rfl, rfl, rfl⟩

theorem Time_Unix_instant (s n : Int) :
    (Time.Unix s n).sec * 10 ^ 9 + (Time.Unix s n).nsec = s * 10 ^ 9 + n := by
  unfold Time.Unix
  simp only
  have := Int.ediv_add_emod n (10 ^ 9)
  linarith

theorem Time_Unix_of_wellformed (t : Time) (h0 : 0 ≤ t.nsec) (h1 : t.nsec < 10 ^ 9) :
    Time.Unix t.sec t.nsec = t := by
  unfold Time.Unix
  have hd : t.nsec / 10 ^ 9 = 0 := Int.ediv_eq_zero_of_lt h0 h1
  have hm : t.nsec % 10 ^ 9 = t.nsec := Int.emod_eq_of_lt h0 h1
  rw [hd, hm]
  simp

set_option maxRecDepth 100000 in
/-- C21 (as stated, refuted). (1) A task with a supported method, no
authorization and a prefix and id without '/' whose body stream fails when
read: `TaskToPbTask` returns the read error, so there is no wire task to
decode. (2) A task whose URL text holds a space in the host: `TaskToPbTask`
succeeds, and decoding its result fails because the HTTP library does not
accept the URL. -/
theorem C21_counterexample :
    (sampleTaskUnreadable.Request.Method ∈ supportedMethods ∧
      sampleTaskUnreadable.Authorization = none ∧
      '/' ∉ sampleTaskUnreadable.Prefix ∧ '/' ∉ sampleTaskUnreadable.ID ∧
      (TaskToPbTask sampleTaskUnreadable).2 =
        .error (.wrap "failed to read request body".toList (.new "read".toList))) ∧
    (sampleTaskSpace.Request.Method ∈ supportedMethods ∧
      sampleTaskSpace.Authorization = none ∧
      '/' ∉ sampleTaskSpace.Prefix ∧ '/' ∉ sampleTaskSpace.ID ∧
      (match (TaskToPbTask sampleTaskSpace).2 with
        | .ok pb => PbTaskToTask spaceNet sampleTaskSpace.QueuePath sampleTaskSpace.Prefix pb
        | .error e => .error e) =
        .error (.wrap "failed to initialize a new request".toList (.new "net/http".toList))) := by
  refine ⟨by decide, by decide⟩

/-- C21 (amended). Converter round trip: for every task with one of the seven
supported methods, any authorization (absent, OAuth or OIDC), a prefix and id
free of '/', a Go int version, a body that can be read (or none) and a URL
that the HTTP library accepts and gives back unchanged, `TaskToPbTask`
succeeds and `PbTaskToTask` on its result, with the task's queue path and
prefix, succeeds and returns a task with the same queue path, prefix, id,
version, scheduled instant (the same `Time` value when the nanoseconds are
well formed), authorization, method and URL. -/
theorem C21_converter_round_trip (net : NetHTTP) (t : Task)
    (hm : t.Request.Method ∈ supportedMethods)
    (hp : '/' ∉ t.Prefix) (hid : '/' ∉ t.ID)
    (hlo : -2 ^ 63 ≤ t.Version) (hhi : t.Version < 2 ^ 63)
    (hb : ∀ e, t.Request.Body ≠ some (.failing e))
    (hu : net.requestURL t.Request.URL = some t.Request.URL) :
    ∃ pb t', (TaskToPbTask t).2 = .ok pb ∧
      PbTaskToTask net t.QueuePath t.Prefix pb = .ok t' ∧
      t'.QueuePath = t.QueuePath ∧ t'.Prefix = t.Prefix ∧ t'.ID = t.ID ∧
      t'.Version = t.Version ∧
      t'.ScheduledAt.sec * 10 ^ 9 + t'.ScheduledAt.nsec =
        t.ScheduledAt.sec * 10 ^ 9 + t.ScheduledAt.nsec ∧
      (0 ≤ t.ScheduledAt.nsec → t.ScheduledAt.nsec < 10 ^ 9 →
        t'.ScheduledAt = t.ScheduledAt) ∧
      t'.Authorization = t.Authorization ∧ t'.Request.Method = t.Request.Method ∧
      t'.Request.URL = t.Request.URL := by
  obtain ⟨pb, hpb⟩ := TaskToPbTask_readable t hb
  obtain ⟨t', ht', h1, h2, h3, h4, h5, h6, h7, h8⟩ :=
    roundtrip_core net t pb t.Request.URL (TaskID_no_slash t hp hid) hlo hhi hm hu hpb
  refine ⟨pb, t', hpb, ht', h1, h2, h3, h4, ?_, ?_, h6, h7, h8⟩
  · rw [h5]; exact Time_Unix_instant _ _
  · intro h0 h9
    rw [h5]; exact Time_Unix_of_wellformed _ h0 h9

set_option maxRecDepth 100000 in
theorem C21_converter_round_trip_witness :
    ∃ pb t', (TaskToPbTask sampleTask).2 = .ok pb ∧
      PbTaskToTask sampleNet sampleTask.QueuePath sampleTask.Prefix pb = .ok t' ∧
      t'.QueuePath = sampleTask.QueuePath ∧ t'.Prefix = sampleTask.Prefix ∧
      t'.ID = sampleTask.ID ∧ t'.Version = sampleTask.Version ∧
      t'.ScheduledAt.sec * 10 ^ 9 + t'.ScheduledAt.nsec =
        sampleTask.ScheduledAt.sec * 10 ^ 9 + sampleTask.ScheduledAt.nsec ∧
      (0 ≤ sampleTask.ScheduledAt.nsec → sampleTask.ScheduledAt.nsec < 10 ^ 9 →
        t'.ScheduledAt = sampleTask.ScheduledAt) ∧
      t'.Authorization = sampleTask.Authorization ∧
      t'.Request.Method = sampleTask.Request.Method ∧
      t'.Request.URL = sampleTask.Request.URL :=
  C21_converter_round_trip sampleNet sampleTask (by decide) (by decide) (by decide)
    (by decide) (by decide) (fun e h => by cases h) rfl

theorem intercalate_commaJoined : ∀ vs : List Str, List.intercalate [','] vs = commaJoined vs := by
  intro vs
  induction vs with
  | nil => rfl
  | cons v rest ih =>
    cases rest with
    | nil => simp [List.intercalate, commaJoined]
    | cons w rest' =>
      have : List.intercalate [','] (v :: w :: rest') =
          v ++ ',' :: List.intercalate [','] (w :: rest') := by
        simp [List.intercalate, List.intersperse]
      rw [this, ih, commaJoined]

theorem lookup_of_mem_nodup {β : Type} :
    ∀ (l : List (Str × β)) (k : Str) (v : β), (l.map Prod.fst).Nodup → (k, v) ∈ l →
      l.lookup k = some v := by
  intro l
  induction l with
  | nil => intro k v _ h; simp at h
  | cons e rest ih =>
    intro k v hnd hm
    obtain ⟨ek, ev⟩ := e
    simp only [List.map_cons, List.nodup_cons] at hnd
    rcases List.mem_cons.1 hm with h | h
    · simp only [Prod.mk.injEq] at h
      obtain ⟨rfl, rfl⟩ := h
      simp [List.lookup]
    · have hne : k ≠ ek := by
        rintro rfl
        exact hnd.1 (List.mem_map.2 ⟨(k, v), h, rfl⟩)
      have hb : (k == ek) = false := by simpa using hne
      simp only [List.lookup, hb]
      exact ih k v hnd.2 h


theorem mem_of_lookup {β : Type} :
    ∀ (l : List (Str × β)) (k : Str) (v : β), l.lookup k = some v → (k, v) ∈ l := by
  intro l
  induction l with
  | nil => intro k v h; simp [List.lookup] at h
  | cons e rest ih =>
    intro k v h
    obtain ⟨ek, ev⟩ := e
    by_cases hk : k = ek
    · subst hk
      simp [List.lookup] at h
      subst h
      simp
    · have hb : (k == ek) = false := by simpa using hk
      simp only [List.lookup, hb] at h
      exact List.mem_cons_of_mem _ (ih k v h)

/-- C22. When `TaskToPbTask` returns a wire task, its headers are the request's
headers in the same order, each key with the comma-joined text of its values:
a key with values `v1, ..., vn` is mapped to `v1 + "," + ... + "," + vn` (the
only value under that key, the keys of a Go map being distinct), and every
wire header key is a key of the request. -/
theorem C22_headers_comma_joined (t : Task) (pb : PbTask)
    (h : (TaskToPbTask t).2 = .ok pb) :
    ∃ r, pb.MessageType = some (.HttpRequest r) ∧
      r.Headers = t.Request.Header.map (fun kv => (kv.1, commaJoined kv.2)) ∧
      (∀ k vs, (k, vs) ∈ t.Request.Header → (k, commaJoined vs) ∈ r.Headers) ∧
      (∀ k v, (k, v) ∈ r.Headers → ∃ vs, (k, vs) ∈ t.Request.Header ∧ v = commaJoined vs) ∧
      ((t.Request.Header.map Prod.fst).Nodup →
        ∀ k vs, (k, vs) ∈ t.Request.Header → r.Headers.lookup k = some (commaJoined vs)) ∧
      (∀ k, r.Headers.lookup k ≠ none → ∃ vs, (k, vs) ∈ t.Request.Header) := by
  obtain ⟨b, rfl⟩ := TaskToPbTask_ok t pb h
  have hmap : t.Request.Header.map (fun kv => (kv.1, List.intercalate [','] kv.2)) =
      t.Request.Header.map (fun kv => (kv.1, commaJoined kv.2)) := by
    apply List.map_congr_left
    intro kv _
    rw [intercalate_commaJoined]
  refine ⟨_, rfl, hmap, ?_, ?_, ?_, ?_⟩
  · intro k vs hm
    simp only [hmap]
    exact List.mem_map.2 ⟨(k, vs), hm, rfl⟩
  · intro k v hm
    simp only [hmap] at hm
    obtain ⟨⟨k', vs⟩, hm', heq⟩ := List.mem_map.1 hm
    simp only [Prod.mk.injEq] at heq
    obtain ⟨rfl, rfl⟩ := heq
    exact ⟨vs, hm', rfl⟩
  · intro hnd k vs hm
    simp only [hmap]
    apply lookup_of_mem_nodup
    · simpa [List.map_map, Function.comp] using hnd
    · exact List.mem_map.2 ⟨(k, vs), hm, rfl⟩
  · intro k hne
    simp only [hmap] at hne
    obtain ⟨v, hv⟩ := Option.ne_none_iff_exists'.1 hne
    obtain ⟨⟨k', vs⟩, hm', heq⟩ := List.mem_map.1 (mem_of_lookup _ k v hv)
    simp only [Prod.mk.injEq] at heq
    obtain ⟨rfl, -⟩ := heq
    exact ⟨vs, hm'⟩

set_option maxRecDepth 100000 in
theorem C22_headers_comma_joined_witness :
    ∃ r, (match (TaskToPbTask sampleTaskHeaders).2 with
        | .ok pb => pb.MessageType
        | .error _ => none) = some (.HttpRequest r) ∧
      r.Headers = [("Accept".toList, "a,b".toList), ("X-Empty".toList, [])] := by
  obtain ⟨pb, hpb⟩ : ∃ pb, (TaskToPbTask sampleTaskHeaders).2 = .ok pb := ⟨_, rfl⟩
  obtain ⟨r, hr, hh, -⟩ := C22_headers_comma_joined sampleTaskHeaders pb hpb
  refine ⟨r, ?_, ?_⟩
  · rw [hpb]; exact hr
  · rw [hh]; decide

/-- C23. `PbTaskToTask` returns an error for every wire task whose message type
is not the HTTP request variant (nil included), for the wire method
`HTTP_METHOD_UNSPECIFIED` (the only method value outside the seven supported
ones) and for a populated authorization header that is neither the OAuth nor
the OIDC token. `convertAuthorizationToken` turns an absent header into a nil
authorization without error and the OAuth and OIDC headers into the internal
variant with the same email and scope or audience, and that is the
authorization of the task `PbTaskToTask` returns; it does return one when the
name parses, the method is supported, the library accepts the URL and the
authorization is absent or one of the two tokens. -/
theorem C23_PbTaskToTask_variants (net : NetHTTP) (qp pre : Str) :
    (∀ pb : PbTask, (∀ r, pb.MessageType ≠ some (.HttpRequest r)) →
      ∃ e, PbTaskToTask net qp pre pb = .error e) ∧
    (∀ (pb : PbTask) (r : PbHttpRequest), pb.MessageType = some (.HttpRequest r) →
      r.HttpMethod = .HTTP_METHOD_UNSPECIFIED → ∃ e, PbTaskToTask net qp pre pb = .error e) ∧
    (∀ (pb : PbTask) (r : PbHttpRequest), pb.MessageType = some (.HttpRequest r) →
      r.AuthorizationHeader = some .other → ∃ e, PbTaskToTask net qp pre pb = .error e) ∧
    (∀ r : PbHttpRequest, r.AuthorizationHeader = none →
      convertAuthorizationToken r = .ok none) ∧
    (∀ (r : PbHttpRequest) (email scope : Str),
      r.AuthorizationHeader = some (.OauthToken email scope) →
      convertAuthorizationToken r = .ok (some (.OAuthToken email scope))) ∧
    (∀ (r : PbHttpRequest) (email audience : Str),
      r.AuthorizationHeader = some (.OidcToken email audience) →
      convertAuthorizationToken r = .ok (some (.OIDCToken email audience))) ∧
    (∀ (pb : PbTask) (r : PbHttpRequest) (t : Task),
      pb.MessageType = some (.HttpRequest r) → PbTaskToTask net qp pre pb = .ok t →
      convertAuthorizationToken r = .ok t.Authorization) ∧
    (∀ (pb : PbTask) (r : PbHttpRequest) (id u : Str) (v : Int),
      ParseTaskName pre pb.Name = .ok (id, v) → pb.MessageType = some (.HttpRequest r) →
      r.HttpMethod ≠ .HTTP_METHOD_UNSPECIFIED → net.requestURL r.Url = some u →
      r.AuthorizationHeader ≠ some .other → ∃ t, PbTaskToTask net qp pre pb = .ok t) := by
  refine ⟨?_, ?_, ?_, ?_, ?_, ?_, ?_, ?_⟩
  · intro pb hmt
    unfold PbTaskToTask
    rcases hp : ParseTaskName pre pb.Name with e | ⟨id, v⟩
    · exact ⟨_, rfl⟩
    · rcases hm : pb.MessageType with _ | (r | _)
      · exact ⟨_, rfl⟩
      · exact absurd hm (hmt r)
      · exact ⟨_, rfl⟩
  · intro pb r hmt hmeth
    unfold PbTaskToTask
    rcases hp : ParseTaskName pre pb.Name with e | ⟨id, v⟩
    · exact ⟨_, rfl⟩
    · have hc : convertHTTPRequest net r = .error (.new "unsupported http method".toList) := by
        unfold convertHTTPRequest
        simp only [hmeth]
      simp only [hmt, hc]
      exact ⟨_, rfl⟩
  · intro pb r hmt hauth
    unfold PbTaskToTask
    rcases hp : ParseTaskName pre pb.Name with e | ⟨id, v⟩
    · exact ⟨_, rfl⟩
    · simp only [hmt]
      rcases hc : convertHTTPRequest net r with e | req
      · exact ⟨_, rfl⟩
      · have ha : convertAuthorizationToken r =
            .error (.new "unsupported authorization header type".toList) := by
          unfold convertAuthorizationToken
          simp only [hauth]
        simp only [ha]
        exact ⟨_, rfl⟩
  · intro r h
    unfold convertAuthorizationToken
    simp only [h]
  · intro r email scope h
    unfold convertAuthorizationToken
    simp only [h]
  · intro r email audience h
    unfold convertAuthorizationToken
    simp only [h]
  · intro pb r t hmt hok
    unfold PbTaskToTask at hok
    rcases hp : ParseTaskName pre pb.Name with e | ⟨id, v⟩
    · simp [hp] at hok
    · simp only [hp, hmt] at hok
      rcases hc : convertHTTPRequest net r with e | req
      · simp [hc] at hok
      · simp only [hc] at hok
        rcases ha : convertAuthorizationToken r with e | auth
        · simp [ha] at hok
        · simp only [ha, Except.ok.injEq] at hok
          rw [← hok]
  · intro pb r id u v hp hmt hmeth hurl hauth
    unfold PbTaskToTask
    simp only [hp, hmt]
    have hc : ∃ req, convertHTTPRequest net r = .ok req := by
      unfold convertHTTPRequest
      rcases hm : r.HttpMethod with _ | _ | _ | _ | _ | _ | _ | _
      · exact absurd hm hmeth
      all_goals simp only [hurl]; exact ⟨_, rfl⟩
    obtain ⟨req, hreq⟩ := hc
    have ha : ∃ a, convertAuthorizationToken r = .ok a := by
      unfold convertAuthorizationToken
      rcases hh : r.AuthorizationHeader with _ | (⟨e, s⟩ | ⟨e, a⟩ | _)
      · exact ⟨_, rfl⟩
      · exact ⟨_, rfl⟩
      · exact ⟨_, rfl⟩
      · exact absurd hh hauth
    obtain ⟨a, ha⟩ := ha
    simp only [hreq, ha]
    exact ⟨_, rfl⟩

theorem ParseTaskName_error_not_done (pre name : Str) (e : Err)
    (h : ParseTaskName pre name = .error e) : e.Is .Done = false := by
  unfold ParseTaskName at h
  simp only at h
  split at h
  · simp only [Except.error.injEq] at h; subst h; simp [Err.Is]
  · split at h
    · simp only [Except.error.injEq] at h; subst h; simp [Err.Is]
    · split at h
      · simp only [Except.error.injEq] at h; subst h; simp [Err.Is]
      · split at h
        · simp only [Except.error.injEq] at h; subst h; simp [Err.Is]
        · simp at h

theorem PbTaskToTask_error_not_done (net : NetHTTP) (qp pre : Str) (pb : PbTask) (e : Err)
    (h : PbTaskToTask net qp pre pb = .error e) : e.Is .Done = false := by
  unfold PbTaskToTask at h
  rcases hp : ParseTaskName pre pb.Name with e1 | ⟨id, v⟩
  · simp only [hp, Except.error.injEq] at h
    subst h
    simp [Err.Is, ParseTaskName_error_not_done pre pb.Name e1 hp]
  · simp only [hp] at h
    rcases hm : pb.MessageType with _ | (r | _)
    · simp only [hm, Except.error.injEq] at h; subst h; simp [Err.Is]
    · simp only [hm] at h
      rcases hc : convertHTTPRequest net r with e2 | req
      · simp only [hc, Except.error.injEq] at h
        subst h
        unfold convertHTTPRequest at hc
        simp only at hc
        split at hc
        · simp only [Except.error.injEq] at hc; subst hc; simp [Err.Is]
        · split at hc
          · simp only [Except.error.injEq] at hc; subst hc; simp [Err.Is]
          · simp at hc
      · simp only [hc] at h
        rcases ha : convertAuthorizationToken r with e3 | a
        · simp only [ha, Except.error.injEq] at h
          subst h
          unfold convertAuthorizationToken at ha
          split at ha
          · simp at ha
          · simp at ha
          · simp at ha
          · simp only [Except.error.injEq] at ha; subst ha; simp [Err.Is]
        · simp [ha] at h
    · simp only [hm, Except.error.injEq] at h; subst h; simp [Err.Is]

/-- An error `Iterator.Next` returns is `Done` itself or an error that
`errors.Is(err, Done)` rejects. -/
theorem nextLoop_error (net : NetHTTP) :
    ∀ (fuel : Nat) (i i' : Iterator) (e : Err),
      Iterator.nextLoop net fuel i = some (.error e, i') → e = .Done ∨ e.Is .Done = false := by
  intro fuel
  induction fuel with
  | zero => intro i i' e h; simp [Iterator.nextLoop] at h
  | succ f ih =>
    intro i i' e h
    unfold Iterator.nextLoop at h
    rcases hi : i.iter with _ | cur
    · simp [hi] at h
    · simp only [hi] at h
      rcases hitems : cur.items with _ | ⟨task, rest⟩
      · simp only [hitems] at h
        by_cases hd : cur.stop.Is .Done = true
        · simp only [hd, if_true] at h
          by_cases ht : i.pageToken = []
          · simp only [ht, if_true, Option.some.injEq, Prod.mk.injEq, Except.error.injEq] at h
            exact Or.inl h.1.symm
          · simp only [ht, if_false] at h
            exact ih _ _ _ h
        · simp only [hd, Bool.false_eq_true, if_false, Option.some.injEq, Prod.mk.injEq,
            Except.error.injEq] at h
          right
          rw [← h.1]
          simp only [Bool.not_eq_true] at hd
          simp [Err.Is, hd]
      · simp only [hitems] at h
        by_cases hp : HasPrefix task.Name (taskName i.queuePath i.taskIDPrefix) = true
        · simp only [hp, Bool.not_true, Bool.false_eq_true, if_false] at h
          rcases hc : PbTaskToTask net i.queuePath i.taskIDPrefix task with e1 | t
          · simp only [hc, Option.some.injEq, Prod.mk.injEq, Except.error.injEq] at h
            right
            rw [← h.1]
            simp [Err.Is, PbTaskToTask_error_not_done net _ _ _ _ hc]
          · simp [hc] at h
        · simp only [hp, Bool.not_false, if_true] at h
          exact ih _ _ _ h

theorem drain_error (net : NetHTTP) :
    ∀ (fuel : Nat) (i : Iterator) (rs : List Task) (e : Err),
      Iterator.drain net fuel i = some (rs, e) → e = .Done ∨ e.Is .Done = false := by
  intro fuel
  induction fuel with
  | zero => intro i rs e h; simp [Iterator.drain] at h
  | succ f ih =>
    intro i rs e h
    unfold Iterator.drain at h
    rcases hn : i.Next net (f + 1) with _ | ⟨r, i2⟩
    · simp [hn] at h
    · rcases r with err | t
      · simp only [hn, Option.some.injEq, Prod.mk.injEq] at h
        rw [← h.2]
        exact nextLoop_error net _ _ _ _ hn
      · simp only [hn] at h
        rcases hd : Iterator.drain net f i2 with _ | r2
        · simp [hd] at h
        · simp only [hd, Option.some.injEq, Prod.mk.injEq] at h
          rw [← h.2]
          exact ih i2 r2.1 r2.2 hd

theorem Err_Is_self (e : Err) : e.Is e = true := by
  cases e <;> simp [Err.Is]

/-- C24. When the listing of a `Sync` run stops with an error other than `Done`
(after any number of returned tasks), `Sync` returns that error wrapped in
"failed to iterate remoteTasks", and the remote state and the call log are
as before: no delete call and no create call is issued. -/
theorem C24_iteration_error_no_calls {σ : Type} (net : NetHTTP) (s : Scheduler σ)
    (fuel : Nat) (w : World σ) (tasks rs : List Task) (e : Err)
    (hd : Iterator.drain net fuel (s.List w.state) = some (rs, e)) (hne : e ≠ .Done) :
    ∃ r, s.Sync net fuel w tasks = some r ∧
      r.err = some (.wrap "failed to iterate remoteTasks".toList e) ∧
      Err.Is (.wrap "failed to iterate remoteTasks".toList e) e = true ∧
      r.world = w := by
  obtain ⟨r, hsync⟩ := Sync_returns_of_drain net s fuel w tasks rs e hd
  obtain ⟨rs', e', hdrain, ss, -, hcases⟩ := Sync_unfold net s fuel w tasks r hsync
  rw [hd] at hdrain
  simp only [Option.some.injEq, Prod.mk.injEq] at hdrain
  obtain ⟨rfl, rfl⟩ := hdrain
  have hnd : e.Is .Done = false := by
    rcases drain_error net fuel _ rs e hd with h | h
    · exact absurd h hne
    · exact h
  have hwrap : Err.Is (.wrap "failed to iterate remoteTasks".toList e) e = true := by
    simp [Err.Is, Err_Is_self]
  rcases hcases with ⟨-, hw, -, he⟩ | ⟨hdone, -⟩ | ⟨hdone, -⟩
  · exact ⟨r, hsync, he, hwrap, hw⟩
  · rw [hnd] at hdone; simp at hdone
  · rw [hnd] at hdone; simp at hdone

set_option maxRecDepth 100000 in
theorem C24_iteration_error_no_calls_witness :
    ∃ r, sampleScheduler.Sync sampleNet 4
        { state := [sampleRemote, sampleRemoteAppEngine], calls := [] } [sampleTask] = some r ∧
      r.err = some (.wrap "failed to iterate remoteTasks".toList
        (.wrap "failed to convert task from pbtask".toList
          (.new "unsupported message type".toList))) ∧
      Err.Is (.wrap "failed to iterate remoteTasks".toList
        (.wrap "failed to convert task from pbtask".toList
          (.new "unsupported message type".toList)))
        (.wrap "failed to convert task from pbtask".toList
          (.new "unsupported message type".toList)) = true ∧
      r.world = { state := [sampleRemote, sampleRemoteAppEngine], calls := [] } :=
  C24_iteration_error_no_calls sampleNet sampleScheduler 4
    { state := [sampleRemote, sampleRemoteAppEngine], calls := [] } [sampleTask]
    [sampleRemoteTask]
    (.wrap "failed to convert task from pbtask".toList (.new "unsupported message type".toList))
    (by decide) (by decide)

/-- A failing delete loop: the first `k` deletes succeed, the next one fails
with the returned error, and nothing is called after it. -/
theorem deleteAll_fail {σ : Type} (s : Scheduler σ) :
    ∀ (names : List Str) (w w' : World σ) (err : Err),
      deleteAll s w names = (w', some err) →
      ∃ (k : Nat) (n : Str) (wk : World σ), names[k]? = some n ∧
        deleteAll s w (names.take k) = (wk, none) ∧
        wk.calls = w.calls ++ (names.take k).map (fun x => Call.delete { Name := x }) ∧
        s.client.DeleteTask wk.state { Name := n } = (w'.state, some err) ∧
        w'.calls = wk.calls ++ [Call.delete { Name := n }] := by
  intro names
  induction names with
  | nil => intro w w' err h; simp [deleteAll] at h
  | cons n rest ih =>
    intro w w' err h
    unfold deleteAll at h
    rcases hdl : s.Delete w n with ⟨w1, e1⟩
    have hd1 : s.Delete w n =
        ({ state := (s.client.DeleteTask w.state { Name := n }).1,
           calls := w.calls ++ [.delete { Name := n }] },
          (s.client.DeleteTask w.state { Name := n }).2) := rfl
    rw [hd1] at hdl
    simp only [Prod.mk.injEq] at hdl
    obtain ⟨hw1, he1⟩ := hdl
    cases e1 with
    | some e =>
      simp only [hd1, he1, Prod.mk.injEq, Option.some.injEq] at h
      obtain ⟨hw', rfl⟩ := h
      refine ⟨0, n, w, by simp, rfl, by simp, ?_, ?_⟩
      · rw [← hw']
        exact Prod.ext rfl he1
      · rw [← hw']
    | none =>
      simp only [hd1, he1] at h
      obtain ⟨k, m, wk, hk, hpre, hcalls, hfail, hlast⟩ := ih _ w' err h
      refine ⟨k + 1, m, wk, by simpa using hk, ?_, ?_, hfail, hlast⟩
      · simp only [List.take_succ_cons]
        unfold deleteAll
        simp only [hd1, he1]
        exact hpre
      · rw [hcalls]
        simp

/-- A failing create loop: the tasks before position `k` are handled without
error, `Create` fails for the task at `k`, and the loop ends there. -/
theorem createAll_fail {σ : Type} (s : Scheduler σ) (m : List (Str × Nat)) :
    ∀ (ts : List Task) (w w' : World σ) (ts' : List Task) (err : Err),
      createAll s m w ts = (w', ts', some err) →
      ∃ (k : Nat) (t : Task) (wk : World σ) (tsk : List Task), ts[k]? = some t ∧
        (mapLookup m t.comparisonID).isSome = true ∧
        createAll s m w (ts.take k) = (wk, tsk, none) ∧
        (s.Create wk t).2.2 = some err ∧ w' = (s.Create wk t).1 := by
  intro ts
  induction ts with
  | nil => intro w w' ts' err h; simp [createAll] at h
  | cons t rest ih =>
    intro w w' ts' err h
    unfold createAll at h
    by_cases hn : (mapLookup m t.comparisonID).isNone = true
    · simp only [hn, if_true, Prod.mk.injEq] at h
      obtain ⟨h1, -, h3⟩ := h
      obtain ⟨k, u, wk, tsk, hk, hu, hpre, hfail, hw⟩ :=
        ih w w' (createAll s m w rest).2.1 err (by rw [← h1, ← h3])
      refine ⟨k + 1, u, wk, t :: tsk, by simpa using hk, hu, ?_, hfail, hw⟩
      simp only [List.take_succ_cons]
      unfold createAll
      simp only [hn, if_true, hpre]
    · simp only [hn, Bool.false_eq_true, if_false] at h
      rcases hc : s.Create w t with ⟨w1, t1, e1⟩
      cases e1 with
      | some e =>
        simp only [hc, Prod.mk.injEq, Option.some.injEq] at h
        obtain ⟨h1, -, rfl⟩ := h
        have hs : (mapLookup m t.comparisonID).isSome = true := by
          cases hl : mapLookup m t.comparisonID with
          | none => rw [hl] at hn; simp at hn
          | some p => rfl
        refine ⟨0, t, w, [], by simp, hs, by simp [createAll], ?_, ?_⟩
        · rw [hc]
        · rw [hc, ← h1]
      | none =>
        simp only [hc, Prod.mk.injEq] at h
        obtain ⟨h1, -, h3⟩ := h
        obtain ⟨k, u, wk, tsk, hk, hu, hpre, hfail, hw⟩ :=
          ih w1 w' (createAll s m w1 rest).2.1 err (by rw [← h1, ← h3])
        refine ⟨k + 1, u, wk, t1 :: tsk, by simpa using hk, hu, ?_, hfail, hw⟩
        simp only [List.take_succ_cons]
        unfold createAll
        simp only [hn, Bool.false_eq_true, if_false, hc, hpre]

/-- The ways a `Sync` run whose listing ended with `Done` can end; `names` are
the names collected for deletion and `ts` the desired tasks after the listing
loop. Either `Sync` returns nil; or the first `k` delete calls succeed, the
next delete call fails, `Sync` returns that call's error unchanged and the
call log ends with that call; or every delete succeeds, the create loop
handles the tasks before position `k` without error, `Create` fails for the
task at `k`, `Sync` returns that error and the remote state and call log are
those `Create` left. -/
theorem fail_fast_cases {σ : Type} (net : NetHTTP) (s : Scheduler σ) (fuel : Nat)
    (w : World σ) (tasks rs : List Task)
    (hd : Iterator.drain net fuel (s.List w.state) = some (rs, .Done)) :
    ∃ r, s.Sync net fuel w tasks = some r ∧
      (r.err = none ∨
        (∃ (err : Err) (k : Nat) (n : Str) (wk : World σ),
          r.err = some err ∧
          (rs.foldl syncStep (initState tasks)).deleteNames[k]? = some n ∧
          deleteAll s w ((rs.foldl syncStep (initState tasks)).deleteNames.take k) =
            (wk, none) ∧
          wk.calls = w.calls ++
            ((rs.foldl syncStep (initState tasks)).deleteNames.take k).map
              (fun x => Call.delete { Name := x }) ∧
          s.client.DeleteTask wk.state { Name := n } = (r.world.state, some err) ∧
          r.world.calls = wk.calls ++ [Call.delete { Name := n }]) ∨
        (∃ (err : Err) (k : Nat) (t : Task) (wd wk : World σ) (tsk : List Task),
          r.err = some err ∧
          deleteAll s w (rs.foldl syncStep (initState tasks)).deleteNames = (wd, none) ∧
          (rs.foldl syncStep (initState tasks)).tasks[k]? = some t ∧
          createAll s (rs.foldl syncStep (initState tasks)).taskMap wd
            ((rs.foldl syncStep (initState tasks)).tasks.take k) = (wk, tsk, none) ∧
          (s.Create wk t).2.2 = some err ∧ r.world = (s.Create wk t).1)) := by
  have hsync := Sync_of_drain net s fuel w tasks rs hd
  have hinit : ({ tasks := tasks, taskMap := buildTaskMap tasks, deleteNames := [] } :
      SyncState) = initState tasks := rfl
  rw [hinit] at hsync
  rcases hdel : deleteAll s w (rs.foldl syncStep (initState tasks)).deleteNames with ⟨wd, e1⟩
  rw [hdel] at hsync
  cases e1 with
  | some err =>
    simp only at hsync
    refine ⟨_, hsync, Or.inr (Or.inl ?_)⟩
    obtain ⟨k, n, wk, hk, hpre, hcalls, hfail, hlast⟩ := deleteAll_fail s _ w wd err hdel
    exact ⟨err, k, n, wk, rfl, hk, hpre, hcalls, hfail, hlast⟩
  | none =>
    simp only at hsync
    refine ⟨_, hsync, ?_⟩
    rcases hcr : createAll s (rs.foldl syncStep (initState tasks)).taskMap wd
        (rs.foldl syncStep (initState tasks)).tasks with ⟨wc, tsc, e2⟩
    cases e2 with
    | none => exact Or.inl rfl
    | some err =>
      obtain ⟨k, t, wk, tsk, hk, -, hpre, hfail, hw⟩ := createAll_fail s _ _ wd wc tsc err hcr
      exact Or.inr (Or.inr ⟨err, k, t, wd, wk, tsk, rfl, rfl, hk, hpre, hfail, hw⟩)

theorem afterLast_split (c : Char) (a b : Str) (h : c ∉ b) : afterLast c (a ++ c :: b) = b := by
  unfold afterLast
  have hr : (a ++ c :: b).reverse = b.reverse ++ c :: a.reverse := by simp
  rw [hr, List.takeWhile_append_of_pos (fun x hx => by
    have : x ≠ c := fun hxc => h (by rw [← hxc]; exact List.mem_reverse.1 hx)
    simpa using this)]
  rw [List.takeWhile_cons_of_neg (by simp)]
  simp

theorem beforeLast_split (c : Char) (a b : Str) (h : c ∉ b) : beforeLast c (a ++ c :: b) = a := by
  unfold beforeLast
  have hr : (a ++ c :: b).reverse = b.reverse ++ c :: a.reverse := by simp
  rw [hr, List.dropWhile_append_of_pos (fun x hx => by
    have : x ≠ c := fun hxc => h (by rw [← hxc]; exact List.mem_reverse.1 hx)
    simpa using this)]
  rw [List.dropWhile_cons_of_neg (by simp)]
  simp

theorem last_split_of_mem (c : Char) (s : Str) (h : c ∈ s) :
    ∃ a b, s = a ++ c :: b ∧ c ∉ b := by
  obtain ⟨as, bs, hs, hn⟩ := List.eq_append_cons_of_mem (List.mem_reverse.2 h)
  refine ⟨bs.reverse, as.reverse, ?_, fun hm => hn (List.mem_reverse.1 hm)⟩
  have := congrArg List.reverse hs
  simpa using this

theorem LastIndex_neg_iff (c : Char) (s : Str) : LastIndex s [c] < 0 ↔ c ∉ s := by
  constructor
  · intro h hm
    obtain ⟨a, b, rfl, hb⟩ := last_split_of_mem c s hm
    rw [LastIndex_append c a b hb] at h
    omega
  · intro h
    rw [LastIndex_not_mem c s h]
    decide

/-- `ParseTaskName` in terms of the last path segment, the text after the
prefix and the texts around the last '_' and the last 'v'. -/
theorem ParseTaskName_eq (pre name : Str) :
    ParseTaskName pre name =
      if HasPrefix (Base name) pre = false then
        .error (.new "task name has no valid prefix".toList)
      else if '_' ∉ (Base name).drop pre.length then
        .error (.new "invalid task name format".toList)
      else if 'v' ∉ afterLast '_' ((Base name).drop pre.length) then
        .error (.new "task name has no valid version".toList)
      else
        match Atoi (afterLast 'v' (afterLast '_' ((Base name).drop pre.length))) with
        | none => .error (.wrap "failed to parse version".toList (.new "strconv.Atoi".toList))
        | some version => .ok (beforeLast '_' ((Base name).drop pre.length), version) := by
  unfold ParseTaskName
  simp only
  by_cases hp : HasPrefix (Base name) pre = true
  · have hrest : TrimPrefix (Base name) pre = (Base name).drop pre.length := by
      unfold TrimPrefix; simp [hp]
    simp only [hp, Bool.not_true, Bool.false_eq_true, if_false, hrest, taskTimestampSeparator,
      taskVersionSeparator, Bool.true_eq_false]
    by_cases hu : '_' ∈ (Base name).drop pre.length
    · obtain ⟨a, b, hab, hb⟩ := last_split_of_mem _ _ hu
      have hidx : LastIndex ((Base name).drop pre.length) ['_'] = a.length := by
        rw [hab]; exact LastIndex_append _ a b hb
      have h1 : ¬ LastIndex ((Base name).drop pre.length) ['_'] < 0 := by rw [hidx]; omega
      have ha : ((Base name).drop pre.length).take a.length = a := by rw [hab]; simp
      have hbd : ((Base name).drop pre.length).drop (a.length + 1) = b := by
        rw [hab]; simp
      have hafter : afterLast '_' ((Base name).drop pre.length) = b := by
        rw [hab]; exact afterLast_split _ a b hb
      have hbefore : beforeLast '_' ((Base name).drop pre.length) = a := by
        rw [hab]; exact beforeLast_split _ a b hb
      have hna : ¬ ((a.length : Int) < 0) := by omega
      simp only [hu, not_true_eq_false, hidx, hna, if_false, Int.toNat_ofNat, ha, hbd, hafter,
        hbefore]
      by_cases hv : 'v' ∈ b
      · obtain ⟨x, d, hxd, hd⟩ := last_split_of_mem _ _ hv
        have hidx2 : LastIndex b ['v'] = x.length := by rw [hxd]; exact LastIndex_append _ x d hd
        have h2 : ¬ LastIndex b ['v'] < 0 := by rw [hidx2]; omega
        have hdd : b.drop (x.length + 1) = d := by rw [hxd]; simp
        have hafter2 : afterLast 'v' b = d := by rw [hxd]; exact afterLast_split _ x d hd
        have hnx : ¬ ((x.length : Int) < 0) := by omega
        simp only [hv, not_true_eq_false, hidx2, hnx, if_false, Int.toNat_ofNat, hdd, hafter2]
      · have h2 : LastIndex b ['v'] < 0 := (LastIndex_neg_iff 'v' b).2 hv
        simp only [h2, if_true, hv, not_false_eq_true]
    · have h1 : LastIndex ((Base name).drop pre.length) ['_'] < 0 :=
        (LastIndex_neg_iff '_' _).2 hu
      simp only [h1, if_true, hu, not_false_eq_true]
  · simp only [Bool.not_eq_true] at hp
    simp only [hp, Bool.not_false, if_true]

theorem digitVal_eq (c : Char) :
    digitVal c = if c.isDigit = true then some (c.toNat - '0'.toNat) else none := by
  unfold digitVal Char.isDigit
  have h1 : decide ('0' ≤ c) = decide (c.val ≥ 48) := rfl
  have h2 : decide (c ≤ '9') = decide (c.val ≤ 57) := rfl
  by_cases h : '0' ≤ c ∧ c ≤ '9'
  · have ha : decide (c.val ≥ 48) = true := by rw [← h1]; simpa using h.1
    have hb : decide (c.val ≤ 57) = true := by rw [← h2]; simpa using h.2
    simp [h, ha, hb]
  · have hn : ¬ ((decide (c.val ≥ 48) && decide (c.val ≤ 57)) = true) := by
      rw [← h1, ← h2]
      simpa using h
    simp only [h, if_false]
    rw [if_neg hn]

theorem parseDigits_some_iff :
    ∀ (ds : Str) (acc n : Nat), parseDigits ds acc = some n ↔
      (∀ c ∈ ds, c.isDigit = true) ∧
        n = ds.foldl (fun acc c => acc * 10 + (c.toNat - '0'.toNat)) acc := by
  intro ds
  induction ds with
  | nil =>
    intro acc n
    simp only [parseDigits, Option.some.injEq, List.not_mem_nil, false_implies, implies_true,
      List.foldl_nil, true_and]
    exact eq_comm
  | cons c cs ih =>
    intro acc n
    simp only [parseDigits, digitVal_eq]
    by_cases hc : c.isDigit = true
    · simp only [hc, if_true, ih, List.mem_cons, forall_eq_or_imp, true_and, List.foldl_cons]
    · simp only [hc, if_false, List.mem_cons, forall_eq_or_imp, false_and, iff_false]
      simp

theorem Atoi_body (ds : Str) (f : Nat → Int) (v : Int) :
    (if ds = [] then none
      else
        match parseDigits ds 0 with
        | none => none
        | some n => if -2 ^ 63 ≤ f n ∧ f n < 2 ^ 63 then some (f n) else none) = some v ↔
      ds ≠ [] ∧ (∀ c ∈ ds, c.isDigit = true) ∧ v = f (digitsValue ds) ∧
        -2 ^ 63 ≤ v ∧ v < 2 ^ 63 := by
  by_cases hds : ds = []
  · simp [hds]
  · rw [if_neg hds]
    cases hp : parseDigits ds 0 with
    | none =>
      constructor
      · intro h; simp at h
      · rintro ⟨-, hall, -⟩
        have := (parseDigits_some_iff ds 0 (digitsValue ds)).2 ⟨hall, rfl⟩
        rw [hp] at this
        simp at this
    | some n =>
      obtain ⟨hall, hn⟩ := (parseDigits_some_iff ds 0 n).1 hp
      have hn' : n = digitsValue ds := hn
      subst hn'
      by_cases hr : -2 ^ 63 ≤ f (digitsValue ds) ∧ f (digitsValue ds) < 2 ^ 63
      · simp only [hr, and_self, if_true, Option.some.injEq]
        constructor
        · rintro rfl
          exact ⟨hds, hall, rfl, hr.1, hr.2⟩
        · rintro ⟨-, -, h, -⟩
          exact h.symm
      · simp only [hr, if_false]
        constructor
        · intro h; simp at h
        · rintro ⟨-, -, rfl, h1, h2⟩
          exact absurd ⟨h1, h2⟩ hr

/-- `strconv.Atoi` accepts exactly the decimal integer texts whose value is a
Go int. -/
theorem Atoi_iff (s : Str) (v : Int) :
    Atoi s = some v ↔ IsDecimalOf s v ∧ -2 ^ 63 ≤ v ∧ v < 2 ^ 63 := by
  have hdig : ∀ (c : Char) (cs : Str), (∀ x ∈ c :: cs, x.isDigit = true) → c ≠ '-' ∧ c ≠ '+' := by
    intro c cs h
    have hc := h c (by simp)
    constructor
    · rintro rfl; exact absurd hc (by decide)
    · rintro rfl; exact absurd hc (by decide)
  cases s with
  | nil =>
    simp only [Atoi, List.head?_nil, List.tail_nil]
    simp only [reduceCtorEq, or_self, if_false, if_true, false_iff, not_and]
    rintro ⟨ds, hne, -, (⟨h, -⟩ | ⟨h, -⟩ | ⟨h, -⟩)⟩
    · exact absurd h.symm hne
    · simp at h
    · simp at h
  | cons c cs =>
    by_cases hm : c = '-'
    · subst hm
      have hA : Atoi ('-' :: cs) =
          (if cs = [] then none
            else
              match parseDigits cs 0 with
              | none => none
              | some n =>
                if -2 ^ 63 ≤ (fun k : Nat => -(k : Int)) n ∧
                    (fun k : Nat => -(k : Int)) n < 2 ^ 63 then
                  some ((fun k : Nat => -(k : Int)) n)
                else none) := by
        simp [Atoi]
      rw [hA, Atoi_body cs (fun k : Nat => -(k : Int)) v]
      constructor
      · rintro ⟨hne, hall, hv, hr⟩
        exact ⟨⟨cs, hne, hall, Or.inr (Or.inr ⟨rfl, hv⟩)⟩, hr⟩
      · rintro ⟨⟨ds, hne, hall, (⟨h, -⟩ | ⟨h, -⟩ | ⟨h, hv⟩)⟩, hr⟩
        · rw [← h] at hall
          exact absurd rfl (hdig _ _ hall).1
        · simp at h
        · simp only [List.cons.injEq, true_and] at h
          subst h
          exact ⟨hne, hall, hv, hr⟩
    · by_cases hpl : c = '+'
      · subst hpl
        have hA : Atoi ('+' :: cs) =
            (if cs = [] then none
              else
                match parseDigits cs 0 with
                | none => none
                | some n =>
                  if -2 ^ 63 ≤ (fun k : Nat => (k : Int)) n ∧
                      (fun k : Nat => (k : Int)) n < 2 ^ 63 then
                    some ((fun k : Nat => (k : Int)) n)
                  else none) := by
          simp [Atoi]
        rw [hA, Atoi_body cs (fun k : Nat => (k : Int)) v]
        constructor
        · rintro ⟨hne, hall, hv, hr⟩
          exact ⟨⟨cs, hne, hall, Or.inr (Or.inl ⟨rfl, hv⟩)⟩, hr⟩
        · rintro ⟨⟨ds, hne, hall, (⟨h, -⟩ | ⟨h, hv⟩ | ⟨h, -⟩)⟩, hr⟩
          · rw [← h] at hall
            exact absurd rfl (hdig _ _ hall).2
          · simp only [List.cons.injEq, true_and] at h
            subst h
            exact ⟨hne, hall, hv, hr⟩
          · simp at h
      · have hA : Atoi (c :: cs) =
            (if c :: cs = [] then none
              else
                match parseDigits (c :: cs) 0 with
                | none => none
                | some n =>
                  if -2 ^ 63 ≤ (fun k : Nat => (k : Int)) n ∧
                      (fun k : Nat => (k : Int)) n < 2 ^ 63 then
                    some ((fun k : Nat => (k : Int)) n)
                  else none) := by
          simp [Atoi, hm, hpl]
        rw [hA, Atoi_body (c :: cs) (fun k : Nat => (k : Int)) v]
        constructor
        · rintro ⟨hne, hall, hv, hr⟩
          exact ⟨⟨c :: cs, hne, hall, Or.inl ⟨rfl, hv⟩⟩, hr⟩
        · rintro ⟨⟨ds, hne, hall, (⟨h, hv⟩ | ⟨h, -⟩ | ⟨h, -⟩)⟩, hr⟩
          · subst h
            exact ⟨hne, hall, hv, hr⟩
          · simp only [List.cons.injEq] at h
            exact absurd h.1 hpl
          · simp only [List.cons.injEq] at h
            exact absurd h.1 hm

set_option maxRecDepth 100000 in
/-- C26 (as stated, refuted). The name `pre-id_0v9223372036854775808` starts
with the prefix `pre-`, the remainder holds a '_', the text after the last
'_' holds a 'v', and the text after the last 'v' is the decimal integer
2^63; `ParseTaskName` returns an error because `strconv.Atoi` rejects a value
outside the range of `int`. -/
theorem C26_counterexample :
    "pre-".toList <+: Base "pre-id_0v9223372036854775808".toList ∧
      '_' ∈ (Base "pre-id_0v9223372036854775808".toList).drop "pre-".toList.length ∧
      'v' ∈ afterLast '_'
        ((Base "pre-id_0v9223372036854775808".toList).drop "pre-".toList.length) ∧
      IsDecimalOf (afterLast 'v' (afterLast '_'
        ((Base "pre-id_0v9223372036854775808".toList).drop "pre-".toList.length)))
        (2 ^ 63) ∧
      ParseTaskNameResults "pre-".toList "pre-id_0v9223372036854775808".toList =
        ([], 0, some (.wrap "failed to parse version".toList (.new "strconv.Atoi".toList))) := by
  refine ⟨?_, by decide, by decide, ?_, by decide⟩
  · exact List.isPrefixOf_iff_prefix.1 (by decide)
  · exact ⟨"9223372036854775808".toList, by decide, by decide, Or.inl ⟨by decide, by decide⟩⟩

set_option maxRecDepth 100000 in
/-- C26 (amended). `ParseTaskName(prefix, name)` returns an error, with id ""
and version 0, if and only if the last path segment of `name` (`path.Base`)
does not start with `prefix`, or the remainder after the prefix contains no
'_', or the text after the last '_' contains no 'v', or the text after the
last 'v' is not a decimal integer (an optional sign and one or more digits)
within the range of Go's `int`; otherwise it returns the text between the
prefix and the last '_' as id and that integer as version. The last part is
what happens for the valid name of `TestParseTaskName`. -/
theorem C26_ParseTaskName_iff :
    (∀ pre name : Str,
      ((ParseTaskNameResults pre name).2.2 ≠ none ↔
        (¬ pre <+: Base name ∨ '_' ∉ (Base name).drop pre.length ∨
          'v' ∉ afterLast '_' ((Base name).drop pre.length) ∨
          ¬ ∃ v, IsDecimalOf
              (afterLast 'v' (afterLast '_' ((Base name).drop pre.length))) v ∧
            -2 ^ 63 ≤ v ∧ v < 2 ^ 63)) ∧
      ((ParseTaskNameResults pre name).2.2 ≠ none →
        (ParseTaskNameResults pre name).1 = [] ∧ (ParseTaskNameResults pre name).2.1 = 0) ∧
      (∀ v, pre <+: Base name → '_' ∈ (Base name).drop pre.length →
        'v' ∈ afterLast '_' ((Base name).drop pre.length) →
        IsDecimalOf (afterLast 'v' (afterLast '_' ((Base name).drop pre.length))) v →
        -2 ^ 63 ≤ v → v < 2 ^ 63 →
        ParseTaskNameResults pre name =
          (beforeLast '_' ((Base name).drop pre.length), v, none))) ∧
    ParseTaskNameResults "pre-".toList
        ("projects/tokyo-rain-123/locations/asia-northeast1/queues/scheduler/" ++
          "pre-id_499602d2v1").toList = ("id".toList, 1, none) := by
  refine ⟨fun pre name => ?_, by decide⟩
  have hpre : HasPrefix (Base name) pre = true ↔ pre <+: Base name :=
    List.isPrefixOf_iff_prefix
  unfold ParseTaskNameResults
  rw [ParseTaskName_eq]
  by_cases h1 : pre <+: Base name
  · have h1' : HasPrefix (Base name) pre = true := hpre.2 h1
    simp only [h1', Bool.true_eq_false, if_false, h1, not_true_eq_false, false_or]
    by_cases h2 : '_' ∈ (Base name).drop pre.length
    · simp only [h2, not_true_eq_false, if_false, false_or]
      by_cases h3 : 'v' ∈ afterLast '_' ((Base name).drop pre.length)
      · simp only [h3, not_true_eq_false, if_false, false_or]
        cases ha : Atoi (afterLast 'v' (afterLast '_' ((Base name).drop pre.length))) with
        | none =>
          refine ⟨⟨fun _ => ?_, fun _ => by simp⟩, fun _ => ⟨rfl, rfl⟩, ?_⟩
          · rintro ⟨v, hv⟩
            rw [(Atoi_iff _ v).2 hv] at ha
            simp at ha
          · intro v _ _ _ hd hlo hhi
            rw [(Atoi_iff _ v).2 ⟨hd, hlo, hhi⟩] at ha
            simp at ha
        | some n =>
          refine ⟨⟨fun h => absurd rfl h, fun h => ?_⟩, fun h => absurd rfl h, ?_⟩
          · exact absurd ⟨n, (Atoi_iff _ n).1 ha⟩ h
          · intro v _ _ _ hd hlo hhi
            rw [(Atoi_iff _ v).2 ⟨hd, hlo, hhi⟩] at ha
            simp only [Option.some.injEq] at ha
            rw [ha]
      · simp only [h3, not_false_eq_true, if_true, true_or]
        simp
    · simp only [h2, not_false_eq_true, if_true, true_or]
      simp
  · have h1' : HasPrefix (Base name) pre = false := by
      cases hh : HasPrefix (Base name) pre with
      | false => rfl
      | true => exact absurd (hpre.1 hh) h1
    simp only [h1', if_true, h1, not_false_eq_true, true_or]
    simp

theorem syncStep_TasksSim (ss : SyncState) (R : Task) : TasksSim ss.tasks (syncStep ss R).tasks := by
  rcases syncStep_cases ss R with ⟨-, hs⟩ | ⟨p, -, -, hs⟩ | ⟨p, D, -, -, -, hs⟩ |
    ⟨p, D, -, hD, -, hs⟩
  · rw [hs]; exact TasksSim_refl _
  · rw [hs]; exact TasksSim_refl _
  · rw [hs]; exact TasksSim_refl _
  · rw [hs]; exact TasksSim_set _ p D _ hD

theorem foldl_TasksSim :
    ∀ (rs : List Task) (ss : SyncState), TasksSim ss.tasks (rs.foldl syncStep ss).tasks := by
  intro rs
  induction rs with
  | nil => intro ss; exact TasksSim_refl _
  | cons R rest ih =>
    intro ss
    rw [List.foldl_cons]
    exact TasksSim_trans (syncStep_TasksSim ss R) (ih _)

/-- A loop turn leaves a desired task as it is unless the remote task has its
key and its `Compare` rejects it. -/
theorem syncStep_keep_accepted (ss : SyncState) (R : Task) (p : Nat) (D : Task)
    (h : MapSound ss.tasks ss.taskMap) (hD : ss.tasks[p]? = some D)
    (hacc : R.comparisonID = D.comparisonID → D.Compare R = true) :
    (syncStep ss R).tasks[p]? = some D := by
  rcases syncStep_cases ss R with ⟨-, hs⟩ | ⟨q, -, -, hs⟩ | ⟨q, D', -, -, -, hs⟩ |
    ⟨q, D', hl, hD', hc, hs⟩
  · rw [hs]; exact hD
  · rw [hs]; exact hD
  · rw [hs]; exact hD
  · rw [hs]
    obtain ⟨t, ht, hk⟩ := h _ q hl
    by_cases hpq : q = p
    · subst hpq
      rw [hD] at ht hD'
      simp only [Option.some.injEq] at ht hD'
      subst ht hD'
      rw [hacc hk.symm] at hc
      simp at hc
    · simp only [List.getElem?_set, hpq, if_false]
      exact hD

theorem foldl_keep_accepted :
    ∀ (rs : List Task) (ss : SyncState) (p : Nat) (D : Task),
      MapSound ss.tasks ss.taskMap → ss.tasks[p]? = some D →
      (∀ R ∈ rs, R.comparisonID = D.comparisonID → D.Compare R = true) →
      (rs.foldl syncStep ss).tasks[p]? = some D := by
  intro rs
  induction rs with
  | nil => intro ss p D _ hD _; exact hD
  | cons R rest ih =>
    intro ss p D h hD hacc
    rw [List.foldl_cons]
    exact ih _ p D (MapSound_step ss R h)
      (syncStep_keep_accepted ss R p D h hD (hacc R (by simp)))
      (fun R' hR' => hacc R' (by simp [hR']))

theorem createAll_getElem {σ : Type} (s : Scheduler σ) (m : List (Str × Nat)) :
    ∀ (ts : List Task) (w : World σ) (p : Nat) (D : Task), ts[p]? = some D →
      (createAll s m w ts).2.1[p]? = some D ∨
        (createAll s m w ts).2.1[p]? = some (withDefaultVersion D) := by
  intro ts
  induction ts with
  | nil => intro w p D h; simp at h
  | cons t rest ih =>
    intro w p D h
    unfold createAll
    by_cases hn : (mapLookup m t.comparisonID).isNone = true
    · simp only [hn, if_true]
      cases p with
      | zero => left; simpa using h
      | succ q =>
        simp only [List.getElem?_cons_succ] at h ⊢
        exact ih w q D h
    · simp only [hn, Bool.false_eq_true, if_false]
      have hc1 := (Create_spec s w t).1
      rcases hc : s.Create w t with ⟨w1, t1, e1⟩
      rw [hc] at hc1
      simp only at hc1
      cases e1 with
      | some e =>
        simp only
        cases p with
        | zero =>
          right
          simp only [List.getElem?_cons_zero, Option.some.injEq] at h ⊢
          rw [hc1, h]
        | succ q =>
          left
          simpa using h
      | none =>
        simp only
        cases p with
        | zero =>
          right
          simp only [List.getElem?_cons_zero, Option.some.injEq] at h ⊢
          rw [hc1, h]
        | succ q =>
          simp only [List.getElem?_cons_succ] at h ⊢
          exact ih w1 q D h

set_option maxRecDepth 100000 in
/-- C27 (as stated, refuted). The remote queue is empty, so the desired task,
given with version 0, is not superseded by any remote task; `Sync` returns nil
and leaves the task with version 1, set by `Create`. -/
theorem C27_counterexample :
    (sampleScheduler.Sync sampleNet 2 { state := [], calls := [] }
        [{ sampleTask with Version := 0 }]).map
      (fun (r : SyncResult (List PbTask)) => (r.err, r.tasks.map (fun t => t.Version))) =
      some (none, [1]) ∧
    Iterator.drain sampleNet 2 (sampleScheduler.List []) = some ([], .Done) := by
  refine ⟨by decide, by decide⟩

/-- C27 (amended). In a `Sync` run whose listing ends within the fuel, the
desired tasks after the run are the desired tasks before it, position by
position, except possibly for `Version`. A desired task that is not
superseded (its `Compare` accepts every listed remote task of its key) is
the same after the run, `Version` included, unless its version was 0: then
it is the same or has version 1, set by `Create`. -/
theorem C27_Sync_mutates_versions_only {σ : Type} (net : NetHTTP) (s : Scheduler σ)
    (fuel : Nat) (w : World σ) (tasks rs : List Task) (e : Err)
    (hd : Iterator.drain net fuel (s.List w.state) = some (rs, e)) :
    ∃ r, s.Sync net fuel w tasks = some r ∧
      tasks.length = r.tasks.length ∧
      (∀ (p : Nat) (D : Task), tasks[p]? = some D →
        ∃ D', r.tasks[p]? = some D' ∧ D' = { D with Version := D'.Version }) ∧
      (∀ (p : Nat) (D : Task), tasks[p]? = some D →
        (∀ R ∈ rs, R.comparisonID = D.comparisonID → D.Compare R = true) →
        r.tasks[p]? = some D ∨
          (D.Version = 0 ∧ r.tasks[p]? = some { D with Version := 1 })) := by
  obtain ⟨r, hsync⟩ := Sync_returns_of_drain net s fuel w tasks rs e hd
  obtain ⟨rs', e', hdrain, ss, hss, hcases⟩ := Sync_unfold net s fuel w tasks r hsync
  rw [hd] at hdrain
  simp only [Option.some.injEq, Prod.mk.injEq] at hdrain
  obtain ⟨rfl, rfl⟩ := hdrain
  have hss' : ss = rs.foldl syncStep (initState tasks) := hss
  have hsim1 : TasksSim tasks ss.tasks := by
    rw [hss']; exact foldl_TasksSim rs (initState tasks)
  have hkeep : ∀ (p : Nat) (D : Task), tasks[p]? = some D →
      (∀ R ∈ rs, R.comparisonID = D.comparisonID → D.Compare R = true) →
      ss.tasks[p]? = some D := by
    intro p D hD hacc
    rw [hss']
    exact foldl_keep_accepted rs (initState tasks) p D (buildTaskMap_lookup_sound tasks) hD hacc
  have hwd : ∀ D : Task, withDefaultVersion D = D ∨
      (D.Version = 0 ∧ withDefaultVersion D = { D with Version := 1 }) := by
    intro D
    unfold withDefaultVersion
    by_cases h0 : D.Version = 0
    · right; simp [h0]
    · left; simp [h0]
  have hsimr : TasksSim tasks r.tasks ∧
      ∀ (p : Nat) (D : Task), ss.tasks[p]? = some D →
        r.tasks[p]? = some D ∨ r.tasks[p]? = some (withDefaultVersion D) := by
    rcases hcases with ⟨-, -, ht, -⟩ | ⟨-, -, -, ht, -⟩ | ⟨-, -, -, ht, -⟩
    · rw [ht]; exact ⟨hsim1, fun p D h => Or.inl h⟩
    · rw [ht]; exact ⟨hsim1, fun p D h => Or.inl h⟩
    · rw [ht]
      exact ⟨TasksSim_trans hsim1 (TasksLe_TasksSim (createAll_TasksLe s _ _ _)),
        fun p D h => createAll_getElem s _ _ _ p D h⟩
  refine ⟨r, hsync, hsimr.1.1, fun p D hD => ?_, fun p D hD hacc => ?_⟩
  · obtain ⟨D', hD', hsb⟩ := hsimr.1.2 p D hD
    exact ⟨D', hD', hsb⟩
  · rcases hsimr.2 p D (hkeep p D hD hacc) with h | h
    · exact Or.inl h
    · rcases hwd D with h1 | ⟨h0, h1⟩
      · rw [h1] at h; exact Or.inl h
      · rw [h1] at h; exact Or.inr ⟨h0, h⟩

set_option maxRecDepth 100000 in
theorem C27_Sync_mutates_versions_only_witness :
    ∃ r, sampleScheduler.Sync sampleNet 4
        { state := [sampleRemoteSameKey, sampleRemote2], calls := [] }
        [sampleTask, sampleRemoteTask2] = some r ∧
      r.tasks.map (fun t => t.Version) = [2, 1] ∧
      [sampleTask, sampleRemoteTask2].length = r.tasks.length ∧
      (∀ (p : Nat) (D : Task), [sampleTask, sampleRemoteTask2][p]? = some D →
        ∃ D', r.tasks[p]? = some D' ∧ D' = { D with Version := D'.Version }) ∧
      (∀ (p : Nat) (D : Task), [sampleTask, sampleRemoteTask2][p]? = some D →
        (∀ R ∈ [sampleRemoteSameKeyTask, sampleRemoteTask2],
          R.comparisonID = D.comparisonID → D.Compare R = true) →
        r.tasks[p]? = some D ∨
          (D.Version = 0 ∧ r.tasks[p]? = some { D with Version := 1 })) := by
  obtain ⟨r, hr, h⟩ := C27_Sync_mutates_versions_only sampleNet sampleScheduler 4
    { state := [sampleRemoteSameKey, sampleRemote2], calls := [] }
    [sampleTask, sampleRemoteTask2] [sampleRemoteSameKeyTask, sampleRemoteTask2] .Done
    (by decide)
  have h0 : (sampleScheduler.Sync sampleNet 4
      { state := [sampleRemoteSameKey, sampleRemote2], calls := [] }
      [sampleTask, sampleRemoteTask2]).map
      (fun (x : SyncResult (List PbTask)) => x.tasks.map (fun t => t.Version)) =
      some [2, 1] := by decide
  rw [hr] at h0
  exact ⟨r, hr, by simpa using h0, h⟩

theorem toDigitsCore_length_eq (b : Nat) (hb : 1 < b) :
    ∀ (f n : Nat) (ds : List Char), n < f →
      (Nat.toDigitsCore b f n ds).length = ds.length + (Nat.log b n + 1) := by
  intro f
  induction f with
  | zero => intro n ds h; omega
  | succ f ih =>
    intro n ds h
    simp only [Nat.toDigitsCore]
    split
    · rename_i h0
      have hn : n < b := by
        by_contra hge
        have : 1 ≤ n / b := Nat.div_pos (by omega) (by omega)
        omega
      rw [Nat.log_of_lt hn]
      simp
    · rename_i h0
      have hge : b ≤ n := by
        by_contra hlt
        exact h0 (Nat.div_eq_of_lt (by omega))
      have hlt : n / b < f := by
        have : n / b < n := Nat.div_lt_self (by omega) hb
        omega
      rw [ih (n / b) _ hlt, Nat.log_of_one_lt_of_le hb hge]
      simp
      omega

theorem toDigits_length_eq (b n : Nat) (hb : 1 < b) :
    (Nat.toDigits b n).length = Nat.log b n + 1 := by
  unfold Nat.toDigits
  rw [toDigitsCore_length_eq b hb _ _ [] (Nat.lt_succ_self n)]
  simp

theorem FormatInt_length (i : Int) (b : Nat) (hb : 1 < b) :
    (FormatInt i b).length = Nat.log b i.natAbs + 1 + (if i < 0 then 1 else 0) := by
  unfold FormatInt
  by_cases h : i < 0
  · simp [h, toDigits_length_eq b _ hb]
  · simp [h, toDigits_length_eq b _ hb]

/-- C28 (as stated, refuted). For the times (0 s, 0 ns) and (1 s, 2 ns) the
hexadecimal texts between '_' and 'v' are "0" and "3b9aca02": one character
and eight characters. -/
theorem C28_counterexample :
    sampleKeyT1.ScheduledAt = Time.Unix 0 0 ∧ sampleTask.ScheduledAt = Time.Unix 1 2 ∧
      sampleKeyT1.timestampField = "0".toList ∧
      sampleTask.timestampField = "3b9aca02".toList ∧
      sampleKeyT1.TaskID = "test_id_0v1".toList ∧
      sampleTask.TaskID = "test_i_v_3b9aca02v1".toList ∧
      sampleKeyT1.timestampField.length ≠ sampleTask.timestampField.length := by
  decide

/-- C28 (amended). The timestamp field of the identity is the hexadecimal text
of the `int64` nanosecond count without padding: `Nat.log 16 |n| + 1` digits
and a '-' for a negative count, hence between 1 and 17 characters. For any
two scheduled times whose nanosecond counts lie between 2^60 (14 July 2006)
and 2^63 (the end of the `int64` range) the field has the same length, 16. -/
theorem C28_timestamp_field_length :
    (∀ t : Task,
      t.comparisonID = t.Prefix ++ t.ID ++ "_".toList ++ t.timestampField ∧
      t.TaskID = t.Prefix ++ t.ID ++ "_".toList ++ t.timestampField ++ "v".toList ++
        Itoa t.Version) ∧
    (∀ t : Task, t.timestampField.length =
      Nat.log 16 t.ScheduledAt.UnixNano.natAbs + 1 +
        (if t.ScheduledAt.UnixNano < 0 then 1 else 0)) ∧
    (∀ t : Task, 1 ≤ t.timestampField.length ∧ t.timestampField.length ≤ 17) ∧
    (∀ t u : Task,
      2 ^ 60 ≤ t.ScheduledAt.sec * 10 ^ 9 + t.ScheduledAt.nsec →
      t.ScheduledAt.sec * 10 ^ 9 + t.ScheduledAt.nsec < 2 ^ 63 →
      2 ^ 60 ≤ u.ScheduledAt.sec * 10 ^ 9 + u.ScheduledAt.nsec →
      u.ScheduledAt.sec * 10 ^ 9 + u.ScheduledAt.nsec < 2 ^ 63 →
      t.timestampField.length = 16 ∧ t.timestampField.length = u.timestampField.length) := by
  have hlen : ∀ t : Task, t.timestampField.length =
      Nat.log 16 t.ScheduledAt.UnixNano.natAbs + 1 +
        (if t.ScheduledAt.UnixNano < 0 then 1 else 0) :=
    fun t => FormatInt_length _ 16 (by decide)
  have h16 : ∀ t : Task, 2 ^ 60 ≤ t.ScheduledAt.sec * 10 ^ 9 + t.ScheduledAt.nsec →
      t.ScheduledAt.sec * 10 ^ 9 + t.ScheduledAt.nsec < 2 ^ 63 →
      t.timestampField.length = 16 := by
    intro t hlo hhi
    have hw : t.ScheduledAt.UnixNano = t.ScheduledAt.sec * 10 ^ 9 + t.ScheduledAt.nsec :=
      wrapInt64_of_range _ (by linarith) hhi
    rw [hlen t, hw]
    have hnn : ¬ (t.ScheduledAt.sec * 10 ^ 9 + t.ScheduledAt.nsec < 0) := by linarith
    have h1 : (16 : Nat) ^ 15 ≤ (t.ScheduledAt.sec * 10 ^ 9 + t.ScheduledAt.nsec).natAbs := by
      norm_num at hlo ⊢
      omega
    have h2 : (t.ScheduledAt.sec * 10 ^ 9 + t.ScheduledAt.nsec).natAbs < (16 : Nat) ^ (15 + 1) := by
      norm_num at hhi hlo ⊢
      omega
    rw [Nat.log_eq_of_pow_le_of_lt_pow h1 h2, if_neg hnn]
  refine ⟨fun t => ⟨rfl, rfl⟩, hlen, fun t => ?_, fun t u a b c d => ⟨h16 t a b, ?_⟩⟩
  · rw [hlen t]
    obtain ⟨hlo, hhi⟩ := wrapInt64_range (t.ScheduledAt.sec * 10 ^ 9 + t.ScheduledAt.nsec)
    have hw : t.ScheduledAt.UnixNano =
        wrapInt64 (t.ScheduledAt.sec * 10 ^ 9 + t.ScheduledAt.nsec) := rfl
    rw [← hw] at hlo hhi
    refine ⟨by omega, ?_⟩
    by_cases hneg : t.ScheduledAt.UnixNano < 0
    · have hb : t.ScheduledAt.UnixNano.natAbs < 16 ^ 16 := by
        norm_num at hlo ⊢
        omega
      have hne : t.ScheduledAt.UnixNano.natAbs ≠ 0 := by omega
      have := Nat.log_lt_of_lt_pow hne hb
      simp only [hneg, if_true]
      omega
    · simp only [hneg, if_false]
      by_cases hz : t.ScheduledAt.UnixNano.natAbs = 0
      · rw [hz]; simp
      · have hb : t.ScheduledAt.UnixNano.natAbs < 16 ^ 16 := by
          norm_num at hhi ⊢
          omega
        have := Nat.log_lt_of_lt_pow hz hb
        omega
  · rw [h16 t a b, h16 u c d]

theorem C28_timestamp_field_length_witness :
    (2 : Int) ^ 60 ≤ 1700000000 * 10 ^ 9 + 0 ∧
      (Task.timestampField { sampleTask with ScheduledAt := Time.Unix 1700000000 0 }).length =
        16 :=
  ⟨by decide,
    (C28_timestamp_field_length.2.2.2
      { sampleTask with ScheduledAt := Time.Unix 1700000000 0 }
      { sampleTask with ScheduledAt := Time.Unix 1700000000 0 }
      (by decide) (by decide) (by decide) (by decide)).1⟩

/-- C29. For every task whose body can be read (or is absent), `TaskToPbTask`
succeeds and leaves the task as it was: the body is a fresh reader over the
bytes `io.ReadAll` returned, not the exhausted stream the read left behind,
so a second `TaskToPbTask` returns the same wire task, with the same bytes
as body. -/
theorem C29_TaskToPbTask_replayable (t : Task)
    (hb : ∀ e, t.Request.Body ≠ some (.failing e)) :
    ∃ pb, (TaskToPbTask t).2 = .ok pb ∧
      (TaskToPbTask (TaskToPbTask t).1).2 = .ok pb ∧
      (TaskToPbTask t).1 = t ∧
      (∀ body, t.Request.Body = some body →
        ∃ data, body.ReadAll.1 = .ok data ∧
          (TaskToPbTask t).1.Request.Body = some (.reader data) ∧
          (∃ r, pb.MessageType = some (.HttpRequest r) ∧ r.Body = some data) ∧
          (data ≠ [] → (TaskToPbTask t).1.Request.Body ≠ some body.ReadAll.2)) ∧
      (t.Request.Body = none →
        (TaskToPbTask t).1.Request.Body = none ∧
          ∃ r, pb.MessageType = some (.HttpRequest r) ∧ r.Body = none) := by
  obtain ⟨pb, hpb⟩ := TaskToPbTask_readable t hb
  have hfst := TaskToPbTask_fst t
  refine ⟨pb, hpb, by rw [hfst]; exact hpb, hfst, ?_, ?_⟩
  · intro body hbody
    rw [hfst]
    rcases body with data | e
    · refine ⟨data, rfl, hbody, ?_, ?_⟩
      · unfold TaskToPbTask at hpb
        simp only [hbody, Except.ok.injEq] at hpb
        exact ⟨_, by rw [← hpb], rfl⟩
      · intro hne
        rw [hbody]
        simp only [Body.ReadAll, ne_eq, Option.some.injEq, Body.reader.injEq]
        exact hne
    · exact absurd hbody (hb e)
  · intro hnone
    rw [hfst]
    refine ⟨hnone, ?_⟩
    unfold TaskToPbTask at hpb
    simp only [hnone, Except.ok.injEq] at hpb
    exact ⟨_, by rw [← hpb], rfl⟩

set_option maxRecDepth 100000 in
theorem C29_TaskToPbTask_replayable_witness :
    ∃ pb, (TaskToPbTask sampleTaskBody).2 = .ok pb ∧
      (TaskToPbTask (TaskToPbTask sampleTaskBody).1).2 = .ok pb ∧
      (TaskToPbTask sampleTaskBody).1.Request.Body = some (.reader [1, 2, 3]) := by
  obtain ⟨pb, h1, h2, h3, -⟩ :=
    C29_TaskToPbTask_replayable sampleTaskBody (fun e h => by cases h)
  exact ⟨pb, h1, h2, by rw [h3]; rfl⟩

/-- The listing loop of `Sync` when `D` is the only desired task of its key,
`R` the only listed task of that key, `D.Compare(R)` fails and `D` has the
greater version: the name of `R` is collected for deletion, the key stays in
the map and `D` stays as it is. -/
theorem superseded_fold (tasks rs : List Task) (D R : Task)
    (hD : tasks.filter (fun t => decide (t.comparisonID = R.comparisonID)) = [D])
    (hR : rs.filter (fun t => decide (t.comparisonID = R.comparisonID)) = [R])
    (hcmp : D.Compare R = false) (hver : R.Version < D.Version) :
    ∃ p, mapLookup (rs.foldl syncStep (initState tasks)).taskMap R.comparisonID = some p ∧
      (rs.foldl syncStep (initState tasks)).tasks[p]? = some D ∧
      R.TaskName ∈ (rs.foldl syncStep (initState tasks)).deleteNames := by
  have hDmem' : D ∈ tasks.filter (fun t => decide (t.comparisonID = R.comparisonID)) := by
    rw [hD]; simp
  have hDmem : D ∈ tasks := (List.mem_filter.1 hDmem').1
  have hkey : D.comparisonID = R.comparisonID := by
    simpa using (List.mem_filter.1 hDmem').2
  have hDuniq : ∀ D' ∈ tasks, D'.comparisonID = R.comparisonID → D' = D := by
    intro D' hD' hk
    have : D' ∈ tasks.filter (fun t => decide (t.comparisonID = R.comparisonID)) :=
      List.mem_filter.2 ⟨hD', by simpa using hk⟩
    rw [hD] at this
    simpa using this
  obtain ⟨a, b, hab, ha, hb⟩ := filter_eq_singleton_split _ rs R hR
  have ha' : ∀ t ∈ a, t.comparisonID ≠ R.comparisonID := fun t ht => by
    simpa using ha t ht
  have hb' : ∀ t ∈ b, t.comparisonID ≠ R.comparisonID := fun t ht => by
    simpa using hb t ht
  have hsome := buildTaskMap_isSome tasks D hDmem
  obtain ⟨p, hp⟩ := Option.isSome_iff_exists.1 hsome
  obtain ⟨D', hD', hk'⟩ := buildTaskMap_lookup_sound tasks _ p hp
  have hDD : D' = D := hDuniq D' (List.getElem?_mem hD') (hk'.trans hkey)
  subst hDD
  rw [hkey] at hp
  obtain ⟨hs1, hl1, ht1⟩ := foldl_other_keys R.comparisonID a (initState tasks) ha'
    (buildTaskMap_lookup_sound tasks)
  have hl1' : mapLookup (a.foldl syncStep (initState tasks)).taskMap R.comparisonID = some p :=
    hl1.trans hp
  have ht1' := ht1 p D' hD' hkey
  have hnle : ¬ D'.Version ≤ R.Version := by omega
  have hstep : syncStep (a.foldl syncStep (initState tasks)) R =
      { a.foldl syncStep (initState tasks) with
        deleteNames := (a.foldl syncStep (initState tasks)).deleteNames ++ [R.TaskName] } := by
    rcases syncStep_cases (a.foldl syncStep (initState tasks)) R with ⟨h0, -⟩ | ⟨q, hq, hn, -⟩ |
      ⟨q, E, hq, hE, hc, -⟩ | ⟨q, E, hq, hE, -, hs⟩
    · rw [hl1'] at h0; simp at h0
    · rw [hl1'] at hq
      simp only [Option.some.injEq] at hq
      subst hq
      rw [ht1'] at hn; simp at hn
    · rw [hl1'] at hq
      simp only [Option.some.injEq] at hq
      subst hq
      rw [ht1'] at hE
      simp only [Option.some.injEq] at hE
      subst hE
      rw [hcmp] at hc; simp at hc
    · rw [hl1'] at hq
      simp only [Option.some.injEq] at hq
      subst hq
      rw [ht1'] at hE
      simp only [Option.some.injEq] at hE
      subst hE
      rw [hs]
      simp only [hnle, if_false]
      have hset : (a.foldl syncStep (initState tasks)).tasks.set p D' =
          (a.foldl syncStep (initState tasks)).tasks := by
        apply List.ext_getElem?
        intro i
        by_cases hi : p = i
        · subst hi
          rw [ht1']
          have hlt : p < (a.foldl syncStep (initState tasks)).tasks.length :=
            (List.getElem?_eq_some.1 ht1').1
          simp [List.getElem?_set, hlt]
        · simp [List.getElem?_set, hi]
      have hDeta : ({ D' with Version := D'.Version } : Task) = D' := rfl
      rw [hDeta, hset]
  have hs2 := MapSound_step _ R hs1
  obtain ⟨-, hl3, ht3⟩ := foldl_other_keys R.comparisonID b
    (syncStep (a.foldl syncStep (initState tasks)) R) hb' hs2
  have hfold : rs.foldl syncStep (initState tasks) =
      b.foldl syncStep (syncStep (a.foldl syncStep (initState tasks)) R) := by
    rw [hab, List.foldl_append, List.foldl_cons]
  rw [hfold]
  refine ⟨p, ?_, ?_, ?_⟩
  · rw [hl3, hstep]; exact hl1'
  · have : (syncStep (a.foldl syncStep (initState tasks)) R).tasks[p]? = some D' := by
      rw [hstep]; exact ht1'
    exact ht3 p D' this hkey
  · have hmono : ∀ (l : List Task) (ss : SyncState) (n : Str), n ∈ ss.deleteNames →
        n ∈ (l.foldl syncStep ss).deleteNames := by
      intro l
      induction l with
      | nil => intro ss n h; exact h
      | cons x rest ih =>
        intro ss n h
        rw [List.foldl_cons]
        apply ih
        rcases syncStep_deleteNames ss x with h' | h'
        · rw [h']; exact h
        · rw [h']; exact List.mem_append_left _ h
    apply hmono
    rw [hstep]
    simp

set_option maxRecDepth 100000 in
/-- C30 (as stated, refuted in its `Sync` part). A desired task equal to the
remote one but for a greater version is rejected by `Compare` in each run
below, and yet: given with version 0 against a remote task of version -1 it
is created with version 1; with a second desired task of the same key that
matches the remote task, nothing is deleted or created; with an earlier
listed entry of the key at version 5 it is created with version 6; and when
the delete call fails nothing is created. -/
theorem C30_counterexample :
    (PbTaskToTask sampleNet sampleScheduler.queuePath sampleScheduler.taskPrefix
        sampleRemoteNeg = .ok { sampleTask with Version := -1 } ∧
      Task.Compare { sampleTask with Version := 0 } { sampleTask with Version := -1 } = false ∧
      (sampleScheduler.Sync sampleNet 3 { state := [sampleRemoteNeg], calls := [] }
          [{ sampleTask with Version := 0 }]).map
        (fun (r : SyncResult (List PbTask)) =>
          (r.err, r.world.calls.map Call.summary, r.tasks.map (fun t => t.Version))) =
        some (none,
          [(false, "projects/p/locations/l/queues/q/tasks/test_i_v_3b9aca02v-1".toList),
           (true, "projects/p/locations/l/queues/q/tasks/test_i_v_3b9aca02v1".toList)],
          [1])) ∧
    (PbTaskToTask sampleNet sampleScheduler.queuePath sampleScheduler.taskPrefix
        sampleRemoteSame = .ok sampleTask ∧
      Task.Compare { sampleTask with Version := 2 } sampleTask = false ∧
      (sampleScheduler.Sync sampleNet 3 { state := [sampleRemoteSame], calls := [] }
          [{ sampleTask with Version := 2 }, sampleTask]).map
        (fun (r : SyncResult (List PbTask)) =>
          (r.err, r.world.calls.map Call.summary, r.tasks.map (fun t => t.Version))) =
        some (none, [], [2, 1])) ∧
    ((sampleScheduler.Sync sampleNet 4
          { state := [sampleRemoteOldV5, sampleRemoteSame], calls := [] }
          [{ sampleTask with Version := 2 }]).map
        (fun (r : SyncResult (List PbTask)) =>
          (r.err, r.world.calls.map Call.summary, r.tasks.map (fun t => t.Version))) =
        some (none,
          [(false, "projects/p/locations/l/queues/q/tasks/test_i_v_3b9aca02v5".toList),
           (false, "projects/p/locations/l/queues/q/tasks/test_i_v_3b9aca02v1".toList),
           (true, "projects/p/locations/l/queues/q/tasks/test_i_v_3b9aca02v6".toList)],
          [6])) ∧
    ((New unavailableClient "p".toList "l".toList "q".toList "test_".toList).Sync sampleNet 3
          { state := [sampleRemoteSame], calls := [] } [{ sampleTask with Version := 2 }]).map
        (fun (r : SyncResult (List PbTask)) =>
          (r.err.isSome, r.world.calls.map Call.summary, r.tasks.map (fun t => t.Version))) =
        some (true,
          [(false, "projects/p/locations/l/queues/q/tasks/test_i_v_3b9aca02v1".toList)],
          [2]) := by
  refine ⟨⟨by decide, by decide, by decide⟩, ⟨by decide, by decide, by decide⟩, by decide,
    by decide⟩

/-- A `Sync` run in which `D` is the only desired task of its key, `R` the
only listed remote task of that key, and `D` has the greater version, not 0:
the run returns, `D` stays as it is, and when the run returns nil it has
made the delete call for `R` and the create call for `D` at its version. -/
theorem superseded_pair_core {σ : Type} (net : NetHTTP) (s : Scheduler σ) (fuel : Nat)
    (w : World σ) (tasks rs : List Task) (e : Err) (D R : Task)
    (hd : Iterator.drain net fuel (s.List w.state) = some (rs, e))
    (hD : tasks.filter (fun t => decide (t.comparisonID = R.comparisonID)) = [D])
    (hR : rs.filter (fun t => decide (t.comparisonID = R.comparisonID)) = [R])
    (hver : R.Version < D.Version) (h0 : D.Version ≠ 0) :
    ∃ r, s.Sync net fuel w tasks = some r ∧ D ∈ r.tasks ∧
      (r.err = none →
        ∃ new, r.world.calls = w.calls ++ new ∧
          Call.delete { Name := R.TaskName } ∈ new ∧
          ∃ req, Call.create req ∈ new ∧ (TaskToPbTask D).2 = .ok req.Task ∧
            req.Task.Name = D.TaskName ∧ req.Parent = D.QueuePath) := by
  obtain ⟨r, hsync⟩ := Sync_returns_of_drain net s fuel w tasks rs e hd
  obtain ⟨rs', e', hdrain, ss, hss, hcases⟩ := Sync_unfold net s fuel w tasks r hsync
  rw [hd] at hdrain
  simp only [Option.some.injEq, Prod.mk.injEq] at hdrain
  obtain ⟨rfl, rfl⟩ := hdrain
  have hss' : ss = rs.foldl syncStep (initState tasks) := hss
  have hcmp : D.Compare R = false := by
    cases hc : D.Compare R with
    | false => rfl
    | true =>
      have := ((Compare_iff D R).1 hc).2.1
      omega
  obtain ⟨p, hlook, htp, hname⟩ := superseded_fold tasks rs D R hD hR hcmp hver
  rw [← hss'] at hlook htp hname
  have hkey : D.comparisonID = R.comparisonID := by
    have : D ∈ tasks.filter (fun t => decide (t.comparisonID = R.comparisonID)) := by
      rw [hD]; simp
    simpa using (List.mem_filter.1 this).2
  have hwdv := withDefaultVersion_of_ne_zero D h0
  refine ⟨r, hsync, ?_, ?_⟩
  · rcases hcases with ⟨-, -, ht, -⟩ | ⟨-, -, -, ht, -⟩ | ⟨-, -, -, ht, -⟩
    · rw [ht]; exact List.getElem?_mem htp
    · rw [ht]; exact List.getElem?_mem htp
    · rw [ht]
      rcases createAll_getElem s ss.taskMap ss.tasks (deleteAll s w ss.deleteNames).1 p D htp
        with h | h
      · exact List.getElem?_mem h
      · rw [hwdv] at h; exact List.getElem?_mem h
  · intro herr
    rcases hcases with ⟨-, -, -, he⟩ | ⟨-, hne, -, -, he⟩ | ⟨-, hdn, hw, -, he⟩
    · rw [he] at herr; simp at herr
    · rw [he] at herr; exact absurd herr hne
    · obtain ⟨k, -, hdel, hk⟩ := deleteAll_calls s ss.deleteNames w
      have hk' := hk hdn
      subst hk'
      rw [List.take_length] at hdel
      obtain ⟨cs, hc, hall⟩ :=
        createAll_spec s ss.taskMap ss.tasks (deleteAll s w ss.deleteNames).1
      rw [he] at herr
      obtain ⟨hf, -⟩ := hall herr
      have hDf : D ∈ ss.tasks.filter (fun t => (mapLookup ss.taskMap t.comparisonID).isSome) :=
        List.mem_filter.2 ⟨List.getElem?_mem htp, by rw [hkey, hlook]; rfl⟩
      obtain ⟨req, hreq, -, hpb, hparent, -⟩ := Forall₂_mem_left hf D hDf
      rw [hwdv] at hpb
      refine ⟨ss.deleteNames.map (fun n => Call.delete { Name := n }) ++ cs.map Call.create,
        by rw [hw, hc, hdel, List.append_assoc], ?_, req, ?_, hpb,
        TaskToPbTask_name D req.Task hpb, hparent⟩
      · exact List.mem_append_left _ (List.mem_map.2 ⟨R.TaskName, hname, rfl⟩)
      · exact List.mem_append_right _ (List.mem_map.2 ⟨req, hreq, rfl⟩)

/-- C30 (amended). `t.Compare(target)` is true if and only if the two
comparison keys are equal, `t.Version <= target.Version`, the two
authorizations are equal as values, the request methods are equal, and the
two URL strings are equal after removing one trailing "/" from each; so a
task with a greater version is never a match. In a `Sync` run whose listing
ends within the fuel, a desired task `D` with a greater version than the
listed remote task `R` of its key, where `D` is the only desired task of the
key, `R` the only listed task of the key and the version of `D` is not 0,
keeps its version, and when the run returns nil it has deleted `R` and
created `D` under its own name, at its own version. -/
theorem C30_Compare_iff_and_replace :
    (∀ t target : Task, t.Compare target = true ↔
      t.comparisonID = target.comparisonID ∧ t.Version ≤ target.Version ∧
        t.Authorization = target.Authorization ∧
        t.Request.Method = target.Request.Method ∧
        removeTrailingSlash t.Request.URL = removeTrailingSlash target.Request.URL) ∧
    (∀ t target : Task, target.Version < t.Version → t.Compare target = false) ∧
    (∀ (σ : Type) (net : NetHTTP) (s : Scheduler σ) (fuel : Nat) (w : World σ)
        (tasks rs : List Task) (e : Err) (D R : Task),
      Iterator.drain net fuel (s.List w.state) = some (rs, e) →
      tasks.filter (fun t => decide (t.comparisonID = R.comparisonID)) = [D] →
      rs.filter (fun t => decide (t.comparisonID = R.comparisonID)) = [R] →
      R.Version < D.Version → D.Version ≠ 0 →
      ∃ r, s.Sync net fuel w tasks = some r ∧ D ∈ r.tasks ∧
        (r.err = none →
          ∃ new, r.world.calls = w.calls ++ new ∧
            Call.delete { Name := R.TaskName } ∈ new ∧
            ∃ req, Call.create req ∈ new ∧ (TaskToPbTask D).2 = .ok req.Task ∧
              req.Task.Name = D.TaskName ∧ req.Parent = D.QueuePath)) := by
  refine ⟨Compare_iff, fun t target hv => ?_, fun σ net s fuel w tasks rs e D R hd hD hR hver h0 =>
    superseded_pair_core net s fuel w tasks rs e D R hd hD hR hver h0⟩
  cases hc : t.Compare target with
  | false => rfl
  | true =>
    have := ((Compare_iff t target).1 hc).2.1
    omega

set_option maxRecDepth 100000 in
/-- C30 at a concrete run: the remote queue holds `sampleTask` at version 1
and the desired task is `sampleTask` at version 2; `Sync` returns nil, has
deleted the remote task and created the desired one at version 2. -/
theorem C30_Compare_iff_and_replace_witness :
    ∃ r, sampleScheduler.Sync sampleNet 3 { state := [sampleRemoteSame], calls := [] }
        [{ sampleTask with Version := 2 }] = some r ∧
      r.err = none ∧ { sampleTask with Version := 2 } ∈ r.tasks ∧
      ∃ new, r.world.calls = [] ++ new ∧
        Call.delete { Name := sampleTask.TaskName } ∈ new ∧
        ∃ req, Call.create req ∈ new ∧
          req.Task.Name = Task.TaskName { sampleTask with Version := 2 } := by
  obtain ⟨r, hr, hm, h⟩ := C30_Compare_iff_and_replace.2.2 (List PbTask) sampleNet
    sampleScheduler 3 { state := [sampleRemoteSame], calls := [] }
    [{ sampleTask with Version := 2 }] [sampleTask] .Done { sampleTask with Version := 2 }
    sampleTask (by decide) (by decide) (by decide) (by decide) (by decide)
  have h0 : (sampleScheduler.Sync sampleNet 3 { state := [sampleRemoteSame], calls := [] }
      [{ sampleTask with Version := 2 }]).map (fun (x : SyncResult (List PbTask)) => x.err) =
      some none := by decide
  rw [hr] at h0
  have herr : r.err = none := by simpa using h0
  obtain ⟨new, hc, hdel, req, hreq, -, hn, -⟩ := h herr
  exact ⟨r, hr, herr, hm, new, hc, hdel, req, hreq, hn⟩

theorem removeTrailingSlash_append (u : Str) : removeTrailingSlash (u ++ ['/']) = u := by
  unfold removeTrailingSlash TrimSuffix
  have h : (['/'] : Str).isSuffixOf (u ++ ['/']) = true :=
    List.isSuffixOf_iff_suffix.2 (List.suffix_append u ['/'])
  simp [h]

theorem removeTrailingSlash_of_not_suffix (u : Str) (h : ¬ ['/'] <:+ u) :
    removeTrailingSlash u = u := by
  unfold removeTrailingSlash TrimSuffix
  have h' : ¬ (['/'] : Str).isSuffixOf u = true := fun hs => h (List.isSuffixOf_iff_suffix.1 hs)
  simp [h']

theorem removeTrailingSlash_of_suffix (u : Str) (h : ['/'] <:+ u) :
    removeTrailingSlash u ≠ u := by
  unfold removeTrailingSlash TrimSuffix
  have h' : (['/'] : Str).isSuffixOf u = true := List.isSuffixOf_iff_suffix.2 h
  simp only [h', if_true]
  obtain ⟨v, rfl⟩ := h
  intro hc
  have := congrArg List.length hc
  simp at this

/-- C32 (as stated, refuted). The URL `u` is `https://example.com/`, the URL of
the tests, and the other task has `u + "/"`; the two tasks agree in key,
version, authorization and method, one trailing '/' is removed from each URL,
and `Compare` is false in both directions. -/
theorem C32_counterexample :
    sampleTaskSlash.Request.URL = sampleTask.Request.URL ++ "/".toList ∧
      sampleTask.Request.URL = "https://example.com/".toList ∧
      sampleTask.comparisonID = sampleTaskSlash.comparisonID ∧
      sampleTask.Version = sampleTaskSlash.Version ∧
      sampleTask.Authorization = sampleTaskSlash.Authorization ∧
      sampleTask.Request.Method = sampleTaskSlash.Request.Method ∧
      removeTrailingSlash sampleTask.Request.URL = "https://example.com".toList ∧
      removeTrailingSlash sampleTaskSlash.Request.URL = "https://example.com/".toList ∧
      sampleTask.Compare sampleTaskSlash = false ∧
      sampleTaskSlash.Compare sampleTask = false := by
  decide

/-- C32 (amended). `removeTrailingSlash` removes one trailing '/'. Two tasks
that are equal in comparison key, version, authorization and method and whose
URLs are `u` and `u + "/"` satisfy `Compare` in both directions if and only
if `u` does not itself end in '/'; in particular they do for every `u` that
does not end in '/'. -/
theorem C32_trailing_slash (t target : Task) (u : Str)
    (hkey : t.comparisonID = target.comparisonID) (hver : t.Version = target.Version)
    (hauth : t.Authorization = target.Authorization)
    (hmeth : t.Request.Method = target.Request.Method)
    (hu : t.Request.URL = u) (hus : target.Request.URL = u ++ "/".toList) :
    removeTrailingSlash (u ++ "/".toList) = u ∧
      (t.Compare target = true ↔ ¬ "/".toList <:+ u) ∧
      (target.Compare t = true ↔ ¬ "/".toList <:+ u) ∧
      (¬ "/".toList <:+ u → t.Compare target = true ∧ target.Compare t = true) := by
  have hs : ("/".toList : Str) = ['/'] := rfl
  rw [hs] at hus ⊢
  have h1 : t.Compare target = true ↔ ¬ ['/'] <:+ u := by
    rw [Compare_iff, hu, hus, removeTrailingSlash_append]
    constructor
    · rintro ⟨-, -, -, -, h⟩ hsuf
      exact removeTrailingSlash_of_suffix u hsuf h
    · intro h
      exact ⟨hkey, le_of_eq hver, hauth, hmeth, removeTrailingSlash_of_not_suffix u h⟩
  have h2 : target.Compare t = true ↔ ¬ ['/'] <:+ u := by
    rw [Compare_iff, hu, hus, removeTrailingSlash_append]
    constructor
    · rintro ⟨-, -, -, -, h⟩ hsuf
      exact removeTrailingSlash_of_suffix u hsuf h.symm
    · intro h
      exact ⟨hkey.symm, le_of_eq hver.symm, hauth.symm, hmeth.symm,
        (removeTrailingSlash_of_not_suffix u h).symm⟩
  exact ⟨removeTrailingSlash_append u, h1, h2, fun h => ⟨h1.2 h, h2.2 h⟩⟩

theorem C32_trailing_slash_witness :
    sampleTaskPath.Compare sampleTaskPathSlash = true ∧
      sampleTaskPathSlash.Compare sampleTaskPath = true :=
  (C32_trailing_slash sampleTaskPath sampleTaskPathSlash "https://example.com/path".toList
    (by decide) (by decide) (by decide) (by decide) (by decide) (by decide)).2.2.2
    (by
      intro h
      have := List.isSuffixOf_iff_suffix.2 h
      revert this
      decide)

/-- C33. For a fixed prefix `comparisonID()` is injective in the pair (id,
nanosecond timestamp `ScheduledAt.UnixNano()`), whatever characters the ids
contain: two tasks with the same prefix and equal comparison keys have equal
ids and equal nanosecond timestamps; when both times lie in the `int64`
nanosecond range the timestamps are the counts `sec * 10^9 + nsec`
themselves. -/
theorem C33_comparisonID_injective (a b : Task) (hp : a.Prefix = b.Prefix)
    (h : a.comparisonID = b.comparisonID) :
    a.ID = b.ID ∧ a.ScheduledAt.UnixNano = b.ScheduledAt.UnixNano ∧
      (-2 ^ 63 ≤ a.ScheduledAt.sec * 10 ^ 9 + a.ScheduledAt.nsec →
        a.ScheduledAt.sec * 10 ^ 9 + a.ScheduledAt.nsec < 2 ^ 63 →
        -2 ^ 63 ≤ b.ScheduledAt.sec * 10 ^ 9 + b.ScheduledAt.nsec →
        b.ScheduledAt.sec * 10 ^ 9 + b.ScheduledAt.nsec < 2 ^ 63 →
        a.ScheduledAt.sec * 10 ^ 9 + a.ScheduledAt.nsec =
          b.ScheduledAt.sec * 10 ^ 9 + b.ScheduledAt.nsec) := by
  obtain ⟨-, hid, hn⟩ := comparisonID_inj a b (by rw [hp]) h
  refine ⟨hid, hn, fun h1 h2 h3 h4 => ?_⟩
  unfold Time.UnixNano at hn
  rw [wrapInt64_of_range _ h1 h2, wrapInt64_of_range _ h3 h4] at hn
  exact hn

theorem C33_comparisonID_injective_witness :
    ('_' ∈ sampleTask.ID ∧ 'v' ∈ sampleTask.ID) ∧
      sampleTask.ID = Task.ID { sampleTask with ScheduledAt := ⟨0, 1000000002⟩, Version := 3 } ∧
      sampleTask.ScheduledAt.UnixNano = Time.UnixNano ⟨0, 1000000002⟩ :=
  ⟨by decide,
    (C33_comparisonID_injective sampleTask
      { sampleTask with ScheduledAt := ⟨0, 1000000002⟩, Version := 3 }
      (by decide) (by decide)).1,
    (C33_comparisonID_injective sampleTask
      { sampleTask with ScheduledAt := ⟨0, 1000000002⟩, Version := 3 }
      (by decide) (by decide)).2.1⟩

theorem Next_of_some (net : NetHTTP) (fuel : Nat) (i : Iterator) (cur : TaskIterator)
    (h : i.iter = some cur) : i.Next net fuel = Iterator.nextLoop net fuel i := by
  unfold Iterator.Next
  simp [h]

theorem Next_of_none (net : NetHTTP) (fuel : Nat) (i : Iterator) (h : i.iter = none) :
    i.Next net fuel = i.listTasks.Next net fuel := by
  unfold Iterator.Next
  simp [h, Iterator.listTasks]

theorem Next_mono_le (net : NetHTTP) (f g : Nat) (hfg : f ≤ g) (i : Iterator)
    (x : Except Err Task × Iterator) (h : i.Next net f = some x) : i.Next net g = some x := by
  unfold Iterator.Next at h ⊢
  exact nextLoop_mono_le net f g hfg _ x h

theorem nextLoop_nil_done (net : NetHTTP) (f : Nat) (i : Iterator) (cur : TaskIterator)
    (h : i.iter = some cur) (hi : cur.items = []) (hs : cur.stop.Is .Done = true)
    (ht : i.pageToken = []) :
    Iterator.nextLoop net (f + 1) i = some (.error .Done, i) := by
  rw [Iterator.nextLoop]
  simp [h, hi, hs, ht]

theorem nextLoop_nil_more (net : NetHTTP) (f : Nat) (i : Iterator) (cur : TaskIterator)
    (h : i.iter = some cur) (hi : cur.items = []) (hs : cur.stop.Is .Done = true)
    (ht : i.pageToken ≠ []) :
    Iterator.nextLoop net (f + 1) i = Iterator.nextLoop net f i.listTasks := by
  rw [Iterator.nextLoop]
  simp [h, hi, hs, ht]

theorem nextLoop_cons_skip (net : NetHTTP) (f : Nat) (i : Iterator) (cur : TaskIterator)
    (e : PbTask) (rem : List PbTask)
    (h : i.iter = some cur) (hi : cur.items = e :: rem)
    (ho : owned i.queuePath i.taskIDPrefix e = false) :
    Iterator.nextLoop net (f + 1) i =
      Iterator.nextLoop net f { i with iter := some { cur with items := rem } } := by
  rw [Iterator.nextLoop]
  unfold owned at ho
  simp [h, hi, ho]

theorem nextLoop_cons_owned (net : NetHTTP) (f : Nat) (i : Iterator) (cur : TaskIterator)
    (e : PbTask) (rem : List PbTask)
    (h : i.iter = some cur) (hi : cur.items = e :: rem)
    (ho : owned i.queuePath i.taskIDPrefix e = true) :
    Iterator.nextLoop net (f + 1) i =
      some (convResult net i.queuePath i.taskIDPrefix e,
        { i with iter := some { cur with items := rem } }) := by
  rw [Iterator.nextLoop]
  unfold owned at ho
  unfold convResult
  simp only [h, hi, ho, Bool.not_true, Bool.false_eq_true, if_false]
  cases PbTaskToTask net i.queuePath i.taskIDPrefix e <;> rfl

theorem nexts_succ_some (net : NetHTTP) (f n : Nat) (i i1 i2 : Iterator)
    (r : Except Err Task) (l : List (Except Err Task × List ListTasksRequest))
    (h1 : i.Next net f = some (r, i1)) (h2 : Iterator.nexts net f n i1 = some (l, i2)) :
    Iterator.nexts net f (n + 1) i = some ((r, i1.requests) :: l, i2) := by
  rw [Iterator.nexts]
  simp only [h1, h2]

theorem nexts_succ_inv (net : NetHTTP) (f n : Nat) (i i2 : Iterator)
    (x : List (Except Err Task × List ListTasksRequest))
    (h : Iterator.nexts net f (n + 1) i = some (x, i2)) :
    ∃ r i1 l, i.Next net f = some (r, i1) ∧ Iterator.nexts net f n i1 = some (l, i2) ∧
      x = (r, i1.requests) :: l := by
  rw [Iterator.nexts] at h
  rcases h1 : i.Next net f with _ | ⟨r, i1⟩
  · simp [h1] at h
  · simp only [h1] at h
    rcases h2 : Iterator.nexts net f n i1 with _ | ⟨l, i3⟩
    · simp [h2] at h
    · simp only [h2, Option.some.injEq, Prod.mk.injEq] at h
      obtain ⟨hx, hi⟩ := h
      subst hi
      exact ⟨r, i1, l, rfl, h2, hx.symm⟩

theorem nexts_mono (net : NetHTTP) (f g : Nat) (hfg : f ≤ g) :
    ∀ (n : Nat) (i : Iterator) (x : List (Except Err Task × List ListTasksRequest) × Iterator),
      Iterator.nexts net f n i = some x → Iterator.nexts net g n i = some x := by
  intro n
  induction n with
  | zero => intro i x h; simpa [Iterator.nexts] using h
  | succ n ih =>
    intro i x h
    obtain ⟨l, i2⟩ := x
    obtain ⟨r, i1, l', h1, h2, rfl⟩ := nexts_succ_inv net f n i i2 l h
    exact nexts_succ_some net g n i i1 i2 r l' (Next_mono_le net f g hfg i _ h1) (ih i1 _ h2)

/-- A call that continues as a call on `j` with the fuel `f'` has the results
of `j` from there on. -/
theorem nexts_redirect (net : NetHTTP) (f' f : Nat) (hle : f' ≤ f) (i j i' : Iterator)
    (L : List (Except Err Task × List ListTasksRequest)) (hL : L ≠ [])
    (hstep : ∀ x, j.Next net f' = some x → i.Next net f = some x)
    (h : Iterator.nexts net f' L.length j = some (L, i')) :
    Iterator.nexts net f L.length i = some (L, i') := by
  cases L with
  | nil => exact absurd rfl hL
  | cons a L' =>
    simp only [List.length_cons] at h ⊢
    obtain ⟨r, i1, l, h1, h2, hx⟩ := nexts_succ_inv net f' _ j i' _ h
    rw [hx]
    exact nexts_succ_some net f _ i i1 i' r l (hstep _ h1) (nexts_mono net f' f hle _ _ _ h2)

theorem traceFrom_ne_nil (net : NetHTTP) (qp pre : Str) :
    ∀ (rest : List TaskIterator) (reqs : List ListTasksRequest) (tok : Str),
      traceFrom net qp pre reqs tok rest ≠ [] := by
  intro rest
  induction rest with
  | nil => intro reqs tok; simp [traceFrom]
  | cons p rest ih =>
    intro reqs tok
    rw [traceFrom]
    intro h
    exact ih _ _ (List.append_eq_nil.1 h).2

/-- Successive `Next` calls from the middle of a page: the results of the
remaining entries of the page, then those of the pages that follow. -/
theorem nexts_chain (net : NetHTTP) :
    ∀ (rest : List TaskIterator) (items : List PbTask) (cur : TaskIterator) (i : Iterator),
      i.iter = some cur → cur.items = items → cur.stop.Is .Done = true →
      chainFrom i.lister i.queuePath i.pageToken rest = true →
      ∀ fuel, items.length + pagesCost rest + 1 ≤ fuel →
        ∃ i', Iterator.nexts net fuel
            (pageTrace net i.queuePath i.taskIDPrefix i.requests items ++
              traceFrom net i.queuePath i.taskIDPrefix i.requests i.pageToken rest).length i =
          some (pageTrace net i.queuePath i.taskIDPrefix i.requests items ++
            traceFrom net i.queuePath i.taskIDPrefix i.requests i.pageToken rest, i') := by
  intro rest
  induction rest with
  | nil =>
    intro items
    induction items with
    | nil =>
      intro cur i hit hitems hstop hchain fuel hfuel
      have htok : i.pageToken = [] := by simpa [chainFrom] using hchain
      obtain ⟨f, rfl⟩ : ∃ f, fuel = f + 1 := ⟨fuel - 1, by omega⟩
      have hnext : i.Next net (f + 1) = some (.error .Done, i) := by
        rw [Next_of_some net _ i cur hit]
        exact nextLoop_nil_done net f i cur hit hitems hstop htok
      refine ⟨i, ?_⟩
      simp only [pageTrace, traceFrom, List.filter_nil, List.map_nil, List.nil_append,
        List.length_singleton]
      exact nexts_succ_some net (f + 1) 0 i i i _ [] hnext rfl
    | cons e rem ih =>
      intro cur i hit hitems hstop hchain fuel hfuel
      obtain ⟨f, rfl⟩ : ∃ f, fuel = f + 1 := ⟨fuel - 1, by omega⟩
      simp only [List.length_cons] at hfuel
      have hit2 : ({ i with iter := some { cur with items := rem } } : Iterator).iter =
          some { cur with items := rem } := rfl
      by_cases ho : owned i.queuePath i.taskIDPrefix e = true
      · obtain ⟨i', hi'⟩ := ih { cur with items := rem }
          { i with iter := some { cur with items := rem } } hit2 rfl hstop hchain (f + 1)
          (by omega)
        have hnext : i.Next net (f + 1) =
            some (convResult net i.queuePath i.taskIDPrefix e,
              { i with iter := some { cur with items := rem } }) := by
          rw [Next_of_some net _ i cur hit]
          exact nextLoop_cons_owned net f i cur e rem hit hitems ho
        refine ⟨i', ?_⟩
        have htr : pageTrace net i.queuePath i.taskIDPrefix i.requests (e :: rem) =
            (convResult net i.queuePath i.taskIDPrefix e, i.requests) ::
              pageTrace net i.queuePath i.taskIDPrefix i.requests rem := by
          simp [pageTrace, ho]
        rw [htr]
        simp only [List.cons_append, List.length_cons]
        exact nexts_succ_some net (f + 1) _ i { i with iter := some { cur with items := rem } } i'
          _ _ hnext hi'
      · have ho' : owned i.queuePath i.taskIDPrefix e = false := by simpa using ho
        obtain ⟨i', hi'⟩ := ih { cur with items := rem }
          { i with iter := some { cur with items := rem } } hit2 rfl hstop hchain f (by omega)
        have htr : pageTrace net i.queuePath i.taskIDPrefix i.requests (e :: rem) =
            pageTrace net i.queuePath i.taskIDPrefix i.requests rem := by
          simp [pageTrace, ho']
        rw [htr]
        refine ⟨i', nexts_redirect net f (f + 1) (by omega) i
          { i with iter := some { cur with items := rem } } i' _ ?_ ?_ hi'⟩
        · intro h
          exact traceFrom_ne_nil net _ _ _ _ _ (List.append_eq_nil.1 h).2
        · intro x hx
          rw [Next_of_some net _ _ _ hit2] at hx
          rw [Next_of_some net _ i cur hit, nextLoop_cons_skip net f i cur e rem hit hitems ho']
          exact hx
  | cons p rest ihp =>
    intro items
    induction items with
    | nil =>
      intro cur i hit hitems hstop hchain fuel hfuel
      obtain ⟨f, rfl⟩ : ∃ f, fuel = f + 1 := ⟨fuel - 1, by omega⟩
      simp only [chainFrom, Bool.and_eq_true, decide_eq_true_eq] at hchain
      obtain ⟨⟨⟨htok, hl⟩, hpstop⟩, hrest⟩ := hchain
      have hlist : i.listTasks =
          { i with iter := some p, pageToken := p.token,
                   requests := i.requests ++ [pageRequest i.queuePath i.pageToken] } := by
        rw [← hl]
        rfl
      have hcost : pagesCost (p :: rest) = p.items.length + 1 + pagesCost rest := by
        simp [pagesCost]
      rw [hcost] at hfuel
      obtain ⟨i', hi'⟩ := ihp p.items p i.listTasks (by rw [hlist]) rfl hpstop
        (by rw [hlist]; exact hrest) f (by simp only [List.length_nil] at hfuel; omega)
      have hq : i.listTasks.queuePath = i.queuePath := by rw [hlist]
      have hpre : i.listTasks.taskIDPrefix = i.taskIDPrefix := by rw [hlist]
      have hreq : i.listTasks.requests =
          i.requests ++ [pageRequest i.queuePath i.pageToken] := by rw [hlist]
      have htk : i.listTasks.pageToken = p.token := by rw [hlist]
      rw [hq, hpre, hreq, htk] at hi'
      have htr : pageTrace net i.queuePath i.taskIDPrefix i.requests [] ++
          traceFrom net i.queuePath i.taskIDPrefix i.requests i.pageToken (p :: rest) =
          pageTrace net i.queuePath i.taskIDPrefix
              (i.requests ++ [pageRequest i.queuePath i.pageToken]) p.items ++
            traceFrom net i.queuePath i.taskIDPrefix
              (i.requests ++ [pageRequest i.queuePath i.pageToken]) p.token rest := by
        simp [pageTrace, traceFrom]
      rw [htr]
      refine ⟨i', nexts_redirect net f (f + 1) (by omega) i i.listTasks i' _ ?_ ?_ hi'⟩
      · intro h
        exact traceFrom_ne_nil net _ _ _ _ _ (List.append_eq_nil.1 h).2
      · intro x hx
        rw [Next_of_some net _ i.listTasks p (by rw [hlist])] at hx
        rw [Next_of_some net _ i cur hit, nextLoop_nil_more net f i cur hit hitems hstop htok]
        exact hx
    | cons e rem ih =>
      intro cur i hit hitems hstop hchain fuel hfuel
      obtain ⟨f, rfl⟩ : ∃ f, fuel = f + 1 := ⟨fuel - 1, by omega⟩
      simp only [List.length_cons] at hfuel
      have hit2 : ({ i with iter := some { cur with items := rem } } : Iterator).iter =
          some { cur with items := rem } := rfl
      by_cases ho : owned i.queuePath i.taskIDPrefix e = true
      · obtain ⟨i', hi'⟩ := ih { cur with items := rem }
          { i with iter := some { cur with items := rem } } hit2 rfl hstop hchain (f + 1)
          (by omega)
        have hnext : i.Next net (f + 1) =
            some (convResult net i.queuePath i.taskIDPrefix e,
              { i with iter := some { cur with items := rem } }) := by
          rw [Next_of_some net _ i cur hit]
          exact nextLoop_cons_owned net f i cur e rem hit hitems ho
        refine ⟨i', ?_⟩
        have htr : pageTrace net i.queuePath i.taskIDPrefix i.requests (e :: rem) =
            (convResult net i.queuePath i.taskIDPrefix e, i.requests) ::
              pageTrace net i.queuePath i.taskIDPrefix i.requests rem := by
          simp [pageTrace, ho]
        rw [htr]
        simp only [List.cons_append, List.length_cons]
        exact nexts_succ_some net (f + 1) _ i { i with iter := some { cur with items := rem } } i'
          _ _ hnext hi'
      · have ho' : owned i.queuePath i.taskIDPrefix e = false := by simpa using ho
        obtain ⟨i', hi'⟩ := ih { cur with items := rem }
          { i with iter := some { cur with items := rem } } hit2 rfl hstop hchain f (by omega)
        have htr : pageTrace net i.queuePath i.taskIDPrefix i.requests (e :: rem) =
            pageTrace net i.queuePath i.taskIDPrefix i.requests rem := by
          simp [pageTrace, ho']
        rw [htr]
        refine ⟨i', nexts_redirect net f (f + 1) (by omega) i
          { i with iter := some { cur with items := rem } } i' _ ?_ ?_ hi'⟩
        · intro h
          exact traceFrom_ne_nil net _ _ _ _ _ (List.append_eq_nil.1 h).2
        · intro x hx
          rw [Next_of_some net _ _ _ hit2] at hx
          rw [Next_of_some net _ i cur hit, nextLoop_cons_skip net f i cur e rem hit hitems ho']
          exact hx

theorem traceFrom_fst (net : NetHTTP) (qp pre : Str) :
    ∀ (rest : List TaskIterator) (reqs : List ListTasksRequest) (tok : Str),
      (traceFrom net qp pre reqs tok rest).map Prod.fst =
        ((rest.map (fun p => p.items.filter (owned qp pre))).flatten).map (convResult net qp pre) ++
          [.error .Done] := by
  intro rest
  induction rest with
  | nil => intro reqs tok; simp [traceFrom]
  | cons p rest ih =>
    intro reqs tok
    rw [traceFrom, List.map_append, ih]
    simp [pageTrace, Function.comp_def]

theorem traceFrom_getLast (net : NetHTTP) (qp pre : Str) :
    ∀ (rest : List TaskIterator) (reqs : List ListTasksRequest) (tok : Str),
      (traceFrom net qp pre reqs tok rest).getLast? =
        some (.error .Done, reqs ++ pageRequests qp tok rest) := by
  intro rest
  induction rest with
  | nil => intro reqs tok; simp [traceFrom, pageRequests]
  | cons p rest ih =>
    intro reqs tok
    rw [traceFrom, List.getLast?_append, ih]
    simp [pageRequests]

theorem nexts_getLast (net : NetHTTP) (f : Nat) :
    ∀ (n : Nat) (i i' : Iterator) (l : List (Except Err Task × List ListTasksRequest))
      (x : Except Err Task × List ListTasksRequest),
      Iterator.nexts net f n i = some (l, i') → l.getLast? = some x → x.2 = i'.requests := by
  intro n
  induction n with
  | zero =>
    intro i i' l x h hx
    simp only [Iterator.nexts, Option.some.injEq, Prod.mk.injEq] at h
    rw [← h.1] at hx
    simp at hx
  | succ n ih =>
    intro i i' l x h hx
    obtain ⟨r, i1, l', -, h2, rfl⟩ := nexts_succ_inv net f n i i' l h
    cases n with
    | zero =>
      simp only [Iterator.nexts, Option.some.injEq, Prod.mk.injEq] at h2
      obtain ⟨rfl, rfl⟩ := h2
      simp only [List.getLast?_singleton, Option.some.injEq] at hx
      rw [← hx]
    | succ m =>
      obtain ⟨r2, i2, l2, -, -, hl2⟩ := nexts_succ_inv net f m i1 i' l' h2
      rw [hl2] at hx h2
      rw [List.getLast?_cons_cons] at hx
      exact ih i1 i' _ x h2 hx

/-- Successive `Next` calls on a new iterator over a chain of pages. -/
theorem pagination_core (net : NetHTTP) (lister : TaskLister) (qp pre : Str)
    (pages : List TaskIterator) (h : isPageChain lister qp pages = true) (fuel : Nat)
    (hfuel : pagesCost pages + 1 ≤ fuel) :
    ∃ i', (NewIterator lister qp pre).nexts net fuel (expectedTrace net qp pre pages).length =
        some (expectedTrace net qp pre pages, i') ∧
      i'.requests = pageRequests qp [] pages := by
  cases pages with
  | nil => simp [isPageChain] at h
  | cons p rest =>
    simp only [isPageChain, Bool.and_eq_true, decide_eq_true_eq] at h
    obtain ⟨⟨hl, hstop⟩, hrest⟩ := h
    have hlist : (NewIterator lister qp pre).listTasks =
        { lister := lister, iter := some p, queuePath := qp, taskIDPrefix := pre,
          pageToken := p.token, requests := [pageRequest qp []] } := by
      rw [← hl]
      rfl
    have hcost : pagesCost (p :: rest) = p.items.length + 1 + pagesCost rest := by
      simp [pagesCost]
    rw [hcost] at hfuel
    obtain ⟨i', hi'⟩ := nexts_chain net rest p.items p (NewIterator lister qp pre).listTasks
      (by rw [hlist]) rfl hstop (by rw [hlist]; exact hrest) fuel (by omega)
    rw [hlist] at hi'
    simp only at hi'
    have htr : expectedTrace net qp pre (p :: rest) =
        pageTrace net qp pre [pageRequest qp []] p.items ++
          traceFrom net qp pre [pageRequest qp []] p.token rest := by
      simp [expectedTrace, traceFrom]
    rw [← htr] at hi'
    have hne : expectedTrace net qp pre (p :: rest) ≠ [] := traceFrom_ne_nil net _ _ _ _ _
    have hres := nexts_redirect net fuel fuel (le_refl _) (NewIterator lister qp pre) _ i' _ hne
      (fun x hx => by
        rw [Next_of_none net fuel (NewIterator lister qp pre) rfl, hlist]
        exact hx) hi'
    refine ⟨i', hres, ?_⟩
    have hlast := traceFrom_getLast net qp pre (p :: rest) [] []
    have := nexts_getLast net fuel _ _ i' _ _ hres hlast
    simpa using this.symm

set_option maxRecDepth 100000 in
/-- C31 (as stated, refuted). The lister has one page, which reports the empty
token and holds one entry under the prefix, an App Engine task; the first
`Next` returns the error "failed to convert task from pbtask", not a
converted entry and not `Done`, and the second `Next` returns `Done`. -/
theorem C31_counterexample :
    isPageChain sampleAppEngineLister "projects/p/locations/l/queues/q".toList
        [{ items := [sampleRemoteAppEngine], stop := .Done, token := [] }] = true ∧
      owned "projects/p/locations/l/queues/q".toList "test_".toList sampleRemoteAppEngine =
        true ∧
      decodeOwned sampleNet "projects/p/locations/l/queues/q".toList "test_".toList
        [sampleRemoteAppEngine] = [] ∧
      ((NewIterator sampleAppEngineLister "projects/p/locations/l/queues/q".toList
          "test_".toList).nexts sampleNet 3 2).map
        (fun (x : List (Except Err Task × List ListTasksRequest) × Iterator) =>
          x.1.map Prod.fst) =
        some [.error (.wrap "failed to convert task from pbtask".toList
            (.new "unsupported message type".toList)), .error .Done] := by
  refine ⟨by decide, by decide, by decide, by decide⟩

/-- C31 (amended). Pagination: no page is requested before the first `Next`;
for a lister whose pages form a finite chain ending in a page with an empty
next-page token, successive `Iterator.Next` calls (with enough fuel for the
entries to skip) return, for the prefix-matching entries of page 1, then of
page 2, and so on, in listing order, the converted entry, or the error
"failed to convert task from pbtask" for an entry that does not convert, and
then `Done`. The page requests sent when the result for an entry of page k
is returned are those of pages 1 to k; each carries `Parent = queuePath`,
the BASIC view, `PageSize` 1000 and the token reported for the previous page
(empty for the first). -/
theorem C31_pagination (net : NetHTTP) (lister : TaskLister) (qp pre : Str)
    (pages : List TaskIterator) (h : isPageChain lister qp pages = true) :
    (NewIterator lister qp pre).requests = [] ∧ (NewIterator lister qp pre).iter = none ∧
      (expectedTrace net qp pre pages).map Prod.fst =
        ((pages.map (fun p => p.items.filter (owned qp pre))).flatten).map
            (convResult net qp pre) ++ [.error .Done] ∧
      ∀ fuel, pagesCost pages + 1 ≤ fuel →
        ∃ i', (NewIterator lister qp pre).nexts net fuel
              (expectedTrace net qp pre pages).length =
            some (expectedTrace net qp pre pages, i') ∧
          i'.requests = pageRequests qp [] pages :=
  ⟨rfl, rfl, traceFrom_fst net qp pre pages [] [],
    fun fuel hfuel => pagination_core net lister qp pre pages h fuel hfuel⟩

set_option maxRecDepth 100000 in
/-- C31 at a lister with two pages: the first holds a foreign and an owned
entry and reports the token `t1`, the second holds an owned entry. -/
theorem C31_pagination_witness :
    ∃ i', (NewIterator samplePagedLister "projects/p/locations/l/queues/q".toList
          "test_".toList).nexts sampleNet 6 3 =
        some ([(.ok sampleRemoteTask,
                [pageRequest "projects/p/locations/l/queues/q".toList []]),
               (.ok sampleRemoteTask2,
                [pageRequest "projects/p/locations/l/queues/q".toList [],
                 pageRequest "projects/p/locations/l/queues/q".toList "t1".toList]),
               (.error .Done,
                [pageRequest "projects/p/locations/l/queues/q".toList [],
                 pageRequest "projects/p/locations/l/queues/q".toList "t1".toList])], i') ∧
      i'.requests = [pageRequest "projects/p/locations/l/queues/q".toList [],
        pageRequest "projects/p/locations/l/queues/q".toList "t1".toList] := by
  obtain ⟨i', h1, h2⟩ := (C31_pagination sampleNet samplePagedLister
    "projects/p/locations/l/queues/q".toList "test_".toList
    [{ items := [sampleForeign, sampleRemote], stop := .Done, token := "t1".toList },
     { items := [sampleRemote2], stop := .Done, token := [] }] (by decide)).2.2.2 6
    (by decide)
  have ht : expectedTrace sampleNet "projects/p/locations/l/queues/q".toList "test_".toList
      [{ items := [sampleForeign, sampleRemote], stop := .Done, token := "t1".toList },
       { items := [sampleRemote2], stop := .Done, token := [] }] =
      [(.ok sampleRemoteTask, [pageRequest "projects/p/locations/l/queues/q".toList []]),
       (.ok sampleRemoteTask2,
        [pageRequest "projects/p/locations/l/queues/q".toList [],
         pageRequest "projects/p/locations/l/queues/q".toList "t1".toList]),
       (.error .Done,
        [pageRequest "projects/p/locations/l/queues/q".toList [],
         pageRequest "projects/p/locations/l/queues/q".toList "t1".toList])] := by
    decide
  rw [ht] at h1
  exact ⟨i', h1, h2⟩

/-- The map built from the input keeps one entry per key. -/
theorem buildTaskMap_one_entry (ts : List Task) (k : Str) :
    ((buildTaskMap ts).filter (fun e => decide (e.1 = k))).length =
      if ts.any (fun t => decide (t.comparisonID = k)) then 1 else 0 := by
  induction ts using List.reverseRecOn with
  | nil => simp [buildTaskMap]
  | append_singleton ts t ih =>
    rw [buildTaskMap_append, mapInsert]
    by_cases hk : t.comparisonID = k
    · have h1 : ((buildTaskMap ts).filter (fun e => decide (e.1 ≠ t.comparisonID))).filter
          (fun e => decide (e.1 = k)) = [] := by
        rw [List.filter_eq_nil_iff]
        intro e he
        have := (List.mem_filter.1 he).2
        simp only [decide_eq_true_eq] at this ⊢
        rw [← hk]
        exact this
      simp [List.filter_cons, hk, h1]
    · have h2 : ((buildTaskMap ts).filter (fun e => decide (e.1 ≠ t.comparisonID))).filter
          (fun e => decide (e.1 = k)) =
          (buildTaskMap ts).filter (fun e => decide (e.1 = k)) := by
        rw [List.filter_filter]
        apply List.filter_congr
        intro e _
        by_cases hek : e.1 = k
        · have h' : ¬ k = t.comparisonID := fun h => hk h.symm
          simp [hek, h']
        · simp [hek]
      simp only [List.filter_cons, hk, decide_False, Bool.false_eq_true, if_false, h2, ih,
        List.any_append, List.any_cons, List.any_nil, Bool.or_false]

theorem createAll_cons_skip {σ : Type} (s : Scheduler σ) (m : List (Str × Nat)) (w : World σ)
    (t : Task) (l : List Task) (hn : (mapLookup m t.comparisonID).isNone = true) :
    createAll s m w (t :: l) =
      ((createAll s m w l).1, t :: (createAll s m w l).2.1, (createAll s m w l).2.2) := by
  rw [createAll]
  simp only [hn, if_true]

theorem createAll_cons_ok {σ : Type} (s : Scheduler σ) (m : List (Str × Nat)) (w w1 : World σ)
    (t t1 : Task) (l : List Task) (hn : ¬ (mapLookup m t.comparisonID).isNone = true)
    (hc : s.Create w t = (w1, t1, none)) :
    createAll s m w (t :: l) =
      ((createAll s m w1 l).1, t1 :: (createAll s m w1 l).2.1, (createAll s m w1 l).2.2) := by
  rw [createAll]
  simp only [hn, Bool.false_eq_true, if_false, hc]

theorem createAll_cons_err {σ : Type} (s : Scheduler σ) (m : List (Str × Nat)) (w w1 : World σ)
    (t t1 : Task) (l : List Task) (err : Err)
    (hn : ¬ (mapLookup m t.comparisonID).isNone = true)
    (hc : s.Create w t = (w1, t1, some err)) :
    createAll s m w (t :: l) = (w1, t1 :: l, some err) := by
  rw [createAll]
  simp only [hn, Bool.false_eq_true, if_false, hc]

/-- The create loop over a list in two parts, when the first part is handled
without error. -/
theorem createAll_append {σ : Type} (s : Scheduler σ) (m : List (Str × Nat)) :
    ∀ (l1 l2 : List Task) (w : World σ), (createAll s m w l1).2.2 = none →
      (createAll s m w (l1 ++ l2)).1 = (createAll s m (createAll s m w l1).1 l2).1 ∧
      (createAll s m w (l1 ++ l2)).2.2 = (createAll s m (createAll s m w l1).1 l2).2.2 := by
  intro l1
  induction l1 with
  | nil => intro l2 w _; simp [createAll]
  | cons t rest ih =>
    intro l2 w h
    rw [List.cons_append]
    by_cases hn : (mapLookup m t.comparisonID).isNone = true
    · rw [createAll_cons_skip s m w t _ hn] at h ⊢
      rw [createAll_cons_skip s m w t _ hn]
      exact ih l2 w h
    · rcases hc : s.Create w t with ⟨w1, t1, e1⟩
      cases e1 with
      | some err =>
        rw [createAll_cons_err s m w w1 t t1 _ err hn hc] at h
        simp at h
      | none =>
        rw [createAll_cons_ok s m w w1 t t1 _ hn hc] at h ⊢
        rw [createAll_cons_ok s m w w1 t t1 _ hn hc]
        exact ih l2 w1 h

theorem withDefaultVersion_TaskName_eq (a b : Task) (hkey : a.comparisonID = b.comparisonID)
    (hv : a.Version = b.Version) (hq : a.QueuePath = b.QueuePath) :
    (withDefaultVersion a).TaskName = (withDefaultVersion b).TaskName := by
  unfold withDefaultVersion
  by_cases h0 : a.Version = 0
  · have h0' : b.Version = 0 := by rw [← hv]; exact h0
    simp only [h0, h0', if_true]
    unfold Task.TaskName Task.TaskID Task.comparisonID at *
    simp only [hq, hkey]
  · have h0' : ¬ b.Version = 0 := by rw [← hv]; exact h0
    simp only [h0, h0', if_false]
    unfold Task.TaskName Task.TaskID
    rw [hq, hkey, hv]

/-- The create pass of a `Sync` run over two desired tasks of one key that no
listed remote task has: once the deletes and the tasks before the second one
are handled without error and the second one passes validation and
conversion, the log holds a create call for each. -/
theorem duplicate_pair_core {σ : Type} (net : NetHTTP) (s : Scheduler σ) (fuel : Nat)
    (w : World σ) (tasks rs : List Task) (p q : Nat) (D1 D2 : Task) (pb : PbTask)
    (hd : Iterator.drain net fuel (s.List w.state) = some (rs, .Done))
    (hp : tasks[p]? = some D1) (hq : tasks[q]? = some D2) (hpq : p < q)
    (hkey : D1.comparisonID = D2.comparisonID)
    (hno : ∀ R ∈ rs, R.comparisonID ≠ D1.comparisonID)
    (hdel : (deleteAll s w (rs.foldl syncStep (initState tasks)).deleteNames).2 = none)
    (hpre : (createAll s (rs.foldl syncStep (initState tasks)).taskMap
        (deleteAll s w (rs.foldl syncStep (initState tasks)).deleteNames).1
        ((rs.foldl syncStep (initState tasks)).tasks.take q)).2.2 = none)
    (hval : (withDefaultVersion D2).Validate = none)
    (hpb : (TaskToPbTask (withDefaultVersion D2)).2 = .ok pb) :
    ∃ (r : SyncResult σ) (cs cs' : List CreateTaskRequest) (req1 : CreateTaskRequest),
      s.Sync net fuel w tasks = some r ∧
      r.world.calls = w.calls ++
        (rs.foldl syncStep (initState tasks)).deleteNames.map
          (fun n => Call.delete { Name := n }) ++
        cs.map Call.create ++
        [Call.create { Parent := D2.QueuePath, Task := pb, ResponseView := .BASIC }] ++
        cs'.map Call.create ∧
      req1 ∈ cs ∧ IsCreateRequestOf D1 req1 ∧
      req1.Task.Name = (withDefaultVersion D1).TaskName ∧
      pb.Name = (withDefaultVersion D2).TaskName := by
  have hsync := Sync_of_drain net s fuel w tasks rs hd
  have hinit : ({ tasks := tasks, taskMap := buildTaskMap tasks, deleteNames := [] } :
      SyncState) = initState tasks := rfl
  rw [hinit] at hsync
  generalize hss : rs.foldl syncStep (initState tasks) = ss at *
  -- the listing loop leaves the key and the two tasks alone
  obtain ⟨-, hl, ht⟩ := foldl_other_keys D1.comparisonID rs (initState tasks) hno
    (buildTaskMap_lookup_sound tasks)
  rw [hss] at hl ht
  have hD1 : ss.tasks[p]? = some D1 := ht p D1 hp rfl
  have hD2 : ss.tasks[q]? = some D2 := ht q D2 hq hkey.symm
  have hsome : (mapLookup ss.taskMap D1.comparisonID).isSome = true := by
    rw [hl]
    exact buildTaskMap_isSome tasks D1 (List.getElem?_mem hp)
  have hsome2 : ¬ (mapLookup ss.taskMap D2.comparisonID).isNone = true := by
    rw [← hkey]
    cases hm : mapLookup ss.taskMap D1.comparisonID with
    | none => rw [hm] at hsome; simp at hsome
    | some x => simp
  -- the deletes
  rcases hdl : deleteAll s w ss.deleteNames with ⟨wd, e1⟩
  rw [hdl] at hdel hpre hsync
  simp only at hdel hpre
  subst hdel
  simp only at hsync
  obtain ⟨k, -, hdcalls, hk⟩ := deleteAll_calls s ss.deleteNames w
  rw [hdl] at hdcalls hk
  simp only at hdcalls hk
  have hk' := hk trivial
  subst hk'
  rw [List.take_length] at hdcalls
  -- the creates before the second task
  obtain ⟨cs, hc, hall⟩ := createAll_spec s ss.taskMap (ss.tasks.take q) wd
  obtain ⟨hf, -⟩ := hall hpre
  have hq_lt : q < ss.tasks.length := (List.getElem?_eq_some.1 hD2).1
  have hD1take : D1 ∈ ss.tasks.take q := by
    apply List.getElem?_mem (n := p)
    rw [List.getElem?_take_of_lt hpq]
    exact hD1
  obtain ⟨req1, hreq1, hIs⟩ := Forall₂_mem_left hf D1 (List.mem_filter.2 ⟨hD1take, hsome⟩)
  -- the second task and what follows
  have hsplit : ss.tasks = ss.tasks.take q ++ D2 :: ss.tasks.drop (q + 1) := by
    have hget : ss.tasks[q] = D2 := (List.getElem?_eq_some.1 hD2).2
    rw [← hget, ← List.drop_eq_getElem_cons hq_lt, List.take_append_drop]
  obtain ⟨happ, -⟩ := createAll_append s ss.taskMap (ss.tasks.take q)
    (D2 :: ss.tasks.drop (q + 1)) wd hpre
  rw [← hsplit] at happ
  have hcreate := Create_of_ok s (createAll s ss.taskMap wd (ss.tasks.take q)).1 D2 pb hval hpb
  have hname1 : req1.Task.Name = (withDefaultVersion D1).TaskName :=
    TaskToPbTask_name _ _ hIs.2.1
  have hname2 : pb.Name = (withDefaultVersion D2).TaskName := TaskToPbTask_name _ _ hpb
  rcases herr : (s.Create (createAll s ss.taskMap wd (ss.tasks.take q)).1 D2).2.2 with _ | err
  · -- the create call succeeded: the loop goes on
    have hc2 : s.Create (createAll s ss.taskMap wd (ss.tasks.take q)).1 D2 =
        ((s.Create (createAll s ss.taskMap wd (ss.tasks.take q)).1 D2).1,
          (s.Create (createAll s ss.taskMap wd (ss.tasks.take q)).1 D2).2.1, none) := by
      rw [← herr]
    obtain ⟨cs', hc', -⟩ := createAll_spec s ss.taskMap (ss.tasks.drop (q + 1))
      (s.Create (createAll s ss.taskMap wd (ss.tasks.take q)).1 D2).1
    rw [createAll_cons_ok s ss.taskMap _ _ D2 _ _ hsome2 hc2] at happ
    simp only at happ
    refine ⟨_, cs, cs', req1, hsync, ?_, hreq1, hIs, hname1, hname2⟩
    simp only
    rw [happ, hc']
    rw [hcreate]
    simp only
    rw [hc, hdcalls]
  · have hc2 : s.Create (createAll s ss.taskMap wd (ss.tasks.take q)).1 D2 =
        ((s.Create (createAll s ss.taskMap wd (ss.tasks.take q)).1 D2).1,
          (s.Create (createAll s ss.taskMap wd (ss.tasks.take q)).1 D2).2.1, some err) := by
      rw [← herr]
    rw [createAll_cons_err s ss.taskMap _ _ D2 _ _ err hsome2 hc2] at happ
    simp only at happ
    refine ⟨_, cs, [], req1, hsync, ?_, hreq1, hIs, hname1, hname2⟩
    simp only
    rw [happ, hcreate]
    simp only
    rw [hc, hdcalls]
    simp [List.append_assoc]

set_option maxRecDepth 100000 in
/-- C34 (as stated, refuted). In each run the two desired tasks have the same
comparison key and no listed remote task has it. (1) The listing fails on an
entry that does not convert: no call at all. (2) The delete call for another
remote task fails: no create call. (3) The create call for the first task
fails: no create call for the second. (4) The body of the second task cannot
be read: `Create` fails before its create call. (5) The two tasks have the
same version and different queue paths: the two create calls target
different remote names. -/
theorem C34_counterexample :
    (sampleTask.comparisonID = sampleTaskUnreadable.comparisonID ∧
      sampleTask.comparisonID = sampleTaskOtherQueue.comparisonID ∧
      sampleTask.Version = sampleTaskOtherQueue.Version ∧
      sampleRemoteTask.comparisonID ≠ sampleTask.comparisonID) ∧
    (Iterator.drain sampleNet 3 (sampleScheduler.List [sampleRemoteAppEngine]) =
        some ([], .wrap "failed to convert task from pbtask".toList
          (.new "unsupported message type".toList)) ∧
      (sampleScheduler.Sync sampleNet 3 { state := [sampleRemoteAppEngine], calls := [] }
          [sampleTask, sampleTask]).map
        (fun (r : SyncResult (List PbTask)) => (r.err.isSome, r.world.calls.map Call.summary)) =
        some (true, [])) ∧
    (Iterator.drain sampleNet 3
        ((New unavailableClient "p".toList "l".toList "q".toList "test_".toList).List
          [sampleRemote]) = some ([sampleRemoteTask], .Done) ∧
      ((New unavailableClient "p".toList "l".toList "q".toList "test_".toList).Sync sampleNet 3
          { state := [sampleRemote], calls := [] } [sampleTask, sampleTask]).map
        (fun (r : SyncResult (List PbTask)) => (r.err.isSome, r.world.calls.map Call.summary)) =
        some (true,
          [(false, "projects/p/locations/l/queues/q/tasks/test_old_3b9aca02v4".toList)])) ∧
    (Iterator.drain sampleNet 2
        ((New unavailableClient "p".toList "l".toList "q".toList "test_".toList).List []) =
        some ([], .Done) ∧
      ((New unavailableClient "p".toList "l".toList "q".toList "test_".toList).Sync sampleNet 2
          { state := [], calls := [] } [sampleTask, sampleTask]).map
        (fun (r : SyncResult (List PbTask)) => (r.err.isSome, r.world.calls.map Call.summary)) =
        some (true,
          [(true, "projects/p/locations/l/queues/q/tasks/test_i_v_3b9aca02v1".toList)])) ∧
    (Iterator.drain sampleNet 2 (sampleScheduler.List []) = some ([], .Done) ∧
      (sampleScheduler.Sync sampleNet 2 { state := [], calls := [] }
          [sampleTask, sampleTaskUnreadable]).map
        (fun (r : SyncResult (List PbTask)) => (r.err, r.world.calls.map Call.summary)) =
        some (some (.wrap "failed to read request body".toList (.new "read".toList)),
          [(true, "projects/p/locations/l/queues/q/tasks/test_i_v_3b9aca02v1".toList)])) ∧
    ((sampleScheduler.Sync sampleNet 2 { state := [], calls := [] }
          [sampleTask, sampleTaskOtherQueue]).map
        (fun (r : SyncResult (List PbTask)) => (r.err, r.world.calls.map Call.summary)) =
        some (none,
          [(true, "projects/p/locations/l/queues/q/tasks/test_i_v_3b9aca02v1".toList),
           (true, "projects/p/locations/l/queues/other/tasks/test_i_v_3b9aca02v1".toList)])) := by
  refine ⟨by decide, ⟨by decide, by decide⟩, ⟨by decide, by decide⟩, ⟨by decide, by decide⟩,
    ⟨by decide, by decide⟩, by decide⟩

/-- C34 (amended). Duplicate desired keys: when the input list of `Sync`
contains two tasks with the same comparison key (at positions `p < q`) and
no listed remote task has that key, the map built from the input keeps one
entry for the key, and `Sync` issues a create call for each of the two tasks
provided the run gets that far: the listing ends with `Done`, every delete
call succeeds, `Create` succeeds for every desired task before the second of
the two, and the second passes validation and conversion. The create call of
the first precedes that of the second, and when the two tasks have the same
version and the same queue path the second create targets the same remote
name as the first. -/
theorem C34_duplicate_keys {σ : Type} (net : NetHTTP) (s : Scheduler σ) (fuel : Nat)
    (w : World σ) (tasks rs : List Task) (p q : Nat) (D1 D2 : Task) (pb : PbTask)
    (hd : Iterator.drain net fuel (s.List w.state) = some (rs, .Done))
    (hp : tasks[p]? = some D1) (hq : tasks[q]? = some D2) (hpq : p < q)
    (hkey : D1.comparisonID = D2.comparisonID)
    (hno : ∀ R ∈ rs, R.comparisonID ≠ D1.comparisonID)
    (hdel : (deleteAll s w (rs.foldl syncStep (initState tasks)).deleteNames).2 = none)
    (hpre : (createAll s (rs.foldl syncStep (initState tasks)).taskMap
        (deleteAll s w (rs.foldl syncStep (initState tasks)).deleteNames).1
        ((rs.foldl syncStep (initState tasks)).tasks.take q)).2.2 = none)
    (hval : (withDefaultVersion D2).Validate = none)
    (hpb : (TaskToPbTask (withDefaultVersion D2)).2 = .ok pb) :
    ((buildTaskMap tasks).filter (fun e => decide (e.1 = D1.comparisonID))).length = 1 ∧
      ∃ (r : SyncResult σ) (cs cs' : List CreateTaskRequest) (req1 : CreateTaskRequest),
        s.Sync net fuel w tasks = some r ∧
        r.world.calls = w.calls ++
          (rs.foldl syncStep (initState tasks)).deleteNames.map
            (fun n => Call.delete { Name := n }) ++
          cs.map Call.create ++
          [Call.create { Parent := D2.QueuePath, Task := pb, ResponseView := .BASIC }] ++
          cs'.map Call.create ∧
        req1 ∈ cs ∧ IsCreateRequestOf D1 req1 ∧
        req1.Task.Name = (withDefaultVersion D1).TaskName ∧
        pb.Name = (withDefaultVersion D2).TaskName ∧
        (D1.Version = D2.Version → D1.QueuePath = D2.QueuePath →
          req1.Task.Name = pb.Name) := by
  refine ⟨?_, ?_⟩
  · rw [buildTaskMap_one_entry]
    have : tasks.any (fun t => decide (t.comparisonID = D1.comparisonID)) = true :=
      List.any_eq_true.2 ⟨D1, List.getElem?_mem hp, by simp⟩
    simp [this]
  · obtain ⟨r, cs, cs', req1, h1, h2, h3, h4, h5, h6⟩ :=
      duplicate_pair_core net s fuel w tasks rs p q D1 D2 pb hd hp hq hpq hkey hno hdel hpre
        hval hpb
    refine ⟨r, cs, cs', req1, h1, h2, h3, h4, h5, h6, fun hv hqp => ?_⟩
    rw [h5, h6]
    exact withDefaultVersion_TaskName_eq D1 D2 hkey hv hqp

set_option maxRecDepth 100000 in
/-- C34 at the desired list `[sampleTask, sampleTask]` and an empty queue: two
create calls under one name, the second answered with `AlreadyExists`. -/
theorem C34_duplicate_keys_witness :
    ∃ r, sampleScheduler.Sync sampleNet 2 { state := [], calls := [] }
        [sampleTask, sampleTask] = some r ∧
      r.err = some .ErrTaskAlreadyExists ∧
      r.world.calls.map Call.summary =
        [(true, "projects/p/locations/l/queues/q/tasks/test_i_v_3b9aca02v1".toList),
         (true, "projects/p/locations/l/queues/q/tasks/test_i_v_3b9aca02v1".toList)] ∧
      ∃ req1, Call.create req1 ∈ r.world.calls ∧ req1.Task.Name = sampleRemoteSame.Name := by
  obtain ⟨-, r, cs, cs', req1, hr, hcalls, hmem, -, -, -, hsame⟩ :=
    C34_duplicate_keys sampleNet sampleScheduler 2 { state := [], calls := [] }
      [sampleTask, sampleTask] [] 0 1 sampleTask sampleTask sampleRemoteSame
      (by decide) (by decide) (by decide) (by decide) (by decide) (by decide) (by decide)
      (by decide) (by decide) (by decide)
  have h0 : (sampleScheduler.Sync sampleNet 2 { state := [], calls := [] }
      [sampleTask, sampleTask]).map
      (fun (x : SyncResult (List PbTask)) => (x.err, x.world.calls.map Call.summary)) =
      some (some .ErrTaskAlreadyExists,
        [(true, "projects/p/locations/l/queues/q/tasks/test_i_v_3b9aca02v1".toList),
         (true, "projects/p/locations/l/queues/q/tasks/test_i_v_3b9aca02v1".toList)]) := by
    decide
  rw [hr] at h0
  simp only [Option.map_some', Option.some.injEq, Prod.mk.injEq] at h0
  refine ⟨r, hr, h0.1, h0.2, req1, ?_, hsame rfl rfl⟩
  rw [hcalls]
  simp [hmem]

theorem deleteAll_append {σ : Type} (s : Scheduler σ) :
    ∀ (l1 l2 : List Str) (w : World σ), (deleteAll s w l1).2 = none →
      deleteAll s w (l1 ++ l2) = deleteAll s (deleteAll s w l1).1 l2 := by
  intro l1
  induction l1 with
  | nil => intro l2 w _; simp [deleteAll]
  | cons n rest ih =>
    intro l2 w h
    rw [List.cons_append]
    rw [deleteAll] at h ⊢
    rcases hd : s.Delete w n with ⟨w1, e1⟩
    cases e1 with
    | some err => simp [hd] at h
    | none =>
      simp only [hd] at h ⊢
      rw [ih l2 w1 h]
      conv_rhs => rw [deleteAll]
      simp only [hd]

theorem deleteAll_ok_calls {σ : Type} (s : Scheduler σ) (l : List Str) (w w' : World σ)
    (h : deleteAll s w l = (w', none)) :
    w'.calls = w.calls ++ l.map (fun n => Call.delete { Name := n }) := by
  obtain ⟨k, -, hc, hk⟩ := deleteAll_calls s l w
  rw [h] at hc hk
  simp only at hc hk
  have hk' := hk trivial
  subst hk'
  rw [List.take_length] at hc
  exact hc

/-- A failing delete call: when the first `k` deletes succeed and the remote
client answers the next one with an error, the delete loop ends with that
error, the state that call left and a log that ends with that call. -/
theorem deleteAll_of_fail {σ : Type} (s : Scheduler σ) (names : List Str) (w wk : World σ)
    (k : Nat) (n : Str) (st' : σ) (err : Err)
    (hk : names[k]? = some n) (hpre : deleteAll s w (names.take k) = (wk, none))
    (hfail : s.client.DeleteTask wk.state { Name := n } = (st', some err)) :
    deleteAll s w names =
      ({ state := st',
         calls := w.calls ++ (names.take (k + 1)).map (fun x => Call.delete { Name := x }) },
        some err) := by
  have hlt : k < names.length := (List.getElem?_eq_some.1 hk).1
  have hget : names[k] = n := (List.getElem?_eq_some.1 hk).2
  have hsplit : names = names.take k ++ n :: names.drop (k + 1) := by
    rw [← hget, ← List.drop_eq_getElem_cons hlt, List.take_append_drop]
  have hcalls := deleteAll_ok_calls s _ w wk hpre
  have h1 : deleteAll s w names = deleteAll s wk (n :: names.drop (k + 1)) := by
    conv_lhs => rw [hsplit]
    rw [deleteAll_append s _ _ w (by rw [hpre]), hpre]
  rw [h1, deleteAll]
  have hd : s.Delete wk n =
      ({ state := st', calls := wk.calls ++ [.delete { Name := n }] }, some err) := by
    unfold Scheduler.Delete
    simp only [hfail]
  simp only [hd]
  rw [hcalls, List.take_succ, hk]
  simp

/-- A failing `Create`: when the tasks before position `k` are handled without
error and `Create` fails for the task at `k`, the create loop ends with that
error and the world `Create` left. -/
theorem createAll_of_fail {σ : Type} (s : Scheduler σ) (m : List (Str × Nat))
    (ts tsk : List Task) (w wk : World σ) (k : Nat) (t : Task) (err : Err)
    (hk : ts[k]? = some t) (hsome : (mapLookup m t.comparisonID).isSome = true)
    (hpre : createAll s m w (ts.take k) = (wk, tsk, none))
    (hfail : (s.Create wk t).2.2 = some err) :
    (createAll s m w ts).1 = (s.Create wk t).1 ∧ (createAll s m w ts).2.2 = some err := by
  have hlt : k < ts.length := (List.getElem?_eq_some.1 hk).1
  have hget : ts[k] = t := (List.getElem?_eq_some.1 hk).2
  have hsplit : ts = ts.take k ++ t :: ts.drop (k + 1) := by
    rw [← hget, ← List.drop_eq_getElem_cons hlt, List.take_append_drop]
  obtain ⟨h1, h2⟩ := createAll_append s m (ts.take k) (t :: ts.drop (k + 1)) w
    (by rw [hpre])
  rw [← hsplit, hpre] at h1 h2
  simp only at h1 h2
  have hn : ¬ (mapLookup m t.comparisonID).isNone = true := by
    cases hm : mapLookup m t.comparisonID with
    | none => rw [hm] at hsome; simp at hsome
    | some x => simp
  have hc : s.Create wk t = ((s.Create wk t).1, (s.Create wk t).2.1, some err) := by
    rw [← hfail]
  rw [createAll_cons_err s m wk _ t _ _ err hn hc] at h1 h2
  exact ⟨h1, h2⟩

/-- C25. Fail-fast execution of a `Sync` run whose listing ended with `Done`;
the names collected for deletion and the desired tasks are those the listing
loop left. (1) If the first `k` delete calls succeed and the remote client
answers the next delete call with an error, `Sync` returns that error
unchanged, the remote state is the one that call left, and the call log is
the old log followed by those `k + 1` delete calls: no further delete and no
create. (2) If every delete succeeds, the create loop handles the tasks
before position `k` without error and `Create` fails for the task at `k`
(whose key is still in the map), `Sync` returns that error, the world is the
one `Create` left, and the log is the old log, the delete calls, the create
calls of the tasks before `k` and at most the failing create call: no
further create. (3) In particular, when that task passes validation and
conversion and the remote client answers its create call with an error,
`Sync` returns `ErrTaskAlreadyExists` for the code `AlreadyExists` and the
error itself otherwise, and the log ends with that call. In each case the
state is the one the earlier calls produced: nothing is undone. (4) Every
run that returns an error is one of these. -/
theorem C25_fail_fast :
    (∀ (σ : Type) (net : NetHTTP) (s : Scheduler σ) (fuel : Nat) (w wk : World σ)
        (tasks rs : List Task) (k : Nat) (n : Str) (st' : σ) (err : Err),
      Iterator.drain net fuel (s.List w.state) = some (rs, .Done) →
      (rs.foldl syncStep (initState tasks)).deleteNames[k]? = some n →
      deleteAll s w ((rs.foldl syncStep (initState tasks)).deleteNames.take k) = (wk, none) →
      s.client.DeleteTask wk.state { Name := n } = (st', some err) →
      s.Sync net fuel w tasks =
        some { err := some err, tasks := (rs.foldl syncStep (initState tasks)).tasks,
               world :=
                { state := st',
                  calls := w.calls ++
                    ((rs.foldl syncStep (initState tasks)).deleteNames.take (k + 1)).map
                      (fun x => Call.delete { Name := x }) } }) ∧
    (∀ (σ : Type) (net : NetHTTP) (s : Scheduler σ) (fuel : Nat) (w wd wk : World σ)
        (tasks rs tsk : List Task) (k : Nat) (t : Task) (err : Err),
      Iterator.drain net fuel (s.List w.state) = some (rs, .Done) →
      deleteAll s w (rs.foldl syncStep (initState tasks)).deleteNames = (wd, none) →
      (rs.foldl syncStep (initState tasks)).tasks[k]? = some t →
      (mapLookup (rs.foldl syncStep (initState tasks)).taskMap t.comparisonID).isSome = true →
      createAll s (rs.foldl syncStep (initState tasks)).taskMap wd
        ((rs.foldl syncStep (initState tasks)).tasks.take k) = (wk, tsk, none) →
      (s.Create wk t).2.2 = some err →
      ∃ (r : SyncResult σ) (cs last : List CreateTaskRequest),
        s.Sync net fuel w tasks = some r ∧ r.err = some err ∧
        r.world = (s.Create wk t).1 ∧
        r.world.calls = w.calls ++
          (rs.foldl syncStep (initState tasks)).deleteNames.map
            (fun x => Call.delete { Name := x }) ++
          cs.map Call.create ++ last.map Call.create ∧
        List.Forall₂ IsCreateRequestOf
          (((rs.foldl syncStep (initState tasks)).tasks.take k).filter
            (fun u => (mapLookup (rs.foldl syncStep (initState tasks)).taskMap
              u.comparisonID).isSome)) cs ∧
        last.length ≤ 1 ∧ ∀ req ∈ last, IsCreateRequestOf t req) ∧
    (∀ (σ : Type) (net : NetHTTP) (s : Scheduler σ) (fuel : Nat) (w wd wk : World σ)
        (tasks rs tsk : List Task) (k : Nat) (t : Task) (pb : PbTask) (st' : σ) (err : Err),
      Iterator.drain net fuel (s.List w.state) = some (rs, .Done) →
      deleteAll s w (rs.foldl syncStep (initState tasks)).deleteNames = (wd, none) →
      (rs.foldl syncStep (initState tasks)).tasks[k]? = some t →
      (mapLookup (rs.foldl syncStep (initState tasks)).taskMap t.comparisonID).isSome = true →
      createAll s (rs.foldl syncStep (initState tasks)).taskMap wd
        ((rs.foldl syncStep (initState tasks)).tasks.take k) = (wk, tsk, none) →
      (withDefaultVersion t).Validate = none →
      (TaskToPbTask (withDefaultVersion t)).2 = .ok pb →
      s.client.CreateTask wk.state
        { Parent := t.QueuePath, Task := pb, ResponseView := .BASIC } = (st', some err) →
      ∃ r : SyncResult σ, s.Sync net fuel w tasks = some r ∧
        r.err = some (if statusCode err = codesAlreadyExists then .ErrTaskAlreadyExists
          else err) ∧
        r.world =
          { state := st',
            calls := wk.calls ++
              [.create { Parent := t.QueuePath, Task := pb, ResponseView := .BASIC }] }) ∧
    (∀ (σ : Type) (net : NetHTTP) (s : Scheduler σ) (fuel : Nat) (w : World σ)
        (tasks rs : List Task),
      Iterator.drain net fuel (s.List w.state) = some (rs, .Done) →
      ∃ r, s.Sync net fuel w tasks = some r ∧
        (r.err = none ∨
          (∃ (err : Err) (k : Nat) (n : Str) (wk : World σ),
            r.err = some err ∧
            (rs.foldl syncStep (initState tasks)).deleteNames[k]? = some n ∧
            deleteAll s w ((rs.foldl syncStep (initState tasks)).deleteNames.take k) =
              (wk, none) ∧
            s.client.DeleteTask wk.state { Name := n } = (r.world.state, some err)) ∨
          (∃ (err : Err) (k : Nat) (t : Task) (wd wk : World σ) (tsk : List Task),
            r.err = some err ∧
            deleteAll s w (rs.foldl syncStep (initState tasks)).deleteNames = (wd, none) ∧
            (rs.foldl syncStep (initState tasks)).tasks[k]? = some t ∧
            createAll s (rs.foldl syncStep (initState tasks)).taskMap wd
              ((rs.foldl syncStep (initState tasks)).tasks.take k) = (wk, tsk, none) ∧
            (s.Create wk t).2.2 = some err))) := by
  have hinit : ∀ tasks : List Task,
      ({ tasks := tasks, taskMap := buildTaskMap tasks, deleteNames := [] } : SyncState) =
        initState tasks := fun _ => rfl
  have hcreate : ∀ (σ : Type) (net : NetHTTP) (s : Scheduler σ) (fuel : Nat) (w wd wk : World σ)
      (tasks rs tsk : List Task) (k : Nat) (t : Task) (err : Err),
      Iterator.drain net fuel (s.List w.state) = some (rs, .Done) →
      deleteAll s w (rs.foldl syncStep (initState tasks)).deleteNames = (wd, none) →
      (rs.foldl syncStep (initState tasks)).tasks[k]? = some t →
      (mapLookup (rs.foldl syncStep (initState tasks)).taskMap t.comparisonID).isSome = true →
      createAll s (rs.foldl syncStep (initState tasks)).taskMap wd
        ((rs.foldl syncStep (initState tasks)).tasks.take k) = (wk, tsk, none) →
      (s.Create wk t).2.2 = some err →
      ∃ r : SyncResult σ, s.Sync net fuel w tasks = some r ∧ r.err = some err ∧
        r.world = (s.Create wk t).1 := by
    intro σ net s fuel w wd wk tasks rs tsk k t err hd hdel hk hsome hpre hfail
    have hsync := Sync_of_drain net s fuel w tasks rs hd
    rw [hinit] at hsync
    rw [hdel] at hsync
    simp only at hsync
    obtain ⟨h1, h2⟩ := createAll_of_fail s _ _ tsk wd wk k t err hk hsome hpre hfail
    exact ⟨_, hsync, h2, h1⟩
  refine ⟨?_, ?_, ?_, ?_⟩
  · intro σ net s fuel w wk tasks rs k n st' err hd hk hpre hfail
    have hsync := Sync_of_drain net s fuel w tasks rs hd
    rw [hinit] at hsync
    rw [deleteAll_of_fail s _ w wk k n st' err hk hpre hfail] at hsync
    exact hsync
  · intro σ net s fuel w wd wk tasks rs tsk k t err hd hdel hk hsome hpre hfail
    obtain ⟨r, hsync, herr, hw⟩ :=
      hcreate σ net s fuel w wd wk tasks rs tsk k t err hd hdel hk hsome hpre hfail
    have hdc := deleteAll_ok_calls s _ w wd hdel
    obtain ⟨cs, hc, hall⟩ := createAll_spec s (rs.foldl syncStep (initState tasks)).taskMap
      ((rs.foldl syncStep (initState tasks)).tasks.take k) wd
    rw [hpre] at hc hall
    simp only at hc hall
    obtain ⟨hf, -⟩ := hall trivial
    obtain ⟨-, hor⟩ := Create_spec s wk t
    rcases hor with ⟨hcalls, -, -⟩ | ⟨req, hreq, hcalls, -, -⟩
    · refine ⟨r, cs, [], hsync, herr, hw, ?_, hf, by simp, by simp⟩
      rw [hw, hcalls, hc, hdc]
      simp
    · refine ⟨r, cs, [req], hsync, herr, hw, ?_, hf, by simp, ?_⟩
      · rw [hw, hcalls, hc, hdc]
        simp
      · intro x hx
        simp only [List.mem_singleton] at hx
        subst hx
        exact hreq
  · intro σ net s fuel w wd wk tasks rs tsk k t pb st' err hd hdel hk hsome hpre hval hpb hcall
    have hco := Create_of_ok s wk t pb hval hpb
    rw [hcall] at hco
    simp only at hco
    have hfail : (s.Create wk t).2.2 =
        some (if statusCode err = codesAlreadyExists then .ErrTaskAlreadyExists else err) := by
      rw [hco]
      simp only
      split <;> rfl
    obtain ⟨r, hsync, herr, hw⟩ :=
      hcreate σ net s fuel w wd wk tasks rs tsk k t _ hd hdel hk hsome hpre hfail
    refine ⟨r, hsync, herr, ?_⟩
    rw [hw, hco]
  · intro σ net s fuel w tasks rs hd
    obtain ⟨r, hr, h⟩ := fail_fast_cases net s fuel w tasks rs hd
    refine ⟨r, hr, ?_⟩
    rcases h with h | ⟨err, k, n, wk, h1, h2, h3, -, h5, -⟩ |
      ⟨err, k, t, wd, wk, tsk, h1, h2, h3, h4, h5, -⟩
    · exact Or.inl h
    · exact Or.inr (Or.inl ⟨err, k, n, wk, h1, h2, h3, h5⟩)
    · exact Or.inr (Or.inr ⟨err, k, t, wd, wk, tsk, h1, h2, h3, h4, h5⟩)

set_option maxRecDepth 100000 in
/-- C25 at two runs: against a queue whose delete calls fail, two tasks are
listed and `Sync` returns the error of the first delete call, with a log of
that one call and the remote state as it was; against the store, the second
create of `[sampleTask, sampleTask]` is answered with `AlreadyExists` and
`Sync` returns `ErrTaskAlreadyExists` after those two create calls. -/
theorem C25_fail_fast_witness :
    ((New unavailableClient "p".toList "l".toList "q".toList "test_".toList).Sync sampleNet 4
        { state := [sampleRemote, sampleRemote2], calls := [] } []).map
      (fun (r : SyncResult (List PbTask)) =>
        (r.err, r.world.calls.map Call.summary, r.world.state)) =
      some (some (.status codesUnavailable "unavailable".toList),
        [(false, "projects/p/locations/l/queues/q/tasks/test_old_3b9aca02v4".toList)],
        [sampleRemote, sampleRemote2]) ∧
    ∃ r, sampleScheduler.Sync sampleNet 2 { state := [], calls := [] }
        [sampleTask, sampleTask] = some r ∧
      r.err = some .ErrTaskAlreadyExists ∧
      r.world.calls =
        [.create { Parent := sampleTask.QueuePath, Task := sampleRemoteSame,
                   ResponseView := .BASIC },
         .create { Parent := sampleTask.QueuePath, Task := sampleRemoteSame,
                   ResponseView := .BASIC }] := by
  refine ⟨?_, ?_⟩
  · have h := C25_fail_fast.1 (List PbTask) sampleNet
      (New unavailableClient "p".toList "l".toList "q".toList "test_".toList) 4
      { state := [sampleRemote, sampleRemote2], calls := [] }
      { state := [sampleRemote, sampleRemote2], calls := [] } []
      [sampleRemoteTask, sampleRemoteTask2] 0 sampleRemoteTask.TaskName
      [sampleRemote, sampleRemote2] (.status codesUnavailable "unavailable".toList)
      (by decide) (by decide) rfl rfl
    have h' := congrArg (Option.map (fun (r : SyncResult (List PbTask)) =>
      (r.err, r.world.calls.map Call.summary, r.world.state))) h
    exact h'.trans (by decide)
  · obtain ⟨r, hr, herr, hw⟩ := C25_fail_fast.2.2.1 (List PbTask) sampleNet sampleScheduler 2
      { state := [], calls := [] } { state := [], calls := [] }
      { state := [sampleRemoteSame],
        calls := [.create { Parent := sampleTask.QueuePath, Task := sampleRemoteSame,
                            ResponseView := .BASIC }] }
      [sampleTask, sampleTask] [] [sampleTask] 1 sampleTask sampleRemoteSame
      [sampleRemoteSame] (.status codesAlreadyExists "already exists".toList)
      (by decide) rfl (by decide) (by decide) rfl (by decide) (by decide) rfl
    refine ⟨r, hr, ?_, ?_⟩
    · rw [herr]
      decide
    · rw [hw]
      rfl

theorem Listed_listTasks (i : Iterator) (e : PbTask) (h : i.listTasks.Listed e) :
    i.Listed e := by
  rcases h with ⟨cur, hc, he⟩ | ⟨req, he⟩
  · simp only [Iterator.listTasks, Option.some.injEq] at hc
    subst hc
    exact Or.inr ⟨_, he⟩
  · exact Or.inr ⟨req, he⟩

theorem Listed_tail (i : Iterator) (cur : TaskIterator) (task : PbTask) (rest : List PbTask)
    (hi : i.iter = some cur) (hitems : cur.items = task :: rest) (e : PbTask)
    (h : Iterator.Listed { i with iter := some { cur with items := rest } } e) :
    i.Listed e := by
  rcases h with ⟨c, hc, he⟩ | ⟨req, he⟩
  · simp only [Option.some.injEq] at hc
    subst hc
    exact Or.inl ⟨cur, hi, by rw [hitems]; exact List.mem_cons_of_mem _ he⟩
  · exact Or.inr ⟨req, he⟩

/-- A task `Next` returns is the conversion of an entry the listing reports,
and the entries left to the iterator are entries the listing reports. -/
theorem nextLoop_listed (net : NetHTTP) :
    ∀ (fuel : Nat) (i : Iterator) (r : Except Err Task) (i' : Iterator),
      Iterator.nextLoop net fuel i = some (r, i') →
        (∀ e, i'.Listed e → i.Listed e) ∧
        ∀ t, r = .ok t → ∃ e, i.Listed e ∧ owned i.queuePath i.taskIDPrefix e = true ∧
          PbTaskToTask net i.queuePath i.taskIDPrefix e = .ok t := by
  intro fuel
  induction fuel with
  | zero => intro i r i' h; simp [Iterator.nextLoop] at h
  | succ f ih =>
    intro i r i' h
    rcases hit : i.iter with _ | cur
    · rw [Iterator.nextLoop] at h
      simp [hit] at h
    · rcases hitems : cur.items with _ | ⟨task, rest⟩
      · by_cases hd : cur.stop.Is .Done = true
        · by_cases ht : i.pageToken = []
          · rw [nextLoop_nil_done net f i cur hit hitems hd ht] at h
            simp only [Option.some.injEq, Prod.mk.injEq] at h
            obtain ⟨rfl, rfl⟩ := h
            exact ⟨fun e he => he, by simp⟩
          · rw [nextLoop_nil_more net f i cur hit hitems hd ht] at h
            obtain ⟨h1, h2⟩ := ih _ _ _ h
            refine ⟨fun e he => Listed_listTasks i e (h1 e he), fun t ht' => ?_⟩
            obtain ⟨e, he, ho, hc⟩ := h2 t ht'
            exact ⟨e, Listed_listTasks i e he, ho, hc⟩
        · rw [Iterator.nextLoop] at h
          simp only [hit, hitems, hd, Bool.false_eq_true, if_false, Option.some.injEq,
            Prod.mk.injEq] at h
          obtain ⟨rfl, rfl⟩ := h
          exact ⟨fun e he => he, by simp⟩
      · by_cases ho : owned i.queuePath i.taskIDPrefix task = true
        · rw [nextLoop_cons_owned net f i cur task rest hit hitems ho] at h
          simp only [Option.some.injEq, Prod.mk.injEq] at h
          obtain ⟨hr, rfl⟩ := h
          refine ⟨fun e he => Listed_tail i cur task rest hit hitems e he, fun t ht' => ?_⟩
          refine ⟨task, Or.inl ⟨cur, hit, by rw [hitems]; simp⟩, ho, ?_⟩
          rw [ht'] at hr
          unfold convResult at hr
          cases hc : PbTaskToTask net i.queuePath i.taskIDPrefix task with
          | error err => rw [hc] at hr; simp at hr
          | ok t' =>
            rw [hc] at hr
            simp only [Except.ok.injEq] at hr
            rw [hr]
        · have ho' : owned i.queuePath i.taskIDPrefix task = false := by simpa using ho
          rw [nextLoop_cons_skip net f i cur task rest hit hitems ho'] at h
          obtain ⟨h1, h2⟩ := ih _ _ _ h
          refine ⟨fun e he => Listed_tail i cur task rest hit hitems e (h1 e he),
            fun t ht' => ?_⟩
          obtain ⟨e, he, ho2, hc⟩ := h2 t ht'
          exact ⟨e, Listed_tail i cur task rest hit hitems e he, ho2, hc⟩

theorem Next_listed (net : NetHTTP) (fuel : Nat) (i : Iterator) (r : Except Err Task)
    (i' : Iterator) (h : i.Next net fuel = some (r, i')) :
    (∀ e, i'.Listed e → i.Listed e) ∧
      ∀ t, r = .ok t → ∃ e, i.Listed e ∧ owned i.queuePath i.taskIDPrefix e = true ∧
        PbTaskToTask net i.queuePath i.taskIDPrefix e = .ok t := by
  rcases hit : i.iter with _ | cur
  · rw [Next_of_none net fuel i hit] at h
    have hs : i.listTasks.iter = some (i.lister
        { Parent := i.queuePath, ResponseView := .BASIC, PageSize := 1000,
          PageToken := i.pageToken }) := rfl
    rw [Next_of_some net fuel _ _ hs] at h
    obtain ⟨h1, h2⟩ := nextLoop_listed net fuel _ _ _ h
    refine ⟨fun e he => Listed_listTasks i e (h1 e he), fun t ht => ?_⟩
    obtain ⟨e, he, ho, hc⟩ := h2 t ht
    exact ⟨e, Listed_listTasks i e he, ho, hc⟩
  · rw [Next_of_some net fuel i cur hit] at h
    exact nextLoop_listed net fuel _ _ _ h

/-- Every task the listing returns is the conversion of an owned entry that
the listing reports. -/
theorem drain_listed (net : NetHTTP) :
    ∀ (fuel : Nat) (i : Iterator) (rs : List Task) (e : Err),
      Iterator.drain net fuel i = some (rs, e) →
        ∀ t ∈ rs, ∃ pb, i.Listed pb ∧ owned i.queuePath i.taskIDPrefix pb = true ∧
          PbTaskToTask net i.queuePath i.taskIDPrefix pb = .ok t := by
  intro fuel
  induction fuel with
  | zero => intro i rs e h; simp [Iterator.drain] at h
  | succ f ih =>
    intro i rs e h
    rw [Iterator.drain] at h
    rcases hnext : i.Next net (f + 1) with _ | ⟨res, i'⟩
    · simp [hnext] at h
    · obtain ⟨-, hq, hp, -⟩ := Next_spec net _ _ _ _ hnext
      obtain ⟨hl, hconv⟩ := Next_listed net _ _ _ _ hnext
      cases res with
      | error err =>
        simp only [hnext, Option.some.injEq, Prod.mk.injEq] at h
        intro t ht
        rw [← h.1] at ht
        simp at ht
      | ok t0 =>
        simp only [hnext] at h
        rcases hdr : Iterator.drain net f i' with _ | r2
        · simp [hdr] at h
        · simp only [hdr, Option.some.injEq, Prod.mk.injEq] at h
          intro t ht
          rw [← h.1] at ht
          rcases List.mem_cons.1 ht with rfl | ht
          · exact hconv t rfl
          · obtain ⟨pb, hpb, ho, hc⟩ := ih i' r2.1 r2.2 hdr t ht
            rw [hq, hp] at ho hc
            exact ⟨pb, hl pb hpb, ho, hc⟩

set_option maxRecDepth 100000 in
/-- C11. The name passed to a delete call is not the `Name` the listing
reported but a name encoded anew. (1) In every `Sync` run whose listing ends
within the fuel, each delete call carries `TaskName()` of a returned task,
which is the conversion of an owned entry the listing reports: the queue
path, "/tasks/", the prefix, the id and version parsed from the entry's name
and the hex text of the entry's schedule time; that name is the reported
one whenever the reported name is the canonical encoding of the entry's own
schedule time. (2) It is another name otherwise: the listing reports one
entry named `.../tasks/test_old_ffv4` with the schedule time (1 s, 2 ns),
`Sync` with an empty desired list calls delete for
`.../tasks/test_old_3b9aca02v4`, the store answers `NotFound`, `Sync`
returns that error and the listed entry is still in the queue. -/
theorem C11_delete_name_reencoded :
    (∀ (σ : Type) (net : NetHTTP) (s : Scheduler σ) (fuel : Nat) (w : World σ)
        (tasks rs : List Task) (e : Err),
      Iterator.drain net fuel (s.List w.state) = some (rs, e) →
      ∃ r, s.Sync net fuel w tasks = some r ∧
        ∀ req, Call.delete req ∈ r.world.calls → Call.delete req ∈ w.calls ∨
          ∃ t ∈ rs, ∃ pb, (s.List w.state).Listed pb ∧
            owned (s.List w.state).queuePath (s.List w.state).taskIDPrefix pb = true ∧
            PbTaskToTask net (s.List w.state).queuePath (s.List w.state).taskIDPrefix pb
              = .ok t ∧
            req.Name = t.TaskName ∧
            ∀ (id : Str) (v : Int), '/' ∉ id → -2 ^ 63 ≤ v → v < 2 ^ 63 →
              pb.Name = taskName (s.List w.state).queuePath
                ((s.List w.state).taskIDPrefix ++ id ++ taskTimestampSeparator ++
                  FormatInt (Timestamp.AsTime pb.ScheduleTime).UnixNano 16 ++
                  taskVersionSeparator ++ Itoa v) →
              req.Name = pb.Name) ∧
    ((sampleScheduler.List [sampleRemoteMisnamed]).lister
          (pageRequest sampleScheduler.queuePath []) =
        { items := [sampleRemoteMisnamed], stop := .Done, token := [] } ∧
      sampleRemoteMisnamed.Name =
        "projects/p/locations/l/queues/q/tasks/test_old_ffv4".toList ∧
      sampleRemoteMisnamed.ScheduleTime = some { Seconds := 1, Nanos := 2 } ∧
      PbTaskToTask sampleNet sampleScheduler.queuePath sampleScheduler.taskPrefix
        sampleRemoteMisnamed = .ok sampleRemoteTask ∧
      sampleRemoteTask.TaskName =
        "projects/p/locations/l/queues/q/tasks/test_old_3b9aca02v4".toList ∧
      (sampleScheduler.Sync sampleNet 3 { state := [sampleRemoteMisnamed], calls := [] }
          []).map
        (fun (r : SyncResult (List PbTask)) => (r.err, r.world.calls, r.world.state)) =
        some (some (.status codesNotFound "not found".toList),
          [Call.delete
            { Name := "projects/p/locations/l/queues/q/tasks/test_old_3b9aca02v4".toList }],
          [sampleRemoteMisnamed])) := by
  refine ⟨?_, by decide, by decide, by decide, by decide, by decide, by decide⟩
  intro σ net s fuel w tasks rs e hd
  obtain ⟨r, hsync⟩ := Sync_returns_of_drain net s fuel w tasks rs e hd
  refine ⟨r, hsync, fun req hreq => ?_⟩
  rcases Sync_delete_listed net s fuel w tasks rs e r hsync hd req hreq with h | ⟨t, ht, hn⟩
  · exact Or.inl h
  · obtain ⟨pb, hl, ho, hpb⟩ := drain_listed net fuel _ rs e hd t ht
    refine Or.inr ⟨t, ht, pb, hl, ho, hpb, hn, fun id v hid hlo hhi hname => ?_⟩
    rw [hn]
    exact PbTaskToTask_canonical_name net _ _ pb t id v hpb hid hlo hhi hname

end Sched
